import Mathlib

/-!
# A model of the Gemini browser (src/src/url.c, gemini.c, document.c, unicode.c, history.c, ui.c)

A shallow embedding of `url_normalize_path`, `url_build`, `url_parse`, `url_resolve`,
`url_is_gemini`, `url_encode` and `url_decode`, of the read loop and the header parsing of
`gemini_fetch`, of `gemini_status_category`, of `unicode_sanitize`, of `document_parse`, of the
functions of history.c and of `ui_navigate`, and the properties of them that the specification
states.

Conventions of the embedding.

* A byte is a natural number; a C string is the list of its bytes before the terminating NUL,
  so a well-formed string holds no 0. The byte values that occur: 0 NUL, 46 '.', 47 '/',
  58 ':', 63 '?', 43 '+', 45 '-', 48..57 '0'..'9', 65..90 'A'..'Z', 97 'a', 10 '\n', 13 '\r',
  32 ' ', 35 '#', 37 '%', 42 '*', 62 '>', 96 the backtick.
* `url_normalize_path` and `url_decode` work in place in C, and `url_encode` writes into a block
  of a computed size. They are modelled on a byte buffer with indices for the pointers, and
  the result is read back as the C string at index 0.
* The other functions only copy between distinct buffers; they are modelled on lists, each copy
  with the truncation its size argument imposes.
* Allocation is taken to succeed; a loop of the source runs on fuel, and each use states why the
  fuel given is enough.
* The arrays of the struct History are lists of their 100 slots and its int fields are
  integers. `ui_navigate` takes what `gemini_fetch` returns as an argument, and a pointer
  argument that may be NULL is an `Option`.
-/

namespace Gemini

/-! ## C strings and the library functions used by url.c -/

/-- The bytes of an ASCII string literal. -/
def str (s : String) : List Nat := s.toList.map Char.toNat

/-- The byte at index i of a buffer; an index past the modelled bytes reads as 0. -/
def rd (b : List Nat) (i : Nat) : Nat := b.getD i 0

/-- The C string that starts at index i of a buffer: the bytes up to the first NUL. -/
def cstr (b : List Nat) (i : Nat) : List Nat := (b.drop i).takeWhile (fun c => c != 0)

/-- Value of strlen(b + i). -/
def strlen (b : List Nat) (i : Nat) : Nat := (cstr b i).length

/-- Effect of memcpy(b + dst, b + src, n) inside one buffer: the n source bytes as they are before
the call are stored at dst, which is also what a byte-by-byte copy from the low end gives whenever
dst ≤ src. (C leaves the call undefined when the regions overlap. On a path that begins with '/'
url_normalize_path calls it with dst ≤ src only, see rebuild_ok; on the one-byte path of the
counterexample to idempotence the two regions are disjoint.) -/
def memcpy (b : List Nat) (dst src n : Nat) : List Nat :=
  b.take dst ++ (b.drop src).take n ++ b.drop (dst + n)

/-- isspace in the "C" locale: space, and the bytes 9 to 13 (tab, newline, vertical tab, form
feed, carriage return). -/
def isspace (c : Nat) : Bool := c == 32 || (decide (9 ≤ c) && decide (c ≤ 13))

/-- isdigit: '0' to '9'. -/
def isdigit (c : Nat) : Bool := decide (48 ≤ c) && decide (c ≤ 57)

/-- tolower in the "C" locale: 'A'..'Z' go to 'a'..'z', every other byte is unchanged. -/
def tolower (c : Nat) : Nat := if 65 ≤ c ∧ c ≤ 90 then c + 32 else c

/-- Index of the first occurrence of needle in s (strstr), none when there is none. -/
def strstr : List Nat → List Nat → Option Nat
  | [], needle => if needle = [] then some 0 else none
  | c :: cs, needle =>
    if needle.isPrefixOf (c :: cs) then some 0 else (strstr cs needle).map (fun i => i + 1)

/-- Index of the first occurrence of the byte c in s (strchr). -/
def strchr : List Nat → Nat → Option Nat
  | [], _ => none
  | x :: xs, c => if x = c then some 0 else (strchr xs c).map (fun i => i + 1)

/-- Index of the last occurrence of the byte c in s (strrchr). -/
def strrchr : List Nat → Nat → Option Nat
  | [], _ => none
  | x :: xs, c =>
    match strrchr xs c with
    | some i => some (i + 1)
    | none => if x = c then some 0 else none

/-- The digit loop of atoi: the decimal value of the leading digits, continuing from acc. -/
def atoi_digits : Nat → List Nat → Nat
  | acc, [] => acc
  | acc, c :: cs => if isdigit c then atoi_digits (acc * 10 + (c - 48)) cs else acc

/-- Value of atoi: leading whitespace is skipped, then an optional sign, then digits. The model
carries the mathematical value of the text, which is what atoi returns whenever that value
fits an int, -2147483648 ≤ v ≤ 2147483647. For a text of a larger magnitude C leaves the result
undefined (the library may saturate), so what is stated on the value of a port is restricted
to texts whose value fits an int. -/
def atoi (s : List Nat) : Int :=
  match s.dropWhile isspace with
  | 45 :: r => - (atoi_digits 0 r : Int)
  | 43 :: r => (atoi_digits 0 r : Int)
  | r => (atoi_digits 0 r : Int)

/-- Decimal digits of n in front of acc, most significant first. -/
def fmt_d_aux : Nat → Nat → List Nat → List Nat
  | 0, _, acc => acc
  | fuel + 1, n, acc =>
    if n < 10 then (48 + n) :: acc else fmt_d_aux fuel (n / 10) ((48 + n % 10) :: acc)

/-- Output of the conversion "%d" for a value that is not negative. -/
def fmt_d (n : Nat) : List Nat := fmt_d_aux (n + 1) n []

/-! ## url.h -/

def GEMINI_DEFAULT_PORT : Nat := 1965

def MAX_URL_LENGTH : Nat := 2048

/-- The struct Url: scheme[16], host[256], port (uint16_t), path[1024], query[512],
full[MAX_URL_LENGTH]; each string field is held as its C string. -/
structure Url where
  scheme : List Nat
  host : List Nat
  port : Nat
  path : List Nat
  query : List Nat
  full : List Nat
deriving DecidableEq

/-! ## url.c: url_normalize_path -/

/-- The loop "Split into segments" of url_normalize_path (lines 257-288). b is the path buffer,
src the read pointer as an index, segs the entries segments[0 .. num_segments-1], each the index
at which a stored segment starts. One unit of fuel is one pass of the outer while loop. -/
def split_segments : Nat → List Nat → Nat → List Nat → List Nat × List Nat
  | 0, b, _, segs => (b, segs)
  | fuel + 1, b, src, segs =>
    if rd b src = 0 then (b, segs) else
    let src1 := src + ((b.drop src).takeWhile (fun c => c == 47)).length
    if rd b src1 = 0 then (b, segs) else
    let seg_start := src1
    let src2 := seg_start + ((b.drop seg_start).takeWhile (fun c => c != 0 && c != 47)).length
    let seg_len := src2 - seg_start
    if seg_len = 1 ∧ rd b seg_start = 46 then split_segments fuel b src2 segs
    else if seg_len = 2 ∧ rd b seg_start = 46 ∧ rd b (seg_start + 1) = 46 then
      split_segments fuel b src2 (if 0 < segs.length then segs.dropLast else segs)
    else if segs.length < 256 then
      if rd b src2 ≠ 0 then split_segments fuel (b.set src2 0) (src2 + 1) (segs ++ [seg_start])
      else split_segments fuel b src2 (segs ++ [seg_start])
    else split_segments fuel b src2 segs

/-- The loop "Rebuild path" of url_normalize_path (lines 292-299): every stored segment is
copied to dst, with a '/' after each one but the last. Returns the buffer and dst. -/
def rebuild : List Nat → List Nat → Nat → List Nat × Nat
  | [], b, dst => (b, dst)
  | s :: rest, b, dst =>
    let slen := strlen b s
    let b1 := memcpy b dst s slen
    let dst1 := dst + slen
    if rest ≠ [] then rebuild rest (b1.set dst1 47) (dst1 + 1) else rebuild rest b1 dst1

/-- The function url_normalize_path (lines 244-306), from the C string in the path buffer to the
C string it leaves there. The buffer is modelled as the string, its terminator and one byte
more (the result of a path that does not begin with '/' can be one byte longer than the path).
Every pass of the split loop consumes a byte of the path, so orig_len + 1 passes are enough. -/
def url_normalize_path (path : List Nat) : List Nat :=
  if path = [] then path else
  let orig_len := path.length
  let had_trailing_slash := decide (orig_len > 1) && (rd path (orig_len - 1) == 47)
  let r := split_segments (orig_len + 1) (path ++ [0, 0]) 0 []
  let b2 := r.1.set 0 47
  let r2 := rebuild r.2 b2 1
  let r3 := if had_trailing_slash && decide (0 < r.2.length) then (r2.1.set r2.2 47, r2.2 + 1) else r2
  cstr (r3.1.set r3.2 0) 0

/-! ## url.c: url_build, url_parse, url_resolve, url_is_gemini -/

/-- The function url_build (lines 105-128): the four snprintf calls, each cut to
sizeof(full) - 1 bytes. -/
def url_build (url : Url) : Url :=
  let s :=
    if url.port = GEMINI_DEFAULT_PORT ∨ url.port = 0 then
      if url.query ≠ [] then
        url.scheme ++ [58, 47, 47] ++ url.host ++ url.path ++ [63] ++ url.query
      else
        url.scheme ++ [58, 47, 47] ++ url.host ++ url.path
    else
      if url.query ≠ [] then
        url.scheme ++ [58, 47, 47] ++ url.host ++ [58] ++ fmt_d url.port ++ url.path ++ [63] ++ url.query
      else
        url.scheme ++ [58, 47, 47] ++ url.host ++ [58] ++ fmt_d url.port ++ url.path
  { url with full := s.take (MAX_URL_LENGTH - 1) }

/-- "Find scheme" (lines 24-37): the text before the first "://", of which at most 15 bytes are
stored, or the default "gemini"; the second component is the text at host_start. -/
def find_scheme (p : List Nat) : List Nat × List Nat :=
  match strstr p [58, 47, 47] with
  | some scheme_len => ((p.take scheme_len).take 15, p.drop (scheme_len + 3))
  | none => ([103, 101, 109, 105, 110, 105], p)

/-- Condition of the host scan (line 41): the byte is none of ':', '/', '?'. -/
def is_host_byte (c : Nat) : Bool := c != 58 && c != 47 && c != 63

/-- "Parse port if present" (lines 55-65): the port, atoi cast to uint16_t, and the text at
path_start. The port is that of the code for a port text whose value fits an int (see atoi). -/
def parse_port (host_end : List Nat) : Nat × List Nat :=
  match host_end with
  | 58 :: port_start =>
    ((atoi port_start % 65536).toNat, host_end.dropWhile (fun c => c != 47 && c != 63))
  | _ => (GEMINI_DEFAULT_PORT, host_end)

/-- "Parse path" (lines 67-89): the stored path, not yet normalized, and query_start if any. -/
def parse_path (path_start : List Nat) : List Nat × Option (List Nat) :=
  match path_start with
  | 47 :: _ =>
    ((path_start.takeWhile (fun c => c != 63)).take 1023,
      match path_start.dropWhile (fun c => c != 63) with
      | 63 :: query_start => some query_start
      | _ => none)
  | 63 :: query_start => ([47], some query_start)
  | _ => ([47], none)

/-- "Parse query" (lines 91-94): strncpy of at most 511 bytes into the zeroed query field. -/
def parse_query (query_start : Option (List Nat)) : List Nat :=
  match query_start with
  | some q => q.take 511
  | none => []

/-- The function url_parse (lines 8-103): the returned flag and the Url it fills in (the Url is
written also when the flag is false). -/
def url_parse (url_str : List Nat) : Bool × Url :=
  let p := url_str.dropWhile isspace
  let sh := find_scheme p
  let host_start := sh.2
  let host := ((host_start.takeWhile is_host_byte).take 255).map tolower
  let host_end := host_start.dropWhile is_host_byte
  let pp := parse_port host_end
  let pq := parse_path pp.2
  (host != [],
    url_build { scheme := sh.1, host := host, port := pp.1, path := url_normalize_path pq.1,
                query := parse_query pq.2, full := [] })

/-- The branch of url_resolve on relative[0] (lines 144-174), for a reference that is not
protocol-relative: a root-relative path, a query only, or a path relative to the directory of
the base path. The two strncpy calls rely on the last byte of the path and query buffers being
NUL, as it is in every Url that url_parse or url_resolve has filled in. -/
def resolve_reference (result : Url) (relative : List Nat) : Url :=
  match relative with
  | 47 :: _ => { result with path := relative.take 1023 }
  | 63 :: q => { result with query := q.take 511 }
  | _ =>
    match strrchr result.path 47 with
    | some last_slash =>
      if (last_slash + 1) + relative.length < 1024 then
        { result with path := result.path.take (last_slash + 1) ++ relative }
      else result
    | none => { result with path := ([47] ++ relative).take 1023 }

/-- "Handle query in relative URL" (lines 176-183): the path is cut at its first '?' and the
text after the first '?' of the reference is stored, at most 511 bytes of it. -/
def resolve_query (result : Url) (relative : List Nat) : Url :=
  match strchr relative 63 with
  | some q =>
    { result with path := result.path.takeWhile (fun c => c != 63),
                  query := (relative.drop (q + 1)).take 511 }
  | none => result

/-- The function url_resolve (lines 130-189). -/
def url_resolve (base : Url) (relative : List Nat) : Bool × Url :=
  if (strstr relative [58, 47, 47]).isSome then url_parse relative
  else
    match relative with
    | 47 :: 47 :: _ => url_parse ((base.scheme ++ [58] ++ relative).take (MAX_URL_LENGTH - 1))
    | _ =>
      let result := resolve_query (resolve_reference { base with query := [] } relative) relative
      (true, url_build { result with path := url_normalize_path result.path })

/-- The function url_is_gemini (lines 191-193): strcmp of the scheme with "gemini". -/
def url_is_gemini (url : Url) : Bool := url.scheme == [103, 101, 109, 105, 110, 105]

/-! ## Specification-level definitions -/

/-- One step of the segment stack as the split loop performs it, on the segments as lists:
empty and "." are skipped, ".." pops, another segment is pushed while fewer than 256 are
stored. -/
def keep_step (kept : List (List Nat)) (seg : List Nat) : List (List Nat) :=
  if seg = [] ∨ seg = [46] then kept
  else if seg = [46, 46] then kept.dropLast
  else if kept.length < 256 then kept ++ [seg] else kept

/-- The segments the split loop has stored when it ends. -/
def kept_segments (p : List Nat) : List (List Nat) := (p.splitOn 47).foldl keep_step []

/-- The result of url_normalize_path on a path that begins with '/', as a function on lists. -/
def norm_spec (p : List Nat) : List Nat :=
  [47] ++ [47].intercalate (kept_segments p) ++
    (if p.getLast? = some 47 ∧ kept_segments p ≠ [] then [47] else [])

/-- One scanning step in the words of the specification: empty and "." segments are skipped,
".." removes the most recently kept segment, every other segment is kept. -/
def spec_keep (kept : List (List Nat)) (seg : List Nat) : List (List Nat) :=
  if seg = [] ∨ seg = [46] then kept
  else if seg = [46, 46] then kept.dropLast
  else kept ++ [seg]

/-- The segments kept by the specification's left-to-right scan of the '/'-separated segments. -/
def spec_kept (p : List Nat) : List (List Nat) := (p.splitOn 47).foldl spec_keep []

/-- The normalized path in the words of the specification. -/
def spec_normalize (p : List Nat) : List Nat :=
  [47] ++ [47].intercalate (spec_kept p) ++
    (if p.getLast? = some 47 ∧ spec_kept p ≠ [] then [47] else [])

/-- The path up to and including its last '/' (empty when it has none). -/
def dir_of (path : List Nat) : List Nat := (path.reverse.dropWhile (fun c => c != 47)).reverse

/-- The text after the first '?' of a reference. -/
def after_question (r : List Nat) : List Nat := (r.dropWhile (fun c => c != 63)).tail

/-- The port segment of the serialized form: empty for the default port and for zero. -/
def port_text (u : Url) : List Nat :=
  if u.port = 1965 ∨ u.port = 0 then [] else 58 :: fmt_d u.port

/-- The query segment of the serialized form: empty for an empty query. -/
def query_text (u : Url) : List Nat :=
  if u.query = [] then [] else 63 :: u.query

/-- The serialized form scheme://host[:port]path[?query]. -/
def full_spec (u : Url) : List Nat :=
  u.scheme ++ [58, 47, 47] ++ u.host ++ port_text u ++ u.path ++ query_text u

/-- The text at host_start: what follows the leading whitespace and, when the string holds
"://", everything up to and including its first occurrence. -/
def host_start (x : List Nat) : List Nat := (find_scheme (x.dropWhile isspace)).2

/-! ## Predicates used in the proofs -/

/-- Layout of the stored segments in the buffer b: the segments (start index, text) come in
increasing order from lo on, each text stands at its start index followed by a NUL, holds no
NUL itself, and the next segment starts after that NUL. -/
def SegsOK (b : List Nat) : Nat → List (Nat × List Nat) → Prop
  | _, [] => True
  | lo, (s, t) :: r =>
    lo ≤ s ∧ (b.drop s).take (t.length + 1) = t ++ [0] ∧ (∀ c ∈ t, c ≠ 0) ∧
      SegsOK b (s + t.length + 1) r

/-- The index after the terminator of the last stored segment (lo when none is stored). -/
def endOf : Nat → List (Nat × List Nat) → Nat
  | lo, [] => lo
  | _, (s, t) :: r => endOf (s + t.length + 1) r

/-- The three bytes "://" stand at index j of l. -/
def sep_at (l : List Nat) (j : Nat) : Prop :=
  l[j]? = some 58 ∧ l[j + 1]? = some 47 ∧ l[j + 2]? = some 47

/-- A segment that the split loop stores: not empty, not "." and not "..". -/
def normal_seg (t : List Nat) : Prop := t ≠ [] ∧ t ≠ [46] ∧ t ≠ [46, 46]

/-- Bytes a list of segments occupies when each is preceded by one slash. -/
def weight (K : List (List Nat)) : Nat := (K.map (fun t => t.length + 1)).sum

/-- Every string field fits its buffer of the C struct and the port is a 16-bit value. -/
structure Fits (u : Url) : Prop where
  scheme : u.scheme.length ≤ 15
  host : u.host.length ≤ 255
  port : u.port < 65536
  path : u.path.length ≤ 1023
  query : u.query.length ≤ 511

/-- What url_parse establishes about the Url it fills in. -/
structure Canon (u : Url) : Prop where
  fits : Fits u
  scheme_sep : ∀ rest, strstr (u.scheme ++ [58, 47, 47] ++ rest) [58, 47, 47] = some u.scheme.length
  scheme_head : ∀ c ∈ u.scheme.head?, isspace c = false
  host_bytes : ∀ c ∈ u.host, is_host_byte c = true ∧ tolower c = c
  path_head : u.path.head? = some 47
  path_nul : ∀ c ∈ u.path, c ≠ 0
  path_q : ∀ c ∈ u.path, c ≠ 63
  path_norm : norm_spec u.path = u.path
  full_eq : u.full = full_spec u

/-- What url_resolve relies on in its base, and what url_parse and url_resolve both establish:
the fields fit their buffers, the path begins with '/', scheme and path hold no NUL. -/
structure Good (u : Url) : Prop where
  fits : Fits u
  scheme_nul : ∀ c ∈ u.scheme, c ≠ 0
  path_head : u.path.head? = some 47
  path_nul : ∀ c ∈ u.path, c ≠ 0

/-- The text at host_end: what follows the host in the input of url_parse. -/
def host_end (x : List Nat) : List Nat := (host_start x).dropWhile is_host_byte

/-- Decimal value of a run of digits. -/
def dec_value (ds : List Nat) : Nat := ds.foldl (fun a c => a * 10 + (c - 48)) 0

/-- Where atoi starts to read digits: after the leading whitespace and one optional sign. -/
def atoi_digits_start (t : List Nat) : List Nat :=
  match t.dropWhile isspace with
  | 45 :: r => r
  | 43 :: r => r
  | r => r

/-! ## url.c: url_encode and url_decode -/

/-- isalnum in the "C" locale: the digits and the ASCII letters. -/
def isalnum (c : Nat) : Bool :=
  isdigit c || (decide (65 ≤ c) && decide (c ≤ 90)) || (decide (97 ≤ c) && decide (c ≤ 122))

/-- isxdigit: the digits, 'A' to 'F' and 'a' to 'f'. -/
def isxdigit (c : Nat) : Bool :=
  isdigit c || (decide (65 ≤ c) && decide (c ≤ 70)) || (decide (97 ≤ c) && decide (c ≤ 102))

/-- The bytes stored at index i of a buffer by a call that writes them in sequence. -/
def store (b : List Nat) (i : Nat) (bytes : List Nat) : List Nat :=
  b.take i ++ bytes ++ b.drop (i + bytes.length)

/-- Hexadecimal digits of n in front of acc, most significant first, with 'A' to 'F'. -/
def fmt_X_aux : Nat → Nat → List Nat → List Nat
  | 0, _, acc => acc
  | fuel + 1, n, acc =>
    let d := if n % 16 < 10 then 48 + n % 16 else 55 + n % 16
    if n < 16 then d :: acc else fmt_X_aux fuel (n / 16) (d :: acc)

/-- Output of the conversion "%02X": the hexadecimal digits, padded with '0' to two. -/
def fmt_02X (n : Nat) : List Nat :=
  let ds := fmt_X_aux (n + 1) n []
  List.replicate (2 - ds.length) 48 ++ ds

/-- The for loop of url_encode (lines 229-239). src is the rest of the input, result the output
buffer and dst the write pointer as an index. sprintf stores '%', the two digits and a NUL. -/
def url_encode_loop : List Nat → List Nat → Nat → List Nat × Nat
  | [], result, dst => (result, dst)
  | b :: src, result, dst =>
    let c := b % 256
    if isalnum c || c == 45 || c == 95 || c == 46 || c == 126 then
      url_encode_loop src (result.set dst c) (dst + 1)
    else
      url_encode_loop src (store result dst (37 :: fmt_02X c ++ [0])) (dst + 3)

/-- The buffer of url_encode when it returns (lines 220-242), for the input string s. fresh is
the block malloc returned, len * 3 + 1 bytes of indeterminate content; allocation is taken to
succeed. -/
def url_encode_buffer (fresh : List Nat) (s : List Nat) : List Nat :=
  let r := url_encode_loop s fresh 0
  r.1.set r.2 0

/-- The string url_encode returns. -/
def url_encode (fresh : List Nat) (s : List Nat) : List Nat := cstr (url_encode_buffer fresh s) 0

/-- Value strtol(hex, NULL, 16) gives for a text that is made of hexadecimal digits only. -/
def strtol16 (hex : List Nat) : Nat :=
  hex.foldl (fun a c =>
    a * 16 + (if isdigit c then c - 48 else if 97 ≤ c then c - 87 else c - 55)) 0

/-- The while loop of url_decode (lines 200-216) on the buffer b, with src and dst as indices.
One unit of fuel is one pass. -/
def url_decode_loop : Nat → List Nat → Nat → Nat → List Nat × Nat
  | 0, b, _, dst => (b, dst)
  | fuel + 1, b, src, dst =>
    if rd b src = 0 then (b, dst)
    else if rd b src = 37 ∧ isxdigit (rd b (src + 1)) = true ∧ isxdigit (rd b (src + 2)) = true then
      let val := strtol16 [rd b (src + 1), rd b (src + 2)]
      url_decode_loop fuel (b.set dst (val % 256)) (src + 3) (dst + 1)
    else if rd b src = 43 then
      url_decode_loop fuel (b.set dst 32) (src + 1) (dst + 1)
    else
      url_decode_loop fuel (b.set dst (rd b src)) (src + 1) (dst + 1)

/-- The buffer after url_decode (lines 194-218), paired with the final value of dst, the number of
bytes written before the terminating NUL. Every pass moves src forward, so a pass for each
byte of the buffer is enough fuel. -/
def url_decode (b : List Nat) : List Nat × Nat :=
  let r := url_decode_loop (b.length + 1) b 0 0
  (r.1.set r.2 0, r.2)

/-! ### The reference encoder and decoder of the specification -/

/-- The bytes in [A-Za-z0-9._~-]. -/
def unreserved (b : Nat) : Bool :=
  (decide (65 ≤ b) && decide (b ≤ 90)) || (decide (97 ≤ b) && decide (b ≤ 122)) ||
  (decide (48 ≤ b) && decide (b ≤ 57)) || b == 46 || b == 95 || b == 126 || b == 45

/-- The uppercase hexadecimal digit of a value below 16. -/
def hex_upper (d : Nat) : Nat := (str "0123456789ABCDEF").getD d 0

/-- The reference encoder: each byte itself when unreserved, else '%' and its two digits. -/
def spec_encode (s : List Nat) : List Nat :=
  (s.map (fun b => if unreserved b then [b] else [37, hex_upper (b / 16), hex_upper (b % 16)])).flatten

/-- Value of one hexadecimal digit of either case. -/
def hex_value (c : Nat) : Nat :=
  if 48 ≤ c ∧ c ≤ 57 then c - 48 else if 65 ≤ c ∧ c ≤ 70 then c - 65 + 10 else c - 97 + 10

/-- Whether a byte is a hexadecimal digit of either case. -/
def is_hex (c : Nat) : Bool := c ∈ str "0123456789abcdefABCDEF"

/-- The reference decoder, scanning left to right; skip counts the bytes of an escape that are
still to be passed over. -/
def spec_decode_aux : Nat → List Nat → List Nat
  | _, [] => []
  | skip + 1, _ :: rest => spec_decode_aux skip rest
  | 0, c :: rest =>
    match c, rest with
    | 37, h :: l :: _ =>
      if is_hex h ∧ is_hex l then (16 * hex_value h + hex_value l) :: spec_decode_aux 2 rest
      else 37 :: spec_decode_aux 0 rest
    | 43, _ => 32 :: spec_decode_aux 0 rest
    | _, _ => c :: spec_decode_aux 0 rest

/-- The reference decoder. -/
def spec_decode (s : List Nat) : List Nat := spec_decode_aux 0 s

/-! ## gemini.h and gemini.c: the read loop and the header parsing of gemini_fetch -/

def RECV_BUFFER_SIZE : Nat := 16384

def MAX_RESPONSE_SIZE : Nat := 10 * 1024 * 1024

def GM_STATUS_ERROR_HEADER : Int := -5

/-- The struct GeminiResponse: status, meta[1024] and error_msg[256] held as their C strings,
body as the block allocated for it (none for a NULL pointer), and body_len. -/
structure GeminiResponse where
  status : Int
  meta : List Nat
  body : Option (List Nat)
  body_len : Nat
  error_msg : List Nat
deriving DecidableEq

/-- The response as calloc leaves it (line 135): every field zero. -/
def GeminiResponse.zeroed : GeminiResponse :=
  { status := 0, meta := [], body := none, body_len := 0, error_msg := [] }

/-- The string in dest after strncpy(dest, src, n) and dest[n] = 0: the first n bytes of src,
cut at the first NUL among them (strncpy pads with NUL from there on). -/
def strncpy (src : List Nat) (n : Nat) : List Nat := (src.take n).takeWhile (fun c => c != 0)

/-- The loop "Find end of header line (CRLF)" (lines 272-278) from index i on, data being the
bytes not yet looked at: a pass runs while two bytes are left. -/
def find_header_end : List Nat → Nat → Option Nat
  | c :: d :: rest, i => if c = 13 ∧ d = 10 then some i else find_header_end (d :: rest) (i + 1)
  | _, _ => none

/-- The part "Parse response header" of gemini_fetch (lines 263-319) on the total_size bytes that
were accumulated. The allocation of the body is taken to succeed. -/
def gemini_fetch_parse (data : List Nat) : GeminiResponse :=
  let resp := GeminiResponse.zeroed
  let total_size := data.length
  if total_size < 3 then
    { resp with status := GM_STATUS_ERROR_HEADER,
                error_msg := strncpy (str "Response too short") 255 }
  else
    match find_header_end data 0 with
    | none =>
      { resp with status := GM_STATUS_ERROR_HEADER,
                  error_msg := strncpy (str "Malformed response header") 255 }
    | some header_end =>
      if header_end < 2 ∨ isdigit (rd data 0) = false ∨ isdigit (rd data 1) = false then
        { resp with status := GM_STATUS_ERROR_HEADER,
                    error_msg := strncpy (str "Invalid status code") 255 }
      else
        let status : Int := ((rd data 0 : Int) - 48) * 10 + ((rd data 1 : Int) - 48)
        let meta_start := if rd data 2 = 32 then 3 else 2
        let meta_len := if header_end - meta_start ≥ 1024 then 1023 else header_end - meta_start
        let meta := strncpy (data.drop meta_start) meta_len
        let body_start := header_end + 2
        let body_len := total_size - body_start
        if body_len > 0 then
          { resp with status := status, meta := meta,
                      body := some ((data.drop body_start).take body_len ++ [0]),
                      body_len := body_len }
        else
          { resp with status := status, meta := meta }

/-- The function gemini_status_category (lines 329-333); the division of C truncates. -/
def gemini_status_category (status : Int) : Int :=
  if status < 0 then -1
  else if status < 10 then status
  else Int.tdiv status 10

/-- What one call of SSL_read gives the read loop: a chunk of bytes (with whether a realloc that
the chunk makes necessary succeeds), a result to retry on, or the end of the stream or an error. -/
inductive ReadResult where
  | bytes (chunk : List Nat) (realloc_ok : Bool)
  | again
  | stop
deriving DecidableEq

/-- The variables of the read loop: the accumulated bytes data[0 .. total_size-1], total_size and
capacity. -/
structure RecvState where
  data : List Nat
  total_size : Nat
  capacity : Nat
deriving DecidableEq

/-- The state before the loop (lines 199-201). -/
def RecvState.init : RecvState := { data := [], total_size := 0, capacity := RECV_BUFFER_SIZE }

/-- One pass of the read loop (lines 218-252): the state after it and whether the loop goes on. -/
def recv_pass (s : RecvState) : ReadResult → RecvState × Bool
  | ReadResult.stop => (s, false)
  | ReadResult.again => (s, true)
  | ReadResult.bytes chunk realloc_ok =>
    let received := chunk.length
    let stored (capacity : Nat) : RecvState × Bool :=
      let total_size := s.total_size + received
      ({ data := s.data.take s.total_size ++ chunk, total_size := total_size, capacity := capacity },
        !decide (total_size ≥ MAX_RESPONSE_SIZE))
    if s.total_size + received > s.capacity then
      let new_capacity :=
        if s.capacity * 2 > MAX_RESPONSE_SIZE then MAX_RESPONSE_SIZE else s.capacity * 2
      if s.total_size + received > new_capacity then (s, false)
      else if realloc_ok = false then (s, false)
      else stored new_capacity
    else stored s.capacity

/-- The states of the read loop, one at the start of each pass and the final one, for the
successive results of SSL_read. -/
def recv_states : List ReadResult → RecvState → List RecvState
  | [], s => [s]
  | r :: rest, s =>
    if (recv_pass s r).2 then s :: recv_states rest (recv_pass s r).1
    else [s, (recv_pass s r).1]

/-- The state in which the read loop ends. -/
def recv_loop : List ReadResult → RecvState → RecvState
  | [], s => s
  | r :: rest, s => if (recv_pass s r).2 then recv_loop rest (recv_pass s r).1 else (recv_pass s r).1

/-- The header errors as the specification lists them: the response is shorter than 3 bytes, or
holds no "\r\n", or its first "\r\n" starts before index 2, or one of its first two bytes is
not a digit. -/
def header_invalid (data : List Nat) : Prop :=
  data.length < 3 ∨ strstr data [13, 10] = none ∨ (∃ i, i < 2 ∧ strstr data [13, 10] = some i) ∨
    isdigit (rd data 0) = false ∨ isdigit (rd data 1) = false

instance (data : List Nat) : Decidable (header_invalid data) := by
  unfold header_invalid
  infer_instance

/-- The chunks of bytes among the results of SSL_read, in order. -/
def read_chunks : List ReadResult → List (List Nat)
  | [] => []
  | ReadResult.bytes chunk _ :: rest => chunk :: read_chunks rest
  | _ :: rest => read_chunks rest

/-- The bounds that the read loop keeps: total_size is the number of accumulated bytes and is at
most the capacity, which lies between 16384 and 10 MiB. -/
def RecvState.Bounded (s : RecvState) : Prop :=
  s.total_size = s.data.length ∧ s.total_size ≤ s.capacity ∧ RECV_BUFFER_SIZE ≤ s.capacity ∧
    s.capacity ≤ MAX_RESPONSE_SIZE

/-- How the capacity may change in one pass: not at all, or to its double clamped to 10 MiB. -/
def capacity_step (s t : RecvState) : Prop :=
  t.capacity = s.capacity ∨ t.capacity = min (s.capacity * 2) MAX_RESPONSE_SIZE

/-! ## unicode.c -/

/-- The table fallbacks (lines 17-443): codepoint and replacement string, in the order of the
source. Replacements that hold a quote, an apostrophe, '-' or '/' are written as byte values. -/
def fallbacks : List (Nat × List Nat) := [
  (0x2018, [39]), (0x2019, [39]), (0x201C, [34]), (0x201D, [34]), (0x2026, str "..."),
  (0x2013, [45]), (0x2014, [45, 45]), (0x2B05, [60, 45]), (0x2B06, str "^"), (0x2B07, str "v"),
  (0x2B08, [45, 62]), (0x2B95, [45, 62]), (0x27A1, [45, 62]), (0x1F600, str ":)"),
  (0x1F601, str ":D"), (0x1F602, str "XD"), (0x1F603, str ":)"), (0x1F604, str ":)"),
  (0x1F605, str ":)"), (0x1F606, str "XD"), (0x1F607, str ":)"), (0x1F608, str ">:)"),
  (0x1F609, str ";)"), (0x1F60A, str ":)"), (0x1F60B, str ":P"), (0x1F60C, str ":)"),
  (0x1F60D, str "<3"), (0x1F60E, str "B)"), (0x1F60F, [58, 47]), (0x1F610, str ":|"),
  (0x1F611, str ":|"), (0x1F612, [58, 47]), (0x1F613, str ":S"), (0x1F614, str ":("),
  (0x1F615, [58, 47]), (0x1F616, str ":S"), (0x1F617, str ":*"), (0x1F618, str ":*"),
  (0x1F619, str ":*"), (0x1F61A, str ":*"), (0x1F61B, str ":P"), (0x1F61C, str ";P"),
  (0x1F61D, str "XP"), (0x1F61E, str ":("), (0x1F61F, str ":("), (0x1F620, str ">:("),
  (0x1F621, str ">:("), (0x1F622, [58, 39, 40]), (0x1F623, str ">_<"), (0x1F624, str ">:("),
  (0x1F625, [58, 39, 40]), (0x1F626, str ":("), (0x1F627, str ":("), (0x1F628, str ":O"),
  (0x1F629, str ":("), (0x1F62A, str ":("), (0x1F62B, str ":("), (0x1F62C, str ">:("),
  (0x1F62D, [58, 39, 40]), (0x1F62E, str ":O"), (0x1F62F, str ":O"), (0x1F630, str ":O"),
  (0x1F631, str ":O"), (0x1F632, str ":O"), (0x1F633, str ":$"), (0x1F634, str "zzZ"),
  (0x1F635, str "x_x"), (0x1F636, str ":|"), (0x1F637, str ":)"), (0x1F638, str ":)"),
  (0x1F639, str "XD"), (0x1F63A, str ":)"), (0x1F63B, str "<3"), (0x1F63C, str ":)"),
  (0x1F63D, str ":*"), (0x1F63E, str ">:("), (0x1F63F, [58, 39, 40]), (0x1F640, str ":O"),
  (0x2764, str "<3"), (0x2665, str "<3"), (0x1F494, [60, 47, 51]), (0x1F495, str "<3<3"),
  (0x1F496, str "<3"), (0x1F497, str "<3"), (0x1F498, str "<3"), (0x1F499, str "<3"),
  (0x1F49A, str "<3"), (0x1F49B, str "<3"), (0x1F49C, str "<3"), (0x1F49D, str "<3"),
  (0x1F49E, str "<3"), (0x1F49F, str "<3"), (0x1F4A1, str "[idea]"), (0x1F4A4, str "zzZ"),
  (0x1F4A5, str "[boom]"), (0x1F4A9, str "[poop]"), (0x1F4AA, str "[flex]"),
  (0x1F4AF, str "[100]"), (0x1F4BB, str "[PC]"), (0x1F4BE, str "[disk]"), (0x1F4BF, str "[CD]"),
  (0x1F4C1, str "[folder]"), (0x1F4C2, str "[folder]"), (0x1F4C4, str "[doc]"),
  (0x1F4D6, str "[book]"), (0x1F4D7, str "[book]"), (0x1F4D8, str "[book]"),
  (0x1F4D9, str "[book]"), (0x1F4DA, str "[books]"), (0x1F4DD, str "[memo]"),
  (0x1F4E7, str "[email]"), (0x1F4F1, str "[phone]"), (0x1F4F7, str "[camera]"),
  (0x1F4F9, str "[video]"), (0x1F50B, str "[battery]"), (0x1F50C, str "[plug]"),
  (0x1F50D, str "[search]"), (0x1F50E, str "[search]"), (0x1F512, str "[lock]"),
  (0x1F513, str "[unlock]"), (0x1F514, str "[bell]"), (0x1F516, str "[bookmark]"),
  (0x1F517, str "[link]"), (0x1F44D, str "[+1]"), (0x1F44E, [91, 45, 49, 93]),
  (0x1F44B, str "[wave]"), (0x1F44C, str "[OK]"), (0x1F44F, str "[clap]"),
  (0x1F450, str "[hands]"), (0x1F64F, str "[pray]"), (0x1F464, str "[person]"),
  (0x1F465, str "[people]"), (0x1F466, str "[boy]"), (0x1F467, str "[girl]"),
  (0x1F468, str "[man]"), (0x1F469, str "[woman]"), (0x1F46A, str "[family]"),
  (0x1F46B, str "[couple]"), (0x1F46C, str "[men]"), (0x1F46D, str "[women]"),
  (0x1F46E, str "[police]"), (0x1F46F, str "[dancers]"), (0x1F470, str "[bride]"),
  (0x1F471, str "[person]"), (0x1F472, str "[person]"), (0x1F473, str "[person]"),
  (0x1F474, str "[elder]"), (0x1F475, str "[elder]"), (0x1F476, str "[baby]"),
  (0x1F477, str "[worker]"), (0x1F478, str "[princess]"), (0x1F479, str "[ogre]"),
  (0x1F47A, str "[goblin]"), (0x1F47B, str "[ghost]"), (0x1F47C, str "[angel]"),
  (0x1F47D, str "[alien]"), (0x1F47E, str "[alien]"), (0x1F47F, str "[imp]"),
  (0x1F480, str "[skull]"), (0x1F481, str "[person]"), (0x1F482, str "[guard]"),
  (0x1F483, str "[dancer]"), (0x1F484, str "[lipstick]"), (0x1F485, str "[nails]"),
  (0x1F486, str "[massage]"), (0x1F487, str "[haircut]"), (0x1F48B, str "[kiss]"),
  (0x1F48C, str "[love letter]"), (0x1F48D, str "[ring]"), (0x1F48E, str "[gem]"),
  (0x1F48F, str "[kiss]"), (0x1F490, str "[bouquet]"), (0x1F491, str "[couple]"),
  (0x1F492, str "[wedding]"), (0x1F493, str "<3"), (0x2600, str "[sun]"),
  (0x2601, str "[cloud]"), (0x2602, str "[umbrella]"), (0x2603, str "[snowman]"),
  (0x2604, str "[comet]"), (0x2614, str "[rain]"), (0x26A1, str "[zap]"),
  (0x1F308, str "[rainbow]"), (0x1F30D, str "[globe]"), (0x1F30E, str "[globe]"),
  (0x1F30F, str "[globe]"), (0x1F310, str "[web]"), (0x1F319, str "[moon]"),
  (0x1F31F, str "[star]"), (0x1F320, str "[star]"), (0x1F331, str "[plant]"),
  (0x1F332, str "[tree]"), (0x1F333, str "[tree]"), (0x1F337, str "[flower]"),
  (0x1F338, str "[flower]"), (0x1F339, str "[rose]"), (0x1F33A, str "[flower]"),
  (0x1F33B, str "[flower]"), (0x1F33C, str "[flower]"), (0x1F340, str "[clover]"),
  (0x1F525, str "[fire]"), (0x1F4A7, str "[drop]"), (0x1F940, str "[flower]"),
  (0x1F400, str "[mouse]"), (0x1F401, str "[mouse]"), (0x1F402, str "[ox]"),
  (0x1F403, str "[cow]"), (0x1F404, str "[cow]"), (0x1F405, str "[tiger]"),
  (0x1F406, str "[leopard]"), (0x1F407, str "[rabbit]"), (0x1F408, str "[cat]"),
  (0x1F409, str "[dragon]"), (0x1F40A, str "[croc]"), (0x1F40B, str "[whale]"),
  (0x1F40C, str "[snail]"), (0x1F40D, str "[snake]"), (0x1F40E, str "[horse]"),
  (0x1F40F, str "[ram]"), (0x1F410, str "[goat]"), (0x1F411, str "[sheep]"),
  (0x1F412, str "[monkey]"), (0x1F413, str "[rooster]"), (0x1F414, str "[chicken]"),
  (0x1F415, str "[dog]"), (0x1F416, str "[pig]"), (0x1F417, str "[boar]"),
  (0x1F418, str "[elephant]"), (0x1F419, str "[octopus]"), (0x1F41A, str "[shell]"),
  (0x1F41B, str "[bug]"), (0x1F41C, str "[ant]"), (0x1F41D, str "[bee]"),
  (0x1F41E, str "[ladybug]"), (0x1F41F, str "[fish]"), (0x1F420, str "[fish]"),
  (0x1F421, str "[fish]"), (0x1F422, str "[turtle]"), (0x1F423, str "[chick]"),
  (0x1F424, str "[chick]"), (0x1F425, str "[chick]"), (0x1F426, str "[bird]"),
  (0x1F427, str "[penguin]"), (0x1F428, str "[koala]"), (0x1F429, str "[poodle]"),
  (0x1F42A, str "[camel]"), (0x1F42B, str "[camel]"), (0x1F42C, str "[dolphin]"),
  (0x1F42D, str "[mouse]"), (0x1F42E, str "[cow]"), (0x1F42F, str "[tiger]"),
  (0x1F430, str "[rabbit]"), (0x1F431, str "[cat]"), (0x1F432, str "[dragon]"),
  (0x1F433, str "[whale]"), (0x1F434, str "[horse]"), (0x1F435, str "[monkey]"),
  (0x1F436, str "[dog]"), (0x1F437, str "[pig]"), (0x1F438, str "[frog]"),
  (0x1F439, str "[hamster]"), (0x1F43A, str "[wolf]"), (0x1F43B, str "[bear]"),
  (0x1F43C, str "[panda]"), (0x1F43D, str "[pig]"), (0x1F43E, str "[paw]"),
  (0x1F98A, str "[fox]"), (0x1F98B, str "[butterfly]"), (0x1F98C, str "[deer]"),
  (0x1F98D, str "[gorilla]"), (0x1F98E, str "[lizard]"), (0x1F98F, str "[rhino]"),
  (0x1F990, str "[shrimp]"), (0x1F991, str "[squid]"), (0x1F992, str "[giraffe]"),
  (0x1F993, str "[zebra]"), (0x1F994, str "[hedgehog]"), (0x1F995, str "[dino]"),
  (0x1F996, [91, 116, 45, 114, 101, 120, 93]), (0x1F997, str "[cricket]"),
  (0x1F9A0, str "[germ]"), (0x1F9A5, str "[sloth]"), (0x1F9A6, str "[otter]"),
  (0x1F9A7, str "[orangutan]"), (0x1F9A8, str "[skunk]"), (0x1F9A9, str "[flamingo]"),
  (0x1F577, str "[spider]"), (0x1F578, str "[web]"), (0x1F355, str "[pizza]"),
  (0x1F354, str "[burger]"), (0x1F37A, str "[beer]"), (0x1F37B, str "[cheers]"),
  (0x1F377, str "[wine]"), (0x1F370, str "[cake]"), (0x1F382, str "[bday]"),
  (0x2615, str "[coffee]"), (0x2705, str "[check]"), (0x2714, str "[check]"),
  (0x2716, str "[X]"), (0x274C, str "[X]"), (0x274E, str "[X]"), (0x2728, str "[sparkle]"),
  (0x2733, str "*"), (0x2734, str "*"), (0x2747, str "*"), (0x2757, str "!"), (0x2753, str "?"),
  (0x2754, str "?"), (0x2755, str "!"), (0x2763, str "!"), (0x2795, str "+"), (0x2796, [45]),
  (0x2797, [47]), (0x27B0, str "~"), (0x27BF, str "~"), (0x2648, str "[Aries]"),
  (0x2649, str "[Taurus]"), (0x264A, str "[Gemini]"), (0x264B, str "[Cancer]"),
  (0x264C, str "[Leo]"), (0x264D, str "[Virgo]"), (0x264E, str "[Libra]"),
  (0x264F, str "[Scorpio]"), (0x2650, str "[Sagittarius]"), (0x2651, str "[Capricorn]"),
  (0x2652, str "[Aquarius]"), (0x2653, str "[Pisces]"), (0x1F3B5, str "[music]"),
  (0x1F3B6, str "[music]"), (0x1F3A4, str "[mic]"), (0x1F3A7, str "[headphones]"),
  (0x1F680, str "[rocket]"), (0x1F681, str "[helicopter]"), (0x1F682, str "[train]"),
  (0x1F683, str "[train]"), (0x1F684, str "[train]"), (0x1F685, str "[train]"),
  (0x1F68C, str "[bus]"), (0x1F691, str "[ambulance]"), (0x1F692, str "[firetruck]"),
  (0x1F693, str "[police car]"), (0x1F695, str "[taxi]"), (0x1F697, str "[car]"),
  (0x1F699, str "[SUV]"), (0x1F69A, str "[truck]"), (0x1F6A2, str "[ship]"),
  (0x1F6A4, str "[boat]"), (0x1F6B2, str "[bike]"), (0x1F6E9, str "[plane]"),
  (0x1F6EB, str "[takeoff]"), (0x1F6EC, str "[landing]"), (0x1F6F0, str "[satellite]"),
  (0x2708, str "[plane]"), (0x1F910, str ":|"), (0x1F911, str "$)"), (0x1F912, str ":("),
  (0x1F913, str "8)"), (0x1F914, str ":?"), (0x1F915, str ":("), (0x1F916, str "[robot]"),
  (0x1F917, str ":)"), (0x1F920, str ":)"), (0x1F921, str ":o)"), (0x1F922, str ":S"),
  (0x1F923, str "XD"), (0x1F924, str ":P"), (0x1F925, str ":>"), (0x1F926, str "[facepalm]"),
  (0x1F927, str "[sneeze]"), (0x1F928, str "8|"), (0x1F929, str "*_*"), (0x1F92A, str ":P"),
  (0x1F92B, str ":X"), (0x1F92C, str ">:("), (0x1F92D, str ":X"), (0x1F92E, str ":S"),
  (0x1F92F, str "[mind blown]"), (0x1F970, str ":)"), (0x1F973, str "[party]"),
  (0x1F974, str ":S"), (0x1F975, str ":("), (0x1F976, str ":("), (0x1F97A, [58, 39, 40]),
  (0x2500, [45]), (0x2502, str "|"), (0x250C, str "+"), (0x2510, str "+"), (0x2514, str "+"),
  (0x2518, str "+"), (0x251C, str "+"), (0x2524, str "+"), (0x252C, str "+"), (0x2534, str "+"),
  (0x253C, str "+")]

/-- The linear search find_fallback (lines 448-455) through the entries from the current one on;
none is the NULL pointer. -/
def find_fallback_from : List (Nat × List Nat) → Nat → Option (List Nat)
  | [], _ => none
  | e :: rest, codepoint => if e.1 = codepoint then some e.2 else find_fallback_from rest codepoint

/-- The function find_fallback. -/
def find_fallback (codepoint : Nat) : Option (List Nat) := find_fallback_from fallbacks codepoint

/-- The continuation loop of utf8_decode (lines 482-489) for i from its current value up to
len - 1, with todo = len - i: none when a byte is not a continuation byte, else the codepoint. -/
def utf8_decode_cont : Nat → List Nat → Nat → Nat → Option Nat
  | 0, _, _, cp => some cp
  | todo + 1, s, i, cp =>
    if (rd s i &&& 0xC0) ≠ 0x80 then none
    else utf8_decode_cont todo s (i + 1) ((cp <<< 6) ||| (rd s i &&& 0x3F))

/-- The function utf8_decode (lines 458-493) on the bytes at the pointer: the codepoint returned
and the number of bytes the pointer is advanced by. A read past the bytes of the string gives
its NUL. -/
def utf8_decode (s : List Nat) : Nat × Nat :=
  let lead : Option (Nat × Nat) :=
    if rd s 0 < 0x80 then some (rd s 0, 1)
    else if (rd s 0 &&& 0xE0) = 0xC0 then some (rd s 0 &&& 0x1F, 2)
    else if (rd s 0 &&& 0xF0) = 0xE0 then some (rd s 0 &&& 0x0F, 3)
    else if (rd s 0 &&& 0xF8) = 0xF0 then some (rd s 0 &&& 0x07, 4)
    else none
  match lead with
  | none => (0xFFFD, 1)
  | some (cp, len) =>
    match utf8_decode_cont (len - 1) s 1 cp with
    | none => (0xFFFD, 1)
    | some cp => (cp, len)

/-- The function utf8_encode (lines 496-517): the bytes written, each cast to char. -/
def utf8_encode (cp : Nat) : List Nat :=
  if cp < 0x80 then [cp % 256]
  else if cp < 0x800 then [(0xC0 ||| (cp >>> 6)) % 256, (0x80 ||| (cp &&& 0x3F)) % 256]
  else if cp < 0x10000 then
    [(0xE0 ||| (cp >>> 12)) % 256, (0x80 ||| ((cp >>> 6) &&& 0x3F)) % 256,
     (0x80 ||| (cp &&& 0x3F)) % 256]
  else if cp < 0x110000 then
    [(0xF0 ||| (cp >>> 18)) % 256, (0x80 ||| ((cp >>> 12) &&& 0x3F)) % 256,
     (0x80 ||| ((cp >>> 6) &&& 0x3F)) % 256, (0x80 ||| (cp &&& 0x3F)) % 256]
  else []

/-- The function needs_fallback (lines 520-543). -/
def needs_fallback (cp : Nat) : Bool :=
  if cp ≥ 0x1F300 ∧ cp ≤ 0x1F9FF then true
  else if cp ≥ 0x1FA00 ∧ cp ≤ 0x1FAFF then true
  else if cp ≥ 0x1F1E0 ∧ cp ≤ 0x1F1FF then true
  else if cp ≥ 0x2600 ∧ cp ≤ 0x26FF then (find_fallback cp).isSome
  else if cp ≥ 0x2700 ∧ cp ≤ 0x27BF then (find_fallback cp).isSome
  else if cp ≥ 0x2B00 ∧ cp ≤ 0x2BFF then (find_fallback cp).isSome
  else false

/-- The placeholder chosen by range in unicode_sanitize (lines 584-606). -/
def generic_placeholder (cp : Nat) : List Nat :=
  if cp ≥ 0x1F600 ∧ cp ≤ 0x1F64F then str ":)"
  else if cp ≥ 0x1F300 ∧ cp ≤ 0x1F33F then str "*"
  else if cp ≥ 0x1F340 ∧ cp ≤ 0x1F37F then str "*"
  else if cp ≥ 0x1F380 ∧ cp ≤ 0x1F3FF then str "*"
  else if cp ≥ 0x1F400 ∧ cp ≤ 0x1F43F then str "*"
  else if cp ≥ 0x1F440 ∧ cp ≤ 0x1F4FF then str "*"
  else if cp ≥ 0x1F500 ∧ cp ≤ 0x1F5FF then str "*"
  else if cp ≥ 0x1F680 ∧ cp ≤ 0x1F6FF then str "*"
  else if cp ≥ 0x1F900 ∧ cp ≤ 0x1F9FF then str ":)"
  else if cp ≥ 0x1FA00 ∧ cp ≤ 0x1FAFF then str "*"
  else str "*"

/-- The output side of unicode_sanitize: the bytes written so far (q - out of them) and
out_capacity. -/
structure SanitizeOut where
  out : List Nat
  out_capacity : Nat
deriving DecidableEq

/-- The step "check buffer space, memcpy, advance q" shared by the three emitting branches of
unicode_sanitize: the capacity grows to out_capacity * 2 + n when used + n + 1 exceeds it.
The reallocation is taken to succeed. -/
def emit (o : SanitizeOut) (bytes : List Nat) : SanitizeOut :=
  let used := o.out.length
  { out := o.out ++ bytes,
    out_capacity :=
      if used + bytes.length + 1 > o.out_capacity then o.out_capacity * 2 + bytes.length
      else o.out_capacity }

/-- The while loop of unicode_sanitize (lines 557-628); p is the text from the read pointer on.
The branch for 0xFFFD stores '?' without a look at the capacity. One unit of fuel is one
pass. -/
def unicode_sanitize_loop : Nat → List Nat → SanitizeOut → SanitizeOut
  | 0, _, o => o
  | fuel + 1, p, o =>
    if rd p 0 = 0 then o
    else
      let d := utf8_decode p
      let cp := d.1
      let rest := p.drop d.2
      if cp = 0xFFFD then
        unicode_sanitize_loop fuel rest { o with out := o.out ++ [63] }
      else
        match find_fallback cp with
        | some fallback => unicode_sanitize_loop fuel rest (emit o fallback)
        | none =>
          if needs_fallback cp then unicode_sanitize_loop fuel rest (emit o (generic_placeholder cp))
          else unicode_sanitize_loop fuel rest (emit o (p.take d.2))

/-- The state in which the loop of unicode_sanitize ends for the string text: the buffer starts
with len * 2 + 1 bytes, and a pass for each byte of the text is enough fuel, since every pass
advances the read pointer. -/
def unicode_sanitize_run (text : List Nat) : SanitizeOut :=
  unicode_sanitize_loop text.length text { out := [], out_capacity := text.length * 2 + 1 }

/-- The string unicode_sanitize returns (lines 545-636). Allocation is taken to succeed. -/
def unicode_sanitize (text : List Nat) : List Nat := (unicode_sanitize_run text).out

/-! ## document.h and document.c -/

/-- The enum LineType. -/
inductive LineType where
  | LINE_TEXT
  | LINE_LINK
  | LINE_HEADING1
  | LINE_HEADING2
  | LINE_HEADING3
  | LINE_LIST_ITEM
  | LINE_QUOTE
  | LINE_PREFORMATTED
deriving DecidableEq

/-- The struct DocLine: text and url as their C strings, none for a NULL url. -/
structure DocLine where
  type : LineType
  text : List Nat
  url : Option (List Nat)
  preformat_block : Nat
deriving DecidableEq

/-- The struct Document: lines holds the entries lines[0 .. num_lines-1]; none is a NULL
title. -/
structure Document where
  lines : List DocLine
  capacity : Nat
  title : Option (List Nat)
deriving DecidableEq

/-- The field num_lines. -/
def Document.num_lines (doc : Document) : Nat := doc.lines.length

def INITIAL_CAPACITY : Nat := 64

/-- The function document_new (lines 12-24); allocation is taken to succeed. -/
def document_new : Document := { lines := [], capacity := INITIAL_CAPACITY, title := none }

/-- The function document_add_line (lines 39-63), always returning true since allocation is
taken to succeed: the array grows when it is full, and the new entry holds the sanitized
text. -/
def document_add_line (doc : Document) (type : LineType) (text : Option (List Nat))
    (url : Option (List Nat)) : Document :=
  let capacity := if doc.num_lines ≥ doc.capacity then doc.capacity * 2 else doc.capacity
  let line : DocLine :=
    { type := type,
      text := match text with
        | some t => unicode_sanitize t
        | none => [],
      url := url,
      preformat_block := 0 }
  { doc with lines := doc.lines ++ [line], capacity := capacity }

/-- The loop of trim_trailing (lines 68-71): the length that is left of a string of length len. -/
def trim_trailing_len : Nat → List Nat → Nat
  | 0, _ => 0
  | len + 1, s => if isspace (rd s len) then trim_trailing_len len s else len + 1

/-- The function trim_trailing (lines 65-72): the string that is left in the buffer. -/
def trim_trailing (s : List Nat) : List Nat := s.take (trim_trailing_len s.length s)

/-- The function skip_whitespace (lines 75-78) on a C string. -/
def skip_whitespace (s : List Nat) : List Nat := s.dropWhile isspace

/-- Whether strncmp(a, b, n) == 0 for two C strings: their first n bytes agree, a string that
ends earlier counting as it is. -/
def strncmp_eq (a b : List Nat) (n : Nat) : Bool := a.take n == b.take n

/-- The branches of the loop body of document_parse after the fence test (lines 121-210), for
the C string line: the document with the line added. -/
def document_parse_line (doc : Document) (in_preformatted : Bool) (preformat_block : Nat)
    (line : List Nat) : Document :=
  if in_preformatted then
    let doc := document_add_line doc LineType.LINE_PREFORMATTED (some line) none
    if doc.num_lines > 0 then
      { doc with lines := doc.lines.modify (fun l => { l with preformat_block := preformat_block })
                   (doc.num_lines - 1) }
    else doc
  else if strncmp_eq line (str "=>") 2 then
    let rest := skip_whitespace (line.drop 2)
    let url := rest.takeWhile (fun c => !isspace c)
    let url_end := rest.dropWhile (fun c => !isspace c)
    let label := skip_whitespace url_end
    let label_copy := trim_trailing (if label ≠ [] then label else url)
    document_add_line doc LineType.LINE_LINK (some label_copy) (some url)
  else if strncmp_eq line (str "###") 3 then
    let text_copy := trim_trailing (skip_whitespace (line.drop 3))
    document_add_line doc LineType.LINE_HEADING3 (some text_copy) none
  else if strncmp_eq line (str "##") 2 then
    let text_copy := trim_trailing (skip_whitespace (line.drop 2))
    document_add_line doc LineType.LINE_HEADING2 (some text_copy) none
  else if rd line 0 = 35 then
    let text_copy := trim_trailing (skip_whitespace (line.drop 1))
    let doc := document_add_line doc LineType.LINE_HEADING1 (some text_copy) none
    if doc.title = none ∧ rd text_copy 0 ≠ 0 then { doc with title := some text_copy } else doc
  else if strncmp_eq line (str "* ") 2 then
    let text_copy := trim_trailing (line.drop 2)
    document_add_line doc LineType.LINE_LIST_ITEM (some text_copy) none
  else if rd line 0 = 62 then
    let text := line.drop 1
    let text := if rd text 0 = 32 then text.drop 1 else text
    let text_copy := trim_trailing text
    document_add_line doc LineType.LINE_QUOTE (some text_copy) none
  else
    let text_copy := trim_trailing line
    document_add_line doc LineType.LINE_TEXT (some text_copy) none

/-- The step "Skip to next line" (lines 115-117, 215-217): one '\r' and then one '\n' are
passed over. -/
def skip_eol (p : List Nat) : List Nat :=
  let p := match p with
    | 13 :: r => r
    | _ => p
  match p with
  | 10 :: r => r
  | _ => p

/-- The loop variables of document_parse that outlive a pass, apart from the read pointer. -/
structure ParseState where
  doc : Document
  in_preformatted : Bool
  preformat_block : Nat
deriving DecidableEq

/-- The loop body of document_parse from "Extract line content" on (lines 101-213), for the
bytes raw between line_start and line_end. The copy is read as a C string, so line is raw up
to its first NUL. Allocation is taken to succeed. -/
def document_parse_body (st : ParseState) (raw : List Nat) : ParseState :=
  let line := cstr (raw ++ [0]) 0
  if strncmp_eq line [96, 96, 96] 3 then
    let in_preformatted := !st.in_preformatted
    { st with in_preformatted := in_preformatted,
              preformat_block :=
                if in_preformatted then st.preformat_block + 1 else st.preformat_block }
  else
    { st with doc := document_parse_line st.doc st.in_preformatted st.preformat_block line }

/-- The while loop of document_parse (lines 92-218); p is the input from the read pointer to
end. One unit of fuel is one pass. -/
def document_parse_loop : Nat → List Nat → ParseState → ParseState
  | 0, _, st => st
  | fuel + 1, p, st =>
    if p = [] then st
    else
      let raw := p.takeWhile (fun c => c != 10 && c != 13)
      let line_end := p.dropWhile (fun c => c != 10 && c != 13)
      document_parse_loop fuel (skip_eol line_end) (document_parse_body st raw)

/-- The function document_parse (lines 80-221) on the len bytes of gemtext. Every pass moves
the read pointer forward, so a pass for each byte is enough fuel. -/
def document_parse (gemtext : List Nat) : Document :=
  (document_parse_loop gemtext.length gemtext
    { doc := document_new, in_preformatted := false, preformat_block := 0 }).doc

/-- The function document_link_count (lines 223-233) over the lines from the current one on. -/
def document_link_count_from : List DocLine → Nat → Nat
  | [], count => count
  | l :: rest, count =>
    document_link_count_from rest (if l.type = LineType.LINE_LINK then count + 1 else count)

/-- The function document_link_count. -/
def document_link_count (doc : Document) : Nat := document_link_count_from doc.lines 0

/-- The function document_link_url (lines 235-248) over the lines from the current one on. -/
def document_link_url_from : List DocLine → Nat → Nat → Option (List Nat)
  | [], _, _ => none
  | l :: rest, link_idx, index =>
    if l.type = LineType.LINE_LINK then
      if link_idx = index then l.url else document_link_url_from rest (link_idx + 1) index
    else document_link_url_from rest link_idx index

/-- The function document_link_url. -/
def document_link_url (doc : Document) (index : Nat) : Option (List Nat) :=
  document_link_url_from doc.lines 0 index

/-! ### The lines of a Gemtext source, as the specification counts them -/

/-- The source lines of an input, read byte by byte: a line ends at "\n", at "\r\n" or at a
'\r' alone, and bytes after the last terminator form a last line. cur holds the bytes of the
line being read, in reverse; open_line tells whether a line is being read. -/
def source_lines_aux : List Nat → List Nat → Bool → List (List Nat)
  | [], cur, open_line => if open_line then [cur.reverse] else []
  | 13 :: 10 :: rest, cur, _ => cur.reverse :: source_lines_aux rest [] false
  | 13 :: rest, cur, _ => cur.reverse :: source_lines_aux rest [] false
  | 10 :: rest, cur, _ => cur.reverse :: source_lines_aux rest [] false
  | c :: rest, cur, _ => source_lines_aux rest (c :: cur) true

/-- The source lines of an input. -/
def source_lines (s : List Nat) : List (List Nat) := source_lines_aux s [] false

/-- A fence line: a source line that begins with three backticks. -/
def is_fence (raw : List Nat) : Bool := [96, 96, 96].isPrefixOf raw

/-- The classification of a line outside preformatted mode by the precedence of the
specification. -/
def classify (raw : List Nat) : LineType :=
  if (str "=>").isPrefixOf raw then LineType.LINE_LINK
  else if (str "###").isPrefixOf raw then LineType.LINE_HEADING3
  else if (str "##").isPrefixOf raw then LineType.LINE_HEADING2
  else if (str "#").isPrefixOf raw then LineType.LINE_HEADING1
  else if (str "* ").isPrefixOf raw then LineType.LINE_LIST_ITEM
  else if (str ">").isPrefixOf raw then LineType.LINE_QUOTE
  else LineType.LINE_TEXT

/-- The DocLines that the loop body adds to an empty document for the source line raw, in the
given mode. -/
def produced_lines (in_preformatted : Bool) (preformat_block : Nat) (raw : List Nat) :
    List DocLine :=
  (document_parse_line document_new in_preformatted preformat_block (cstr (raw ++ [0]) 0)).lines

/-- The DocLines of a list of source lines, in order: a fence line gives none and toggles the
mode, opening the next block when it turns the mode on; every other line gives the lines
produced for it in the mode it is met in. -/
def spec_lines : List (List Nat) → Bool → Nat → List DocLine
  | [], _, _ => []
  | raw :: rest, pre, blk =>
    if is_fence raw then spec_lines rest (!pre) (if !pre then blk + 1 else blk)
    else produced_lines pre blk raw ++ spec_lines rest pre blk

/-- The lines of an input in the words of the specification: the input is split at "\n" and at
"\r\n", and a line need not be terminated at the end of the input. A '\r' that no '\n' follows
is a byte of its line. -/
def spec_source_lines_aux : List Nat → List Nat → Bool → List (List Nat)
  | [], cur, open_line => if open_line then [cur.reverse] else []
  | 13 :: 10 :: rest, cur, _ => cur.reverse :: spec_source_lines_aux rest [] false
  | 10 :: rest, cur, _ => cur.reverse :: spec_source_lines_aux rest [] false
  | c :: rest, cur, _ => spec_source_lines_aux rest (c :: cur) true

/-- The lines of an input in the words of the specification. -/
def spec_source_lines (s : List Nat) : List (List Nat) := spec_source_lines_aux s [] false

/-- Whether every '\r' of an input is followed by '\n'. -/
def no_lone_cr : List Nat → Bool
  | [] => true
  | 13 :: 10 :: rest => no_lone_cr rest
  | 13 :: _ => false
  | _ :: rest => no_lone_cr rest

/-! ### The output of unicode_sanitize, pass by pass and codepoint by codepoint -/

/-- The bytes that one pass of the loop of unicode_sanitize stores for the text p at the read
pointer. -/
def emitted (p : List Nat) : List Nat :=
  if (utf8_decode p).1 = 0xFFFD then [63]
  else
    match find_fallback (utf8_decode p).1 with
    | some fallback => fallback
    | none =>
      if needs_fallback (utf8_decode p).1 then generic_placeholder (utf8_decode p).1
      else p.take (utf8_decode p).2

/-- The bytes that the loop of unicode_sanitize stores for the text p, pass after pass. -/
def sanitize_text : Nat → List Nat → List Nat
  | 0, _ => []
  | fuel + 1, p =>
    if rd p 0 = 0 then [] else emitted p ++ sanitize_text fuel (p.drop (utf8_decode p).2)

/-- What the specification has the sanitizer write for one codepoint: '?' for U+FFFD, the
replacement of the fallback table, the placeholder of its range, or its UTF-8 encoding. -/
def sanitize_codepoint (c : Nat) : List Nat :=
  if c = 0xFFFD then [63]
  else
    match find_fallback c with
    | some r => r
    | none => if needs_fallback c then generic_placeholder c else utf8_encode c

/-- A string with its trailing whitespace removed. -/
def strip_trailing (s : List Nat) : List Nat := (s.reverse.dropWhile isspace).reverse

/-- A string with its leading and trailing whitespace removed. -/
def strip (s : List Nat) : List Nat := strip_trailing (s.dropWhile isspace)

/-- The line as the loop body of document_parse reads it: the raw bytes up to the first NUL. -/
def line_of (raw : List Nat) : List Nat := raw.takeWhile (fun c => c != 0)

/-- The target of a link line: the first maximal run of bytes that are not whitespace, after
"=>" and the whitespace that follows it. -/
def link_target (line : List Nat) : List Nat :=
  ((line.drop 2).dropWhile isspace).takeWhile (fun c => !isspace c)

/-- The rest of a link line after its target. -/
def link_remainder (line : List Nat) : List Nat :=
  ((line.drop 2).dropWhile isspace).dropWhile (fun c => !isspace c)

/-- The text of a first-level heading: the line without its '#', stripped of leading and
trailing whitespace. -/
def heading1_text (line : List Nat) : List Nat := strip (line.drop 1)

/-- The title in the words of the specification: the text of the first Heading1 line outside
fenced blocks whose text is not empty. pre tells whether the scan is inside a fenced block. -/
def spec_title : List (List Nat) → Bool → Option (List Nat)
  | [], _ => none
  | raw :: rest, pre =>
    if is_fence raw then spec_title rest (!pre)
    else if pre = false ∧ classify raw = LineType.LINE_HEADING1 ∧
        heading1_text (line_of raw) ≠ [] then
      some (heading1_text (line_of raw))
    else spec_title rest pre

/-- The DocLines of a list of source lines by the count k of fence lines met so far: after an
odd number of fences a line is inside the block number (k + 1) / 2 and is kept as it is, after
an even number it is outside every block. -/
def spec_fenced : List (List Nat) → Nat → List DocLine
  | [], _ => []
  | raw :: rest, k =>
    if is_fence raw then spec_fenced rest (k + 1)
    else
      (if k % 2 = 1 then
        [{ type := LineType.LINE_PREFORMATTED, text := unicode_sanitize (line_of raw), url := none,
           preformat_block := (k + 1) / 2 }]
      else produced_lines false 0 raw) ++ spec_fenced rest k

/-- The Link lines of a document, in document order. -/
def link_lines (doc : Document) : List DocLine :=
  doc.lines.filter (fun l => decide (l.type = LineType.LINE_LINK))

/-- An input with every "\n" replaced by "\r\n". -/
def crlf : List Nat → List Nat
  | [] => []
  | c :: rest => if c = 10 then 13 :: 10 :: crlf rest else c :: crlf rest

/-! ## history.c -/

def HISTORY_MAX_ENTRIES : Nat := 100

/-- The struct History (history.h): the two arrays as lists of their HISTORY_MAX_ENTRIES slots,
and the int fields current and count as integers. Within the bounds -1 ≤ current and
count ≤ 100 that the functions keep, no operation on them overflows. -/
structure History where
  entries : List Url
  scroll_positions : List Int
  current : Int
  count : Int
deriving DecidableEq

/-- A Url with every byte zero. -/
def Url.zeroed : Url := { scheme := [], host := [], port := 0, path := [], query := [], full := [] }

/-- The function history_init (lines 7-11): memset to zero, then current = -1. What the struct
held before is overwritten, so the result does not depend on it. -/
def history_init : History :=
  { entries := List.replicate HISTORY_MAX_ENTRIES Url.zeroed,
    scroll_positions := List.replicate HISTORY_MAX_ENTRIES 0,
    current := -1,
    count := 0 }

/-- The array after memmove(&a[0], &a[1], n * sizeof a[0]): the slots 1..n are copied to
0..n-1 and the slots from n on keep their content. -/
def memmove_down {α : Type} (a : List α) (n : Nat) : List α := (a.drop 1).take n ++ a.drop n

/-- The function history_push (lines 13-33) for non-NULL arguments. The slot written is
entries[count]; it lies in the array when -1 ≤ current (an index outside it is undefined
in C, the model then writes slot 0 or nothing). -/
def history_push (h : History) (url : Url) (scroll_y : Int) : History :=
  let count := h.current + 1
  let h1 : History :=
    if count ≥ (HISTORY_MAX_ENTRIES : Int) then
      History.mk (memmove_down h.entries (HISTORY_MAX_ENTRIES - 1))
        (memmove_down h.scroll_positions (HISTORY_MAX_ENTRIES - 1))
        ((HISTORY_MAX_ENTRIES : Int) - 1 - 1) ((HISTORY_MAX_ENTRIES : Int) - 1)
    else History.mk h.entries h.scroll_positions h.current count
  History.mk (h1.entries.set h1.count.toNat url) (h1.scroll_positions.set h1.count.toNat scroll_y)
    h1.count (h1.count + 1)

/-- The function history_update_scroll (lines 35-38). -/
def history_update_scroll (h : History) (scroll_y : Int) : History :=
  if h.current < 0 ∨ h.current ≥ h.count then h
  else { h with scroll_positions := h.scroll_positions.set h.current.toNat scroll_y }

/-- The function history_can_back (lines 60-62). -/
def history_can_back (h : History) : Bool := decide (h.current > 0)

/-- The function history_can_forward (lines 64-66). -/
def history_can_forward (h : History) : Bool := decide (h.current < h.count - 1)

/-- What history_back and history_forward leave behind: the value returned, the history, and
the objects that the parameters url and scroll_y point to (none for a NULL pointer). -/
structure Moved where
  ok : Bool
  h : History
  url : Option Url
  scroll_y : Option Int
deriving DecidableEq

/-- The read entries[i] of an int index; the index lies in the array in every use under
the bounds of the struct. -/
def entry_at (h : History) (i : Int) : Url := h.entries.getD i.toNat Url.zeroed

/-- The read scroll_positions[i]. -/
def scroll_at (h : History) (i : Int) : Int := h.scroll_positions.getD i.toNat 0

/-- The function history_back (lines 40-48); url and scroll_y are the objects the two out
parameters point to before the call, none for NULL. -/
def history_back (h : History) (url : Option Url) (scroll_y : Option Int) : Moved :=
  if !history_can_back h then { ok := false, h := h, url := url, scroll_y := scroll_y }
  else
    let h1 : History := { h with current := h.current - 1 }
    { ok := true, h := h1,
      url := url.map (fun _ => entry_at h1 h1.current),
      scroll_y := scroll_y.map (fun _ => scroll_at h1 h1.current) }

/-- The function history_forward (lines 50-58). -/
def history_forward (h : History) (url : Option Url) (scroll_y : Option Int) : Moved :=
  if !history_can_forward h then { ok := false, h := h, url := url, scroll_y := scroll_y }
  else
    let h1 : History := { h with current := h.current + 1 }
    { ok := true, h := h1,
      url := url.map (fun _ => entry_at h1 h1.current),
      scroll_y := scroll_y.map (fun _ => scroll_at h1 h1.current) }

/-- The function history_current (lines 68-71); none is the NULL pointer. -/
def history_current (h : History) : Option Url :=
  if h.current < 0 ∨ h.current ≥ h.count then none else some (entry_at h h.current)

/-! ### States of a history -/

/-- One call on a history, by a caller that may ignore what back and forward return. -/
inductive HistoryOp where
  | push (url : Url) (scroll_y : Int)
  | back
  | forward
  | update_scroll (scroll_y : Int)
deriving DecidableEq

/-- The history after one call. -/
def HistoryOp.run (h : History) : HistoryOp → History
  | HistoryOp.push url scroll_y => history_push h url scroll_y
  | HistoryOp.back => (history_back h none none).h
  | HistoryOp.forward => (history_forward h none none).h
  | HistoryOp.update_scroll scroll_y => history_update_scroll h scroll_y

/-- The history that a sequence of calls produces from history_init. -/
def history_run (ops : List HistoryOp) : History := ops.foldl HistoryOp.run history_init

/-- The arrays have the HISTORY_MAX_ENTRIES slots of their C type. -/
def History.Sized (h : History) : Prop :=
  h.entries.length = HISTORY_MAX_ENTRIES ∧ h.scroll_positions.length = HISTORY_MAX_ENTRIES

instance (h : History) : Decidable h.Sized := by
  unfold History.Sized
  infer_instance

/-- The cursor invariant of the specification: 0 ≤ count ≤ 100, current = -1 exactly when
count = 0, and 0 ≤ current < count whenever count > 0. -/
def History.Inv (h : History) : Prop :=
  (0 ≤ h.count ∧ h.count ≤ 100) ∧ (h.current = -1 ↔ h.count = 0) ∧
    (h.count > 0 → 0 ≤ h.current ∧ h.current < h.count)

instance (h : History) : Decidable h.Inv := by
  unfold History.Inv
  infer_instance

/-- A Url of the form gemini://host/ for the examples. -/
def page (host : String) : Url :=
  { scheme := str "gemini", host := str host, port := GEMINI_DEFAULT_PORT, path := [47], query := [],
    full := str "gemini://" ++ str host ++ [47] }

/-- The history after visiting a, b and c and going back once: three entries, cursor at b. -/
def history_abc : History :=
  history_run [HistoryOp.push (page "a") 0, HistoryOp.update_scroll 12, HistoryOp.push (page "b") 0,
    HistoryOp.update_scroll 7, HistoryOp.push (page "c") 0, HistoryOp.back]

/-- A full history: one hundred pushes, the entry at index i stored with scroll offset i. -/
def history_full : History :=
  history_run ((List.range 100).map (fun i => HistoryOp.push (page "a") (i : Int)))

/-! ## ui.c: ui_navigate -/

/-- The fields of the struct UI (ui.h) that ui_navigate branches on or that carry the page
shown: the document (none for NULL), the current Url, the loading flag, the scroll offset and
the history. The renderer, the status message and the redraw and keyboard fields are left
out; no branch of ui_navigate reads them. -/
structure UI where
  document : Option Document
  current_url : Url
  loading : Bool
  scroll_y : Int
  history : History
deriving DecidableEq

/-- How a call of ui_navigate ends in the model: it returns with the UI and the static counter
redirect_count, or it is one of the two bookmark addresses, which ui_show_bookmarks and
ui_delete_bookmark serve from the bookmark store (not modelled), or the model has run out of
fuel. -/
inductive Nav where
  | returned (ui : UI) (redirect_count : Int)
  | bookmark_page
  | no_fuel
deriving DecidableEq

/-- The function ui_navigate (lines 347-488) for non-NULL arguments. gemini_fetch n url is what
the n-th call of gemini_fetch of this navigation returns for url (none for NULL); n counts
from 0. redirect_count is the static local of that name. One unit of fuel is one call;
only a redirect that has not reached the limit calls again. -/
def ui_navigate_fuel (gemini_fetch : Nat → Url → Option GeminiResponse) :
    Nat → Nat → Int → UI → List Nat → Nav
  | 0, _, _, _, _ => Nav.no_fuel
  | fuel + 1, n, redirect_count, ui, url_str =>
    if url_str = str "gemini://bookmarks/" then Nav.bookmark_page
    else if strncmp_eq url_str (str "gemini://bookmarks/delete/") 26 then Nav.bookmark_page
    else
      let parsed :=
        if ui.current_url.host ≠ [] ∧ (strstr url_str (str "://")).isNone then
          url_resolve ui.current_url url_str
        else url_parse url_str
      if !parsed.1 then Nav.returned ui redirect_count
      else
        let url := parsed.2
        if !url_is_gemini url then Nav.returned ui redirect_count
        else
          let ui := { ui with history := history_update_scroll ui.history ui.scroll_y }
          match gemini_fetch n url with
          | none => Nav.returned { ui with loading := false } redirect_count
          | some resp =>
            let ui := { ui with loading := false }
            let category := gemini_status_category resp.status
            if category = 3 then
              let redirect_count := redirect_count + 1
              if redirect_count > 5 then Nav.returned ui 0
              else
                match ui_navigate_fuel gemini_fetch fuel (n + 1) redirect_count ui resp.meta with
                | Nav.returned ui _ => Nav.returned ui 0
                | other => other
            else if category ≠ 2 then
              Nav.returned { ui with document := none } redirect_count
            else
              let document : Option Document :=
                if strncmp_eq resp.meta (str "text/gemini") 11 || resp.meta == [] then
                  resp.body.map (fun body => document_parse (body.take resp.body_len))
                else if strncmp_eq resp.meta (str "text/") 5 then
                  match resp.body with
                  | some body =>
                    some (document_add_line document_new LineType.LINE_PREFORMATTED (some body) none)
                  | none => some document_new
                else
                  some (document_add_line document_new LineType.LINE_TEXT
                    (some ((str "Cannot display: " ++ resp.meta).take 255)) none)
              Nav.returned
                { document := document, current_url := url, loading := false, scroll_y := 0,
                  history := history_push ui.history url 0 }
                redirect_count

/-- The function ui_navigate with the fuel that the redirect limit makes sufficient: a call
made with redirect_count = r calls again only while r + 1 ≤ 5. -/
def ui_navigate (gemini_fetch : Nat → Url → Option GeminiResponse) (redirect_count : Int)
    (ui : UI) (url_str : List Nat) : Nav :=
  ui_navigate_fuel gemini_fetch ((6 - redirect_count).toNat + 1) 0 redirect_count ui url_str

/-- The Url that ui_navigate fetches for url_str: none when the address is a bookmark address,
does not parse or is not a gemini Url, so that the call returns without a fetch. -/
def fetched_url (ui : UI) (url_str : List Nat) : Option Url :=
  if url_str = str "gemini://bookmarks/" ∨
      strncmp_eq url_str (str "gemini://bookmarks/delete/") 26 = true then none
  else
    let parsed :=
      if ui.current_url.host ≠ [] ∧ (strstr url_str (str "://")).isNone then
        url_resolve ui.current_url url_str
      else url_parse url_str
    if parsed.1 = true ∧ url_is_gemini parsed.2 = true then some parsed.2 else none

/-- A UI that shows the page gemini://a/ at scroll offset 40, reached by one navigation. -/
def ui_sample : UI :=
  { document := some (document_parse (str "# A\nhello\n")),
    current_url := page "a",
    loading := false,
    scroll_y := 40,
    history := history_run [HistoryOp.push (page "a") 0] }

/-- A server that answers every request with status 51 and the meta "Not found". -/
def fetch_not_found : Nat → Url → Option GeminiResponse :=
  fun _ _ => some { GeminiResponse.zeroed with status := 51, meta := str "Not found" }

/-- A fetch that returns NULL. -/
def fetch_null : Nat → Url → Option GeminiResponse := fun _ _ => none

/-! ### The normalization with a bounded segment stack, in the words of the specification -/

/-- One step of the scan with a segment stack of capacity cap: empty and "." segments are
skipped, ".." removes the most recently kept segment, and another segment is kept when fewer
than cap segments are kept and dropped otherwise. -/
def stack_step (cap : Nat) (kept : List (List Nat)) (seg : List Nat) : List (List Nat) :=
  if seg = [] ∨ seg = [46] then kept
  else if seg = [46, 46] then kept.dropLast
  else if kept.length < cap then kept ++ [seg]
  else kept

/-- The reference normalization of a path with a segment stack of capacity cap. -/
def reference_normalize (cap : Nat) (p : List Nat) : List Nat :=
  [47] ++ [47].intercalate ((p.splitOn 47).foldl (stack_step cap) []) ++
    (if p.getLast? = some 47 ∧ (p.splitOn 47).foldl (stack_step cap) [] ≠ [] then [47] else [])

/-- The segments of a path: the non-empty pieces between its slashes. -/
def path_segments (p : List Nat) : List (List Nat) :=
  (p.splitOn 47).filter (fun s => decide (s ≠ []))

/-- The path of n segments "a": "/a/a/.../a". -/
def path_of_a (n : Nat) : List Nat := (List.replicate n [47, 97]).flatten

/-! ### The bound on the output buffer of unicode_sanitize -/

/-- The bytes written so far and the terminator fit the buffer: used + 1 ≤ out_capacity. -/
def SanitizeOut.InBuffer (o : SanitizeOut) : Prop := o.out.length + 1 ≤ o.out_capacity

instance (o : SanitizeOut) : Decidable o.InBuffer := by
  unfold SanitizeOut.InBuffer
  infer_instance

/-- U+2650, which the table replaces by "[Sagittarius]", followed by four bytes that start no
UTF-8 sequence. -/
def sagittarius_text : List Nat := [0xE2, 0x99, 0x90, 0xFF, 0xFF, 0xFF, 0xFF]

/-! ## The split loop and the rebuild loop of url_normalize_path -/

theorem take_drop_append_of_full (pre x Y : List Nat) (s k : Nat)
    (h : (pre.drop s).take k = Y) (hY : Y.length = k) :
    ((pre ++ x).drop s).take k = Y := by
  rcases Nat.eq_zero_or_pos k with hk | hk
  · subst hk
    simpa using h
  · have hlen : s + k ≤ pre.length := by
      have := congrArg List.length h
      simp only [List.length_take, List.length_drop, hY] at this
      omega
    rw [List.drop_append_of_le_length (by omega),
      List.take_append_of_le_length (by simp only [List.length_drop]; omega)]
    exact h

/-- The layout of the stored segments is not disturbed by bytes appended to the buffer. -/
theorem SegsOK_append_buf (pre x : List Nat) (L : List (Nat × List Nat)) :
    ∀ lo, SegsOK pre lo L → SegsOK (pre ++ x) lo L := by
  induction L with
  | nil => intro _ _; trivial
  | cons a r ih =>
    obtain ⟨s, t⟩ := a
    intro lo h
    exact ⟨h.1, take_drop_append_of_full pre x _ s _ h.2.1 (by simp), h.2.2.1, ih _ h.2.2.2⟩

theorem SegsOK_snoc (b : List Nat) (L : List (Nat × List Nat)) (s : Nat) (t : List Nat) :
    ∀ lo, SegsOK b lo (L ++ [(s, t)]) ↔
      (SegsOK b lo L ∧ endOf lo L ≤ s ∧ (b.drop s).take (t.length + 1) = t ++ [0] ∧
        (∀ c ∈ t, c ≠ 0)) := by
  induction L with
  | nil => intro lo; simp [SegsOK, endOf]
  | cons a r ih =>
    obtain ⟨s', t'⟩ := a
    intro lo
    rw [List.cons_append]
    simp only [SegsOK, endOf]
    rw [ih]
    tauto

theorem endOf_snoc (L : List (Nat × List Nat)) (s : Nat) (t : List Nat) :
    ∀ lo, endOf lo (L ++ [(s, t)]) = s + t.length + 1 := by
  induction L with
  | nil => intro lo; simp [endOf]
  | cons a r ih =>
    obtain ⟨s', t'⟩ := a
    intro lo
    rw [List.cons_append]
    simp only [endOf]
    rw [ih]

theorem SegsOK_dropLast (b : List Nat) (L : List (Nat × List Nat)) (lo : Nat)
    (h : SegsOK b lo L) : SegsOK b lo L.dropLast ∧ endOf lo L.dropLast ≤ endOf lo L := by
  rcases List.eq_nil_or_concat L with rfl | ⟨L', a, rfl⟩
  · simp [SegsOK]
  · obtain ⟨s, t⟩ := a
    rw [List.concat_eq_append] at h ⊢
    rw [List.dropLast_concat, endOf_snoc]
    rw [SegsOK_snoc] at h
    exact ⟨h.1, by omega⟩

theorem endOf_le_length (b : List Nat) (L : List (Nat × List Nat)) :
    ∀ lo, SegsOK b lo L → L ≠ [] → endOf lo L ≤ b.length := by
  intro lo h hne
  rcases List.eq_nil_or_concat L with rfl | ⟨L', a, rfl⟩
  · exact absurd rfl hne
  · obtain ⟨s, t⟩ := a
    rw [List.concat_eq_append] at h ⊢
    rw [endOf_snoc]
    rw [SegsOK_snoc] at h
    have := congrArg List.length h.2.2.1
    simp at this
    omega

/-- The layout from lo on depends only on the bytes of the buffer from index lo on. -/
theorem SegsOK_congr_drop (b b' : List Nat) (L : List (Nat × List Nat)) :
    ∀ lo, b.drop lo = b'.drop lo → SegsOK b lo L → SegsOK b' lo L := by
  induction L with
  | nil => intro _ _ _; trivial
  | cons a r ih =>
    obtain ⟨s, t⟩ := a
    intro lo hd h
    have key : ∀ k, lo ≤ k → b.drop k = b'.drop k := by
      intro k hk
      have h1 : b.drop k = (b.drop lo).drop (k - lo) := by
        rw [List.drop_drop]; congr 1; omega
      have h2 : b'.drop k = (b'.drop lo).drop (k - lo) := by
        rw [List.drop_drop]; congr 1; omega
      rw [h1, h2, hd]
    refine ⟨h.1, ?_, h.2.2.1, ih _ (key _ (by have := h.1; omega)) h.2.2.2⟩
    rw [← key s h.1]
    exact h.2.1

theorem takeWhile_append_stop (p : Nat → Bool) (l w : List Nat) (z : Nat) (hz : p z = false) :
    (l ++ z :: w).takeWhile p = l.takeWhile p := by
  induction l with
  | nil => simp [List.takeWhile, hz]
  | cons a l ih =>
    simp only [List.cons_append, List.takeWhile_cons]
    split <;> simp [ih]

theorem rd_append (pre x : List Nat) (i : Nat) : rd (pre ++ x) (pre.length + i) = rd x i := by
  unfold rd
  rw [List.getD_append_right _ _ _ _ (by omega)]
  congr 1
  omega

theorem rd_append_zero (pre x : List Nat) : rd (pre ++ x) pre.length = rd x 0 := by
  simpa using rd_append pre x 0

theorem keep_step_nil (K : List (List Nat)) : keep_step K [] = K := by
  simp [keep_step]

theorem fold_splitOn_slashes (sl r : List Nat) (hsl : ∀ c ∈ sl, c = 47) :
    ∀ K, (List.splitOn 47 (sl ++ r)).foldl keep_step K = (List.splitOn 47 r).foldl keep_step K := by
  induction sl with
  | nil => intro K; rfl
  | cons a sl ih =>
    intro K
    have ha : a = 47 := hsl a (by simp)
    subst ha
    have := ih (fun c hc => hsl c (by simp [hc])) K
    simp only [List.splitOn, List.cons_append, List.splitOnP_cons] at this ⊢
    simp [keep_step_nil, this]

theorem splitOn_seg_end (seg : List Nat) (h : ∀ c ∈ seg, c ≠ 47) : List.splitOn 47 seg = [seg] := by
  induction seg with
  | nil => rfl
  | cons a seg ih =>
    have ha : a ≠ 47 := h a (by simp)
    have := ih (fun c hc => h c (by simp [hc]))
    simp only [List.splitOn, List.splitOnP_cons] at this ⊢
    simp [ha, this]

theorem splitOn_seg_cons (seg r : List Nat) (h : ∀ c ∈ seg, c ≠ 47) :
    List.splitOn 47 (seg ++ 47 :: r) = seg :: List.splitOn 47 r := by
  unfold List.splitOn
  exact List.splitOnP_first _ seg (by simpa using h) 47 (by simp) r

/-- One pass of the split loop, on a buffer given as: bytes already read, a run of slashes, a
segment, and the rest of the path. -/
theorem split_iter (fuel : Nat) (pre sl seg rest2 segs : List Nat)
    (hsl : ∀ c ∈ sl, c = 47) (hseg : ∀ c ∈ seg, c ≠ 47 ∧ c ≠ 0) (hne : seg ≠ [])
    (hr2 : rest2 = [] ∨ ∃ r3, rest2 = 47 :: r3) :
    split_segments (fuel + 1) (pre ++ sl ++ seg ++ rest2 ++ [0, 0]) pre.length segs =
      if seg = [46] then
        split_segments fuel (pre ++ sl ++ seg ++ rest2 ++ [0, 0]) (pre ++ sl ++ seg).length segs
      else if seg = [46, 46] then
        split_segments fuel (pre ++ sl ++ seg ++ rest2 ++ [0, 0]) (pre ++ sl ++ seg).length
          (if 0 < segs.length then segs.dropLast else segs)
      else if segs.length < 256 then
        (if rest2 = [] then
          split_segments fuel (pre ++ sl ++ seg ++ rest2 ++ [0, 0]) (pre ++ sl ++ seg).length
            (segs ++ [(pre ++ sl).length])
        else
          split_segments fuel (pre ++ sl ++ seg ++ 0 :: rest2.tail ++ [0, 0])
            ((pre ++ sl ++ seg).length + 1) (segs ++ [(pre ++ sl).length]))
      else
        split_segments fuel (pre ++ sl ++ seg ++ rest2 ++ [0, 0]) (pre ++ sl ++ seg).length segs := by
  obtain ⟨c1, cs, rfl⟩ := List.exists_cons_of_ne_nil hne
  have hc1 : c1 ≠ 47 ∧ c1 ≠ 0 := hseg c1 (by simp)
  -- the byte under src
  have h0 : rd (pre ++ sl ++ (c1 :: cs) ++ rest2 ++ [0, 0]) pre.length ≠ 0 := by
    have : pre ++ sl ++ (c1 :: cs) ++ rest2 ++ [0, 0] = pre ++ (sl ++ (c1 :: cs) ++ rest2 ++ [0, 0]) := by
      simp
    rw [this, rd_append_zero]
    cases sl with
    | nil => simp [rd, hc1.2]
    | cons a sl => simp [rd, hsl a (by simp)]
  -- skipping the slashes
  have h1 : ((pre ++ sl ++ (c1 :: cs) ++ rest2 ++ [0, 0]).drop pre.length).takeWhile
      (fun c => c == 47) = sl := by
    have : pre ++ sl ++ (c1 :: cs) ++ rest2 ++ [0, 0] = pre ++ (sl ++ (c1 :: (cs ++ rest2 ++ [0, 0]))) := by
      simp
    rw [this, List.drop_left, List.takeWhile_append_of_pos (by simpa using hsl)]
    rw [List.takeWhile_cons_of_neg (by simp [hc1.1])]
    simp
  have h2 : rd (pre ++ sl ++ (c1 :: cs) ++ rest2 ++ [0, 0]) (pre.length + sl.length) = c1 := by
    have : pre ++ sl ++ (c1 :: cs) ++ rest2 ++ [0, 0] = (pre ++ sl) ++ (c1 :: (cs ++ rest2 ++ [0, 0])) := by
      simp
    rw [this, ← List.length_append, rd_append_zero]
    simp [rd]
  -- scanning the segment
  have h3 : ((pre ++ sl ++ (c1 :: cs) ++ rest2 ++ [0, 0]).drop (pre.length + sl.length)).takeWhile
      (fun c => c != 0 && c != 47) = c1 :: cs := by
    rw [← List.length_append]
    rcases hr2 with rfl | ⟨r3, rfl⟩
    · have : pre ++ sl ++ (c1 :: cs) ++ [] ++ [0, 0] = (pre ++ sl) ++ ((c1 :: cs) ++ 0 :: [0]) := by
        simp
      rw [this, List.drop_left, takeWhile_append_stop _ _ _ _ (by simp)]
      rw [List.takeWhile_eq_self_iff.2]
      intro c hc
      have := hseg c hc
      simp [this.1, this.2]
    · have : pre ++ sl ++ (c1 :: cs) ++ (47 :: r3) ++ [0, 0] =
          (pre ++ sl) ++ ((c1 :: cs) ++ 47 :: (r3 ++ [0, 0])) := by
        simp
      rw [this, List.drop_left, takeWhile_append_stop _ _ _ _ (by simp)]
      rw [List.takeWhile_eq_self_iff.2]
      intro c hc
      have := hseg c hc
      simp [this.1, this.2]
  have h4 : rd (pre ++ sl ++ (c1 :: cs) ++ rest2 ++ [0, 0]) (pre.length + sl.length + 1)
      = rd (cs ++ rest2 ++ [0, 0]) 0 := by
    have : pre ++ sl ++ (c1 :: cs) ++ rest2 ++ [0, 0] = (pre ++ sl ++ [c1]) ++ (cs ++ rest2 ++ [0, 0]) := by
      simp
    rw [this]
    have hl : pre.length + sl.length + 1 = (pre ++ sl ++ [c1]).length := by
      simp only [List.length_append, List.length_singleton]
    rw [hl, rd_append_zero]
  have h5 : rd (pre ++ sl ++ (c1 :: cs) ++ rest2 ++ [0, 0]) (pre ++ sl ++ (c1 :: cs)).length
      = rd rest2 0 := by
    have : pre ++ sl ++ (c1 :: cs) ++ rest2 ++ [0, 0] = (pre ++ sl ++ (c1 :: cs)) ++ (rest2 ++ [0, 0]) := by
      simp
    rw [this, rd_append_zero]
    rcases hr2 with rfl | ⟨r3, rfl⟩ <;> simp [rd]
  rw [split_segments]
  simp only [h0, if_false, h1, h2, h3, h4, hc1.2]
  have e1 : pre.length + sl.length + (c1 :: cs).length = (pre ++ sl ++ c1 :: cs).length := by
    simp only [List.length_append]
  have e2 : pre.length + sl.length = (pre ++ sl).length := by
    simp only [List.length_append]
  have c1iff : ((pre ++ sl ++ c1 :: cs).length - (pre ++ sl).length = 1 ∧ c1 = 46) ↔
      c1 :: cs = [46] := by
    simp only [List.length_append, List.length_cons]
    cases cs <;> simp
  have c2iff : ((pre ++ sl ++ c1 :: cs).length - (pre ++ sl).length = 2 ∧ c1 = 46 ∧
      rd (cs ++ rest2 ++ [0, 0]) 0 = 46) ↔ c1 :: cs = [46, 46] := by
    simp only [List.length_append, List.length_cons]
    match cs with
    | [] => simp
    | [a] => simp [rd]
    | a :: b :: r => simp
  have hset : rest2 ≠ [] → (pre ++ sl ++ c1 :: cs ++ rest2 ++ [0, 0]).set
      (pre ++ sl ++ c1 :: cs).length 0 = pre ++ sl ++ c1 :: cs ++ 0 :: rest2.tail ++ [0, 0] := by
    intro hne2
    obtain ⟨a, r3, rfl⟩ := List.exists_cons_of_ne_nil hne2
    have : pre ++ sl ++ c1 :: cs ++ a :: r3 ++ [0, 0] = (pre ++ sl ++ c1 :: cs) ++ (a :: (r3 ++ [0, 0])) := by
      simp
    rw [this, List.set_append_right _ _ (le_refl _)]
    simp
  have h5' : rd rest2 0 ≠ 0 ↔ rest2 ≠ [] := by
    rcases hr2 with rfl | ⟨r3, rfl⟩ <;> simp [rd]
  rw [e1, h5, e2]
  simp only [c1iff, c2iff]
  by_cases hr : rest2 = []
  · simp only [hr, h5'.not.2 (not_not.2 hr), if_true, if_false, ne_eq, not_true_eq_false, rd]
    simp
  · simp only [hr, h5'.2 hr, if_true, if_false, ne_eq, not_false_eq_true, hset hr]

theorem split_at_end (fuel : Nat) (pre w segs : List Nat) :
    split_segments fuel (pre ++ 0 :: w) pre.length segs = (pre ++ 0 :: w, segs) := by
  cases fuel with
  | zero => rfl
  | succ fuel =>
    rw [split_segments]
    have h : rd (pre ++ 0 :: w) pre.length = 0 := by
      rw [rd_append_zero]
      rfl
    simp only [h, if_true]

theorem split_only_slashes (fuel : Nat) (pre sl w segs : List Nat) (hsl : ∀ c ∈ sl, c = 47) :
    split_segments fuel (pre ++ sl ++ 0 :: w) pre.length segs = (pre ++ sl ++ 0 :: w, segs) := by
  cases fuel with
  | zero => rfl
  | succ fuel =>
    rw [split_segments]
    have h1 : ((pre ++ sl ++ 0 :: w).drop pre.length).takeWhile (fun c => c == 47) = sl := by
      rw [List.append_assoc, List.drop_left, takeWhile_append_stop _ _ _ _ (by simp)]
      exact List.takeWhile_eq_self_iff.2 (by simpa using hsl)
    have h2 : rd (pre ++ sl ++ 0 :: w) (pre.length + sl.length) = 0 := by
      rw [← List.length_append, rd_append_zero]
      simp [rd]
    simp only [h1, h2, if_true]
    split <;> rfl

theorem fold_seg (sl seg rest2 : List Nat) (K : List (List Nat)) (hsl : ∀ c ∈ sl, c = 47)
    (hseg : ∀ c ∈ seg, c ≠ 47) (hr2 : rest2 = [] ∨ ∃ r3, rest2 = 47 :: r3) :
    (List.splitOn 47 (sl ++ (seg ++ rest2))).foldl keep_step K =
      (List.splitOn 47 rest2).foldl keep_step (keep_step K seg) := by
  rw [fold_splitOn_slashes sl _ hsl]
  rcases hr2 with rfl | ⟨r3, rfl⟩
  · rw [List.append_nil, splitOn_seg_end seg hseg]
    simp [List.splitOn, keep_step_nil]
  · rw [splitOn_seg_cons seg r3 hseg]
    have := fold_splitOn_slashes [47] r3 (by simp) (keep_step K seg)
    simpa using this.symm

theorem dropWhile_head_neg (p : Nat → Bool) (l : List Nat) (c : Nat) (r : List Nat)
    (h : l.dropWhile p = c :: r) : p c = false := by
  have := List.head?_dropWhile_not p l
  rw [h] at this
  simpa using this

/-- The split loop ends within its fuel, stores exactly the segments that the list-level scan
keeps, and leaves each stored segment in the buffer followed by a NUL. -/
theorem split_ok : ∀ (fuel : Nat) (pre rest : List Nat) (L : List (Nat × List Nat)) (lo : Nat),
    (∀ c ∈ rest, c ≠ 0) → rest.length < fuel → SegsOK pre lo L →
    endOf lo L ≤ pre.length + (rest.takeWhile (fun c => c == 47)).length →
    ∃ pre' tail L', split_segments fuel (pre ++ rest ++ [0, 0]) pre.length (L.map Prod.fst)
        = (pre' ++ tail, L'.map Prod.fst) ∧ tail ≠ [] ∧
      (pre' ++ tail).length = (pre ++ rest ++ [0, 0]).length ∧ SegsOK pre' lo L' ∧
      L'.map Prod.snd = (List.splitOn 47 rest).foldl keep_step (L.map Prod.snd) := by
  intro fuel
  induction fuel with
  | zero => intro pre rest L lo _ h; omega
  | succ fuel ih =>
    intro pre rest L lo hnul hlen hseg hend
    have hdec : rest.takeWhile (fun c => c == 47) ++ rest.dropWhile (fun c => c == 47) = rest :=
      List.takeWhile_append_dropWhile _ _
    generalize hsl_def : rest.takeWhile (fun c => c == 47) = sl at hdec hend
    generalize hr1_def : rest.dropWhile (fun c => c == 47) = rest1 at hdec
    have hsl : ∀ c ∈ sl, c = 47 := by
      intro c hc
      rw [← hsl_def] at hc
      simpa using List.mem_takeWhile_imp hc
    cases rest1 with
    | nil =>
      rw [List.append_nil] at hdec
      subst hdec
      refine ⟨pre ++ sl, [0, 0], L, ?_, by simp, rfl, SegsOK_append_buf _ _ _ _ hseg, ?_⟩
      · exact split_only_slashes _ pre sl [0] _ hsl
      · have := fold_splitOn_slashes sl [] hsl (L.map Prod.snd)
        rw [List.append_nil] at this
        rw [this]
        simp [List.splitOn, keep_step_nil]
    | cons c1 cs1 =>
      have hc1 : c1 ≠ 47 := by
        have := dropWhile_head_neg _ _ _ _ hr1_def
        simpa using this
      have hdec2 : (c1 :: cs1).takeWhile (fun c => c != 47) ++ (c1 :: cs1).dropWhile (fun c => c != 47)
          = c1 :: cs1 := List.takeWhile_append_dropWhile _ _
      generalize hseg_def : (c1 :: cs1).takeWhile (fun c => c != 47) = seg at hdec2
      generalize hr2_def : (c1 :: cs1).dropWhile (fun c => c != 47) = rest2 at hdec2
      have hsegne : seg ≠ [] := by
        rw [← hseg_def, List.takeWhile_cons_of_pos (by simp [hc1])]
        simp
      have hrest : rest = sl ++ (seg ++ rest2) := by rw [hdec2, hdec]
      have hseg47 : ∀ c ∈ seg, c ≠ 47 := by
        intro c hc
        rw [← hseg_def] at hc
        simpa using List.mem_takeWhile_imp hc
      have hseg0 : ∀ c ∈ seg, c ≠ 47 ∧ c ≠ 0 := fun c hc =>
        ⟨hseg47 c hc, hnul c (by rw [hrest]; simp [hc])⟩
      have hr2 : rest2 = [] ∨ ∃ r3, rest2 = 47 :: r3 := by
        cases rest2 with
        | nil => exact Or.inl rfl
        | cons a r3 =>
          have := dropWhile_head_neg _ _ _ _ hr2_def
          simp at this
          exact Or.inr ⟨r3, by rw [this]⟩
      have hnul2 : ∀ c ∈ rest2, c ≠ 0 := fun c hc => hnul c (by rw [hrest]; simp [hc])
      have hlen2 : rest2.length < fuel := by
        have := congrArg List.length hrest
        simp only [List.length_append] at this
        have := List.length_pos.2 hsegne
        omega
      have hb : pre ++ rest ++ [0, 0] = pre ++ sl ++ seg ++ rest2 ++ [0, 0] := by
        rw [hrest]; simp
      have habs := fold_seg sl seg rest2 (L.map Prod.snd) hsl hseg47 hr2
      rw [← hrest] at habs
      rw [hb, split_iter fuel pre sl seg rest2 _ hsl hseg0 hsegne hr2, habs]
      have hseg1 : SegsOK (pre ++ sl ++ seg) lo L := by
        rw [List.append_assoc]
        exact SegsOK_append_buf _ _ _ _ hseg
      have hlen1 : (pre ++ sl ++ seg).length = pre.length + sl.length + seg.length := by
        simp only [List.length_append]
      by_cases hdot : seg = [46]
      · rw [if_pos hdot]
        obtain ⟨pre', tail, L', h1, h2, h3, h4, h5⟩ := ih (pre ++ sl ++ seg) rest2 L lo hnul2 hlen2
          hseg1 (by omega)
        refine ⟨pre', tail, L', h1, h2, h3, h4, ?_⟩
        rw [h5, hdot]
        simp [keep_step]
      · rw [if_neg hdot]
        by_cases hdd : seg = [46, 46]
        · rw [if_pos hdd]
          have hpop : (if 0 < (L.map Prod.fst).length then (L.map Prod.fst).dropLast
              else L.map Prod.fst) = L.dropLast.map Prod.fst := by
            rw [List.map_dropLast]
            split
            · rfl
            · cases L with
              | nil => rfl
              | cons a r => simp at *
          rw [hpop]
          have hd := SegsOK_dropLast _ _ _ hseg1
          have hd0 := SegsOK_dropLast _ _ _ hseg
          obtain ⟨pre', tail, L', h1, h2, h3, h4, h5⟩ := ih (pre ++ sl ++ seg) rest2 L.dropLast lo
            hnul2 hlen2 hd.1 (by have := hd0.2; omega)
          refine ⟨pre', tail, L', h1, h2, h3, h4, ?_⟩
          rw [h5, hdd, List.map_dropLast]
          simp [keep_step]
        · rw [if_neg hdd]
          have hstep : keep_step (L.map Prod.snd) seg =
              if (L.map Prod.snd).length < 256 then L.map Prod.snd ++ [seg] else L.map Prod.snd := by
            simp [keep_step, hsegne, hdot, hdd]
          rw [hstep]
          simp only [List.length_map]
          by_cases hcap : L.length < 256
          · rw [if_pos hcap, if_pos hcap]
            have hpush : L.map Prod.fst ++ [(pre ++ sl).length] =
                (L ++ [((pre ++ sl).length, seg)]).map Prod.fst := by simp
            have hpush2 : L.map Prod.snd ++ [seg] =
                (L ++ [((pre ++ sl).length, seg)]).map Prod.snd := by simp
            rw [hpush, hpush2]
            have hsegs' : SegsOK (pre ++ sl ++ seg ++ [0]) lo (L ++ [((pre ++ sl).length, seg)]) := by
              rw [SegsOK_snoc]
              refine ⟨?_, ?_, ?_, fun c hc => (hseg0 c hc).2⟩
              · rw [List.append_assoc, List.append_assoc]
                exact SegsOK_append_buf _ _ _ _ hseg
              · simp only [List.length_append]; omega
              · rw [List.append_assoc, List.drop_left]
                simp
            by_cases hr : rest2 = []
            · rw [if_pos hr]
              subst hr
              refine ⟨pre ++ sl ++ seg ++ [0], [0], _, ?_, by simp, by simp, hsegs', ?_⟩
              · have := split_at_end fuel (pre ++ sl ++ seg) [0]
                  ((L ++ [((pre ++ sl).length, seg)]).map Prod.fst)
                simpa using this
              · simp [List.splitOn, keep_step_nil]
            · rw [if_neg hr]
              obtain ⟨r3, rfl⟩ : ∃ r3, rest2 = 47 :: r3 := by
                rcases hr2 with h | h
                · exact absurd h hr
                · exact h
              have hnul3 : ∀ c ∈ r3, c ≠ 0 := fun c hc => hnul2 c (by simp [hc])
              obtain ⟨pre', tail, L', h1, h2, h3, h4, h5⟩ := ih (pre ++ sl ++ seg ++ [0]) r3
                (L ++ [((pre ++ sl).length, seg)]) lo hnul3 (by simp at hlen2; omega) hsegs'
                (by rw [endOf_snoc]; simp only [List.length_append, List.length_singleton]; omega)
              refine ⟨pre', tail, L', ?_, h2, ?_, h4, ?_⟩
              · rw [← h1]
                have e : (pre ++ sl ++ seg).length + 1 = (pre ++ sl ++ seg ++ [0]).length := by
                  simp only [List.length_append, List.length_singleton]
                have e2 : pre ++ sl ++ seg ++ 0 :: (47 :: r3).tail ++ [0, 0] =
                    pre ++ sl ++ seg ++ [0] ++ r3 ++ [0, 0] := by simp
                rw [e, e2]
              · rw [h3]; simp
              · rw [h5]
                have := fold_splitOn_slashes [47] r3 (by simp)
                  ((L ++ [((pre ++ sl).length, seg)]).map Prod.snd)
                simpa using this.symm
          · rw [if_neg hcap, if_neg hcap]
            obtain ⟨pre', tail, L', h1, h2, h3, h4, h5⟩ := ih (pre ++ sl ++ seg) rest2 L lo hnul2 hlen2
              hseg1 (by omega)
            exact ⟨pre', tail, L', h1, h2, h3, h4, h5⟩

theorem intercalate_cons_cons (t u : List Nat) (r : List (List Nat)) :
    [47].intercalate (t :: u :: r) = t ++ 47 :: [47].intercalate (u :: r) := by
  simp [List.intercalate, List.intersperse]

theorem intercalate_single (t : List Nat) : [47].intercalate [t] = t := by
  simp [List.intercalate, List.intersperse]

theorem cstr_of_content (b t : List Nat) (s : Nat) (h : (b.drop s).take (t.length + 1) = t ++ [0])
    (ht : ∀ c ∈ t, c ≠ 0) : cstr b s = t := by
  unfold cstr
  have : b.drop s = t ++ 0 :: (b.drop s).drop (t.length + 1) := by
    conv_lhs => rw [← List.take_append_drop (t.length + 1) (b.drop s), h]
    simp
  rw [this, takeWhile_append_stop _ _ _ _ (by simp)]
  exact List.takeWhile_eq_self_iff.2 (by simpa using ht)

theorem content_bounds (b t : List Nat) (s : Nat) (h : (b.drop s).take (t.length + 1) = t ++ [0]) :
    s + t.length + 1 ≤ b.length ∧ (b.drop s).take t.length = t := by
  constructor
  · have := congrArg List.length h
    simp only [List.length_take, List.length_drop, List.length_append, List.length_singleton] at this
    omega
  · have := congrArg (List.take t.length) h
    rw [List.take_take] at this
    simpa using this

/-- The rebuild loop writes the stored segments joined by '/' at dst; this needs dst to be at most
the start of the first stored segment, so that no segment is overwritten before it is copied. -/
theorem rebuild_ok : ∀ (L : List (Nat × List Nat)) (b : List Nat) (lo dst : Nat),
    SegsOK b lo L → dst ≤ lo → dst ≤ b.length →
    ∃ b' dst', rebuild (L.map Prod.fst) b dst = (b', dst') ∧ b'.length = b.length ∧
      b'.take dst' = b.take dst ++ [47].intercalate (L.map Prod.snd) ∧
      (L ≠ [] → dst' + 1 ≤ endOf lo L) ∧ (L = [] → dst' = dst) := by
  intro L
  induction L with
  | nil =>
    intro b lo dst _ _ _
    exact ⟨b, dst, rfl, rfl, by simp [List.intercalate], by simp, by simp⟩
  | cons a r ih =>
    obtain ⟨s, t⟩ := a
    intro b lo dst h hdst hlen
    obtain ⟨hlo, hcont, hnul, hrest⟩ := h
    obtain ⟨hb1, hb2⟩ := content_bounds b t s hcont
    have hstrlen : strlen b s = t.length := by
      unfold strlen
      rw [cstr_of_content b t s hcont hnul]
    have hcpy : memcpy b dst s t.length = b.take dst ++ t ++ b.drop (dst + t.length) := by
      unfold memcpy
      rw [hb2]
    have hcpy_len : (memcpy b dst s t.length).length = b.length := by
      rw [hcpy]
      simp only [List.length_append, List.length_take, List.length_drop]
      omega
    have hcpy_take : (memcpy b dst s t.length).take (dst + t.length) = b.take dst ++ t := by
      rw [hcpy]
      apply List.take_left'
      simp only [List.length_append, List.length_take]
      omega
    have hcpy_drop : ∀ k, dst + t.length ≤ k → (memcpy b dst s t.length).drop k = b.drop k := by
      intro k hk
      rw [hcpy]
      have e : k = (b.take dst ++ t).length + (k - (dst + t.length)) := by
        simp only [List.length_append, List.length_take]
        omega
      rw [e, List.drop_append, List.drop_drop]
      congr 1
      simp only [List.length_append, List.length_take]
      omega
    simp only [List.map_cons, rebuild, hstrlen]
    cases r with
    | nil =>
      refine ⟨memcpy b dst s t.length, dst + t.length, by simp [rebuild], hcpy_len, ?_, ?_, by simp⟩
      · rw [hcpy_take]
        simp [intercalate_single]
      · intro _
        simp only [endOf]
        omega
    | cons a2 r2 =>
      have hne : List.map Prod.fst (a2 :: r2) ≠ [] := by simp
      rw [if_pos hne]
      have hset_len : ((memcpy b dst s t.length).set (dst + t.length) 47).length = b.length := by
        rw [List.length_set, hcpy_len]
      have hsegs : SegsOK ((memcpy b dst s t.length).set (dst + t.length) 47) (s + t.length + 1)
          (a2 :: r2) := by
        apply SegsOK_congr_drop b _ _ _ _ hrest
        rw [List.drop_set_of_lt _ _ (by omega), hcpy_drop _ (by omega)]
      obtain ⟨b', dst', h1, h2, h3, h4, _⟩ := ih _ (s + t.length + 1) (dst + t.length + 1) hsegs
        (by omega) (by rw [hset_len]; omega)
      refine ⟨b', dst', h1, by rw [h2, hset_len], ?_, ?_, by simp⟩
      · rw [h3]
        have : ((memcpy b dst s t.length).set (dst + t.length) 47).take (dst + t.length + 1) =
            b.take dst ++ t ++ [47] := by
          rw [List.set_eq_take_append_cons_drop, if_pos (by rw [hcpy_len]; omega), hcpy_take]
          rw [List.append_cons]
          apply List.take_left'
          simp only [List.length_append, List.length_take, List.length_singleton]
          omega
        rw [this]
        obtain ⟨s2, t2⟩ := a2
        simp [intercalate_cons_cons]
      · intro _
        have := h4 (by simp)
        simpa [endOf] using this

theorem SegsOK_nulfree (b : List Nat) (L : List (Nat × List Nat)) :
    ∀ lo, SegsOK b lo L → ∀ t ∈ L.map Prod.snd, ∀ c ∈ t, c ≠ 0 := by
  induction L with
  | nil => intro _ _ t ht; simp at ht
  | cons a r ih =>
    obtain ⟨s, t'⟩ := a
    intro lo h t ht
    simp only [List.map_cons, List.mem_cons] at ht
    rcases ht with rfl | ht
    · exact h.2.2.1
    · exact ih _ h.2.2.2 t ht

theorem cstr_set_zero (b : List Nat) (d : Nat) (hd : d < b.length) (h : ∀ c ∈ b.take d, c ≠ 0) :
    cstr (b.set d 0) 0 = b.take d := by
  unfold cstr
  rw [List.drop_zero, List.set_eq_take_append_cons_drop, if_pos hd,
    takeWhile_append_stop _ _ _ _ (by simp)]
  exact List.takeWhile_eq_self_iff.2 (by simpa using h)

theorem rd_last (p : List Nat) (hp : p ≠ []) : (rd p (p.length - 1) = 47) ↔ p.getLast? = some 47 := by
  unfold rd
  rw [List.getLast?_eq_getElem?, List.getD_eq_getElem?_getD]
  have hlt : p.length - 1 < p.length := by
    have := List.length_pos.2 hp
    omega
  rw [List.getElem?_eq_getElem hlt]
  simp

theorem mem_intercalate (c : Nat) : ∀ K : List (List Nat), c ∈ [47].intercalate K →
    c = 47 ∨ ∃ t ∈ K, c ∈ t
  | [], h => by simp [List.intercalate] at h
  | [t], h => by
    rw [intercalate_single] at h
    exact Or.inr ⟨t, by simp, h⟩
  | t :: u :: r, h => by
    rw [intercalate_cons_cons] at h
    simp only [List.mem_append, List.mem_cons] at h
    rcases h with h | h | h
    · exact Or.inr ⟨t, by simp, h⟩
    · exact Or.inl h
    · rcases mem_intercalate c (u :: r) h with h' | ⟨t', ht', hc⟩
      · exact Or.inl h'
      · exact Or.inr ⟨t', List.mem_cons_of_mem _ ht', hc⟩

/-- On a path that begins with '/', the in-place url_normalize_path computes norm_spec. -/
theorem url_normalize_path_eq (p : List Nat) (hnul : ∀ c ∈ p, c ≠ 0) (hslash : p.head? = some 47) :
    url_normalize_path p = norm_spec p := by
  obtain ⟨p', rfl⟩ : ∃ p', p = 47 :: p' := by
    cases p with
    | nil => simp at hslash
    | cons a p' => simp at hslash; exact ⟨p', by rw [hslash]⟩
  obtain ⟨pre', tail, L', h1, h2, h3, h4, h5⟩ := split_ok ((47 :: p').length + 1) [] (47 :: p') [] 1
    hnul (by omega) trivial (by simp [endOf, List.takeWhile_cons])
  simp only [List.nil_append, List.length_nil, List.map_nil] at h1 h3 h5
  have hlen : (pre' ++ tail).length = p'.length + 3 := by
    rw [h3]; simp
  have hk : kept_segments (47 :: p') = L'.map Prod.snd := h5.symm
  have hsegs2 : SegsOK ((pre' ++ tail).set 0 47) 1 L' := by
    apply SegsOK_congr_drop (pre' ++ tail) _ _ _ _ (SegsOK_append_buf _ _ _ _ h4)
    rw [List.drop_set_of_lt _ _ (by omega)]
  obtain ⟨b3, dst, r1, r2, r3, r4, r5⟩ := rebuild_ok L' ((pre' ++ tail).set 0 47) 1 1 hsegs2
    (le_refl _) (by rw [List.length_set, hlen]; omega)
  have hb3len : b3.length = p'.length + 3 := by
    rw [r2, List.length_set, hlen]
  have htake1 : ((pre' ++ tail).set 0 47).take 1 = [47] := by
    rw [List.set_eq_take_append_cons_drop, if_pos (by omega)]
    simp
  rw [htake1] at r3
  have hend : L' ≠ [] → dst + 2 ≤ b3.length := by
    intro hne
    have e1 := r4 hne
    have e2 := endOf_le_length _ _ _ h4 hne
    have e3 : pre'.length + 1 ≤ (pre' ++ tail).length := by
      have := List.length_pos.2 h2
      simp only [List.length_append]
      omega
    omega
  have hdst1 : dst + 1 ≤ b3.length := by
    by_cases hne : L' = []
    · rw [r5 hne]; omega
    · have := hend hne; omega
  have hout_nul : ∀ c ∈ [47] ++ [47].intercalate (L'.map Prod.snd), c ≠ 0 := by
    intro c hc
    simp only [List.mem_append, List.mem_singleton] at hc
    rcases hc with rfl | hc
    · decide
    · rcases mem_intercalate c _ hc with rfl | ⟨l, hl, hcl⟩
      · decide
      · exact SegsOK_nulfree _ _ _ h4 l hl c hcl
  have htrail : (decide ((47 :: p').length > 1) && (rd (47 :: p') ((47 :: p').length - 1) == 47) &&
      decide (0 < (L'.map Prod.fst).length)) =
      decide ((47 :: p').getLast? = some 47 ∧ kept_segments (47 :: p') ≠ []) := by
    have hlast := rd_last (47 :: p') (by simp)
    have hL : 0 < (L'.map Prod.fst).length ↔ kept_segments (47 :: p') ≠ [] := by
      rw [hk]
      cases L' <;> simp
    have hone : kept_segments (47 :: p') ≠ [] → (47 :: p').length > 1 := by
      intro hne
      cases p' with
      | nil => exact absurd (by decide) hne
      | cons a r => simp
    rw [Bool.eq_iff_iff]
    simp only [Bool.and_eq_true, decide_eq_true_eq, beq_iff_eq, hlast, hL]
    constructor
    · rintro ⟨⟨_, h⟩, h'⟩
      exact ⟨h, h'⟩
    · rintro ⟨h, h'⟩
      exact ⟨⟨hone h', h⟩, h'⟩
  unfold url_normalize_path norm_spec
  rw [if_neg (by simp)]
  simp only [h1, r1, htrail, hk]
  by_cases hc : (47 :: p').getLast? = some 47 ∧ List.map Prod.snd L' ≠ []
  · have hne : L' ≠ [] := by
      intro h
      rw [h] at hc
      simp at hc
    have hd := hend hne
    simp only [decide_eq_true hc, if_pos hc, ↓reduceIte]
    have htk : (b3.set dst 47).take (dst + 1) = [47] ++ [47].intercalate (L'.map Prod.snd) ++ [47] := by
      rw [List.set_eq_take_append_cons_drop, if_pos (by omega), ← r3, List.append_cons]
      apply List.take_left'
      simp only [List.length_append, List.length_take, List.length_singleton]
      omega
    rw [cstr_set_zero _ _ (by rw [List.length_set]; omega), htk]
    rw [htk]
    intro c hc'
    simp only [List.mem_append, List.mem_singleton] at hc'
    rcases hc' with hc' | rfl
    · exact hout_nul c (by simpa using hc')
    · decide
  · simp only [decide_eq_false hc, if_neg hc, Bool.false_eq_true, ↓reduceIte, List.append_nil]
    rw [cstr_set_zero _ _ (by omega), r3]
    rw [r3]
    exact hout_nul

/-! ## Properties of the list-level normalizer -/

theorem splitOn_cons_sep (l : List Nat) : List.splitOn 47 (47 :: l) = [] :: List.splitOn 47 l := by
  simp [List.splitOn, List.splitOnP_cons]

theorem splitOn_cons_ne (a : Nat) (l : List Nat) (ha : a ≠ 47) :
    ∃ h t, List.splitOn 47 l = h :: t ∧ List.splitOn 47 (a :: l) = (a :: h) :: t := by
  have hne : List.splitOn 47 l ≠ [] := List.splitOnP_ne_nil _ _
  obtain ⟨h, t, ht⟩ := List.exists_cons_of_ne_nil hne
  refine ⟨h, t, ht, ?_⟩
  unfold List.splitOn at ht ⊢
  rw [List.splitOnP_cons, ht]
  simp [ha]

theorem splitOn_mem (l : List Nat) : ∀ t ∈ List.splitOn 47 l, ∀ c ∈ t, c ≠ 47 ∧ c ∈ l := by
  induction l with
  | nil => intro t ht c hc; simp [List.splitOn] at ht; subst ht; simp at hc
  | cons a l ih =>
    intro t ht c hc
    by_cases ha : a = 47
    · subst ha
      rw [splitOn_cons_sep] at ht
      rcases List.mem_cons.1 ht with rfl | ht
      · simp at hc
      · have := ih t ht c hc
        exact ⟨this.1, List.mem_cons_of_mem _ this.2⟩
    · obtain ⟨h, tl, e1, e2⟩ := splitOn_cons_ne a l ha
      rw [e2] at ht
      rcases List.mem_cons.1 ht with rfl | ht
      · rcases List.mem_cons.1 hc with rfl | hc
        · exact ⟨ha, by simp⟩
        · have := ih h (by rw [e1]; simp) c hc
          exact ⟨this.1, List.mem_cons_of_mem _ this.2⟩
      · have := ih t (by rw [e1]; simp [ht]) c hc
        exact ⟨this.1, List.mem_cons_of_mem _ this.2⟩

theorem keep_step_cases (K : List (List Nat)) (s : List Nat) :
    (¬ normal_seg s ∧ (keep_step K s = K ∨ keep_step K s = K.dropLast)) ∨
    (normal_seg s ∧ K.length < 256 ∧ keep_step K s = K ++ [s]) ∨
    (normal_seg s ∧ ¬ K.length < 256 ∧ keep_step K s = K) := by
  unfold keep_step normal_seg
  by_cases h1 : s = []
  · simp [h1]
  · by_cases h2 : s = [46]
    · simp [h2]
    · by_cases h3 : s = [46, 46]
      · simp [h3]
      · by_cases h4 : K.length < 256 <;> simp [h1, h2, h3, h4]

theorem fold_keep_inv (Q : List Nat → Prop) : ∀ (segs : List (List Nat)) (K : List (List Nat)),
    (∀ t ∈ K, Q t) → K.length ≤ 256 → (∀ s ∈ segs, normal_seg s → Q s) →
    (∀ t ∈ segs.foldl keep_step K, Q t) ∧ (segs.foldl keep_step K).length ≤ 256 := by
  intro segs
  induction segs with
  | nil => intro K hK hl _; exact ⟨hK, hl⟩
  | cons s segs ih =>
    intro K hK hl hs
    rw [List.foldl_cons]
    apply ih
    · rcases keep_step_cases K s with ⟨_, h | h⟩ | ⟨hn, _, h⟩ | ⟨_, _, h⟩
      · rw [h]; exact hK
      · rw [h]; exact fun t ht => hK t (List.mem_of_mem_dropLast ht)
      · rw [h]
        intro t ht
        rcases List.mem_append.1 ht with ht | ht
        · exact hK t ht
        · simp at ht; subst ht; exact hs _ (by simp) hn
      · rw [h]; exact hK
    · rcases keep_step_cases K s with ⟨_, h | h⟩ | ⟨hn, hc, h⟩ | ⟨_, _, h⟩
      · rw [h]; exact hl
      · rw [h, List.length_dropLast]; omega
      · rw [h, List.length_append, List.length_singleton]; omega
      · rw [h]; exact hl
    · exact fun s' hs' => hs s' (List.mem_cons_of_mem _ hs')

theorem kept_props (p : List Nat) :
    (∀ t ∈ kept_segments p, normal_seg t ∧ ∀ c ∈ t, c ≠ 47 ∧ c ∈ p) ∧
      (kept_segments p).length ≤ 256 := by
  unfold kept_segments
  apply fold_keep_inv (fun t => normal_seg t ∧ ∀ c ∈ t, c ≠ 47 ∧ c ∈ p)
  · intro t ht; simp at ht
  · simp
  · intro s hs hn
    exact ⟨hn, splitOn_mem p s hs⟩

theorem fold_normal : ∀ (segs K : List (List Nat)), (∀ s ∈ segs, normal_seg s) →
    K.length + segs.length ≤ 256 → segs.foldl keep_step K = K ++ segs := by
  intro segs
  induction segs with
  | nil => intro K _ _; simp
  | cons s segs ih =>
    intro K hs hl
    rw [List.foldl_cons]
    have hn := hs s (by simp)
    simp only [List.length_cons] at hl
    rcases keep_step_cases K s with ⟨h, _⟩ | ⟨_, _, h⟩ | ⟨_, hc, _⟩
    · exact absurd hn h
    · rw [h, ih _ (fun s' hs' => hs s' (List.mem_cons_of_mem _ hs'))]
      · simp
      · simp only [List.length_append, List.length_singleton]; omega
    · omega

theorem intercalate_nil_cons (K : List (List Nat)) (hK : K ≠ []) :
    [47].intercalate ([] :: K) = 47 :: [47].intercalate K := by
  obtain ⟨u, r, rfl⟩ := List.exists_cons_of_ne_nil hK
  rw [intercalate_cons_cons]
  rfl

theorem intercalate_snoc_nil : ∀ (K : List (List Nat)), K ≠ [] →
    [47].intercalate (K ++ [[]]) = [47].intercalate K ++ [47]
  | [], h => absurd rfl h
  | [t], _ => by
    rw [List.singleton_append, intercalate_cons_cons, intercalate_single, intercalate_single]
  | t :: u :: r, _ => by
    rw [List.cons_append, List.cons_append, intercalate_cons_cons, ← List.cons_append,
      intercalate_snoc_nil (u :: r) (by simp), intercalate_cons_cons]
    simp

theorem getLast_intercalate : ∀ (K : List (List Nat)) (X : List Nat), K ≠ [] →
    (∀ t ∈ K, t ≠ []) → ∃ t ∈ K, (X ++ [47].intercalate K).getLast? = t.getLast?
  | [], _, h, _ => absurd rfl h
  | [t], X, _, hne => by
    refine ⟨t, by simp, ?_⟩
    rw [intercalate_single]
    have := hne t (by simp)
    rw [List.getLast?_append_of_ne_nil _ this]
  | t :: u :: r, X, _, hne => by
    rw [intercalate_cons_cons]
    obtain ⟨t', ht', h⟩ := getLast_intercalate (u :: r) (X ++ t ++ [47]) (by simp)
      (fun t ht => hne t (List.mem_cons_of_mem _ ht))
    refine ⟨t', List.mem_cons_of_mem _ ht', ?_⟩
    rw [← h]
    simp

theorem norm_spec_def (p : List Nat) : norm_spec p =
    [47] ++ [47].intercalate (kept_segments p) ++
      (if p.getLast? = some 47 ∧ kept_segments p ≠ [] then [47] else []) := rfl

theorem norm_spec_head (p : List Nat) : (norm_spec p).head? = some 47 := by
  simp [norm_spec]

theorem norm_spec_mem (p : List Nat) (c : Nat) (hc : c ∈ norm_spec p) : c = 47 ∨ c ∈ p := by
  unfold norm_spec at hc
  simp only [List.mem_append, List.mem_singleton] at hc
  rcases hc with (rfl | hc) | hc
  · exact Or.inl rfl
  · rcases mem_intercalate c _ hc with h | ⟨t, ht, hct⟩
    · exact Or.inl h
    · exact Or.inr (((kept_props p).1 t ht).2 c hct).2
  · split at hc
    · simp at hc; exact Or.inl hc
    · simp at hc

/-- The list-level normalizer is idempotent. -/
theorem norm_spec_idem (p : List Nat) : norm_spec (norm_spec p) = norm_spec p := by
  obtain ⟨hK, hKlen⟩ := kept_props p
  by_cases hk : kept_segments p = []
  · have : norm_spec p = [47] := by simp [norm_spec, hk, List.intercalate]
    rw [this]
    decide
  · have hsep : ∀ l ∈ kept_segments p, (47 : Nat) ∉ l := fun l hl h47 => ((hK l hl).2 47 h47).1 rfl
    have hnorm : ∀ s ∈ kept_segments p, normal_seg s := fun s hs => (hK s hs).1
    by_cases htr : p.getLast? = some 47
    · -- the rebuilt path ends with a slash
      have hout : norm_spec p = [47].intercalate ([] :: (kept_segments p ++ [[]])) := by
        rw [intercalate_nil_cons _ (by simp), intercalate_snoc_nil _ hk]
        simp [norm_spec, htr, hk]
      have hsplit : List.splitOn 47 (norm_spec p) = [] :: (kept_segments p ++ [[]]) := by
        rw [hout]
        apply List.splitOn_intercalate
        · intro l hl
          simp only [List.mem_cons, List.mem_append, List.mem_singleton] at hl
          rcases hl with rfl | hl | hl
          · simp
          · exact hsep l hl
          · simp at hl; subst hl; simp
        · simp
      have hkept : kept_segments (norm_spec p) = kept_segments p := by
        conv_lhs => unfold kept_segments
        rw [hsplit, List.foldl_cons, keep_step_nil, List.foldl_append,
          fold_normal _ _ hnorm (by simpa using hKlen)]
        simp [keep_step_nil]
      have hlast : (norm_spec p).getLast? = some 47 := by
        have e : norm_spec p = ([47] ++ [47].intercalate (kept_segments p)) ++ [47] := by
          simp [norm_spec, htr, hk]
        rw [e, List.getLast?_append_of_ne_nil _ (by simp)]
        rfl
      rw [norm_spec_def (norm_spec p), hkept, hlast]
      simp [norm_spec, htr]
    · have hout : norm_spec p = [47].intercalate ([] :: kept_segments p) := by
        rw [intercalate_nil_cons _ hk]
        simp [norm_spec, htr]
      have hsplit : List.splitOn 47 (norm_spec p) = [] :: kept_segments p := by
        rw [hout]
        apply List.splitOn_intercalate
        · intro l hl
          simp only [List.mem_cons] at hl
          rcases hl with rfl | hl
          · simp
          · exact hsep l hl
        · simp
      have hkept : kept_segments (norm_spec p) = kept_segments p := by
        conv_lhs => unfold kept_segments
        rw [hsplit, List.foldl_cons, keep_step_nil, fold_normal _ _ hnorm (by simpa using hKlen)]
        simp
      have hlast : (norm_spec p).getLast? ≠ some 47 := by
        have e : norm_spec p = [47] ++ [47].intercalate (kept_segments p) := by
          simp [norm_spec, htr]
        obtain ⟨t, ht, hl⟩ := getLast_intercalate (kept_segments p) [47] hk
          (fun t ht => (hK t ht).1.1)
        rw [e, hl]
        intro h47
        have hmem : (47 : Nat) ∈ t := List.mem_of_getLast?_eq_some h47
        exact hsep t ht hmem
      rw [norm_spec_def (norm_spec p), hkept, if_neg (fun h => hlast h.1)]
      simp [norm_spec, htr]

theorem weight_append (K K' : List (List Nat)) : weight (K ++ K') = weight K + weight K' := by
  simp [weight]

theorem weight_dropLast (K : List (List Nat)) : weight K.dropLast ≤ weight K := by
  rcases List.eq_nil_or_concat K with rfl | ⟨K', a, rfl⟩
  · simp
  · rw [List.concat_eq_append, List.dropLast_concat, weight_append]
    omega

theorem len_intercalate : ∀ K : List (List Nat), K ≠ [] →
    ([47].intercalate K).length + 1 = weight K
  | [], h => absurd rfl h
  | [t], _ => by simp [intercalate_single, weight]
  | t :: u :: r, _ => by
    have := len_intercalate (u :: r) (by simp)
    rw [intercalate_cons_cons]
    simp only [weight, List.map_cons, List.sum_cons, List.length_append, List.length_cons] at this ⊢
    omega

theorem weight_splitOn (l : List Nat) : weight (List.splitOn 47 l) = l.length + 1 := by
  induction l with
  | nil => simp [List.splitOn, weight]
  | cons a l ih =>
    by_cases ha : a = 47
    · subst ha
      rw [splitOn_cons_sep]
      simp only [weight, List.map_cons, List.sum_cons, List.length_nil, List.length_cons] at ih ⊢
      omega
    · obtain ⟨h, t, e1, e2⟩ := splitOn_cons_ne a l ha
      rw [e1] at ih
      rw [e2]
      simp only [weight, List.map_cons, List.sum_cons, List.length_cons] at ih ⊢
      omega

theorem splitOn_snoc_sep (l : List Nat) :
    List.splitOn 47 (l ++ [47]) = List.splitOn 47 l ++ [[]] := by
  induction l with
  | nil => decide
  | cons a l ih =>
    by_cases ha : a = 47
    · subst ha
      rw [List.cons_append, splitOn_cons_sep, splitOn_cons_sep, ih]
      rfl
    · obtain ⟨h, t, e1, e2⟩ := splitOn_cons_ne a l ha
      obtain ⟨h', t', e1', e2'⟩ := splitOn_cons_ne a (l ++ [47]) ha
      rw [List.cons_append, e2', e2]
      rw [ih, e1] at e1'
      simp only [List.cons_append, List.cons.injEq] at e1'
      rw [← e1'.1, ← e1'.2]
      rfl

theorem fold_weight : ∀ (segs K : List (List Nat)),
    weight (segs.foldl keep_step K) ≤ weight K + weight segs := by
  intro segs
  induction segs with
  | nil => intro K; simp [weight]
  | cons s segs ih =>
    intro K
    rw [List.foldl_cons]
    have h1 := ih (keep_step K s)
    have h2 : weight (keep_step K s) ≤ weight K + (s.length + 1) := by
      rcases keep_step_cases K s with ⟨_, h | h⟩ | ⟨_, _, h⟩ | ⟨_, _, h⟩
      · rw [h]; omega
      · rw [h]; have := weight_dropLast K; omega
      · rw [h, weight_append]; simp [weight]
      · rw [h]; omega
    have h3 : weight (s :: segs) = (s.length + 1) + weight segs := by simp [weight]
    omega

/-- Normalizing a path that begins with '/' never makes it longer, so the result fits the buffer
it is written to. -/
theorem norm_spec_length (p : List Nat) (h : p.head? = some 47) :
    (norm_spec p).length ≤ p.length := by
  obtain ⟨p', rfl⟩ : ∃ p', p = 47 :: p' := by
    cases p with
    | nil => simp at h
    | cons a p' => simp at h; exact ⟨p', by rw [h]⟩
  have hk : kept_segments (47 :: p') = (List.splitOn 47 p').foldl keep_step [] := by
    unfold kept_segments
    rw [splitOn_cons_sep, List.foldl_cons, keep_step_nil]
  by_cases hK : kept_segments (47 :: p') = []
  · simp [norm_spec, hK, List.intercalate]
  · have hlen := len_intercalate _ hK
    by_cases htr : (47 :: p').getLast? = some 47
    · have hp' : p' ≠ [] := by
        rintro rfl
        exact hK (by decide)
      obtain ⟨q, a, rfl⟩ : ∃ q a, p' = q ++ [a] := by
        rcases List.eq_nil_or_concat p' with h | ⟨q, a, h⟩
        · exact absurd h hp'
        · exact ⟨q, a, by rw [h, List.concat_eq_append]⟩
      have ha : a = 47 := by
        rw [← List.cons_append, List.getLast?_append_of_ne_nil _ (by simp)] at htr
        simpa using htr
      subst ha
      rw [splitOn_snoc_sep, List.foldl_append] at hk
      simp only [List.foldl_cons, List.foldl_nil, keep_step_nil] at hk
      have hw := fold_weight (List.splitOn 47 q) []
      rw [← hk, weight_splitOn] at hw
      simp only [weight, List.map_nil, List.sum_nil, zero_add] at hw hlen
      simp only [norm_spec, htr, hK, ne_eq, not_false_eq_true, and_self, if_true,
        List.length_append, List.length_cons, List.length_nil]
      omega
    · have hw := fold_weight (List.splitOn 47 p') []
      rw [← hk, weight_splitOn] at hw
      simp only [norm_spec, htr, false_and, if_false, List.length_append, List.length_cons,
        List.length_nil]
      simp only [weight, List.map_nil, List.sum_nil, zero_add] at hw hlen
      omega

/-! ## strstr, atoi and the decimal conversion -/

theorem isPrefixOf_sep (l : List Nat) : [58, 47, 47].isPrefixOf l = true ↔ sep_at l 0 := by
  unfold sep_at
  match l with
  | [] => simp
  | [a] => simp [List.isPrefixOf]
  | [a, b] => simp [List.isPrefixOf]
  | a :: b :: c :: r =>
    simp only [List.isPrefixOf, Bool.and_eq_true, beq_iff_eq, List.getElem?_cons_zero,
      List.getElem?_cons_succ, Option.some.injEq, Bool.and_true]
    constructor
    · rintro ⟨h1, h2, h3⟩; exact ⟨h1.symm, h2.symm, h3.symm⟩
    · rintro ⟨h1, h2, h3⟩; exact ⟨h1.symm, h2.symm, h3.symm⟩

theorem sep_at_cons (c : Nat) (cs : List Nat) (j : Nat) : sep_at (c :: cs) (j + 1) ↔ sep_at cs j := by
  unfold sep_at
  simp only [List.getElem?_cons_succ, Nat.add_right_comm j 1]

/-- The result of strstr for the needle "://": the index of its first occurrence. -/
theorem strstr_some_iff (l : List Nat) : ∀ i, strstr l [58, 47, 47] = some i ↔
    (sep_at l i ∧ ∀ j < i, ¬ sep_at l j) := by
  induction l with
  | nil =>
    intro i
    simp [strstr, sep_at]
  | cons c cs ih =>
    intro i
    rw [strstr]
    by_cases h0 : [58, 47, 47].isPrefixOf (c :: cs) = true
    · rw [if_pos h0]
      have h0' := (isPrefixOf_sep _).1 h0
      constructor
      · intro h
        have : i = 0 := by simpa using h.symm
        subst this
        exact ⟨h0', by simp⟩
      · rintro ⟨_, h2⟩
        rcases Nat.eq_zero_or_pos i with rfl | hi
        · rfl
        · exact absurd h0' (h2 0 hi)
    · rw [if_neg h0]
      have h0' : ¬ sep_at (c :: cs) 0 := fun h => h0 ((isPrefixOf_sep _).2 h)
      cases i with
      | zero =>
        constructor
        · intro h
          cases hs : strstr cs [58, 47, 47] <;> simp [hs] at h
        · rintro ⟨h1, _⟩
          exact absurd h1 h0'
      | succ i =>
        rw [sep_at_cons]
        constructor
        · intro h
          have hs : strstr cs [58, 47, 47] = some i := by
            cases hs : strstr cs [58, 47, 47] with
            | none => simp [hs] at h
            | some k => simp [hs] at h; rw [h]
          obtain ⟨h1, h2⟩ := (ih i).1 hs
          refine ⟨h1, ?_⟩
          intro j hj
          cases j with
          | zero => exact h0'
          | succ j => rw [sep_at_cons]; exact h2 j (by omega)
        · rintro ⟨h1, h2⟩
          have := (ih i).2 ⟨h1, fun j hj => by
            have := h2 (j + 1) (by omega)
            rwa [sep_at_cons] at this⟩
          rw [this]
          rfl

theorem get_after (s t : List Nat) (k : Nat) : (s ++ t)[s.length + k]? = t[k]? := by
  rw [List.getElem?_append_right (by omega)]
  congr 1
  omega

/-- The stored scheme (a prefix of the text before the first "://") followed by "://" holds no
earlier "://". -/
theorem strstr_take (p : List Nat) (i k : Nat) (rest : List Nat)
    (h : strstr p [58, 47, 47] = some i) :
    strstr ((p.take i).take k ++ [58, 47, 47] ++ rest) [58, 47, 47] = some ((p.take i).take k).length := by
  obtain ⟨h1, h2⟩ := (strstr_some_iff p i).1 h
  rw [List.take_take]
  have hi : i < p.length := by
    have := h1.1
    by_contra hc
    rw [List.getElem?_eq_none (by omega)] at this
    simp at this
  have hlen : (p.take (min k i)).length = min k i := by
    rw [List.length_take]; omega
  rw [strstr_some_iff]
  constructor
  · unfold sep_at
    rw [List.append_assoc]
    refine ⟨?_, ?_, ?_⟩
    · have := get_after (p.take (min k i)) ([58, 47, 47] ++ rest) 0
      simpa using this
    · have := get_after (p.take (min k i)) ([58, 47, 47] ++ rest) 1
      simpa using this
    · have := get_after (p.take (min k i)) ([58, 47, 47] ++ rest) 2
      simpa using this
  · intro j hj hsep
    rw [hlen] at hj
    unfold sep_at at hsep
    rw [List.append_assoc] at hsep
    by_cases c2 : j + 2 < min k i
    · apply h2 j (by omega)
      unfold sep_at
      obtain ⟨e0, e1, e2⟩ := hsep
      rw [List.getElem?_append_left (by omega), List.getElem?_take_of_lt (by omega)] at e0 e1 e2
      exact ⟨e0, e1, e2⟩
    · by_cases c1 : j + 1 < min k i
      · have := hsep.2.2
        rw [List.getElem?_append_right (by omega)] at this
        have e : j + 2 - (p.take (min k i)).length = 0 := by omega
        rw [e] at this
        simp at this
      · have := hsep.2.1
        rw [List.getElem?_append_right (by omega)] at this
        have e : j + 1 - (p.take (min k i)).length = 0 := by omega
        rw [e] at this
        simp at this

theorem strstr_gemini (rest : List Nat) :
    strstr ([103, 101, 109, 105, 110, 105] ++ [58, 47, 47] ++ rest) [58, 47, 47] = some 6 := by
  simp [strstr, List.isPrefixOf]

theorem fmt_d_aux_acc : ∀ (fuel n : Nat) (acc : List Nat),
    fmt_d_aux fuel n acc = fmt_d_aux fuel n [] ++ acc := by
  intro fuel
  induction fuel with
  | zero => intro n acc; simp [fmt_d_aux]
  | succ fuel ih =>
    intro n acc
    simp only [fmt_d_aux]
    split
    · simp
    · rw [ih _ (_ :: acc), ih _ [_]]
      simp

theorem fmt_d_aux_digits : ∀ (fuel n : Nat) (acc : List Nat), n < fuel →
    ∃ k, ∀ a, atoi_digits a (fmt_d_aux fuel n acc) = atoi_digits (a * 10 ^ k + n) acc := by
  intro fuel
  induction fuel with
  | zero => intro n acc h; omega
  | succ fuel ih =>
    intro n acc h
    simp only [fmt_d_aux]
    split
    · rename_i h10
      refine ⟨1, fun a => ?_⟩
      have hd : isdigit (48 + n) = true := by simp [isdigit]; omega
      simp only [atoi_digits, hd, if_true]
      congr 1
      omega
    · rename_i h10
      obtain ⟨k, hk⟩ := ih (n / 10) ((48 + n % 10) :: acc) (by omega)
      refine ⟨k + 1, fun a => ?_⟩
      rw [hk]
      have hd : isdigit (48 + n % 10) = true := by simp [isdigit]; omega
      simp only [atoi_digits, hd, if_true]
      congr 1
      rw [pow_succ]
      have := Nat.div_add_mod n 10
      have e : 48 + n % 10 - 48 = n % 10 := by omega
      rw [e]
      nlinarith [Nat.div_add_mod n 10]

theorem fmt_d_aux_isdigit : ∀ (fuel n : Nat), ∀ c ∈ fmt_d_aux fuel n [], isdigit c = true := by
  intro fuel
  induction fuel with
  | zero => intro n c hc; simp [fmt_d_aux] at hc
  | succ fuel ih =>
    intro n c hc
    simp only [fmt_d_aux] at hc
    split at hc
    · simp at hc; subst hc; simp [isdigit]; omega
    · rw [fmt_d_aux_acc] at hc
      rcases List.mem_append.1 hc with hc | hc
      · exact ih _ c hc
      · simp at hc; subst hc; simp [isdigit]; omega

theorem fmt_d_aux_length : ∀ (fuel n k : Nat), n < 10 ^ (k + 1) →
    (fmt_d_aux fuel n []).length ≤ k + 1 := by
  intro fuel
  induction fuel with
  | zero => intro n k _; simp [fmt_d_aux]
  | succ fuel ih =>
    intro n k h
    simp only [fmt_d_aux]
    split
    · simp
    · rename_i h10
      rw [fmt_d_aux_acc]
      cases k with
      | zero => simp at h; omega
      | succ k =>
        have := ih (n / 10) k (by rw [pow_succ] at h; omega)
        simp only [List.length_append, List.length_singleton]
        omega

theorem fmt_d_ne_nil (n : Nat) : fmt_d n ≠ [] := by
  unfold fmt_d
  simp only [fmt_d_aux]
  split
  · simp
  · rw [fmt_d_aux_acc]; simp

theorem fmt_d_isdigit (n : Nat) : ∀ c ∈ fmt_d n, isdigit c = true :=
  fmt_d_aux_isdigit _ _

theorem fmt_d_length (n : Nat) (h : n < 65536) : (fmt_d n).length ≤ 5 :=
  fmt_d_aux_length _ n 4 (by omega)

theorem atoi_digits_stop (a : Nat) (rest : List Nat) (h : ∀ c ∈ rest.head?, isdigit c = false) :
    atoi_digits a rest = a := by
  cases rest with
  | nil => rfl
  | cons c r =>
    have := h c (by simp)
    simp [atoi_digits, this]

/-- Reading back with atoi what "%d" printed gives the value, whatever text without a leading
digit follows. -/
theorem atoi_fmt_d (n : Nat) (rest : List Nat) (h : ∀ c ∈ rest.head?, isdigit c = false) :
    atoi (fmt_d n ++ rest) = (n : Int) := by
  obtain ⟨k, hk⟩ := fmt_d_aux_digits (n + 1) n rest (by omega)
  have hne := fmt_d_ne_nil n
  obtain ⟨d, ds, hd⟩ := List.exists_cons_of_ne_nil hne
  have hdig : isdigit d = true := fmt_d_isdigit n d (by rw [hd]; simp)
  have hdd : 48 ≤ d ∧ d ≤ 57 := by simpa [isdigit] using hdig
  have hsp : isspace d = false := by
    simp [isspace]; omega
  have hval : atoi_digits 0 (fmt_d n ++ rest) = n := by
    unfold fmt_d
    rw [← fmt_d_aux_acc, hk 0, atoi_digits_stop _ _ h]
    simp
  unfold atoi
  rw [hd] at hval ⊢
  rw [List.cons_append, List.dropWhile_cons_of_neg (by simp [hsp])]
  split
  · rename_i heq; simp at heq; omega
  · rename_i heq; simp at heq; omega
  · rw [← List.cons_append, hval]

/-! ## url_build and the serialized form -/

theorem url_build_full (u : Url) : (url_build u).full = (full_spec u).take 2047 := by
  unfold url_build full_spec port_text query_text GEMINI_DEFAULT_PORT MAX_URL_LENGTH
  by_cases hp : u.port = 1965 ∨ u.port = 0 <;> by_cases hq : u.query = [] <;> simp [hp, hq]

theorem full_spec_length (u : Url) (h : Fits u) : (full_spec u).length ≤ 1814 := by
  have h1 := h.scheme
  have h2 := h.host
  have h3 := h.path
  have h4 := h.query
  have h5 : (port_text u).length ≤ 6 := by
    unfold port_text
    split
    · simp
    · have := fmt_d_length u.port h.port
      simp only [List.length_cons]
      omega
  have h6 : (query_text u).length ≤ u.query.length + 1 := by
    unfold query_text
    split <;> simp
  simp only [full_spec, List.length_append, List.length_cons, List.length_nil]
  omega

/-- For a Url whose fields fit their buffers snprintf does not truncate full. -/
theorem url_build_fits (u : Url) (h : Fits u) : (url_build u).full = full_spec u := by
  rw [url_build_full]
  apply List.take_of_length_le
  have := full_spec_length u h
  omega

theorem tolower_idem (c : Nat) : tolower (tolower c) = tolower c := by
  by_cases h : 65 ≤ c ∧ c ≤ 90
  · have h2 : ¬ (65 ≤ c + 32 ∧ c + 32 ≤ 90) := by omega
    unfold tolower
    rw [if_pos h, if_neg h2]
  · unfold tolower
    rw [if_neg h, if_neg h]

theorem tolower_host_byte (c : Nat) (h : is_host_byte c = true) : is_host_byte (tolower c) = true := by
  unfold is_host_byte tolower at *
  simp only [bne_iff_ne, ne_eq, Bool.and_eq_true] at h ⊢
  split <;> omega

/-! ## What url_parse establishes -/

theorem mem_of_mem_dropWhile (p : Nat → Bool) (l : List Nat) (c : Nat)
    (h : c ∈ l.dropWhile p) : c ∈ l :=
  (List.dropWhile_suffix p).subset h

theorem mem_of_mem_takeWhile (p : Nat → Bool) (l : List Nat) (c : Nat)
    (h : c ∈ l.takeWhile p) : c ∈ l := by
  have hl : l.takeWhile p ++ l.dropWhile p = l := List.takeWhile_append_dropWhile p l
  rw [← hl]
  exact List.mem_append_left _ h

theorem length_takeWhile_le (p : Nat → Bool) (l : List Nat) :
    (l.takeWhile p).length ≤ l.length := by
  have hl := congrArg List.length (List.takeWhile_append_dropWhile p l)
  rw [List.length_append] at hl
  omega

theorem head_dropWhile_isspace (x : List Nat) : ∀ c ∈ (x.dropWhile isspace).head?, isspace c = false := by
  intro c hc
  have := List.head?_dropWhile_not isspace x
  rw [Option.mem_def] at hc
  rw [hc] at this
  simpa using this

theorem find_scheme_props (p : List Nat) (hp : ∀ c ∈ p.head?, isspace c = false) :
    (find_scheme p).1.length ≤ 15 ∧
    (∀ rest, strstr ((find_scheme p).1 ++ [58, 47, 47] ++ rest) [58, 47, 47]
      = some (find_scheme p).1.length) ∧
    (∀ c ∈ (find_scheme p).1.head?, isspace c = false) ∧
    (∀ c ∈ (find_scheme p).2, c ∈ p) := by
  unfold find_scheme
  cases h : strstr p [58, 47, 47] with
  | none =>
    refine ⟨by simp, fun rest => strstr_gemini rest, ?_, fun c hc => hc⟩
    intro c hc
    simp at hc
    subst hc
    decide
  | some i =>
    refine ⟨List.length_take_le _ _, fun rest => strstr_take p i 15 rest h, ?_,
      fun c hc => List.mem_of_mem_drop hc⟩
    intro c hc
    apply hp c
    simp only [List.head?_take] at hc
    split at hc
    · simp at hc
    · split at hc
      · simp at hc
      · exact hc

theorem parse_port_props (he : List Nat) :
    (parse_port he).1 < 65536 ∧ ∀ c ∈ (parse_port he).2, c ∈ he := by
  unfold parse_port
  split
  · rename_i ps
    refine ⟨?_, fun c hc => mem_of_mem_dropWhile (fun c => c != 47 && c != 63) _ c hc⟩
    have h1 := Int.emod_lt_of_pos (atoi ps) (by norm_num : (0 : Int) < 65536)
    have h2 := Int.emod_nonneg (atoi ps) (by norm_num : (65536 : Int) ≠ 0)
    simp only
    omega
  · exact ⟨by simp [GEMINI_DEFAULT_PORT], fun c hc => hc⟩

theorem parse_path_props (ps : List Nat) :
    (parse_path ps).1.head? = some 47 ∧ (parse_path ps).1.length ≤ 1023 ∧
    (∀ c ∈ (parse_path ps).1, c ≠ 63 ∧ (c ∈ ps ∨ c = 47)) ∧
    (∀ q ∈ (parse_path ps).2, ∀ c ∈ q, c ∈ ps) := by
  unfold parse_path
  split
  · rename_i r
    refine ⟨?_, List.length_take_le _ _, ?_, ?_⟩
    · rw [List.takeWhile_cons_of_pos (by simp)]
      simp
    · intro c hc
      have hc' := List.mem_of_mem_take hc
      exact ⟨by simpa using List.mem_takeWhile_imp hc', Or.inl (mem_of_mem_takeWhile _ _ c hc')⟩
    · intro q hq c hc
      split at hq
      · rename_i qs heq
        simp at hq
        subst hq
        apply mem_of_mem_dropWhile (fun c => c != 63)
        rw [heq]
        exact List.mem_cons_of_mem _ hc
      · simp at hq
  · rename_i qs
    refine ⟨rfl, by simp, ?_, ?_⟩
    · intro c hc; simp at hc; subst hc; simp
    · intro q hq c hc
      simp at hq
      subst hq
      exact List.mem_cons_of_mem _ hc
  · refine ⟨rfl, by simp, ?_, ?_⟩
    · intro c hc; simp at hc; subst hc; simp
    · intro q hq; simp at hq

theorem parse_query_length (q : Option (List Nat)) : (parse_query q).length ≤ 511 := by
  unfold parse_query
  split
  · exact List.length_take_le _ _
  · simp

/-- The Url that url_parse fills in satisfies Canon, whether or not the parse succeeds. -/
theorem url_parse_canon (x : List Nat) (hx : ∀ c ∈ x, c ≠ 0) : Canon (url_parse x).2 := by
  have hp := find_scheme_props (x.dropWhile isspace) (head_dropWhile_isspace x)
  obtain ⟨s1, s2, s3, s4⟩ := hp
  have hpp := parse_port_props ((find_scheme (x.dropWhile isspace)).2.dropWhile is_host_byte)
  have hpq := parse_path_props
    (parse_port ((find_scheme (x.dropWhile isspace)).2.dropWhile is_host_byte)).2
  obtain ⟨q1, q2, q3, _⟩ := hpq
  have hraw_nul : ∀ c ∈ (parse_path
      (parse_port ((find_scheme (x.dropWhile isspace)).2.dropWhile is_host_byte)).2).1, c ≠ 0 := by
    intro c hc
    rcases (q3 c hc).2 with h | h
    · exact hx c (mem_of_mem_dropWhile _ _ c (s4 c (mem_of_mem_dropWhile _ _ c (hpp.2 c h))))
    · omega
  have hnorm := url_normalize_path_eq _ hraw_nul q1
  have hfits : Fits (url_parse x).2 := by
    refine ⟨s1, ?_, hpp.1, ?_, parse_query_length _⟩
    · simp only [url_parse, url_build, List.length_map]
      exact List.length_take_le _ _
    · show (url_normalize_path _).length ≤ 1023
      rw [hnorm]
      exact le_trans (norm_spec_length _ q1) q2
  refine ⟨hfits, s2, s3, ?_, ?_, ?_, ?_, ?_, ?_⟩
  · intro c hc
    simp only [url_parse, url_build, List.mem_map] at hc
    obtain ⟨a, ha, rfl⟩ := hc
    have := List.mem_takeWhile_imp (List.mem_of_mem_take ha)
    exact ⟨tolower_host_byte a this, tolower_idem a⟩
  · show (url_normalize_path _).head? = some 47
    rw [hnorm]; exact norm_spec_head _
  · show ∀ c ∈ url_normalize_path _, c ≠ 0
    rw [hnorm]
    intro c hc
    rcases norm_spec_mem _ c hc with h | h
    · omega
    · exact hraw_nul c h
  · show ∀ c ∈ url_normalize_path _, c ≠ 63
    rw [hnorm]
    intro c hc
    rcases norm_spec_mem _ c hc with h | h
    · omega
    · exact (q3 c h).1
  · show norm_spec (url_normalize_path _) = url_normalize_path _
    rw [hnorm]; exact norm_spec_idem _
  · exact url_build_fits _ ⟨hfits.scheme, hfits.host, hfits.port, hfits.path, hfits.query⟩

/-! ## Parsing the serialized form again -/

theorem takeWhile_append_stop2 (p : Nat → Bool) (l w : List Nat) (c : Nat)
    (hl : ∀ a ∈ l, p a = true) (hc : p c = false) : (l ++ c :: w).takeWhile p = l := by
  rw [takeWhile_append_stop p l w c hc]
  exact List.takeWhile_eq_self_iff.2 hl

theorem dropWhile_append_stop2 (p : Nat → Bool) (l w : List Nat) (c : Nat)
    (hl : ∀ a ∈ l, p a = true) (hc : p c = false) : (l ++ c :: w).dropWhile p = c :: w := by
  rw [List.dropWhile_append_of_pos hl, List.dropWhile_cons_of_neg (by simp [hc])]

theorem query_text_cases (u : Url) :
    (u.query = [] ∧ query_text u = []) ∨ (u.query ≠ [] ∧ query_text u = 63 :: u.query) := by
  unfold query_text
  by_cases h : u.query = []
  · exact Or.inl ⟨h, by rw [if_pos h]⟩
  · exact Or.inr ⟨h, by rw [if_neg h]⟩

theorem parse_path_build (u : Url) (h : Canon u) :
    parse_path (u.path ++ query_text u) =
      (u.path, if u.query = [] then none else some u.query) := by
  obtain ⟨r, hr⟩ : ∃ r, u.path = 47 :: r := by
    have := h.path_head
    cases hp : u.path with
    | nil => rw [hp] at this; simp at this
    | cons a r => rw [hp] at this; simp at this; exact ⟨r, by rw [this]⟩
  have hq63 : ∀ a ∈ u.path, (fun c => c != 63) a = true := by
    intro a ha
    simpa using h.path_q a ha
  have hlen := h.fits.path
  unfold parse_path
  rcases query_text_cases u with ⟨h1, h2⟩ | ⟨h1, h2⟩
  · rw [h2, List.append_nil, if_pos h1]
    have e1 : u.path.takeWhile (fun c => c != 63) = u.path := List.takeWhile_eq_self_iff.2 hq63
    have e2 : u.path.dropWhile (fun c => c != 63) = [] := List.dropWhile_eq_nil_iff.2 hq63
    rw [hr] at e1 e2 hlen ⊢
    simp only [e1, e2]
    rw [List.take_of_length_le hlen]
  · rw [h2, if_neg h1]
    have e1 := takeWhile_append_stop2 (fun c => c != 63) u.path u.query 63 hq63 (by simp)
    have e2 := dropWhile_append_stop2 (fun c => c != 63) u.path u.query 63 hq63 (by simp)
    rw [hr] at e1 e2 hlen ⊢
    rw [List.cons_append] at e1 e2 ⊢
    simp only [e1, e2]
    rw [List.take_of_length_le hlen]

theorem parse_port_build (u : Url) (h : Canon u) :
    parse_port (port_text u ++ u.path ++ query_text u) =
      (if u.port = 0 then 1965 else u.port, u.path ++ query_text u) := by
  obtain ⟨r, hr⟩ : ∃ r, u.path = 47 :: r := by
    have := h.path_head
    cases hp : u.path with
    | nil => rw [hp] at this; simp at this
    | cons a r => rw [hp] at this; simp at this; exact ⟨r, by rw [this]⟩
  unfold port_text
  by_cases hp : u.port = 1965 ∨ u.port = 0
  · rw [if_pos hp, List.nil_append, hr]
    unfold parse_port
    simp only [List.cons_append, GEMINI_DEFAULT_PORT]
    rcases hp with hp | hp <;> simp [hp]
  · rw [if_neg hp]
    have hp0 : u.port ≠ 0 := fun h0 => hp (Or.inr h0)
    rw [if_neg hp0]
    unfold parse_port
    simp only [List.cons_append]
    have hat : atoi (fmt_d u.port ++ (u.path ++ query_text u)) = (u.port : Int) := by
      apply atoi_fmt_d
      intro c hc
      rw [hr] at hc
      simp at hc
      subst hc
      decide
    have hdrop : (58 :: (fmt_d u.port ++ (u.path ++ query_text u))).dropWhile
        (fun c => c != 47 && c != 63) = u.path ++ query_text u := by
      rw [← List.cons_append, hr, List.cons_append 47, dropWhile_append_stop2 _ _ _ 47 _ (by simp)]
      intro a ha
      rcases List.mem_cons.1 ha with rfl | ha
      · simp
      · have := fmt_d_isdigit u.port a ha
        simp only [isdigit, Bool.and_eq_true, decide_eq_true_eq] at this
        simp only [bne_iff_ne, ne_eq, Bool.and_eq_true]
        omega
    rw [List.append_assoc, hat, hdrop]
    have := h.fits.port
    congr 1
    omega

theorem host_scan_build (u : Url) (h : Canon u) :
    (u.host ++ port_text u ++ u.path ++ query_text u).takeWhile is_host_byte = u.host ∧
    (u.host ++ port_text u ++ u.path ++ query_text u).dropWhile is_host_byte =
      port_text u ++ u.path ++ query_text u := by
  obtain ⟨r, hr⟩ : ∃ r, u.path = 47 :: r := by
    have := h.path_head
    cases hp : u.path with
    | nil => rw [hp] at this; simp at this
    | cons a r => rw [hp] at this; simp at this; exact ⟨r, by rw [this]⟩
  obtain ⟨c, w, hcw, hc⟩ : ∃ c w, port_text u ++ u.path ++ query_text u = c :: w ∧
      is_host_byte c = false := by
    unfold port_text
    split
    · exact ⟨47, r ++ query_text u, by rw [hr]; simp, by decide⟩
    · exact ⟨58, fmt_d u.port ++ u.path ++ query_text u, by simp, by decide⟩
  have e : u.host ++ port_text u ++ u.path ++ query_text u = u.host ++ c :: w := by
    rw [← hcw]; simp
  rw [e, hcw]
  exact ⟨takeWhile_append_stop2 _ _ _ _ (fun a ha => (h.host_bytes a ha).1) hc,
    dropWhile_append_stop2 _ _ _ _ (fun a ha => (h.host_bytes a ha).1) hc⟩

theorem find_scheme_build (u : Url) (h : Canon u) :
    find_scheme (full_spec u) = (u.scheme, u.host ++ port_text u ++ u.path ++ query_text u) := by
  have e : full_spec u = u.scheme ++ [58, 47, 47] ++ (u.host ++ port_text u ++ u.path ++ query_text u) := by
    simp [full_spec]
  unfold find_scheme
  rw [e, h.scheme_sep]
  simp only
  congr 1
  · rw [List.append_assoc, List.take_left, List.take_of_length_le h.fits.scheme]
  · have : u.scheme.length + 3 = (u.scheme ++ [58, 47, 47]).length := by simp
    rw [this, List.drop_left]

theorem dropWhile_isspace_build (u : Url) (h : Canon u) :
    (full_spec u).dropWhile isspace = full_spec u := by
  unfold full_spec
  cases hs : u.scheme with
  | nil => simp [List.dropWhile, isspace]
  | cons a s =>
    have := h.scheme_head a (by rw [hs]; simp)
    simp only [List.cons_append]
    rw [List.dropWhile_cons_of_neg (by simp [this])]

/-- Parsing the serialized form of a Url that satisfies Canon gives that Url back, with port 1965
in place of port 0. -/
theorem url_parse_full_spec (u : Url) (h : Canon u) (hh : u.host ≠ []) :
    url_parse (full_spec u) =
      (true, { u with port := if u.port = 0 then 1965 else u.port, full := full_spec u }) := by
  have hhost : ((u.host.take 255).map tolower) = u.host := by
    rw [List.take_of_length_le h.fits.host]
    conv_rhs => rw [← List.map_id u.host]
    apply List.map_congr_left
    intro a ha
    exact (h.host_bytes a ha).2
  have hpath : url_normalize_path u.path = u.path := by
    rw [url_normalize_path_eq _ h.path_nul h.path_head, h.path_norm]
  have hquery : parse_query (if u.query = [] then none else some u.query) = u.query := by
    unfold parse_query
    by_cases hq : u.query = []
    · rw [if_pos hq]; exact hq.symm
    · rw [if_neg hq]; exact List.take_of_length_le h.fits.query
  unfold url_parse
  simp only [dropWhile_isspace_build u h, find_scheme_build u h, (host_scan_build u h).1,
    (host_scan_build u h).2, parse_port_build u h, parse_path_build u h, hhost, hpath, hquery]
  have hfits : Fits (Url.mk u.scheme u.host (if u.port = 0 then 1965 else u.port) u.path
      u.query []) :=
    ⟨h.fits.scheme, h.fits.host, by have := h.fits.port; show (if _ then _ else _) < _; split <;> omega,
      h.fits.path, h.fits.query⟩
  have hfull : full_spec (Url.mk u.scheme u.host (if u.port = 0 then 1965 else u.port) u.path
      u.query []) = full_spec u := by
    unfold full_spec port_text query_text
    simp only
    by_cases h0 : u.port = 0
    · simp [h0]
    · simp [h0]
  have hb := url_build_fits _ hfits
  rw [hfull] at hb
  have hne : (u.host != []) = true := by simpa using hh
  rw [hne]
  congr 1
  unfold url_build at hb ⊢
  simp only at hb ⊢
  rw [hb]

/-! ## Claims on url_parse and url_normalize_path -/

theorem fold_uncapped : ∀ (segs K : List (List Nat)),
    K.length + (segs.filter (fun s => decide (s ≠ []))).length ≤ 256 →
    segs.foldl keep_step K = segs.foldl spec_keep K := by
  intro segs
  induction segs with
  | nil => intro K _; rfl
  | cons s segs ih =>
    intro K h
    rw [List.foldl_cons, List.foldl_cons]
    by_cases h1 : s = []
    · subst h1
      have e1 : keep_step K [] = K := keep_step_nil K
      have e2 : spec_keep K [] = K := by simp [spec_keep]
      rw [e1, e2]
      apply ih
      simpa using h
    · have hf : ((s :: segs).filter (fun s => decide (s ≠ []))).length =
          (segs.filter (fun s => decide (s ≠ []))).length + 1 := by
        simp [List.filter_cons, h1]
      rw [hf] at h
      by_cases h2 : s = [46]
      · have e1 : keep_step K s = K := by simp [keep_step, h2]
        have e2 : spec_keep K s = K := by simp [spec_keep, h2]
        rw [e1, e2]
        exact ih K (by omega)
      · by_cases h3 : s = [46, 46]
        · have e1 : keep_step K s = K.dropLast := by simp [keep_step, h3]
          have e2 : spec_keep K s = K.dropLast := by simp [spec_keep, h3]
          rw [e1, e2]
          exact ih _ (by rw [List.length_dropLast]; omega)
        · have hc : K.length < 256 := by omega
          have e1 : keep_step K s = K ++ [s] := by simp [keep_step, h1, h2, h3, hc]
          have e2 : spec_keep K s = K ++ [s] := by simp [spec_keep, h1, h2, h3]
          rw [e1, e2]
          exact ih _ (by simp only [List.length_append, List.length_singleton]; omega)

theorem url_normalize_path_idem (p : List Nat) (hp : ∀ c ∈ p, c ≠ 0) (h : p = [] ∨ p.head? = some 47) :
    url_normalize_path (url_normalize_path p) = url_normalize_path p := by
  rcases h with rfl | h
  · rfl
  · rw [url_normalize_path_eq p hp h]
    rw [url_normalize_path_eq _ _ (norm_spec_head p), norm_spec_idem]
    intro c hc
    rcases norm_spec_mem p c hc with h47 | hm
    · omega
    · exact hp c hm

/-- C1 (as stated, refuted): "a:0" parses with port 0, its serialized form omits the port, and
parsing that form again yields port 1965, so the re-parsed Url differs from the first one. -/
theorem C1_reparse_counterexample :
    (url_parse (str "a:0")).1 = true ∧
    (url_parse (str "a:0")).2.port = 0 ∧
    (url_parse (url_parse (str "a:0")).2.full).2.port = 1965 ∧
    url_parse (url_parse (str "a:0")).2.full ≠ (true, (url_parse (str "a:0")).2) := by
  decide

/-- C1 (amended): for every string x on which url_parse succeeds with result u, url_parse of
u.full succeeds and yields u in scheme, host, path, query and full; the port is u.port, except
that a zero port (serialized without a port segment) comes back as the default 1965. -/
theorem C1_reparse_stable (x : List Nat) (hx : ∀ c ∈ x, c ≠ 0) (hs : (url_parse x).1 = true) :
    url_parse (url_parse x).2.full =
      (true, { (url_parse x).2 with
                port := if (url_parse x).2.port = 0 then 1965 else (url_parse x).2.port }) := by
  have hc := url_parse_canon x hx
  have hh : (url_parse x).2.host ≠ [] := by
    have : ((url_parse x).2.host != []) = true := hs
    simpa using this
  rw [hc.full_eq, url_parse_full_spec _ hc hh]
  congr 2
  rw [← hc.full_eq]

theorem C1_reparse_stable_witness :
    (∀ c ∈ str "gemini://Example.org:70/a/../b?q", c ≠ 0) ∧
    (url_parse (str "gemini://Example.org:70/a/../b?q")).1 = true ∧
    url_parse (url_parse (str "gemini://Example.org:70/a/../b?q")).2.full =
      (true, { (url_parse (str "gemini://Example.org:70/a/../b?q")).2 with
                port := if (url_parse (str "gemini://Example.org:70/a/../b?q")).2.port = 0 then 1965
                        else (url_parse (str "gemini://Example.org:70/a/../b?q")).2.port }) :=
  ⟨by decide, by decide, C1_reparse_stable _ (by decide) (by decide)⟩

/-- C2 (as stated, refuted): the path "a" does not begin with '/'; the rebuild overwrites the
stored segment and gives "//", which a second normalization turns into "/". -/
theorem C2_idempotent_counterexample :
    url_normalize_path (str "a") = str "//" ∧
    url_normalize_path (url_normalize_path (str "a")) = str "/" ∧
    url_normalize_path (url_normalize_path (str "a")) ≠ url_normalize_path (str "a") := by
  decide

/-- C2 (amended): url_normalize_path is idempotent on every path that is empty or begins
with '/'. -/
theorem C2_idempotent (p : List Nat) (hp : ∀ c ∈ p, c ≠ 0) (h : p = [] ∨ p.head? = some 47) :
    url_normalize_path (url_normalize_path p) = url_normalize_path p :=
  url_normalize_path_idem p hp h

theorem C2_idempotent_witness :
    (∀ c ∈ str "/a/./b/../c/", c ≠ 0) ∧
    (str "/a/./b/../c/" = [] ∨ (str "/a/./b/../c/").head? = some 47) ∧
    url_normalize_path (url_normalize_path (str "/a/./b/../c/")) =
      url_normalize_path (str "/a/./b/../c/") :=
  ⟨by decide, by decide, C2_idempotent _ (by decide) (by decide)⟩

/-- C3: for every path that begins with '/' and has at most 256 non-empty segments,
url_normalize_path returns "/" followed by the kept segments joined by "/", the kept segments
being those of the left-to-right scan (skip empty and ".", pop on "..", keep the rest), with one
trailing '/' exactly when the input ended with '/' and a segment is kept. -/
theorem C3_normalize_spec (p : List Nat) (hp : ∀ c ∈ p, c ≠ 0) (h : p.head? = some 47)
    (hseg : ((p.splitOn 47).filter (fun s => decide (s ≠ []))).length ≤ 256) :
    url_normalize_path p = spec_normalize p := by
  rw [url_normalize_path_eq p hp h]
  have : kept_segments p = spec_kept p := by
    unfold kept_segments spec_kept
    exact fold_uncapped _ [] (by simpa using hseg)
  unfold norm_spec spec_normalize
  rw [this]

theorem C3_normalize_spec_witness :
    (∀ c ∈ str "/a/./b//../c/", c ≠ 0) ∧ (str "/a/./b//../c/").head? = some 47 ∧
    (((str "/a/./b//../c/").splitOn 47).filter (fun s => decide (s ≠ []))).length ≤ 256 ∧
    url_normalize_path (str "/a/./b//../c/") = spec_normalize (str "/a/./b//../c/") :=
  ⟨by decide, by decide, by decide, C3_normalize_spec _ (by decide) (by decide) (by decide)⟩

/-! ## url_resolve -/

theorem strrchr_none_iff (l : List Nat) (c : Nat) : strrchr l c = none ↔ c ∉ l := by
  induction l with
  | nil => simp [strrchr]
  | cons x xs ih =>
    rw [strrchr]
    cases h : strrchr xs c with
    | none =>
      have := ih.1 h
      by_cases hx : x = c
      · simp [hx]
      · simp [hx, this, Ne.symm hx]
    | some i =>
      have : c ∈ xs := by
        by_contra hc
        rw [ih.2 hc] at h
        simp at h
      simp [this]

theorem dir_of_cons (x : Nat) (xs : List Nat) :
    dir_of (x :: xs) = if 47 ∈ xs then x :: dir_of xs else if x = 47 then [47] else [] := by
  unfold dir_of
  rw [List.reverse_cons, List.dropWhile_append]
  by_cases h : 47 ∈ xs
  · have hne : (xs.reverse.dropWhile (fun c => c != 47)) ≠ [] := by
      intro hnil
      have := List.dropWhile_eq_nil_iff.1 hnil 47 (by simpa using h)
      simp at this
    have : (xs.reverse.dropWhile (fun c => c != 47)).isEmpty = false := by
      cases hd : xs.reverse.dropWhile (fun c => c != 47) with
      | nil => exact absurd hd hne
      | cons a b => rfl
    rw [this, if_pos h]
    simp
  · have hnil : xs.reverse.dropWhile (fun c => c != 47) = [] := by
      apply List.dropWhile_eq_nil_iff.2
      intro a ha
      have : a ≠ 47 := by
        rintro rfl
        exact h (by simpa using ha)
      simpa using this
    rw [hnil, if_neg h]
    by_cases hx : x = 47
    · simp [hx, List.dropWhile]
    · have hb : (x != 47) = true := by simpa using hx
      simp [hx, List.dropWhile, hb]

theorem strrchr_dir (l : List Nat) : ∀ i, strrchr l 47 = some i → l.take (i + 1) = dir_of l := by
  induction l with
  | nil => intro i h; simp [strrchr] at h
  | cons x xs ih =>
    intro i h
    rw [strrchr] at h
    rw [dir_of_cons]
    cases hs : strrchr xs 47 with
    | none =>
      rw [hs] at h
      have hnot := (strrchr_none_iff xs 47).1 hs
      rw [if_neg hnot]
      by_cases hx : x = 47
      · simp [hx] at h
        subst h
        simp [hx]
      · simp [hx] at h
    | some j =>
      rw [hs] at h
      simp at h
      subst h
      have hin : 47 ∈ xs := by
        by_contra hc
        rw [(strrchr_none_iff xs 47).2 hc] at hs
        simp at hs
      rw [if_pos hin, List.take_succ_cons, ih j hs]

theorem strrchr_bound (l : List Nat) : ∀ i, strrchr l 47 = some i → i < l.length := by
  induction l with
  | nil => intro i h; simp [strrchr] at h
  | cons x xs ih =>
    intro i h
    rw [strrchr] at h
    cases hs : strrchr xs 47 with
    | none =>
      rw [hs] at h
      by_cases hx : x = 47
      · simp [hx] at h; subst h; simp
      · simp [hx] at h
    | some j =>
      rw [hs] at h
      simp at h
      subst h
      have := ih j hs
      simp
      omega

theorem strchr_none_iff (l : List Nat) (c : Nat) : strchr l c = none ↔ c ∉ l := by
  induction l with
  | nil => simp [strchr]
  | cons x xs ih =>
    rw [strchr]
    by_cases hx : x = c
    · simp [hx]
    · rw [if_neg hx]
      simp [ih, hx, Ne.symm hx]

theorem strchr_after (l : List Nat) : ∀ j, strchr l 63 = some j → l.drop (j + 1) = after_question l := by
  induction l with
  | nil => intro j h; simp [strchr] at h
  | cons x xs ih =>
    intro j h
    rw [strchr] at h
    unfold after_question
    by_cases hx : x = 63
    · simp [hx] at h
      subst h
      simp [hx, List.dropWhile]
    · rw [if_neg hx] at h
      cases hs : strchr xs 63 with
      | none => rw [hs] at h; simp at h
      | some k =>
        rw [hs] at h
        simp at h
        subst h
        rw [List.dropWhile_cons_of_pos (by simpa using hx), List.drop_succ_cons, ih k hs]
        rfl

theorem strstr_none_cons (c : Nat) (l : List Nat) (hc : c ≠ 58) (h : strstr l [58, 47, 47] = none) :
    strstr (c :: l) [58, 47, 47] = none := by
  rw [strstr]
  have : [58, 47, 47].isPrefixOf (c :: l) = false := by
    simp [List.isPrefixOf, Ne.symm hc]
  rw [this, h]
  rfl

theorem head_take (l : List Nat) (n : Nat) (h : l.head? = some 47) (hn : 0 < n) :
    (l.take n).head? = some 47 := by
  rw [List.head?_take, if_neg (by omega), h]

theorem resolve_reference_props (base : Url) (r : List Nat) (hb : Good base) (hr : ∀ c ∈ r, c ≠ 0) :
    (resolve_reference { base with query := [] } r).path.head? = some 47 ∧
    (∀ c ∈ (resolve_reference { base with query := [] } r).path, c ≠ 0) ∧
    (resolve_reference { base with query := [] } r).path.length ≤ 1023 ∧
    (resolve_reference { base with query := [] } r).query.length ≤ 511 ∧
    (resolve_reference { base with query := [] } r).scheme = base.scheme ∧
    (resolve_reference { base with query := [] } r).host = base.host ∧
    (resolve_reference { base with query := [] } r).port = base.port := by
  unfold resolve_reference
  split
  · rename_i t
    refine ⟨?_, fun c hc => hr c (List.mem_of_mem_take hc), List.length_take_le _ _, by simp,
      rfl, rfl, rfl⟩
    simp
  · rename_i q
    exact ⟨hb.path_head, hb.path_nul, hb.fits.path, List.length_take_le _ _, rfl, rfl, rfl⟩
  · simp only
    split
    · rename_i i hi
      split
      · rename_i hlt
        refine ⟨?_, ?_, ?_, by simp, rfl, rfl, rfl⟩
        · simp only
          rw [List.head?_append_of_ne_nil]
          · exact head_take _ _ hb.path_head (by omega)
          · intro hnil
            have := head_take _ (i + 1) hb.path_head (by omega)
            rw [hnil] at this
            simp at this
        · intro c hc
          simp only [List.mem_append] at hc
          rcases hc with hc | hc
          · exact hb.path_nul c (List.mem_of_mem_take hc)
          · exact hr c hc
        · simp only [List.length_append, List.length_take]
          omega
      · exact ⟨hb.path_head, hb.path_nul, hb.fits.path, by simp, rfl, rfl, rfl⟩
    · refine ⟨?_, ?_, List.length_take_le _ _, by simp, rfl, rfl, rfl⟩
      · simp
      · intro c hc
        have := List.mem_of_mem_take hc
        simp only [List.singleton_append, List.mem_cons] at this
        rcases this with rfl | h
        · omega
        · exact hr c h

theorem resolve_query_props (u : Url) (r : List Nat) (h1 : u.path.head? = some 47)
    (h2 : ∀ c ∈ u.path, c ≠ 0) (h3 : u.path.length ≤ 1023) (h4 : u.query.length ≤ 511) :
    (resolve_query u r).path.head? = some 47 ∧
    (∀ c ∈ (resolve_query u r).path, c ≠ 0) ∧
    (resolve_query u r).path.length ≤ 1023 ∧
    (resolve_query u r).query.length ≤ 511 ∧
    (63 ∈ r → ∀ c ∈ (resolve_query u r).path, c ≠ 63) ∧
    (resolve_query u r).scheme = u.scheme ∧ (resolve_query u r).host = u.host ∧
    (resolve_query u r).port = u.port := by
  unfold resolve_query
  split
  · rename_i j hj
    refine ⟨?_, fun c hc => h2 c (mem_of_mem_takeWhile _ _ c hc), ?_, List.length_take_le _ _,
      ?_, rfl, rfl, rfl⟩
    · obtain ⟨t, ht⟩ : ∃ t, u.path = 47 :: t := by
        cases hp : u.path with
        | nil => rw [hp] at h1; simp at h1
        | cons a t => rw [hp] at h1; simp at h1; exact ⟨t, by rw [h1]⟩
      simp only [ht]
      rw [List.takeWhile_cons_of_pos (by simp)]
      simp
    · exact le_trans (length_takeWhile_le _ _) h3
    · intro _ c hc
      simpa using List.mem_takeWhile_imp hc
  · rename_i hj
    refine ⟨h1, h2, h3, h4, ?_, rfl, rfl, rfl⟩
    intro h63
    exact absurd h63 ((strchr_none_iff r 63).1 hj)

/-- The result of url_resolve for a reference that holds no "://" and does not begin with "//". -/
theorem url_resolve_rel (base : Url) (r : List Nat) (h1 : strstr r [58, 47, 47] = none)
    (h2 : ∀ t, r ≠ 47 :: 47 :: t) :
    url_resolve base r =
      (true, url_build { resolve_query (resolve_reference { base with query := [] } r) r with
        path := url_normalize_path
          (resolve_query (resolve_reference { base with query := [] } r) r).path }) := by
  unfold url_resolve
  rw [h1]
  simp only [Option.isSome_none, Bool.false_eq_true, if_false]

theorem find_scheme_nul (p : List Nat) (hp : ∀ c ∈ p, c ≠ 0) : ∀ c ∈ (find_scheme p).1, c ≠ 0 := by
  unfold find_scheme
  split
  · intro c hc
    exact hp c (List.mem_of_mem_take (List.mem_of_mem_take hc))
  · intro c hc
    simp at hc
    omega

/-- The Url that url_parse fills in is Good. -/
theorem url_parse_good (x : List Nat) (hx : ∀ c ∈ x, c ≠ 0) : Good (url_parse x).2 := by
  have hc := url_parse_canon x hx
  refine ⟨hc.fits, ?_, hc.path_head, hc.path_nul⟩
  exact find_scheme_nul _ (fun c h => hx c (mem_of_mem_dropWhile _ _ c h))

theorem url_resolve_rel_good (base : Url) (r : List Nat) (hb : Good base) (hr : ∀ c ∈ r, c ≠ 0)
    (h1 : strstr r [58, 47, 47] = none) (h2 : ∀ t, r ≠ 47 :: 47 :: t) :
    Good (url_resolve base r).2 ∧ (url_resolve base r).2.full = full_spec (url_resolve base r).2 ∧
    (63 ∈ r → ∀ c ∈ (url_resolve base r).2.path, c ≠ 63) := by
  obtain ⟨a1, a2, a3, a4, a5, a6, a7⟩ := resolve_reference_props base r hb hr
  obtain ⟨b1, b2, b3, b4, b5, b6, b7, b8⟩ := resolve_query_props _ r a1 a2 a3 a4
  have hn := url_normalize_path_eq _ b2 b1
  have hfits : Fits { resolve_query (resolve_reference { base with query := [] } r) r with
        path := url_normalize_path
          (resolve_query (resolve_reference { base with query := [] } r) r).path } := by
    refine ⟨?_, ?_, ?_, ?_, b4⟩
    · show (resolve_query _ r).scheme.length ≤ 15
      rw [b6, a5]; exact hb.fits.scheme
    · show (resolve_query _ r).host.length ≤ 255
      rw [b7, a6]; exact hb.fits.host
    · show (resolve_query _ r).port < 65536
      rw [b8, a7]; exact hb.fits.port
    · show (url_normalize_path _).length ≤ 1023
      rw [hn]
      exact le_trans (norm_spec_length _ b1) b3
  rw [url_resolve_rel base r h1 h2]
  refine ⟨⟨⟨hfits.scheme, hfits.host, hfits.port, hfits.path, hfits.query⟩, ?_, ?_, ?_⟩,
    url_build_fits _ hfits, ?_⟩
  · show ∀ c ∈ (resolve_query _ r).scheme, c ≠ 0
    rw [b6, a5]; exact hb.scheme_nul
  · show (url_normalize_path _).head? = some 47
    rw [hn]; exact norm_spec_head _
  · show ∀ c ∈ url_normalize_path _, c ≠ 0
    rw [hn]
    intro c hc
    rcases norm_spec_mem _ c hc with h | h
    · omega
    · exact b2 c h
  · intro h63
    show ∀ c ∈ url_normalize_path _, c ≠ 63
    rw [hn]
    intro c hc
    rcases norm_spec_mem _ c hc with h | h
    · omega
    · exact b5 h63 c h

/-- The Url that url_resolve fills in from a Good base is Good again, and its field full is the
serialized form of its other fields. -/
theorem url_resolve_good (base : Url) (r : List Nat) (hb : Good base) (hr : ∀ c ∈ r, c ≠ 0) :
    Good (url_resolve base r).2 ∧ (url_resolve base r).2.full = full_spec (url_resolve base r).2 := by
  by_cases h1 : strstr r [58, 47, 47] = none
  · by_cases h2 : ∀ t, r ≠ 47 :: 47 :: t
    · exact ⟨(url_resolve_rel_good base r hb hr h1 h2).1, (url_resolve_rel_good base r hb hr h1 h2).2.1⟩
    · push_neg at h2
      obtain ⟨t, rfl⟩ := h2
      have hx : ∀ c ∈ (base.scheme ++ [58] ++ 47 :: 47 :: t).take (MAX_URL_LENGTH - 1), c ≠ 0 := by
        intro c hc
        have := List.mem_of_mem_take hc
        simp only [List.mem_append, List.mem_singleton] at this
        rcases this with (h | h) | h
        · exact hb.scheme_nul c h
        · omega
        · exact hr c h
      have e : url_resolve base (47 :: 47 :: t) =
          url_parse ((base.scheme ++ [58] ++ 47 :: 47 :: t).take (MAX_URL_LENGTH - 1)) := by
        unfold url_resolve
        rw [h1]
        rfl
      rw [e]
      exact ⟨url_parse_good _ hx, (url_parse_canon _ hx).full_eq⟩
  · have e : url_resolve base r = url_parse r := by
      unfold url_resolve
      cases hs : strstr r [58, 47, 47] with
      | none => exact absurd hs h1
      | some i => rfl
    rw [e]
    exact ⟨url_parse_good _ hr, (url_parse_canon _ hr).full_eq⟩

/-! ## Claims on url_resolve -/

theorem strrchr_of_head (path : List Nat) (h : path.head? = some 47) :
    ∃ i, strrchr path 47 = some i ∧ path.take (i + 1) = dir_of path ∧ (dir_of path).length = i + 1 := by
  have hin : 47 ∈ path := List.mem_of_mem_head? h
  cases hs : strrchr path 47 with
  | none => exact absurd hin ((strrchr_none_iff path 47).1 hs)
  | some i =>
    refine ⟨i, rfl, strrchr_dir path i hs, ?_⟩
    rw [← strrchr_dir path i hs, List.length_take]
    have := strrchr_bound path i hs
    omega

/-- C4: for every base obtained from a successful url_parse and every reference r that contains
neither "://" nor '?', does not begin with '/' and fits the path field together with the base
directory, url_resolve succeeds and the result path is url_normalize_path (dir ++ r), dir being
the base path up to and including its last '/'; resolving "../c" against
gemini://example.org/a/b/ yields the path "/a/c". -/
theorem C4_relative_path :
    (∀ x r : List Nat, (∀ c ∈ x, c ≠ 0) → (url_parse x).1 = true →
      strstr r [58, 47, 47] = none → 63 ∉ r → r.head? ≠ some 47 →
      (dir_of (url_parse x).2.path).length + r.length < 1024 →
      (url_resolve (url_parse x).2 r).1 = true ∧
      (url_resolve (url_parse x).2 r).2.path =
        url_normalize_path (dir_of (url_parse x).2.path ++ r)) ∧
    (url_resolve (url_parse (str "gemini://example.org/a/b/")).2 (str "../c")).2.path = str "/a/c" := by
  refine ⟨?_, by decide⟩
  intro x r hx hs h1 h63 hhead hfit
  have hc := url_parse_canon x hx
  obtain ⟨i, hi, hdir, hlen⟩ := strrchr_of_head _ hc.path_head
  have h2 : ∀ t, r ≠ 47 :: 47 :: t := by
    rintro t rfl
    simp at hhead
  rw [url_resolve_rel _ r h1 h2]
  refine ⟨rfl, ?_⟩
  have e1 : resolve_reference { (url_parse x).2 with query := [] } r =
      { (url_parse x).2 with query := [], path := dir_of (url_parse x).2.path ++ r } := by
    unfold resolve_reference
    split
    · simp at hhead
    · simp at h63
    · simp only [hi]
      rw [if_pos (by omega), hdir]
  have e2 : ∀ u : Url, resolve_query u r = u := by
    intro u
    unfold resolve_query
    rw [(strchr_none_iff r 63).2 h63]
  rw [e2, e1]
  rfl

theorem C4_relative_path_witness :
    (∀ c ∈ str "gemini://example.org/a/b/", c ≠ 0) ∧
    (url_parse (str "gemini://example.org/a/b/")).1 = true ∧
    (url_resolve (url_parse (str "gemini://example.org/a/b/")).2 (str "../c")).1 = true ∧
    (url_resolve (url_parse (str "gemini://example.org/a/b/")).2 (str "../c")).2.path =
      url_normalize_path (dir_of (url_parse (str "gemini://example.org/a/b/")).2.path ++ str "../c") :=
  ⟨by decide, by decide,
    C4_relative_path.1 (str "gemini://example.org/a/b/") (str "../c") (by decide) (by decide)
      (by decide) (by decide) (by decide) (by decide)⟩

/-- C5: for every base obtained from a successful url_parse and every reference r shorter than
the path field that begins with a single '/' and contains no "://", url_resolve succeeds, the
result path is url_normalize_path of r cut at its first '?' (the base path plays no part), and
scheme, host and port are those of the base; resolving "/y" against gemini://example.org/x
yields the path "/y". -/
theorem C5_root_relative :
    (∀ x t : List Nat, (∀ c ∈ x, c ≠ 0) → (url_parse x).1 = true →
      strstr (47 :: t) [58, 47, 47] = none → t.head? ≠ some 47 → (47 :: t).length < 1024 →
      (url_resolve (url_parse x).2 (47 :: t)).1 = true ∧
      (url_resolve (url_parse x).2 (47 :: t)).2.path =
        url_normalize_path ((47 :: t).takeWhile (fun c => c != 63)) ∧
      (url_resolve (url_parse x).2 (47 :: t)).2.scheme = (url_parse x).2.scheme ∧
      (url_resolve (url_parse x).2 (47 :: t)).2.host = (url_parse x).2.host ∧
      (url_resolve (url_parse x).2 (47 :: t)).2.port = (url_parse x).2.port) ∧
    (url_resolve (url_parse (str "gemini://example.org/x")).2 (str "/y")).2.path = str "/y" := by
  refine ⟨?_, by decide⟩
  intro x t hx hs h1 hhead hlen
  have h2 : ∀ t', 47 :: t ≠ 47 :: 47 :: t' := by
    intro t' h
    simp at h
    rw [h] at hhead
    simp at hhead
  rw [url_resolve_rel _ _ h1 h2]
  have e1 : resolve_reference { (url_parse x).2 with query := [] } (47 :: t) =
      { (url_parse x).2 with query := [], path := 47 :: t } := by
    unfold resolve_reference
    simp only
    rw [List.take_of_length_le (by omega)]
  rw [e1]
  refine ⟨rfl, ?_, ?_, ?_, ?_⟩
  · show url_normalize_path (resolve_query _ (47 :: t)).path = _
    unfold resolve_query
    split
    · rfl
    · rename_i hnone
      have hno : ∀ a ∈ 47 :: t, (fun c => c != 63) a = true := by
        intro a ha
        have : a ≠ 63 := by
          rintro rfl
          exact (strchr_none_iff _ 63).1 hnone ha
        simpa using this
      rw [List.takeWhile_eq_self_iff.2 hno]
  · show (resolve_query _ (47 :: t)).scheme = _
    unfold resolve_query
    split <;> rfl
  · show (resolve_query _ (47 :: t)).host = _
    unfold resolve_query
    split <;> rfl
  · show (resolve_query _ (47 :: t)).port = _
    unfold resolve_query
    split <;> rfl

theorem C5_root_relative_witness :
    (∀ c ∈ str "gemini://example.org/x", c ≠ 0) ∧
    (url_parse (str "gemini://example.org/x")).1 = true ∧
    (url_resolve (url_parse (str "gemini://example.org/x")).2 (47 :: str "y?z")).2.path =
        url_normalize_path ((47 :: str "y?z").takeWhile (fun c => c != 63)) :=
  ⟨by decide, by decide,
    (C5_root_relative.1 (str "gemini://example.org/x") (str "y?z") (by decide) (by decide)
      (by decide) (by decide) (by decide)).2.1⟩

/-- C6: for every base obtained from a successful url_parse and every reference "?" ++ q with
q free of "://" and fitting the query field, url_resolve succeeds with path, scheme, host and
port of the base and query q; resolving "?q=1" keeps the base path and sets the query "q=1". -/
theorem C6_query_only :
    (∀ x q : List Nat, (∀ c ∈ x, c ≠ 0) → (url_parse x).1 = true →
      strstr q [58, 47, 47] = none → q.length ≤ 511 →
      (url_resolve (url_parse x).2 (63 :: q)).1 = true ∧
      (url_resolve (url_parse x).2 (63 :: q)).2.path = (url_parse x).2.path ∧
      (url_resolve (url_parse x).2 (63 :: q)).2.scheme = (url_parse x).2.scheme ∧
      (url_resolve (url_parse x).2 (63 :: q)).2.host = (url_parse x).2.host ∧
      (url_resolve (url_parse x).2 (63 :: q)).2.port = (url_parse x).2.port ∧
      (url_resolve (url_parse x).2 (63 :: q)).2.query = q) ∧
    ((url_resolve (url_parse (str "gemini://example.org/a/b?old")).2 (str "?q=1")).2.path =
        (url_parse (str "gemini://example.org/a/b?old")).2.path ∧
      (url_resolve (url_parse (str "gemini://example.org/a/b?old")).2 (str "?q=1")).2.query =
        str "q=1") := by
  refine ⟨?_, by decide⟩
  intro x q hx hs h1 hlen
  have hc := url_parse_canon x hx
  have h1' := strstr_none_cons 63 q (by decide) h1
  have h2 : ∀ t', 63 :: q ≠ 47 :: 47 :: t' := by
    intro t' h
    simp at h
  rw [url_resolve_rel _ _ h1' h2]
  have e1 : resolve_reference { (url_parse x).2 with query := [] } (63 :: q) =
      { (url_parse x).2 with query := q } := by
    unfold resolve_reference
    simp only
    rw [List.take_of_length_le hlen]
  have hno : ∀ a ∈ (url_parse x).2.path, (fun c => c != 63) a = true := by
    intro a ha
    simpa using hc.path_q a ha
  have e2 : resolve_query { (url_parse x).2 with query := q } (63 :: q) =
      { (url_parse x).2 with query := q } := by
    unfold resolve_query
    simp only [strchr, if_true]
    rw [List.takeWhile_eq_self_iff.2 hno]
    simp only [zero_add, List.drop_succ_cons, List.drop_zero]
    rw [List.take_of_length_le hlen]
  rw [e1, e2]
  refine ⟨rfl, ?_, rfl, rfl, rfl, rfl⟩
  show url_normalize_path (url_parse x).2.path = (url_parse x).2.path
  rw [url_normalize_path_eq _ hc.path_nul hc.path_head, hc.path_norm]

theorem C6_query_only_witness :
    (∀ c ∈ str "gemini://example.org/a/b?old", c ≠ 0) ∧
    (url_parse (str "gemini://example.org/a/b?old")).1 = true ∧
    (url_resolve (url_parse (str "gemini://example.org/a/b?old")).2 (63 :: str "q=1")).2.query =
      str "q=1" :=
  ⟨by decide, by decide,
    (C6_query_only.1 (str "gemini://example.org/a/b?old") (str "q=1") (by decide) (by decide)
      (by decide) (by decide)).2.2.2.2.2⟩

theorem url_resolve_query (base : Url) (r : List Nat) (h1 : strstr r [58, 47, 47] = none)
    (h2 : ∀ t, r ≠ 47 :: 47 :: t) (h63 : 63 ∈ r) :
    (url_resolve base r).2.query = (after_question r).take 511 := by
  rw [url_resolve_rel base r h1 h2]
  show (resolve_query _ r).query = _
  unfold resolve_query
  cases hs : strchr r 63 with
  | none => exact absurd h63 ((strchr_none_iff r 63).1 hs)
  | some j =>
    simp only
    rw [strchr_after r j hs]

theorem strstr_none_of_no_colon (l : List Nat) (h : 58 ∉ l) : strstr l [58, 47, 47] = none := by
  cases hs : strstr l [58, 47, 47] with
  | none => rfl
  | some i =>
    have := ((strstr_some_iff l i).1 hs).1.1
    exact absurd (List.getElem?_mem this) h

theorem long_query_facts (n : Nat) :
    63 ∈ (63 :: List.replicate n 97) ∧
    strstr (63 :: List.replicate n 97) [58, 47, 47] = none ∧
    (∀ t, 63 :: List.replicate n 97 ≠ 47 :: 47 :: t) ∧
    (after_question (63 :: List.replicate n 97)).length = n := by
  refine ⟨by simp, ?_, ?_, ?_⟩
  · apply strstr_none_of_no_colon
    intro h
    rcases List.mem_cons.1 h with h | h
    · omega
    · have := (List.mem_replicate.1 h).2
      omega
  · intro t h
    simp at h
  · simp [after_question, List.dropWhile]

/-- C7 (as stated, refuted): the query field holds at most 511 bytes, so for the reference "?"
followed by 512 letters 'a' the stored query is not the whole text after the '?'. -/
theorem C7_query_split_counterexample :
    (url_parse (str "gemini://a/")).1 = true ∧
    63 ∈ (63 :: List.replicate 512 97) ∧
    strstr (63 :: List.replicate 512 97) [58, 47, 47] = none ∧
    (url_resolve (url_parse (str "gemini://a/")).2 (63 :: List.replicate 512 97)).2.query ≠
      after_question (63 :: List.replicate 512 97) := by
  obtain ⟨f1, f2, f3, f4⟩ := long_query_facts 512
  refine ⟨by decide, f1, f2, ?_⟩
  rw [url_resolve_query _ _ f2 f3 f1]
  intro h
  have h' := congrArg List.length h
  rw [List.length_take, f4] at h'
  omega

/-- C7 (amended): for every base obtained from a successful url_parse and every reference r that
contains '?' but not "://" and does not begin with "//", the resolved Url has as query the first
511 bytes of the text of r after its first '?' (all of it when it is that short) and a path
without '?'. -/
theorem C7_query_split (x r : List Nat) (hx : ∀ c ∈ x, c ≠ 0) (_hs : (url_parse x).1 = true)
    (hr : ∀ c ∈ r, c ≠ 0) (h63 : 63 ∈ r) (h1 : strstr r [58, 47, 47] = none)
    (hslash : r.take 2 ≠ [47, 47]) :
    (url_resolve (url_parse x).2 r).2.query = (after_question r).take 511 ∧
    ((after_question r).length ≤ 511 →
      (url_resolve (url_parse x).2 r).2.query = after_question r) ∧
    (∀ c ∈ (url_resolve (url_parse x).2 r).2.path, c ≠ 63) := by
  have h2 : ∀ t, r ≠ 47 :: 47 :: t := by
    rintro t rfl
    exact hslash rfl
  have hq := url_resolve_query (url_parse x).2 r h1 h2 h63
  refine ⟨hq, ?_, (url_resolve_rel_good _ r (url_parse_good x hx) hr h1 h2).2.2 h63⟩
  intro hlen
  rw [hq, List.take_of_length_le hlen]

theorem C7_query_split_witness :
    (∀ c ∈ str "gemini://example.org/d/e", c ≠ 0) ∧
    (url_parse (str "gemini://example.org/d/e")).1 = true ∧
    (∀ c ∈ str "f?k=v?w", c ≠ 0) ∧ 63 ∈ str "f?k=v?w" ∧
    ((url_resolve (url_parse (str "gemini://example.org/d/e")).2 (str "f?k=v?w")).2.query =
        (after_question (str "f?k=v?w")).take 511 ∧
      ((after_question (str "f?k=v?w")).length ≤ 511 →
        (url_resolve (url_parse (str "gemini://example.org/d/e")).2 (str "f?k=v?w")).2.query =
          after_question (str "f?k=v?w")) ∧
      (∀ c ∈ (url_resolve (url_parse (str "gemini://example.org/d/e")).2 (str "f?k=v?w")).2.path,
        c ≠ 63)) :=
  ⟨by decide, by decide, by decide, by decide,
    C7_query_split (str "gemini://example.org/d/e") (str "f?k=v?w") (by decide) (by decide)
      (by decide) (by decide) (by decide) (by decide)⟩

/-! ## Claims on full, on failure of url_parse and on url_is_gemini -/

/-- C8: immediately after every url_parse, every url_resolve and every url_build the field full
equals scheme ++ "://" ++ host ++ P ++ path ++ Q, with P = ":" ++ decimal port unless the port is
1965 or 0, and Q = "?" ++ query unless the query is empty. Inputs are C strings, a base is a Url
as url_parse and url_resolve produce them, and url_build is given a Url that fits its buffers. -/
theorem C8_full_consistent :
    (∀ x : List Nat, (∀ c ∈ x, c ≠ 0) → (url_parse x).2.full = full_spec (url_parse x).2) ∧
    (∀ (base : Url) (r : List Nat), Good base → (∀ c ∈ r, c ≠ 0) →
      (url_resolve base r).2.full = full_spec (url_resolve base r).2) ∧
    (∀ u : Url, Fits u → (url_build u).full = full_spec (url_build u)) :=
  ⟨fun x hx => (url_parse_canon x hx).full_eq,
    fun base r hb hr => (url_resolve_good base r hb hr).2,
    fun u hu => url_build_fits u hu⟩

theorem C8_full_consistent_witness :
    (∀ c ∈ str "Gemini://Host:7/a?b", c ≠ 0) ∧
    (url_parse (str "Gemini://Host:7/a?b")).2.full = full_spec (url_parse (str "Gemini://Host:7/a?b")).2 ∧
    (url_resolve (url_parse (str "Gemini://Host:7/a?b")).2 (str "../c?d")).2.full =
      full_spec (url_resolve (url_parse (str "Gemini://Host:7/a?b")).2 (str "../c?d")).2 ∧
    (url_build (Url.mk (str "s") (str "h") 80 (str "/p") (str "q") [])).full =
      full_spec (url_build (Url.mk (str "s") (str "h") 80 (str "/p") (str "q") [])) :=
  ⟨by decide,
    C8_full_consistent.1 _ (by decide),
    C8_full_consistent.2.1 _ _ (url_parse_good _ (by decide)) (by decide),
    C8_full_consistent.2.2 _ ⟨by decide, by decide, by decide, by decide, by decide⟩⟩

/-- C9: url_parse returns false exactly when the extracted host is empty, that is exactly when,
after the leading whitespace and the optional "scheme://" prefix, the next byte is ':', '/', '?'
or the end of the string; for every other input it returns true. -/
theorem C9_parse_fails_iff (x : List Nat) :
    ((url_parse x).1 = false ↔ (url_parse x).2.host = []) ∧
    ((url_parse x).1 = false ↔ ∀ c ∈ (host_start x).head?, c = 58 ∨ c = 47 ∨ c = 63) ∧
    ((url_parse x).1 = true ↔ ∃ c ∈ (host_start x).head?, c ≠ 58 ∧ c ≠ 47 ∧ c ≠ 63) := by
  have hhost : (url_parse x).2.host =
      (((host_start x).takeWhile is_host_byte).take 255).map tolower := rfl
  have hflag : (url_parse x).1 = ((url_parse x).2.host != []) := rfl
  have hempty : (url_parse x).2.host = [] ↔
      ∀ c ∈ (host_start x).head?, c = 58 ∨ c = 47 ∨ c = 63 := by
    rw [hhost]
    cases hs : host_start x with
    | nil => simp
    | cons a t =>
      by_cases ha : is_host_byte a = true
      · rw [List.takeWhile_cons_of_pos ha]
        simp only [List.take_succ_cons, List.map_cons, List.head?_cons, Option.mem_def,
          Option.some.injEq, forall_eq']
        simp only [is_host_byte, bne_iff_ne, ne_eq, Bool.and_eq_true] at ha
        constructor
        · intro h; simp at h
        · intro h; omega
      · rw [List.takeWhile_cons_of_neg ha]
        simp only [List.take_nil, List.map_nil, List.head?_cons, Option.mem_def,
          Option.some.injEq, forall_eq', true_iff]
        simp only [is_host_byte, bne_iff_ne, ne_eq, Bool.and_eq_true] at ha
        omega
  have h1 : (url_parse x).1 = false ↔ (url_parse x).2.host = [] := by
    rw [hflag]
    simp
  refine ⟨h1, h1.trans hempty, ?_⟩
  rw [← Bool.not_eq_false, h1.trans hempty]
  push_neg
  simp only [Option.mem_def]

/-- C10 (as stated, refuted): url_parse keeps the scheme as written, so for
"GEMINI://example.org/" the stored scheme is "GEMINI" and url_is_gemini returns false. -/
theorem C10_is_gemini_counterexample :
    (url_parse (str "GEMINI://example.org/")).1 = true ∧
    (url_parse (str "GEMINI://example.org/")).2.scheme = str "GEMINI" ∧
    url_is_gemini (url_parse (str "GEMINI://example.org/")).2 = false := by
  decide

/-- C10 (amended): url_is_gemini compares the stored scheme with "gemini" byte for byte and
url_parse does not change the case of the scheme: for every address that starts with the
lower-case "gemini://", url_parse followed by url_is_gemini returns true, and for every Url
url_is_gemini is true if and only if its scheme equals "gemini". -/
theorem C10_is_gemini :
    (∀ rest : List Nat, url_is_gemini (url_parse (str "gemini://" ++ rest)).2 = true) ∧
    (∀ u : Url, url_is_gemini u = true ↔ u.scheme = str "gemini") := by
  constructor
  · intro rest
    have e : str "gemini://" ++ rest = [103, 101, 109, 105, 110, 105] ++ [58, 47, 47] ++ rest := by
      have : str "gemini://" = [103, 101, 109, 105, 110, 105, 58, 47, 47] := by decide
      rw [this]
      rfl
    have hscheme : (url_parse (str "gemini://" ++ rest)).2.scheme =
        (find_scheme ((str "gemini://" ++ rest).dropWhile isspace)).1 := rfl
    unfold url_is_gemini
    rw [hscheme, e]
    have hd : ([103, 101, 109, 105, 110, 105] ++ [58, 47, 47] ++ rest).dropWhile isspace =
        [103, 101, 109, 105, 110, 105] ++ [58, 47, 47] ++ rest := by
      simp only [List.cons_append, List.nil_append]
      rw [List.dropWhile_cons_of_neg (by decide)]
    rw [hd]
    unfold find_scheme
    rw [strstr_gemini]
    simp
  · intro u
    have : str "gemini" = [103, 101, 109, 105, 110, 105] := by decide
    rw [this]
    unfold url_is_gemini
    simp

/-! ## Port parsing in url_parse -/

theorem atoi_digits_run (ds rest : List Nat) (hds : ∀ c ∈ ds, isdigit c = true) :
    ∀ a, atoi_digits a (ds ++ rest) = atoi_digits (ds.foldl (fun a c => a * 10 + (c - 48)) a) rest := by
  induction ds with
  | nil => intro a; rfl
  | cons d ds ih =>
    intro a
    have hd := hds d (by simp)
    simp only [List.cons_append, atoi_digits, hd, if_true, List.foldl_cons]
    exact ih (fun c hc => hds c (by simp [hc])) _

theorem isdigit_not_space_sign (d : Nat) (hd : isdigit d = true) :
    isspace d = false ∧ d ≠ 45 ∧ d ≠ 43 := by
  simp only [isdigit, Bool.and_eq_true, decide_eq_true_eq] at hd
  refine ⟨?_, by omega, by omega⟩
  simp only [isspace, Bool.or_eq_false_iff, beq_eq_false_iff_ne, ne_eq, Bool.and_eq_false_iff,
    decide_eq_false_iff_not]
  omega

/-- The value atoi reads from a run of digits that starts the text. -/
theorem atoi_run (ds rest : List Nat) (hne : ds ≠ []) (hds : ∀ c ∈ ds, isdigit c = true)
    (hrest : ∀ c ∈ rest.head?, isdigit c = false) : atoi (ds ++ rest) = (dec_value ds : Int) := by
  obtain ⟨d, ds', rfl⟩ := List.exists_cons_of_ne_nil hne
  obtain ⟨h1, h2, h3⟩ := isdigit_not_space_sign d (hds d (by simp))
  have hval := atoi_digits_run (d :: ds') rest hds 0
  rw [atoi_digits_stop _ _ hrest] at hval
  unfold atoi
  rw [List.cons_append, List.dropWhile_cons_of_neg (by simp [h1])]
  split
  · rename_i heq; simp at heq; omega
  · rename_i heq; simp at heq; omega
  · rw [← List.cons_append, hval]
    rfl

/-- The value atoi gives when it finds no digit. -/
theorem atoi_no_digit (t : List Nat) (h : ∀ c ∈ (atoi_digits_start t).head?, isdigit c = false) :
    atoi t = 0 := by
  unfold atoi
  unfold atoi_digits_start at h
  generalize List.dropWhile isspace t = l at h
  match l, h with
  | [], h => rfl
  | c :: r, h =>
    by_cases h1 : c = 45
    · subst h1
      simp only at h
      simp only [atoi_digits_stop 0 r h]
      rfl
    · by_cases h2 : c = 43
      · subst h2
        simp only at h
        simp only [atoi_digits_stop 0 r h]
        rfl
      · have e1 : ∀ r', c :: r = 45 :: r' → False := by
          intro r' he; simp at he; exact h1 he.1
        have e2 : ∀ r', c :: r = 43 :: r' → False := by
          intro r' he; simp at he; exact h2 he.1
        split at h
        · rename_i r' heq; exact absurd heq (e1 r')
        · rename_i r' heq; exact absurd heq (e2 r')
        · rw [atoi_digits_stop 0 _ h]
          rfl

theorem url_parse_port (x : List Nat) : (url_parse x).2.port = (parse_port (host_end x)).1 := rfl

theorem url_parse_path_query (x : List Nat) :
    (url_parse x).2.path = url_normalize_path (parse_path (parse_port (host_end x)).2).1 ∧
    (url_parse x).2.query = parse_query (parse_path (parse_port (host_end x)).2).2 := ⟨rfl, rfl⟩

theorem parse_port_colon (t : List Nat) :
    parse_port (58 :: t) = ((atoi t % 65536).toNat, t.dropWhile (fun c => c != 47 && c != 63)) := by
  unfold parse_port
  simp only
  rw [List.dropWhile_cons_of_pos (by decide)]

theorem parse_port_no_colon (he : List Nat) (h : he.head? ≠ some 58) :
    parse_port he = (1965, he) := by
  unfold parse_port
  split
  · simp at h
  · rfl

/-- The value of atoi is the digits after whitespace and sign, negated after a '-'. -/
theorem atoi_sign (t : List Nat) :
    atoi t = (if (t.dropWhile isspace).head? = some 45 then -1 else 1) *
      (atoi_digits 0 (atoi_digits_start t) : Int) := by
  unfold atoi atoi_digits_start
  generalize List.dropWhile isspace t = l
  match l with
  | [] => simp
  | c :: r =>
    by_cases h1 : c = 45
    · subst h1; simp
    · by_cases h2 : c = 43
      · subst h2; simp
      · have e1 : ∀ r', c :: r = 45 :: r' → False := by
          intro r' he; simp at he; exact h1 he.1
        have e2 : ∀ r', c :: r = 43 :: r' → False := by
          intro r' he; simp at he; exact h2 he.1
        have e3 : ¬ ((c :: r).head? = some 45) := by simp [h1]
        rw [if_neg e3]
        split
        · rename_i r' heq; exact absurd heq (e1 r')
        · rename_i r' heq; exact absurd heq (e2 r')
        · simp

theorem atoi_digits_start_run (ds rest : List Nat) (hne : ds ≠ [])
    (hds : ∀ c ∈ ds, isdigit c = true) :
    atoi_digits_start (ds ++ rest) = ds ++ rest ∧
    ((ds ++ rest).dropWhile isspace).head? ≠ some 45 := by
  obtain ⟨d, ds', rfl⟩ := List.exists_cons_of_ne_nil hne
  obtain ⟨h1, h2, h3⟩ := isdigit_not_space_sign d (hds d (by simp))
  unfold atoi_digits_start
  rw [List.cons_append, List.dropWhile_cons_of_neg (by simp [h1])]
  refine ⟨?_, by simp [h2]⟩
  split
  · rename_i heq; simp at heq; omega
  · rename_i heq; simp at heq; omega
  · rfl

/-- C11 (counterexample): in "a:-1" the host "a" is followed by ':' and the text after it, "-1",
does not start with a digit; the parse succeeds with port 65535, which is neither 0 nor the
value 1 of the digit that follows. -/
theorem C11_port_counterexample :
    (url_parse (str "a:-1")).1 = true ∧
    host_end (str "a:-1") = 58 :: str "-1" ∧
    (∀ c ∈ (str "-1").head?, isdigit c = false) ∧
    (url_parse (str "a:-1")).2.port = 65535 ∧
    (url_parse (str "a:-1")).2.port ≠ 0 ∧
    (url_parse (str "a:-1")).2.port ≠ dec_value (str "1") := by
  decide

/-- C11 (amended): when no ':' follows the host the port is 1965. When the host is followed by
':' and the text t, the port is the value atoi reads from t reduced modulo 65536, for every t
whose value fits an int (outside that range the result of atoi is undefined in C): the decimal
value of the digits that follow directly (for values up to 65535); after leading whitespace
and one optional sign, the value of the digits found there (up to 65535), taken from 65536
after a '-'; and 0 when no digit is found there. The path and query are read from the first
'/' or '?' of t on, and the parse succeeds exactly when the host text is not empty, whatever
follows the ':'. -/
theorem C11_port_parsing (x : List Nat) :
    ((host_end x).head? ≠ some 58 → (url_parse x).2.port = 1965) ∧
    (∀ t, host_end x = 58 :: t →
      (-2147483648 ≤ atoi t ∧ atoi t ≤ 2147483647 →
        (url_parse x).2.port = (atoi t % 65536).toNat) ∧
      (∀ ds rest, t = ds ++ rest → ds ≠ [] → (∀ c ∈ ds, isdigit c = true) →
        (∀ c ∈ rest.head?, isdigit c = false) → dec_value ds ≤ 65535 →
        (url_parse x).2.port = dec_value ds) ∧
      (∀ ds rest, atoi_digits_start t = ds ++ rest → (∀ c ∈ ds, isdigit c = true) →
        (∀ c ∈ rest.head?, isdigit c = false) → dec_value ds ≤ 65535 →
        (url_parse x).2.port =
          if (t.dropWhile isspace).head? = some 45 then (65536 - dec_value ds) % 65536
          else dec_value ds) ∧
      ((∀ c ∈ (atoi_digits_start t).head?, isdigit c = false) → (url_parse x).2.port = 0) ∧
      (url_parse x).2.path =
        url_normalize_path (parse_path (t.dropWhile (fun c => c != 47 && c != 63))).1 ∧
      (url_parse x).2.query =
        parse_query (parse_path (t.dropWhile (fun c => c != 47 && c != 63))).2) ∧
    ((url_parse x).1 = true ↔ (host_start x).takeWhile is_host_byte ≠ []) := by
  refine ⟨?_, ?_, ?_⟩
  · intro h
    rw [url_parse_port, parse_port_no_colon _ h]
  · intro t ht
    have hport : (url_parse x).2.port = (atoi t % 65536).toNat := by
      rw [url_parse_port, ht, parse_port_colon]
    have hpq := url_parse_path_query x
    rw [ht, parse_port_colon] at hpq
    have hsigned : ∀ ds rest, atoi_digits_start t = ds ++ rest → (∀ c ∈ ds, isdigit c = true) →
        (∀ c ∈ rest.head?, isdigit c = false) → dec_value ds ≤ 65535 →
        (url_parse x).2.port =
          if (t.dropWhile isspace).head? = some 45 then (65536 - dec_value ds) % 65536
          else dec_value ds := by
      intro ds rest hst hds hrest hle
      have hval := atoi_digits_run ds rest hds 0
      rw [atoi_digits_stop _ _ hrest] at hval
      have hv : atoi_digits 0 (atoi_digits_start t) = dec_value ds := by rw [hst, hval]; rfl
      rw [hport, atoi_sign, hv]
      by_cases h45 : (t.dropWhile isspace).head? = some 45
      · rw [if_pos h45, if_pos h45]; omega
      · rw [if_neg h45, if_neg h45]; omega
    refine ⟨fun _ => hport, ?_, hsigned, ?_, hpq.1, hpq.2⟩
    · intro ds rest he hne hds hrest hle
      obtain ⟨h1, h2⟩ := atoi_digits_start_run ds rest hne hds
      have := hsigned ds rest (by rw [he, h1]) hds hrest hle
      rw [he, if_neg h2] at this
      exact this
    · intro h
      rw [hport, atoi_no_digit t h]
      rfl
  · show ((((((host_start x).takeWhile is_host_byte).take 255).map tolower) != []) = true ↔ _)
    cases h : (host_start x).takeWhile is_host_byte <;> simp

theorem C11_port_parsing_witness :
    ((host_end (str "gemini://h/p")).head? ≠ some 58 ∧
      (url_parse (str "gemini://h/p")).2.port = 1965) ∧
    (host_end (str "h:8080/p?q") = 58 :: (str "8080" ++ str "/p?q") ∧
      (url_parse (str "h:8080/p?q")).2.port = dec_value (str "8080") ∧
      dec_value (str "8080") = 8080 ∧
      (url_parse (str "h:8080/p?q")).2.path = str "/p" ∧
      (url_parse (str "h:8080/p?q")).2.query = str "q") ∧
    (host_end (str "h: +80x") = 58 :: str " +80x" ∧
      (url_parse (str "h: +80x")).2.port = 80) ∧
    (host_end (str "h:x1/p") = 58 :: str "x1/p" ∧
      (url_parse (str "h:x1/p")).2.port = 0 ∧ (url_parse (str "h:x1/p")).1 = true) ∧
    ((-2147483648 ≤ atoi (str " +80x") ∧ atoi (str " +80x") ≤ 2147483647) ∧
      (url_parse (str "h: +80x")).2.port = (atoi (str " +80x") % 65536).toNat) := by
  have a := C11_port_parsing (str "gemini://h/p")
  have b := (C11_port_parsing (str "h:8080/p?q")).2.1 (str "8080" ++ str "/p?q") (by decide)
  have c := (C11_port_parsing (str "h: +80x")).2.1 (str " +80x") (by decide)
  have d := (C11_port_parsing (str "h:x1/p")).2.1 (str "x1/p") (by decide)
  refine ⟨⟨by decide, a.1 (by decide)⟩, ⟨by decide, ?_, by decide, ?_, ?_⟩, ⟨by decide, ?_⟩,
    ⟨by decide, d.2.2.2.1 (by decide), (C11_port_parsing (str "h:x1/p")).2.2.mpr (by decide)⟩,
    ⟨by decide, c.1 (by decide)⟩⟩
  · exact b.2.1 (str "8080") (str "/p?q") rfl (by decide) (by decide) (by decide) (by decide)
  · rw [b.2.2.2.2.1]; decide
  · rw [b.2.2.2.2.2]; decide
  · have := c.2.2.1 (str "80") (str "x") (by decide) (by decide) (by decide) (by decide)
    rw [this]; decide

/-! ## url_encode -/

set_option maxRecDepth 100000 in
theorem fmt_02X_byte : ∀ c, c < 256 → fmt_02X c = [hex_upper (c / 16), hex_upper (c % 16)] := by
  decide

theorem hex_upper_ne_zero : ∀ d, d < 16 → hex_upper d ≠ 0 := by decide

theorem passes_iff_unreserved (c : Nat) :
    (isalnum c || c == 45 || c == 95 || c == 46 || c == 126) = unreserved c := by
  rw [Bool.eq_iff_iff]
  simp only [isalnum, isdigit, unreserved, Bool.or_eq_true, Bool.and_eq_true, decide_eq_true_eq,
    beq_iff_eq]
  omega

theorem unreserved_ne_zero (c : Nat) (h : unreserved c = true) : c ≠ 0 := by
  rintro rfl
  revert h
  decide

theorem spec_encode_cons (b : Nat) (s : List Nat) :
    spec_encode (b :: s) =
      (if unreserved b then [b] else [37, hex_upper (b / 16), hex_upper (b % 16)]) ++
        spec_encode s := by
  simp [spec_encode]

theorem spec_encode_ne_zero (s : List Nat) (hs : ∀ b ∈ s, b < 256) :
    ∀ c ∈ spec_encode s, c ≠ 0 := by
  induction s with
  | nil => simp [spec_encode]
  | cons b s ih =>
    intro c hc
    have hb := hs b (by simp)
    rw [spec_encode_cons, List.mem_append] at hc
    rcases hc with hc | hc
    · by_cases hu : unreserved b = true
      · rw [if_pos hu] at hc
        simp only [List.mem_singleton] at hc
        subst hc
        exact unreserved_ne_zero _ hu
      · rw [if_neg hu] at hc
        simp only [List.mem_cons, List.mem_singleton, List.not_mem_nil, or_false] at hc
        rcases hc with rfl | rfl | rfl
        · decide
        · exact hex_upper_ne_zero _ (by omega)
        · exact hex_upper_ne_zero _ (by omega)
    · exact ih (fun c hc => hs c (by simp [hc])) c hc

theorem spec_encode_length_le (s : List Nat) : (spec_encode s).length ≤ 3 * s.length := by
  induction s with
  | nil => simp [spec_encode]
  | cons b s ih =>
    rw [spec_encode_cons, List.length_append, List.length_cons]
    split <;> simp <;> omega

theorem store_length (b : List Nat) (i : Nat) (bytes : List Nat) (h : i + bytes.length ≤ b.length) :
    (store b i bytes).length = b.length := by
  simp only [store, List.length_append, List.length_take, List.length_drop]
  omega

theorem store_take (b : List Nat) (i k : Nat) (bytes : List Nat) (hi : i ≤ b.length)
    (hk : k ≤ bytes.length) : (store b i bytes).take (i + k) = b.take i ++ bytes.take k := by
  unfold store
  have hl : (b.take i).length = i := by rw [List.length_take]; omega
  rw [List.append_assoc, List.take_append_eq_append_take, hl, List.take_take,
    Nat.min_eq_right (by omega), show i + k - i = k by omega, List.take_append_eq_append_take,
    show k - bytes.length = 0 by omega]
  simp

theorem take_succ_set (b : List Nat) (i c : Nat) (hi : i < b.length) :
    (b.set i c).take (i + 1) = b.take i ++ [c] := by
  have hl : (b.take i).length = i := by rw [List.length_take]; omega
  rw [List.set_eq_take_append_cons_drop, if_pos hi, List.take_append_eq_append_take, hl,
    List.take_take, Nat.min_eq_right (by omega), show i + 1 - i = 1 by omega]
  simp

/-- The loop of url_encode appends the reference encoding of the rest of the input to what is
written before dst, and stays inside a buffer with three bytes per input byte and one more. -/
theorem url_encode_loop_spec (src : List Nat) (hs : ∀ b ∈ src, b < 256) :
    ∀ (result : List Nat) (dst : Nat), dst + 3 * src.length + 1 ≤ result.length →
      (url_encode_loop src result dst).1.length = result.length ∧
      (url_encode_loop src result dst).2 = dst + (spec_encode src).length ∧
      (url_encode_loop src result dst).1.take (url_encode_loop src result dst).2 =
        result.take dst ++ spec_encode src := by
  induction src with
  | nil =>
    intro result dst _
    simp [url_encode_loop, spec_encode]
  | cons b src ih =>
    intro result dst hlen
    have hb : b % 256 = b := Nat.mod_eq_of_lt (hs b (by simp))
    have hs' : ∀ b ∈ src, b < 256 := fun c hc => hs c (by simp [hc])
    rw [List.length_cons] at hlen
    unfold url_encode_loop
    simp only [hb, passes_iff_unreserved]
    rw [spec_encode_cons]
    by_cases hu : unreserved b = true
    · rw [if_pos hu, if_pos hu]
      obtain ⟨h1, h2, h3⟩ := ih hs' (result.set dst b) (dst + 1) (by rw [List.length_set]; omega)
      refine ⟨by rw [h1, List.length_set], by rw [h2]; simp; omega, ?_⟩
      rw [h3, take_succ_set _ _ _ (by omega)]
      simp
    · rw [if_neg hu, if_neg hu, fmt_02X_byte b (hs b (by simp))]
      have hst := store_length result dst
        (37 :: [hex_upper (b / 16), hex_upper (b % 16)] ++ [0]) (by simp; omega)
      obtain ⟨h1, h2, h3⟩ := ih hs' (store result dst
        (37 :: [hex_upper (b / 16), hex_upper (b % 16)] ++ [0])) (dst + 3) (by rw [hst]; omega)
      refine ⟨by rw [h1, hst], by rw [h2]; simp; omega, ?_⟩
      rw [h3, store_take _ _ 3 _ (by omega) (by simp)]
      simp

/-- The string url_encode returns is the reference encoding, whatever the fresh block held. -/
theorem url_encode_eq (fresh s : List Nat) (hf : fresh.length = s.length * 3 + 1)
    (hs : ∀ b ∈ s, b < 256) :
    url_encode fresh s = spec_encode s ∧ (url_encode_buffer fresh s).length = fresh.length := by
  obtain ⟨h1, h2, h3⟩ := url_encode_loop_spec s hs fresh 0 (by omega)
  have hle := spec_encode_length_le s
  unfold url_encode url_encode_buffer
  simp only
  refine ⟨?_, by rw [List.length_set, h1]⟩
  rw [cstr_set_zero _ _ (by rw [h1, h2]; omega), h3]
  · simp
  · rw [h3]
    simpa using spec_encode_ne_zero s hs

theorem spec_encode_unreserved (s : List Nat) (h : ∀ b ∈ s, unreserved b = true) :
    spec_encode s = s := by
  induction s with
  | nil => simp [spec_encode]
  | cons b s ih =>
    rw [spec_encode_cons, if_pos (h b (by simp)), ih (fun c hc => h c (by simp [hc]))]
    rfl

/-- C12: for every C string s (bytes 1..255) and whatever the allocated block holds at first,
url_encode returns the reference encoding of s: each byte of [A-Za-z0-9._~-] itself, every
other byte as '%' and its two uppercase hexadecimal digits, in order. The writes stay within
the len * 3 + 1 bytes allocated, a string of unreserved bytes only is returned unchanged, and
the output is at most three times as long as the input. -/
theorem C12_url_encode (fresh s : List Nat) (hf : fresh.length = s.length * 3 + 1)
    (hs : ∀ b ∈ s, 0 < b ∧ b < 256) :
    url_encode fresh s = spec_encode s ∧
    (url_encode_buffer fresh s).length = fresh.length ∧
    ((∀ b ∈ s, unreserved b = true) → url_encode fresh s = s) ∧
    (url_encode fresh s).length ≤ 3 * s.length := by
  obtain ⟨h1, h2⟩ := url_encode_eq fresh s hf (fun b hb => (hs b hb).2)
  refine ⟨h1, h2, ?_, ?_⟩
  · intro hu
    rw [h1, spec_encode_unreserved s hu]
  · rw [h1]
    exact spec_encode_length_le s

theorem C12_url_encode_witness :
    (List.replicate 16 255).length = (str "a b/~").length * 3 + 1 ∧
    (∀ b ∈ str "a b/~", 0 < b ∧ b < 256) ∧
    url_encode (List.replicate 16 255) (str "a b/~") = spec_encode (str "a b/~") ∧
    spec_encode (str "a b/~") = str "a%20b%2F~" := by
  refine ⟨by decide, by decide, ?_, by decide⟩
  exact (C12_url_encode (List.replicate 16 255) (str "a b/~") (by decide) (by decide)).1

/-! ## url_decode -/

theorem is_hex_eq_isxdigit (c : Nat) : is_hex c = isxdigit c := by
  rw [Bool.eq_iff_iff]
  simp only [is_hex, str, isxdigit, isdigit, Bool.or_eq_true, Bool.and_eq_true,
    decide_eq_true_eq]
  simp
  omega

theorem strtol16_pair (h l : Nat) (hh : isxdigit h = true) (hl : isxdigit l = true) :
    strtol16 [h, l] % 256 = 16 * hex_value h + hex_value l := by
  simp only [isxdigit, isdigit, Bool.or_eq_true, Bool.and_eq_true, decide_eq_true_eq] at hh hl
  simp only [strtol16, List.foldl_cons, List.foldl_nil, isdigit, hex_value, Bool.and_eq_true,
    decide_eq_true_eq]
  split_ifs <;> omega

/-- One step of the reference decoder, with the two bytes after a '%' read as 0 when absent. -/
theorem spec_decode_step (c : Nat) (rest : List Nat) :
    spec_decode (c :: rest) =
      if c = 37 ∧ isxdigit (rest.getD 0 0) = true ∧ isxdigit (rest.getD 1 0) = true then
        (16 * hex_value (rest.getD 0 0) + hex_value (rest.getD 1 0)) :: spec_decode (rest.drop 2)
      else if c = 43 then 32 :: spec_decode rest
      else c :: spec_decode rest := by
  unfold spec_decode
  match rest with
  | [] =>
    simp only [spec_decode_aux, List.getD_nil]
    have : isxdigit 0 = false := by decide
    simp only [this]
    by_cases h1 : c = 37
    · subst h1; simp [spec_decode_aux]
    · by_cases h2 : c = 43
      · subst h2; simp [spec_decode_aux]
      · simp [h1, h2, spec_decode_aux]
  | [h] =>
    have : isxdigit 0 = false := by decide
    by_cases h1 : c = 37
    · subst h1; simp [spec_decode_aux, this]
    · by_cases h2 : c = 43
      · subst h2; simp [spec_decode_aux]
      · simp [h1, h2, spec_decode_aux]
  | h :: l :: r =>
    by_cases h1 : c = 37
    · subst h1
      simp only [spec_decode_aux, is_hex_eq_isxdigit, List.getD_cons_zero, List.getD_cons_succ,
        true_and, List.drop_succ_cons, List.drop_zero]
      split_ifs <;> simp_all
    · by_cases h2 : c = 43
      · subst h2; simp [spec_decode_aux]
      · simp [h1, h2, spec_decode_aux]

theorem rd_drop (b : List Nat) (src i : Nat) : rd b (src + i) = (b.drop src).getD i 0 := by
  simp [rd, List.getD_eq_getElem?_getD, List.getElem?_drop]

theorem spec_decode_length_le : ∀ (n : Nat) (s : List Nat), s.length ≤ n →
    (spec_decode s).length ≤ s.length := by
  intro n
  induction n with
  | zero =>
    intro s hs
    have : s = [] := List.length_eq_zero.1 (by omega)
    subst this
    simp [spec_decode, spec_decode_aux]
  | succ n ih =>
    intro s hs
    match s with
    | [] => simp [spec_decode, spec_decode_aux]
    | c :: rest =>
      rw [spec_decode_step]
      simp only [List.length_cons] at hs ⊢
      split_ifs
      · have := ih (rest.drop 2) (by rw [List.length_drop]; omega)
        rw [List.length_drop] at this
        simp only [List.length_cons]
        omega
      · have := ih rest (by omega)
        simp only [List.length_cons]
        omega
      · have := ih rest (by omega)
        simp only [List.length_cons]
        omega

/-- The loop of url_decode writes the reference decoding of the text between src and the NUL
in front of dst, never past src, and leaves the buffer length alone. -/
theorem url_decode_loop_spec : ∀ (fuel : Nat) (b : List Nat) (src dst : Nat) (suffix tail : List Nat),
    b.drop src = suffix ++ 0 :: tail → (∀ c ∈ suffix, c ≠ 0) → dst ≤ src → suffix.length < fuel →
    (url_decode_loop fuel b src dst).1.length = b.length ∧
    (url_decode_loop fuel b src dst).2 = dst + (spec_decode suffix).length ∧
    (url_decode_loop fuel b src dst).1.take (url_decode_loop fuel b src dst).2 =
      b.take dst ++ spec_decode suffix := by
  intro fuel
  induction fuel with
  | zero => intro b src dst suffix tail _ _ _ h; omega
  | succ fuel ih =>
    intro b src dst suffix tail hd hnz hle hfuel
    have hlen : src + suffix.length + 1 + tail.length = b.length := by
      have := congrArg List.length hd
      simp only [List.length_drop, List.length_append, List.length_cons] at this
      omega
    have hr0 : rd b src = (suffix ++ 0 :: tail).getD 0 0 := by
      have := rd_drop b src 0
      rwa [Nat.add_zero, hd] at this
    have hr1 : rd b (src + 1) = (suffix ++ 0 :: tail).getD 1 0 := by rw [rd_drop, hd]
    have hr2 : rd b (src + 2) = (suffix ++ 0 :: tail).getD 2 0 := by rw [rd_drop, hd]
    unfold url_decode_loop
    match suffix, hd, hnz, hfuel, hlen, hr0, hr1, hr2 with
    | [], hd, hnz, hfuel, hlen, hr0, hr1, hr2 =>
      simp only [List.nil_append, List.getD_cons_zero] at hr0
      rw [if_pos hr0]
      simp [spec_decode, spec_decode_aux]
    | c :: rest, hd, hnz, hfuel, hlen, hr0, hr1, hr2 =>
      simp only [List.cons_append, List.getD_cons_zero, List.getD_cons_succ] at hr0 hr1 hr2
      have hc : c ≠ 0 := hnz c (by simp)
      have hrest : ∀ c ∈ rest, c ≠ 0 := fun a ha => hnz a (by simp [ha])
      simp only [List.length_cons] at hfuel hlen
      have hd1 : b.drop (src + 1) = rest ++ 0 :: tail := by
        rw [← List.drop_drop, hd]; rfl
      have hx0 : isxdigit 0 = false := by decide
      rw [if_neg (by rw [hr0]; exact hc), spec_decode_step, hr0, hr1, hr2]
      have step : ∀ (v k : Nat) (suf : List Nat), 1 ≤ k → b.drop (src + k) = suf ++ 0 :: tail →
          (∀ c ∈ suf, c ≠ 0) → suf.length < fuel →
          (url_decode_loop fuel (b.set dst v) (src + k) (dst + 1)).1.length = b.length ∧
          (url_decode_loop fuel (b.set dst v) (src + k) (dst + 1)).2 =
            dst + (v :: spec_decode suf).length ∧
          (url_decode_loop fuel (b.set dst v) (src + k) (dst + 1)).1.take
              (url_decode_loop fuel (b.set dst v) (src + k) (dst + 1)).2 =
            b.take dst ++ v :: spec_decode suf := by
        intro v k suf hk hdk hsuf hf
        obtain ⟨h1, h2, h3⟩ := ih (b.set dst v) (src + k) (dst + 1) suf tail
          (by rw [List.drop_set_of_lt _ _ (by omega), hdk]) hsuf (by omega) hf
        refine ⟨by rw [h1, List.length_set], by rw [h2, List.length_cons]; omega, ?_⟩
        rw [h3, take_succ_set _ _ _ (by omega)]
        simp
      match rest, hd, hrest, hfuel, hlen, hr1, hr2, hd1 with
      | [], hd, hrest, hfuel, hlen, hr1, hr2, hd1 =>
        simp only [List.nil_append, List.getD_cons_zero, List.getD_nil, hx0, Bool.false_eq_true,
          false_and, and_false, if_false]
        split_ifs
        · exact step 32 1 [] (by omega) hd1 hrest (by simp only [List.length_cons, List.length_nil] at hfuel ⊢; omega)
        · exact step c 1 [] (by omega) hd1 hrest (by simp only [List.length_cons, List.length_nil] at hfuel ⊢; omega)
      | [h], hd, hrest, hfuel, hlen, hr1, hr2, hd1 =>
        simp only [List.cons_append, List.nil_append, List.getD_cons_zero, List.getD_cons_succ,
          List.getD_nil, hx0, Bool.false_eq_true, and_false, if_false]
        split_ifs
        · exact step 32 1 [h] (by omega) hd1 hrest (by simp only [List.length_cons, List.length_nil] at hfuel ⊢; omega)
        · exact step c 1 [h] (by omega) hd1 hrest (by simp only [List.length_cons, List.length_nil] at hfuel ⊢; omega)
      | h :: l :: r, hd, hrest, hfuel, hlen, hr1, hr2, hd1 =>
        simp only [List.cons_append, List.getD_cons_zero, List.getD_cons_succ,
          List.drop_succ_cons, List.drop_zero]
        have hd3 : b.drop (src + 3) = r ++ 0 :: tail := by
          rw [show src + 3 = (src + 1) + 2 by omega, ← List.drop_drop, hd1]; rfl
        have hr : ∀ c ∈ r, c ≠ 0 := fun a ha => hrest a (by simp [ha])
        simp only [List.length_cons] at hfuel
        split_ifs with hA hB
        · rw [strtol16_pair h l hA.2.1 hA.2.2]
          exact step _ 3 r (by omega) hd3 hr (by omega)
        · exact step 32 1 (h :: l :: r) (by omega) hd1 hrest (by simp; omega)
        · exact step c 1 (h :: l :: r) (by omega) hd1 hrest (by simp; omega)

/-- What url_decode leaves in the buffer that holds the string s and its NUL. -/
theorem url_decode_eq (s tail : List Nat) (hs : ∀ c ∈ s, c ≠ 0) :
    (url_decode (s ++ 0 :: tail)).2 = (spec_decode s).length ∧
    (url_decode (s ++ 0 :: tail)).1.length = (s ++ 0 :: tail).length ∧
    (url_decode (s ++ 0 :: tail)).1.take ((spec_decode s).length + 1) = spec_decode s ++ [0] := by
  obtain ⟨h1, h2, h3⟩ := url_decode_loop_spec ((s ++ 0 :: tail).length + 1) (s ++ 0 :: tail) 0 0
    s tail rfl hs (Nat.le_refl 0) (by simp; omega)
  have hle := spec_decode_length_le s.length s (Nat.le_refl _)
  simp only [Nat.zero_add, List.take_zero, List.nil_append] at h2 h3
  unfold url_decode
  simp only
  rw [h2] at h3 ⊢
  refine ⟨rfl, by rw [List.length_set, h1], ?_⟩
  rw [take_succ_set _ _ _ (by rw [h1]; simp; omega), h3]

/-- C13: for every C string s, held in a buffer with its NUL and whatever follows, url_decode
writes at the start of the buffer the reference decoding of s ('%' and two hexadecimal digits
of either case become the byte of that value, '+' becomes a space, every other byte, a '%'
without two hexadecimal digits included, is copied) and a NUL after it; the buffer keeps its
length, and the output is never longer than the input. The string then read from the buffer
is the decoded text up to its first NUL, all of it unless an escape "%00" was decoded. -/
theorem C13_url_decode (s tail : List Nat) (hs : ∀ c ∈ s, c ≠ 0) :
    (url_decode (s ++ 0 :: tail)).1.take ((spec_decode s).length + 1) = spec_decode s ++ [0] ∧
    (url_decode (s ++ 0 :: tail)).2 = (spec_decode s).length ∧
    (url_decode (s ++ 0 :: tail)).1.length = (s ++ 0 :: tail).length ∧
    (spec_decode s).length ≤ s.length ∧
    cstr (url_decode (s ++ 0 :: tail)).1 0 = (spec_decode s).takeWhile (fun c => c != 0) ∧
    ((∀ c ∈ spec_decode s, c ≠ 0) → cstr (url_decode (s ++ 0 :: tail)).1 0 = spec_decode s) := by
  obtain ⟨h1, h2, h3⟩ := url_decode_eq s tail hs
  have hc : cstr (url_decode (s ++ 0 :: tail)).1 0 =
      (spec_decode s).takeWhile (fun c => c != 0) := by
    unfold cstr
    rw [List.drop_zero]
    conv_lhs => rw [← List.take_append_drop ((spec_decode s).length + 1) (url_decode (s ++ 0 :: tail)).1]
    rw [h3, List.append_assoc, List.singleton_append, takeWhile_append_stop _ _ _ _ (by simp)]
  refine ⟨h3, h1, h2, spec_decode_length_le s.length s (Nat.le_refl _), hc, ?_⟩
  intro hnz
  rw [hc]
  exact List.takeWhile_eq_self_iff.2 (by simpa using hnz)

theorem C13_url_decode_witness :
    (∀ c ∈ str "a%41+b%zz%4%6a%", c ≠ 0) ∧
    (url_decode (str "a%41+b%zz%4%6a%" ++ 0 :: [7, 7])).1.take
      ((spec_decode (str "a%41+b%zz%4%6a%")).length + 1) =
        spec_decode (str "a%41+b%zz%4%6a%") ++ [0] ∧
    spec_decode (str "a%41+b%zz%4%6a%") = str "aA b%zz%4j%" := by
  refine ⟨by decide, ?_, by decide⟩
  exact (C13_url_decode (str "a%41+b%zz%4%6a%") [7, 7] (by decide)).1

/-! ## Header parsing in gemini_fetch -/

/-- The scan for the header end finds the first occurrence of "\r\n". -/
theorem find_header_end_eq : ∀ (n : Nat) (l : List Nat) (i : Nat), l.length ≤ n →
    find_header_end l i = (strstr l [13, 10]).map (fun k => k + i) := by
  intro n
  induction n with
  | zero =>
    intro l i hl
    have : l = [] := List.length_eq_zero.1 (by omega)
    subst this
    simp [find_header_end, strstr]
  | succ n ih =>
    intro l i hl
    match l with
    | [] => simp [find_header_end, strstr]
    | [c] => simp [find_header_end, strstr, List.isPrefixOf]
    | c :: d :: rest =>
      have hrec := ih (d :: rest) (i + 1) (by simp only [List.length_cons] at hl ⊢; omega)
      unfold find_header_end strstr
      by_cases h : c = 13 ∧ d = 10
      · obtain ⟨rfl, rfl⟩ := h
        simp [List.isPrefixOf]
      · rw [if_neg h, hrec]
        have hp : List.isPrefixOf [13, 10] (c :: d :: rest) = false := by
          simp only [List.isPrefixOf, Bool.and_true, Bool.and_eq_false_iff, beq_eq_false_iff_ne, ne_eq]
          by_cases hc : c = 13
          · right; intro hd; exact h ⟨hc, hd.symm⟩
          · left; intro hc2; exact hc hc2.symm
        rw [hp]
        simp only [Bool.false_eq_true, if_false, Option.map_map]
        congr 1
        funext k
        simp only [Function.comp]
        omega

theorem find_header_end_zero (data : List Nat) :
    find_header_end data 0 = strstr data [13, 10] := by
  rw [find_header_end_eq data.length data 0 (Nat.le_refl _)]
  simp

/-- The response for a header that is not valid. -/
theorem parse_invalid (data : List Nat) (h : header_invalid data) :
    (gemini_fetch_parse data).status = -5 ∧ (gemini_fetch_parse data).error_msg ≠ [] ∧
    (gemini_fetch_parse data).body = none ∧ (gemini_fetch_parse data).body_len = 0 ∧
    (gemini_fetch_parse data).meta = [] := by
  unfold gemini_fetch_parse
  simp only [find_header_end_zero]
  by_cases h3 : data.length < 3
  · rw [if_pos h3]
    refine ⟨rfl, ?_, rfl, rfl, rfl⟩
    show strncpy (str "Response too short") 255 ≠ []
    decide
  · rw [if_neg h3]
    cases hs : strstr data [13, 10] with
    | none =>
      refine ⟨rfl, ?_, rfl, rfl, rfl⟩
      show strncpy (str "Malformed response header") 255 ≠ []
      decide
    | some i =>
      simp only
      have hc : i < 2 ∨ isdigit (rd data 0) = false ∨ isdigit (rd data 1) = false := by
        rcases h with h | h | ⟨j, hj, h⟩ | h | h
        · exact absurd h h3
        · rw [hs] at h; cases h
        · rw [hs] at h; cases h; exact Or.inl hj
        · exact Or.inr (Or.inl h)
        · exact Or.inr (Or.inr h)
      rw [if_pos hc]
      refine ⟨rfl, ?_, rfl, rfl, rfl⟩
      show strncpy (str "Invalid status code") 255 ≠ []
      decide

/-- The response for a valid header whose first "\r\n" is at index i. -/
theorem parse_valid (data : List Nat) (i : Nat) (h3 : 3 ≤ data.length)
    (hs : strstr data [13, 10] = some i) (hi : 2 ≤ i) (h0 : isdigit (rd data 0) = true)
    (h1 : isdigit (rd data 1) = true) :
    (gemini_fetch_parse data).status = ((rd data 0 : Int) - 48) * 10 + ((rd data 1 : Int) - 48) ∧
    (gemini_fetch_parse data).error_msg = [] ∧
    (gemini_fetch_parse data).meta =
      strncpy (data.drop (if rd data 2 = 32 then 3 else 2))
        (if i - (if rd data 2 = 32 then 3 else 2) ≥ 1024 then 1023
         else i - (if rd data 2 = 32 then 3 else 2)) ∧
    (gemini_fetch_parse data).body_len = data.length - (i + 2) ∧
    (gemini_fetch_parse data).body =
      if data.length - (i + 2) > 0 then
        some ((data.drop (i + 2)).take (data.length - (i + 2)) ++ [0])
      else none := by
  unfold gemini_fetch_parse
  simp only [find_header_end_zero, hs]
  rw [if_neg (by omega), if_neg (by simp [h0, h1]; omega)]
  by_cases hb : data.length - (i + 2) > 0
  · rw [if_pos hb, if_pos hb]
    exact ⟨rfl, rfl, rfl, rfl, rfl⟩
  · rw [if_neg hb, if_neg hb]
    exact ⟨rfl, rfl, rfl, by simp only [GeminiResponse.zeroed]; omega, rfl⟩

theorem header_valid_of_not_invalid (data : List Nat) (h : ¬ header_invalid data) :
    ∃ i, 3 ≤ data.length ∧ strstr data [13, 10] = some i ∧ 2 ≤ i ∧
      isdigit (rd data 0) = true ∧ isdigit (rd data 1) = true := by
  unfold header_invalid at h
  simp only [not_or, not_exists, not_and, Bool.not_eq_false] at h
  obtain ⟨h3, hs, hi, h0, h1⟩ := h
  cases hst : strstr data [13, 10] with
  | none => exact absurd hst hs
  | some i =>
    refine ⟨i, by omega, rfl, ?_, h0, h1⟩
    by_contra hlt
    exact hi i (by omega) hst

theorem digit_status_range (a b : Nat) (ha : isdigit a = true) (hb : isdigit b = true) :
    (0 : Int) ≤ ((a : Int) - 48) * 10 + ((b : Int) - 48) ∧
    ((a : Int) - 48) * 10 + ((b : Int) - 48) ≤ 99 := by
  simp only [isdigit, Bool.and_eq_true, decide_eq_true_eq] at ha hb
  omega

theorem strncpy_exact (M rest : List Nat) (n : Nat) (hn : n = min M.length 1023) :
    strncpy (M ++ rest) n = (M.take 1023).takeWhile (fun c => c != 0) := by
  unfold strncpy
  rw [List.take_append_of_le_length (by omega)]
  congr 1
  subst hn
  by_cases h : M.length ≤ 1023
  · rw [Nat.min_eq_left h, List.take_of_length_le (Nat.le_refl _), List.take_of_length_le h]
  · rw [Nat.min_eq_right (by omega)]

/-- C14 (counterexample): "20 a", a NUL, "b\r\n" has the form of the claim with M = "a\0b", and
its meta is "a", not M; "20 x\r\n" has the form of the claim with S empty and M = " x", and its
meta is "x", not M. -/
theorem C14_header_counterexample :
    (gemini_fetch_parse (str "20 " ++ [97, 0, 98] ++ str "\r\n")).meta = [97] ∧
    (gemini_fetch_parse (str "20 " ++ [97, 0, 98] ++ str "\r\n")).meta ≠ [97, 0, 98] ∧
    strstr (str "20 " ++ [97, 0, 98] ++ str "\r\n") [13, 10] = some 6 ∧
    (gemini_fetch_parse (str "20" ++ [] ++ str " x" ++ str "\r\n")).meta = str "x" ∧
    (gemini_fetch_parse (str "20" ++ [] ++ str " x" ++ str "\r\n")).meta ≠ str " x" := by
  decide

/-- C14 (amended): for every accumulated response d1 d2 S M "\r\n" B, where d1 and d2 are digits,
S is a single space when a space follows d2 and empty otherwise, and the first "\r\n" of the
whole response is the one right after M, the result has status 10 * d1 + d2 (digit values), no
error message, meta equal to the first 1023 bytes of M up to the first NUL among them (so equal
to M when M has at most 1023 bytes and no NUL), body_len = |B| and, when B is not empty, a body
block that holds B byte for byte and a closing NUL; an empty B leaves the body pointer NULL. -/
theorem C14_header_wellformed (d1 d2 : Nat) (S M B : List Nat)
    (hd1 : isdigit d1 = true) (hd2 : isdigit d2 = true) (hS : S = [] ∨ S = [32])
    (hSM : S = [] → M.head? ≠ some 32)
    (hfirst : strstr (d1 :: d2 :: (S ++ (M ++ 13 :: 10 :: B))) [13, 10] =
      some (2 + S.length + M.length)) :
    (gemini_fetch_parse (d1 :: d2 :: (S ++ (M ++ 13 :: 10 :: B)))).status =
      10 * ((d1 : Int) - 48) + ((d2 : Int) - 48) ∧
    (gemini_fetch_parse (d1 :: d2 :: (S ++ (M ++ 13 :: 10 :: B)))).error_msg = [] ∧
    (gemini_fetch_parse (d1 :: d2 :: (S ++ (M ++ 13 :: 10 :: B)))).meta =
      (M.take 1023).takeWhile (fun c => c != 0) ∧
    (M.length ≤ 1023 → (∀ c ∈ M, c ≠ 0) →
      (gemini_fetch_parse (d1 :: d2 :: (S ++ (M ++ 13 :: 10 :: B)))).meta = M) ∧
    (gemini_fetch_parse (d1 :: d2 :: (S ++ (M ++ 13 :: 10 :: B)))).body_len = B.length ∧
    (gemini_fetch_parse (d1 :: d2 :: (S ++ (M ++ 13 :: 10 :: B)))).body =
      (if B = [] then none else some (B ++ [0])) := by
  have hlen : (d1 :: d2 :: (S ++ (M ++ 13 :: 10 :: B))).length =
      2 + S.length + M.length + 2 + B.length := by
    simp only [List.length_cons, List.length_append]; omega
  obtain ⟨p1, p2, p3, p4, p5⟩ := parse_valid (d1 :: d2 :: (S ++ (M ++ 13 :: 10 :: B)))
    (2 + S.length + M.length) (by omega) hfirst (by omega) hd1 hd2
  have hmeta : (gemini_fetch_parse (d1 :: d2 :: (S ++ (M ++ 13 :: 10 :: B)))).meta =
      (M.take 1023).takeWhile (fun c => c != 0) := by
    rw [p3]
    rcases hS with rfl | rfl
    · have h2 : rd (d1 :: d2 :: ([] ++ (M ++ 13 :: 10 :: B))) 2 ≠ 32 := by
        cases M with
        | nil => simp [rd]
        | cons m M' =>
          have := hSM rfl
          simp only [List.head?_cons, ne_eq, Option.some.injEq] at this
          simpa [rd] using this
      simp only [if_neg h2]
      simp only [List.nil_append, List.drop_succ_cons, List.drop_zero, List.length_nil]
      exact strncpy_exact M _ _ (by split_ifs <;> omega)
    · have h2 : rd (d1 :: d2 :: ([32] ++ (M ++ 13 :: 10 :: B))) 2 = 32 := by simp [rd]
      simp only [if_pos h2]
      simp only [List.singleton_append, List.drop_succ_cons, List.drop_zero, List.length_singleton]
      exact strncpy_exact M _ _ (by split_ifs <;> omega)
  have hdrop : (d1 :: d2 :: (S ++ (M ++ 13 :: 10 :: B))).drop (2 + S.length + M.length + 2) = B := by
    have e : d1 :: d2 :: (S ++ (M ++ 13 :: 10 :: B)) = (d1 :: d2 :: (S ++ (M ++ [13, 10]))) ++ B := by
      simp
    rw [e, List.drop_left' (by simp only [List.length_cons, List.length_append, List.length_nil]; omega)]
  refine ⟨by rw [p1]; simp only [rd, List.getD_cons_zero, List.getD_cons_succ]; ring, p2, hmeta, ?_,
    by rw [p4, hlen]; omega, ?_⟩
  · intro hle hnz
    rw [hmeta, List.take_of_length_le hle]
    exact List.takeWhile_eq_self_iff.2 (by simpa using hnz)
  · rw [p5, hlen, hdrop]
    by_cases hB : B = []
    · subst hB; simp
    · have : 0 < B.length := List.length_pos.2 hB
      rw [if_pos (by omega), if_neg hB, List.take_of_length_le (by omega)]

theorem C14_header_wellformed_witness :
    (gemini_fetch_parse (str "20 text/gemini\r\nHello")).status = 20 ∧
    gemini_status_category (gemini_fetch_parse (str "20 text/gemini\r\nHello")).status = 2 ∧
    (gemini_fetch_parse (str "20 text/gemini\r\nHello")).meta = str "text/gemini" ∧
    (gemini_fetch_parse (str "20 text/gemini\r\nHello")).body = some (str "Hello" ++ [0]) ∧
    (gemini_fetch_parse (str "20 text/gemini\r\nHello")).body_len = 5 := by
  have h := C14_header_wellformed 50 48 [32] (str "text/gemini") (str "Hello") (by decide)
    (by decide) (by decide) (by decide) (by decide)
  have e : (50 :: 48 :: ([32] ++ (str "text/gemini" ++ 13 :: 10 :: str "Hello"))) =
      str "20 text/gemini\r\nHello" := by decide
  rw [e] at h
  obtain ⟨h1, _, _, h4, h5, h6⟩ := h
  have hs : (gemini_fetch_parse (str "20 text/gemini\r\nHello")).status = 20 := by
    rw [h1]; decide
  refine ⟨hs, by rw [hs]; decide, h4 (by decide) (by decide), ?_, ?_⟩
  · rw [h6]; decide
  · rw [h5]; decide


/-- C15: for every accumulated response, header parsing gives a response, and that response is a
header error (status -5, an error message that is not empty, no body) if and only if the
response is shorter than 3 bytes, or holds no "\r\n", or its first "\r\n" starts before index
2, or one of its first two bytes is not a digit; in every other case the status is the
two-digit number of the first two bytes, in 0..99, with no error message. In particular a
response without "\r\n" always gives the header error. -/
theorem C15_header_errors (data : List Nat) :
    (((gemini_fetch_parse data).status = GM_STATUS_ERROR_HEADER ∧
        (gemini_fetch_parse data).error_msg ≠ [] ∧ (gemini_fetch_parse data).body = none) ↔
      header_invalid data) ∧
    (¬ header_invalid data →
      (gemini_fetch_parse data).status = ((rd data 0 : Int) - 48) * 10 + ((rd data 1 : Int) - 48) ∧
      0 ≤ (gemini_fetch_parse data).status ∧ (gemini_fetch_parse data).status ≤ 99 ∧
      (gemini_fetch_parse data).error_msg = []) ∧
    (strstr data [13, 10] = none →
      (gemini_fetch_parse data).status = GM_STATUS_ERROR_HEADER ∧
      (gemini_fetch_parse data).error_msg ≠ [] ∧ (gemini_fetch_parse data).body = none) := by
  have hvalid : ¬ header_invalid data →
      (gemini_fetch_parse data).status = ((rd data 0 : Int) - 48) * 10 + ((rd data 1 : Int) - 48) ∧
      0 ≤ (gemini_fetch_parse data).status ∧ (gemini_fetch_parse data).status ≤ 99 ∧
      (gemini_fetch_parse data).error_msg = [] := by
    intro h
    obtain ⟨i, h3, hs, hi, h0, h1⟩ := header_valid_of_not_invalid data h
    obtain ⟨p1, p2, _⟩ := parse_valid data i h3 hs hi h0 h1
    have hr := digit_status_range _ _ h0 h1
    exact ⟨p1, by rw [p1]; exact hr.1, by rw [p1]; exact hr.2, p2⟩
  refine ⟨⟨?_, ?_⟩, hvalid, ?_⟩
  · rintro ⟨hst, _, _⟩
    by_contra hn
    obtain ⟨_, h0, _, _⟩ := hvalid hn
    rw [hst] at h0
    exact absurd h0 (by decide)
  · intro h
    obtain ⟨p1, p2, p3, _⟩ := parse_invalid data h
    exact ⟨p1, p2, p3⟩
  · intro h
    obtain ⟨p1, p2, p3, _⟩ := parse_invalid data (Or.inr (Or.inl h))
    exact ⟨p1, p2, p3⟩

theorem C15_header_errors_witness :
    (¬ header_invalid (str "51 gone\r\n") ∧ (gemini_fetch_parse (str "51 gone\r\n")).status = 51) ∧
    (strstr (str "20 text/gemini") [13, 10] = none ∧
      (gemini_fetch_parse (str "20 text/gemini")).status = -5) := by
  have a := (C15_header_errors (str "51 gone\r\n")).2.1 (by decide)
  have b := (C15_header_errors (str "20 text/gemini")).2.2 (by decide)
  refine ⟨⟨by decide, ?_⟩, by decide, b.1⟩
  rw [a.1]
  decide

/-! ## The body and the status category -/

/-- C16 (counterexample): the redirect "30 x\r\nB" is returned with a body of one byte, and its
category is 3, not 2. -/
theorem C16_body_counterexample :
    (gemini_fetch_parse (str "30 x\r\nB")).body = some [66, 0] ∧
    (gemini_fetch_parse (str "30 x\r\nB")).body ≠ none ∧
    (gemini_fetch_parse (str "30 x\r\nB")).body_len = 1 ∧
    gemini_status_category (gemini_fetch_parse (str "30 x\r\nB")).status = 3 ∧
    gemini_status_category (gemini_fetch_parse (str "30 x\r\nB")).status ≠ 2 := by
  decide

theorem status_category_range (s : Int) (h0 : 0 ≤ s) (h99 : s ≤ 99) :
    0 ≤ gemini_status_category s ∧ gemini_status_category s ≤ 9 ∧
    (10 ≤ s → gemini_status_category s = s / 10) := by
  unfold gemini_status_category
  rw [if_neg (by omega)]
  by_cases h : s < 10
  · rw [if_pos h]; omega
  · rw [if_neg h, Int.tdiv_eq_ediv h0 (by omega)]
    omega

/-- C16 (amended): for every response returned by header parsing, the body is non-null exactly
when body_len > 0, and exactly when the header is valid and at least one byte follows its
"\r\n"; the body then holds those bytes and a closing NUL, and the status is one of 0..99 with
a category in 0..9, whichever it is: the body is not kept for the success category only. -/
theorem C16_body_present (data : List Nat) :
    ((gemini_fetch_parse data).body ≠ none ↔ (gemini_fetch_parse data).body_len > 0) ∧
    ((gemini_fetch_parse data).body ≠ none ↔
      (¬ header_invalid data ∧
        ∃ i, strstr data [13, 10] = some i ∧ i + 2 < data.length ∧
          (gemini_fetch_parse data).body = some (data.drop (i + 2) ++ [0]) ∧
          (gemini_fetch_parse data).body_len = (data.drop (i + 2)).length)) ∧
    ((gemini_fetch_parse data).body ≠ none →
      0 ≤ (gemini_fetch_parse data).status ∧ (gemini_fetch_parse data).status ≤ 99 ∧
      0 ≤ gemini_status_category (gemini_fetch_parse data).status ∧
      gemini_status_category (gemini_fetch_parse data).status ≤ 9) := by
  by_cases hinv : header_invalid data
  · obtain ⟨_, _, p3, p4, _⟩ := parse_invalid data hinv
    refine ⟨by rw [p3, p4]; simp, by rw [p3]; simp [hinv], by rw [p3]; simp⟩
  · obtain ⟨i, h3, hs, hi, h0, h1⟩ := header_valid_of_not_invalid data hinv
    obtain ⟨p1, _, _, p4, p5⟩ := parse_valid data i h3 hs hi h0 h1
    have hr := digit_status_range _ _ h0 h1
    rw [← p1] at hr
    have hc := status_category_range _ hr.1 hr.2
    refine ⟨?_, ?_, fun _ => ⟨hr.1, hr.2, hc.1, hc.2.1⟩⟩
    · rw [p4, p5]
      by_cases hb : data.length - (i + 2) > 0
      · simp [hb]
      · simp [hb]
    · constructor
      · intro hne
        refine ⟨hinv, i, hs, ?_⟩
        have hb : data.length - (i + 2) > 0 := by
          by_contra hb
          rw [p5, if_neg hb] at hne
          exact hne rfl
        refine ⟨by omega, ?_, by rw [p4, List.length_drop]⟩
        rw [p5, if_pos hb, List.take_of_length_le (by rw [List.length_drop])]
      · rintro ⟨_, j, _, _, hj, _⟩
        rw [hj]
        simp

theorem C16_body_present_witness :
    (gemini_fetch_parse (str "51 gone\r\nbody")).body ≠ none ∧
    0 ≤ (gemini_fetch_parse (str "51 gone\r\nbody")).status ∧
    (gemini_fetch_parse (str "51 gone\r\nbody")).status ≤ 99 ∧
    0 ≤ gemini_status_category (gemini_fetch_parse (str "51 gone\r\nbody")).status ∧
    gemini_status_category (gemini_fetch_parse (str "51 gone\r\nbody")).status ≤ 9 :=
  ⟨by decide, (C16_body_present (str "51 gone\r\nbody")).2.2 (by decide)⟩

/-- C17: gemini_status_category gives -1 for every negative status, the status itself for every
status in 0..9, and status / 10 for every status from 10 on. Hence every status that header
parsing can produce is -5 or in 0..99, and a status in 0..99 has a category in 0..9; the
statuses 10-19, 20-29, 30-39, 40-49, 50-59, 60-69 have the categories 1, 2, 3, 4, 5, 6. -/
theorem C17_status_category :
    (∀ s : Int, s < 0 → gemini_status_category s = -1) ∧
    (∀ s : Int, 0 ≤ s → s ≤ 9 → gemini_status_category s = s) ∧
    (∀ s : Int, 10 ≤ s → gemini_status_category s = s / 10) ∧
    (∀ s : Int, 0 ≤ s → s ≤ 99 → 0 ≤ gemini_status_category s ∧ gemini_status_category s ≤ 9) ∧
    (∀ s k : Int, 1 ≤ k → k ≤ 6 → 10 * k ≤ s → s ≤ 10 * k + 9 → gemini_status_category s = k) ∧
    (∀ data, (gemini_fetch_parse data).status = -5 ∨
      (0 ≤ (gemini_fetch_parse data).status ∧ (gemini_fetch_parse data).status ≤ 99 ∧
        0 ≤ gemini_status_category (gemini_fetch_parse data).status ∧
        gemini_status_category (gemini_fetch_parse data).status ≤ 9)) := by
  have big : ∀ s : Int, 10 ≤ s → gemini_status_category s = s / 10 := by
    intro s hs
    unfold gemini_status_category
    rw [if_neg (by omega), if_neg (by omega), Int.tdiv_eq_ediv (by omega) (by omega)]
  refine ⟨?_, ?_, big, ?_, ?_, ?_⟩
  · intro s hs
    unfold gemini_status_category
    rw [if_pos hs]
  · intro s h0 h9
    unfold gemini_status_category
    rw [if_neg (by omega), if_pos (by omega)]
  · intro s h0 h99
    exact ⟨(status_category_range s h0 h99).1, (status_category_range s h0 h99).2.1⟩
  · intro s k h1 h6 hl hu
    rw [big s (by omega)]
    omega
  · intro data
    by_cases hinv : header_invalid data
    · exact Or.inl (parse_invalid data hinv).1
    · obtain ⟨i, h3, hs, hi, h0, h1⟩ := header_valid_of_not_invalid data hinv
      obtain ⟨p1, _⟩ := parse_valid data i h3 hs hi h0 h1
      have hr := digit_status_range _ _ h0 h1
      rw [← p1] at hr
      have hc := status_category_range _ hr.1 hr.2
      exact Or.inr ⟨hr.1, hr.2, hc.1, hc.2.1⟩

theorem C17_status_category_witness :
    gemini_status_category (-5) = -1 ∧ gemini_status_category 7 = 7 ∧
    gemini_status_category 20 = 20 / 10 ∧ gemini_status_category 44 = 4 ∧
    gemini_status_category 61 = 6 :=
  ⟨C17_status_category.1 (-5) (by decide), C17_status_category.2.1 7 (by decide) (by decide),
    C17_status_category.2.2.1 20 (by decide),
    C17_status_category.2.2.2.2.1 44 4 (by decide) (by decide) (by decide) (by decide),
    C17_status_category.2.2.2.2.1 61 6 (by decide) (by decide) (by decide) (by decide)⟩

/-! ## The read loop of gemini_fetch -/

theorem new_capacity_eq (cap : Nat) :
    (if cap * 2 > MAX_RESPONSE_SIZE then MAX_RESPONSE_SIZE else cap * 2) =
      min (cap * 2) MAX_RESPONSE_SIZE := by
  split_ifs <;> omega

/-- One pass of the read loop keeps the bounds, changes the capacity by doubling or clamping
only, and stores the whole chunk or nothing. -/
theorem recv_pass_spec (s : RecvState) (r : ReadResult) (hs : s.Bounded) :
    (recv_pass s r).1.Bounded ∧ capacity_step s (recv_pass s r).1 ∧
    (((recv_pass s r).1 = s ∧ ((recv_pass s r).2 = false ∨ ∀ c ok, r ≠ ReadResult.bytes c ok)) ∨
      ∃ c ok, r = ReadResult.bytes c ok ∧ (recv_pass s r).1.data = s.data ++ c) := by
  obtain ⟨h1, h2, h3, h4⟩ := hs
  cases r with
  | stop => exact ⟨⟨h1, h2, h3, h4⟩, Or.inl rfl, Or.inl ⟨rfl, Or.inl rfl⟩⟩
  | again =>
    exact ⟨⟨h1, h2, h3, h4⟩, Or.inl rfl, Or.inl ⟨rfl, Or.inr (fun _ _ h => by cases h)⟩⟩
  | bytes chunk ok =>
    have htake : s.data.take s.total_size = s.data := List.take_of_length_le (by omega)
    unfold recv_pass
    simp only [htake, new_capacity_eq]
    by_cases hgrow : s.total_size + chunk.length > s.capacity
    · rw [if_pos hgrow]
      by_cases hbig : s.total_size + chunk.length > min (s.capacity * 2) MAX_RESPONSE_SIZE
      · rw [if_pos hbig]
        exact ⟨⟨h1, h2, h3, h4⟩, Or.inl rfl, Or.inl ⟨rfl, Or.inl rfl⟩⟩
      · rw [if_neg hbig]
        by_cases hok : ok = false
        · rw [if_pos hok]
          exact ⟨⟨h1, h2, h3, h4⟩, Or.inl rfl, Or.inl ⟨rfl, Or.inl rfl⟩⟩
        · rw [if_neg hok]
          refine ⟨⟨by simp only [List.length_append]; omega, by simp only; omega, ?_, ?_⟩,
            Or.inr rfl, Or.inr ⟨chunk, ok, rfl, rfl⟩⟩
          · simp only [RECV_BUFFER_SIZE, MAX_RESPONSE_SIZE] at h3 ⊢; omega
          · simp only; omega
    · rw [if_neg hgrow]
      exact ⟨⟨by simp only [List.length_append]; omega, by simp only; omega, h3, h4⟩, Or.inl rfl,
        Or.inr ⟨chunk, ok, rfl, rfl⟩⟩

/-- A chunk that does not fit under the cap ends the loop and is not stored. -/
theorem recv_pass_too_large (s : RecvState) (chunk : List Nat) (ok : Bool) (hs : s.Bounded)
    (h : s.total_size + chunk.length > min (s.capacity * 2) MAX_RESPONSE_SIZE) :
    recv_pass s (ReadResult.bytes chunk ok) = (s, false) := by
  obtain ⟨h1, h2, h3, h4⟩ := hs
  unfold recv_pass
  simp only [new_capacity_eq]
  rw [if_pos (by omega), if_pos h]

theorem recv_states_head (reads : List ReadResult) (s : RecvState) :
    (recv_states reads s).head? = some s := by
  cases reads with
  | nil => rfl
  | cons r rest =>
    unfold recv_states
    split <;> rfl

theorem recv_states_last : ∀ (reads : List ReadResult) (s : RecvState),
    (recv_states reads s).getLast? = some (recv_loop reads s) := by
  intro reads
  induction reads with
  | nil => intro s; rfl
  | cons r rest ih =>
    intro s
    unfold recv_states recv_loop
    by_cases h : (recv_pass s r).2 = true
    · rw [if_pos h, if_pos h, ← ih]
      have hh := recv_states_head rest (recv_pass s r).1
      cases hl : recv_states rest (recv_pass s r).1 with
      | nil => rw [hl] at hh; cases hh
      | cons x xs => rw [List.getLast?_cons_cons]
    · rw [if_neg h, if_neg h]
      rfl

theorem read_chunks_cons_same (r : ReadResult) (rest : List ReadResult)
    (h : ∀ c ok, r ≠ ReadResult.bytes c ok) : read_chunks (r :: rest) = read_chunks rest := by
  cases r with
  | bytes c ok => exact absurd rfl (h c ok)
  | again => rfl
  | stop => rfl

/-- Every state of the read loop keeps the bounds and holds the data it started with followed
by whole chunks, the first ones of those read. -/
theorem recv_states_spec : ∀ (reads : List ReadResult) (s : RecvState), s.Bounded →
    (∀ t ∈ recv_states reads s, t.Bounded ∧
      ∃ k, t.data = s.data ++ ((read_chunks reads).take k).flatten) ∧
    List.Chain' capacity_step (recv_states reads s) := by
  intro reads
  induction reads with
  | nil =>
    intro s hs
    refine ⟨?_, by simp [recv_states]⟩
    intro t ht
    simp only [recv_states, List.mem_singleton] at ht
    subst ht
    exact ⟨hs, 0, by simp⟩
  | cons r rest ih =>
    intro s hs
    obtain ⟨hb, hcap, hdata⟩ := recv_pass_spec s r hs
    have hnext : ∃ k, (recv_pass s r).1.data = s.data ++ ((read_chunks (r :: rest)).take k).flatten := by
      rcases hdata with ⟨h, _⟩ | ⟨c, ok, rfl, h⟩
      · exact ⟨0, by rw [h]; simp⟩
      · exact ⟨1, by rw [h]; simp [read_chunks]⟩
    have hlift : (recv_pass s r).2 = true → ∀ t : RecvState,
        (∃ k, t.data = (recv_pass s r).1.data ++ ((read_chunks rest).take k).flatten) →
        ∃ k, t.data = s.data ++ ((read_chunks (r :: rest)).take k).flatten := by
      rintro hgo t ⟨k, hk⟩
      rcases hdata with ⟨h, hno⟩ | ⟨c, ok, rfl, h⟩
      · rw [h] at hk
        rcases hno with hno | hno
        · rw [hgo] at hno; cases hno
        · exact ⟨k, by rw [hk, read_chunks_cons_same r rest hno]⟩
      · exact ⟨k + 1, by rw [hk, h]; simp [read_chunks]⟩
    unfold recv_states
    by_cases hgo : (recv_pass s r).2 = true
    · rw [if_pos hgo]
      obtain ⟨ih1, ih2⟩ := ih (recv_pass s r).1 hb
      refine ⟨?_, ?_⟩
      · intro t ht
        rcases List.mem_cons.1 ht with rfl | ht
        · exact ⟨hs, 0, by simp⟩
        · exact ⟨(ih1 t ht).1, hlift hgo t (ih1 t ht).2⟩
      · rw [List.chain'_cons']
        refine ⟨?_, ih2⟩
        intro y hy
        rw [recv_states_head] at hy
        cases hy
        exact hcap
    · rw [if_neg hgo]
      refine ⟨?_, by simp [hcap]⟩
      intro t ht
      simp only [List.mem_cons, List.mem_singleton, List.not_mem_nil, or_false] at ht
      rcases ht with rfl | rfl
      · exact ⟨hs, 0, by simp⟩
      · exact ⟨hb, hnext⟩

theorem init_bounded : RecvState.init.Bounded := by
  simp [RecvState.Bounded, RecvState.init, RECV_BUFFER_SIZE, MAX_RESPONSE_SIZE]

/-- C18: for every sequence of results of SSL_read whose chunks have between 1 and 16384 bytes,
the read loop of gemini_fetch starts with capacity 16384, and in every state of it the
accumulated length is the length of the data and at most the capacity, the capacity is at most
10 MiB, and the data is the concatenation of the first k chunks for some k; from one pass to
the next the capacity stays, or doubles clamped to 10 MiB; the loop ends in the last of these
states; and in such a state a chunk that does not fit under the cap ends the loop unstored. -/
theorem C18_bounded_accumulation (reads : List ReadResult)
    (_hsize : ∀ c ∈ read_chunks reads, 1 ≤ c.length ∧ c.length ≤ RECV_BUFFER_SIZE) :
    (recv_states reads RecvState.init).head? = some RecvState.init ∧
    RecvState.init.capacity = 16384 ∧
    (∀ t ∈ recv_states reads RecvState.init,
      t.total_size = t.data.length ∧ t.total_size ≤ t.capacity ∧
      t.capacity ≤ 10 * 1024 * 1024 ∧
      (∃ k, t.data = ((read_chunks reads).take k).flatten) ∧
      (∀ c ok, t.total_size + c.length > min (t.capacity * 2) (10 * 1024 * 1024) →
        recv_pass t (ReadResult.bytes c ok) = (t, false))) ∧
    List.Chain' (fun s t => t.capacity = s.capacity ∨
      t.capacity = min (s.capacity * 2) (10 * 1024 * 1024)) (recv_states reads RecvState.init) ∧
    (recv_states reads RecvState.init).getLast? = some (recv_loop reads RecvState.init) := by
  obtain ⟨h1, h2⟩ := recv_states_spec reads RecvState.init init_bounded
  refine ⟨recv_states_head _ _, rfl, ?_, h2, recv_states_last _ _⟩
  intro t ht
  obtain ⟨hb, k, hk⟩ := h1 t ht
  refine ⟨hb.1, hb.2.1, hb.2.2.2, ⟨k, by rw [hk]; rfl⟩, ?_⟩
  intro c ok hc
  exact recv_pass_too_large t c ok hb hc

theorem C18_bounded_accumulation_witness :
    (recv_loop [ReadResult.bytes (str "20 text/gemini\r\n") true, ReadResult.again,
        ReadResult.bytes (str "Hello") true, ReadResult.stop, ReadResult.bytes (str "x") true]
      RecvState.init).data = str "20 text/gemini\r\nHello" ∧
    List.Chain' (fun s t => t.capacity = s.capacity ∨
      t.capacity = min (s.capacity * 2) (10 * 1024 * 1024))
      (recv_states [ReadResult.bytes (str "20 text/gemini\r\n") true, ReadResult.again,
        ReadResult.bytes (str "Hello") true, ReadResult.stop, ReadResult.bytes (str "x") true]
        RecvState.init) :=
  ⟨by decide, (C18_bounded_accumulation [ReadResult.bytes (str "20 text/gemini\r\n") true,
      ReadResult.again, ReadResult.bytes (str "Hello") true, ReadResult.stop,
      ReadResult.bytes (str "x") true] (by decide)).2.2.2.1⟩

/-! ## unicode_sanitize: the fuel of the loop -/

/-- Every call of utf8_decode advances the pointer by 1 to 4 bytes. -/
theorem utf8_decode_advance (s : List Nat) : 1 ≤ (utf8_decode s).2 ∧ (utf8_decode s).2 ≤ 4 := by
  unfold utf8_decode
  simp only
  split
  · simp
  · rename_i cp len hlead
    have hlen : 1 ≤ len ∧ len ≤ 4 := by
      split_ifs at hlead <;> simp only [Option.some.injEq, Prod.mk.injEq] at hlead <;> omega
    split
    · simp
    · exact hlen

/-- A pass for each byte of the text is enough fuel for the loop of unicode_sanitize: more fuel
gives the same result. -/
theorem unicode_sanitize_loop_fuel : ∀ (f1 f2 : Nat) (p : List Nat) (o : SanitizeOut),
    p.length ≤ f1 → p.length ≤ f2 → unicode_sanitize_loop f1 p o = unicode_sanitize_loop f2 p o := by
  intro f1
  induction f1 with
  | zero =>
    intro f2 p o h1 _
    have : p = [] := List.length_eq_zero.1 (by omega)
    subst this
    cases f2 with
    | zero => rfl
    | succ f2 => simp [unicode_sanitize_loop, rd]
  | succ f1 ih =>
    intro f2 p o h1 h2
    cases f2 with
    | zero =>
      have : p = [] := List.length_eq_zero.1 (by omega)
      subst this
      simp [unicode_sanitize_loop, rd]
    | succ f2 =>
      unfold unicode_sanitize_loop
      by_cases h0 : rd p 0 = 0
      · rw [if_pos h0, if_pos h0]
      · rw [if_neg h0, if_neg h0]
        have hne : p ≠ [] := by
          rintro rfl
          exact h0 rfl
        have hpos := List.length_pos.2 hne
        have hadv := (utf8_decode_advance p).1
        have hl : (p.drop (utf8_decode p).2).length ≤ f1 ∧
            (p.drop (utf8_decode p).2).length ≤ f2 := by
          rw [List.length_drop]
          omega
        simp only
        by_cases hcp : (utf8_decode p).1 = 0xFFFD
        · rw [if_pos hcp, if_pos hcp]
          exact ih _ _ _ hl.1 hl.2
        · rw [if_neg hcp, if_neg hcp]
          cases hf : find_fallback (utf8_decode p).1 with
          | some fallback => exact ih _ _ _ hl.1 hl.2
          | none =>
            simp only
            by_cases hn : needs_fallback (utf8_decode p).1 = true
            · rw [if_pos hn, if_pos hn]
              exact ih _ _ _ hl.1 hl.2
            · rw [if_neg hn, if_neg hn]
              exact ih _ _ _ hl.1 hl.2

/-- The result of unicode_sanitize does not depend on fuel beyond one pass per byte. -/
theorem unicode_sanitize_fuel (text : List Nat) (fuel : Nat) (h : text.length ≤ fuel) :
    (unicode_sanitize_loop fuel text
      { out := [], out_capacity := text.length * 2 + 1 }).out = unicode_sanitize text :=
  congrArg SanitizeOut.out (unicode_sanitize_loop_fuel fuel text.length text _ h (Nat.le_refl _))

/-! ## The lines of document_parse -/

theorem source_lines_aux_run (a rest : List Nat) (ha : ∀ c ∈ a, c ≠ 10 ∧ c ≠ 13) :
    ∀ (cur : List Nat) (o : Bool), source_lines_aux (a ++ rest) cur o =
      source_lines_aux rest (a.reverse ++ cur) (o || !a.isEmpty) := by
  induction a with
  | nil => intro cur o; simp
  | cons c a ih =>
    intro cur o
    have hc := ha c (by simp)
    have e : source_lines_aux (c :: (a ++ rest)) cur o =
        source_lines_aux (a ++ rest) (c :: cur) true := by
      rw [source_lines_aux]
      · intro r h _; exact hc.2 h
      · intro h; exact hc.2 h
      · intro h; exact hc.1 h
    rw [List.cons_append, e, ih (fun x hx => ha x (by simp [hx]))]
    simp

theorem source_lines_aux_eol (rest cur : List Nat) (o : Bool)
    (h : rest.head? = some 10 ∨ rest.head? = some 13) :
    source_lines_aux rest cur o = cur.reverse :: source_lines_aux (skip_eol rest) [] false := by
  match rest, h with
  | 10 :: r, _ =>
    have : skip_eol (10 :: r) = r := by simp [skip_eol]
    rw [this]
    simp [source_lines_aux]
  | 13 :: 10 :: r, _ =>
    have : skip_eol (13 :: 10 :: r) = r := by simp [skip_eol]
    rw [this]
    simp [source_lines_aux]
  | [13], _ => simp [skip_eol, source_lines_aux]
  | 13 :: c :: r, _ =>
    by_cases hc : c = 10
    · subst hc
      simp [skip_eol, source_lines_aux]
    · have : skip_eol (13 :: c :: r) = c :: r := by
        unfold skip_eol
        simp only
        split
        · rename_i heq; simp at heq; exact absurd heq.1 hc
        · rfl
      rw [this, source_lines_aux]
      intro r' h'
      simp at h'
      exact hc h'.1

theorem not_eol_iff (c : Nat) : (c != 10 && c != 13) = true ↔ c ≠ 10 ∧ c ≠ 13 := by
  simp

theorem takeWhile_all (p : Nat → Bool) (l : List Nat) : ∀ c ∈ l.takeWhile p, p c = true := by
  induction l with
  | nil => simp
  | cons a l ih =>
    intro c hc
    rw [List.takeWhile_cons] at hc
    split at hc
    · rcases List.mem_cons.1 hc with rfl | h
      · assumption
      · exact ih c h
    · simp at hc

theorem skip_eol_other (c : Nat) (r : List Nat) (h10 : c ≠ 10) (h13 : c ≠ 13) :
    skip_eol (c :: r) = c :: r := by
  unfold skip_eol
  simp only
  split
  · rename_i heq
    split at heq
    · rename_i h2; injection h2 with h3 _; exact absurd h3 h13
    · injection heq with h3 _; exact absurd h3 h10
  · split
    · rename_i h2; injection h2 with h3 _; exact absurd h3 h13
    · rfl

theorem skip_eol_cases (p : List Nat) :
    (p.head? ≠ some 10 ∧ p.head? ≠ some 13 ∧ skip_eol p = p) ∨
      (∃ r, p = 10 :: r ∧ skip_eol p = r) ∨
      (∃ r, p = 13 :: r ∧ r.head? ≠ some 10 ∧ skip_eol p = r) ∨
      (∃ r, p = 13 :: 10 :: r ∧ skip_eol p = r) := by
  cases p with
  | nil => exact Or.inl ⟨by simp, by simp, rfl⟩
  | cons c r =>
    by_cases h13 : c = 13
    · subst h13
      right; right
      cases r with
      | nil => exact Or.inl ⟨[], rfl, by simp, rfl⟩
      | cons d r2 =>
        by_cases hd : d = 10
        · subst hd
          exact Or.inr ⟨r2, rfl, rfl⟩
        · left
          refine ⟨d :: r2, rfl, by simpa using hd, ?_⟩
          have : skip_eol (13 :: d :: r2) = (match d :: r2 with
              | 10 :: r => r
              | _ => d :: r2) := rfl
          rw [this]
          split
          · rename_i h2; injection h2 with h3 _; exact absurd h3 hd
          · rfl
    · by_cases h10 : c = 10
      · subst h10
        exact Or.inr (Or.inl ⟨r, rfl, rfl⟩)
      · exact Or.inl ⟨by simpa using h10, by simpa using h13, skip_eol_other c r h10 h13⟩

/-- The first source line of a non-empty input is its text before the first line terminator,
and the other lines are those of the input after that terminator. -/
theorem source_lines_cons (p : List Nat) (hp : p ≠ []) :
    source_lines p = p.takeWhile (fun c => c != 10 && c != 13) ::
      source_lines (skip_eol (p.dropWhile (fun c => c != 10 && c != 13))) := by
  have hsplit := List.takeWhile_append_dropWhile (fun c => c != 10 && c != 13) p
  have hraw : ∀ c ∈ p.takeWhile (fun c => c != 10 && c != 13), c ≠ 10 ∧ c ≠ 13 := by
    intro c hc
    exact (not_eol_iff c).1 (takeWhile_all _ p c hc)
  unfold source_lines
  conv_lhs => rw [← hsplit]
  rw [source_lines_aux_run _ _ hraw]
  simp only [List.append_nil, Bool.false_or]
  cases hrest : p.dropWhile (fun c => c != 10 && c != 13) with
  | nil =>
    have hne : p.takeWhile (fun c => c != 10 && c != 13) ≠ [] := by
      intro h
      rw [h, hrest] at hsplit
      exact hp hsplit.symm
    have : (p.takeWhile (fun c => c != 10 && c != 13)).isEmpty = false := by
      cases h : p.takeWhile (fun c => c != 10 && c != 13) with
      | nil => exact absurd h hne
      | cons x xs => rfl
    simp [source_lines_aux, skip_eol, this]
  | cons c r =>
    have hc : (c != 10 && c != 13) = false := by
      have := List.head?_dropWhile_not (fun c => c != 10 && c != 13) p
      rw [hrest] at this
      simpa using this
    have hh : (c :: r).head? = some 10 ∨ (c :: r).head? = some 13 := by
      simp only [List.head?_cons, Option.some.injEq]
      simp only [Bool.and_eq_false_iff, bne_eq_false_iff_eq] at hc
      exact hc
    rw [source_lines_aux_eol _ _ _ hh]
    simp

theorem skip_eol_length_le (p : List Nat) : (skip_eol p).length ≤ p.length := by
  rcases skip_eol_cases p with ⟨_, _, h⟩ | ⟨r, rfl, h⟩ | ⟨r, rfl, _, h⟩ | ⟨r, rfl, h⟩ <;>
    rw [h] <;> simp only [List.length_cons] <;> omega

theorem skip_eol_length_lt (p : List Nat) (h : p.head? = some 10 ∨ p.head? = some 13) :
    (skip_eol p).length < p.length := by
  rcases skip_eol_cases p with ⟨h1, h2, _⟩ | ⟨r, rfl, h3⟩ | ⟨r, rfl, _, h3⟩ | ⟨r, rfl, h3⟩
  · rcases h with h | h
    · exact absurd h h1
    · exact absurd h h2
  · rw [h3]; simp only [List.length_cons]; omega
  · rw [h3]; simp only [List.length_cons]; omega
  · rw [h3]; simp only [List.length_cons]; omega

/-- With a pass for each byte of the input, the loop of document_parse runs its body on every
source line in turn. -/
theorem document_parse_loop_eq : ∀ (fuel : Nat) (p : List Nat) (st : ParseState),
    p.length ≤ fuel → document_parse_loop fuel p st = (source_lines p).foldl document_parse_body st := by
  intro fuel
  induction fuel with
  | zero =>
    intro p st hp
    have : p = [] := List.length_eq_zero.1 (by omega)
    subst this
    rfl
  | succ fuel ih =>
    intro p st hp
    unfold document_parse_loop
    by_cases hnil : p = []
    · subst hnil; rfl
    · rw [if_neg hnil, source_lines_cons p hnil, List.foldl_cons]
      apply ih
      have hsplit := congrArg List.length
        (List.takeWhile_append_dropWhile (fun c => c != 10 && c != 13) p)
      rw [List.length_append] at hsplit
      cases hrest : p.dropWhile (fun c => c != 10 && c != 13) with
      | nil =>
        have : p.length ≠ 0 := fun h => hnil (List.length_eq_zero.1 h)
        simp [skip_eol]
      | cons c r =>
        have hc : (c != 10 && c != 13) = false := by
          have := List.head?_dropWhile_not (fun c => c != 10 && c != 13) p
          rw [hrest] at this
          simpa using this
        have hh : (c :: r).head? = some 10 ∨ (c :: r).head? = some 13 := by
          simp only [List.head?_cons, Option.some.injEq]
          simp only [Bool.and_eq_false_iff, bne_eq_false_iff_eq] at hc
          exact hc
        have := skip_eol_length_lt (c :: r) hh
        rw [hrest] at hsplit
        omega

theorem cstr_raw (raw : List Nat) : cstr (raw ++ [0]) 0 = raw.takeWhile (fun c => c != 0) := by
  unfold cstr
  rw [List.drop_zero, takeWhile_append_stop _ _ _ _ (by simp)]

/-- The comparison strncmp on the copy of a line tells whether the raw line begins with the
pattern, for a pattern without NUL. -/
theorem strncmp_eq_raw (pat : List Nat) (hpat : ∀ c ∈ pat, c ≠ 0) : ∀ raw : List Nat,
    strncmp_eq (raw.takeWhile (fun c => c != 0)) pat pat.length = pat.isPrefixOf raw := by
  unfold strncmp_eq
  induction pat with
  | nil => intro raw; simp
  | cons a pat ih =>
    intro raw
    have ha : a ≠ 0 := hpat a (by simp)
    have ih2 := ih (fun c hc => hpat c (by simp [hc]))
    cases raw with
    | nil => simp [List.isPrefixOf]
    | cons b raw =>
      by_cases hb : b = 0
      · subst hb
        have : (a == 0) = false := by simpa using ha
        simp [List.isPrefixOf, this]
      · have hbt : (b != 0) = true := by simpa using hb
        rw [List.takeWhile_cons, if_pos hbt]
        simp only [List.length_cons, List.take_succ_cons, List.isPrefixOf]
        have h2 := ih2 raw
        rw [List.take_of_length_le (Nat.le_refl _)] at h2 ⊢
        rw [← h2]
        rw [Bool.eq_iff_iff]
        simp only [beq_iff_eq, List.cons.injEq, Bool.and_eq_true]
        constructor
        · rintro ⟨rfl, h⟩; exact ⟨rfl, h⟩
        · rintro ⟨rfl, h⟩; exact ⟨rfl, h⟩

theorem rd_line_zero (raw : List Nat) (c : Nat) (hc : c ≠ 0) :
    (rd (raw.takeWhile (fun c => c != 0)) 0 = c) ↔ List.isPrefixOf [c] raw = true := by
  cases raw with
  | nil => simp [rd, List.isPrefixOf]; exact fun h => hc h.symm
  | cons b raw =>
    by_cases hb : b = 0
    · subst hb
      simp [rd, List.isPrefixOf]
      constructor
      · intro h; exact absurd h.symm hc
      · intro h; exact absurd h hc
    · have hbt : (b != 0) = true := by simpa using hb
      rw [List.takeWhile_cons, if_pos hbt]
      simp [rd, List.isPrefixOf]
      exact eq_comm

theorem document_add_line_lines (doc : Document) (t : LineType) (text url : Option (List Nat)) :
    (document_add_line doc t text url).lines =
      doc.lines ++ [{ type := t, text := match text with
        | some x => unicode_sanitize x
        | none => [], url := url, preformat_block := 0 }] := rfl

theorem modify_last (l : List DocLine) (d : DocLine) (f : DocLine → DocLine) :
    (l ++ [d]).modify f (l.length + 1 - 1) = l ++ [f d] := by
  induction l with
  | nil => rfl
  | cons a l ih =>
    have e : (a :: l).length + 1 - 1 = (l.length + 1 - 1) + 1 := by
      simp only [List.length_cons]
      omega
    rw [e, List.cons_append, List.modify_succ_cons, ih]
    rfl

/-- The C tests of the loop body on the copy of a line, read on the raw line. -/
theorem line_tests (raw : List Nat) :
    strncmp_eq (raw.takeWhile (fun c => c != 0)) [96, 96, 96] 3 = is_fence raw ∧
    strncmp_eq (raw.takeWhile (fun c => c != 0)) (str "=>") 2 = (str "=>").isPrefixOf raw ∧
    strncmp_eq (raw.takeWhile (fun c => c != 0)) (str "###") 3 = (str "###").isPrefixOf raw ∧
    strncmp_eq (raw.takeWhile (fun c => c != 0)) (str "##") 2 = (str "##").isPrefixOf raw ∧
    (rd (raw.takeWhile (fun c => c != 0)) 0 = 35 ↔ (str "#").isPrefixOf raw = true) ∧
    strncmp_eq (raw.takeWhile (fun c => c != 0)) (str "* ") 2 = (str "* ").isPrefixOf raw ∧
    (rd (raw.takeWhile (fun c => c != 0)) 0 = 62 ↔ (str ">").isPrefixOf raw = true) :=
  ⟨strncmp_eq_raw [96, 96, 96] (by decide) raw, strncmp_eq_raw (str "=>") (by decide) raw,
    strncmp_eq_raw (str "###") (by decide) raw, strncmp_eq_raw (str "##") (by decide) raw,
    rd_line_zero raw 35 (by decide), strncmp_eq_raw (str "* ") (by decide) raw,
    rd_line_zero raw 62 (by decide)⟩

/-- The loop body adds exactly one DocLine for a line, the same whatever the document holds,
of type Preformatted in preformatted mode and of the type that the precedence of the prefixes
gives otherwise. -/
theorem document_parse_line_spec (doc : Document) (pre : Bool) (blk : Nat) (raw : List Nat) :
    ∃ dl, produced_lines pre blk raw = [dl] ∧
      (document_parse_line doc pre blk (cstr (raw ++ [0]) 0)).lines = doc.lines ++ [dl] ∧
      dl.type = (if pre then LineType.LINE_PREFORMATTED else classify raw) ∧
      dl.preformat_block = (if pre then blk else 0) := by
  obtain ⟨_, t1, t2, t3, t4, t5, t6⟩ := line_tests raw
  unfold produced_lines
  rw [cstr_raw]
  unfold document_parse_line classify
  simp only [t1, t2, t3, t5]
  cases pre with
  | true =>
    have hpos : ∀ n : Nat, (n + 1 > 0) = True := by intro n; simp
    simp only [if_true, Document.num_lines, document_add_line_lines, List.length_append,
      List.length_singleton, modify_last, hpos]
    exact ⟨_, rfl, rfl, rfl, rfl⟩
  | false =>
    simp only [Bool.false_eq_true, if_false]
    by_cases h1 : (str "=>").isPrefixOf raw = true
    · simp only [h1, if_true, if_false, Bool.false_eq_true]
      exact ⟨_, rfl, rfl, rfl, rfl⟩
    · simp only [h1, if_true, if_false, Bool.false_eq_true]
      by_cases h2 : (str "###").isPrefixOf raw = true
      · simp only [h2, if_true, if_false, Bool.false_eq_true]
        exact ⟨_, rfl, rfl, rfl, rfl⟩
      · simp only [h2, if_true, if_false, Bool.false_eq_true]
        by_cases h3 : (str "##").isPrefixOf raw = true
        · simp only [h3, if_true, if_false, Bool.false_eq_true]
          exact ⟨_, rfl, rfl, rfl, rfl⟩
        · simp only [h3, if_true, if_false, Bool.false_eq_true]
          by_cases h4 : (str "#").isPrefixOf raw = true
          · have hl : ∀ (c : Prop) [Decidable c] (d : Document) (x : List Nat),
                (if c then { d with title := some x } else d).lines = d.lines := by
              intro c _ d x
              split <;> rfl
            simp only [h4, if_true, if_false, Bool.false_eq_true, if_pos (t4.2 h4), hl]
            exact ⟨_, rfl, rfl, rfl, rfl⟩
          · simp only [h4, if_true, if_false, Bool.false_eq_true, if_neg (fun h => h4 (t4.1 h))]
            by_cases h5 : (str "* ").isPrefixOf raw = true
            · simp only [h5, if_true, if_false, Bool.false_eq_true]
              exact ⟨_, rfl, rfl, rfl, rfl⟩
            · simp only [h5, if_true, if_false, Bool.false_eq_true]
              by_cases h6 : (str ">").isPrefixOf raw = true
              · simp only [h6, if_true, if_false, Bool.false_eq_true, if_pos (t6.2 h6)]
                exact ⟨_, rfl, rfl, rfl, rfl⟩
              · simp only [h6, if_true, if_false, Bool.false_eq_true, if_neg (fun h => h6 (t6.1 h))]
                exact ⟨_, rfl, rfl, rfl, rfl⟩

/-- What the loop body does with a source line: a fence changes the mode only, any other line
adds its one DocLine and leaves the mode alone. -/
theorem document_parse_body_spec (st : ParseState) (raw : List Nat) :
    (is_fence raw = true →
      document_parse_body st raw =
        { doc := st.doc, in_preformatted := !st.in_preformatted,
          preformat_block :=
            if (!st.in_preformatted) = true then st.preformat_block + 1 else st.preformat_block }) ∧
    (is_fence raw = false →
      (document_parse_body st raw).in_preformatted = st.in_preformatted ∧
      (document_parse_body st raw).preformat_block = st.preformat_block ∧
      (document_parse_body st raw).doc.lines =
        st.doc.lines ++ produced_lines st.in_preformatted st.preformat_block raw ∧
      (document_parse_body st raw).doc =
        document_parse_line st.doc st.in_preformatted st.preformat_block (cstr (raw ++ [0]) 0)) := by
  have ht := (line_tests raw).1
  rw [← cstr_raw] at ht
  unfold document_parse_body
  simp only [ht]
  constructor
  · intro h
    rw [if_pos h]
  · intro h
    rw [if_neg (by simp [h])]
    obtain ⟨dl, h1, h2, _⟩ := document_parse_line_spec st.doc st.in_preformatted st.preformat_block raw
    exact ⟨rfl, rfl, by rw [h1]; exact h2, rfl⟩

/-- The lines that a run of the loop body over source lines adds to the document. -/
theorem foldl_body_lines : ∀ (lines : List (List Nat)) (st : ParseState),
    (lines.foldl document_parse_body st).doc.lines =
      st.doc.lines ++ spec_lines lines st.in_preformatted st.preformat_block := by
  intro lines
  induction lines with
  | nil => intro st; simp [spec_lines]
  | cons raw rest ih =>
    intro st
    rw [List.foldl_cons, ih, spec_lines]
    by_cases hf : is_fence raw = true
    · rw [(document_parse_body_spec st raw).1 hf, if_pos hf]
    · have hf2 : is_fence raw = false := by simpa using hf
      obtain ⟨h1, h2, h3, _⟩ := (document_parse_body_spec st raw).2 hf2
      rw [if_neg hf, h1, h2, h3, List.append_assoc]

/-- The lines of spec_lines are one for each line that is not a fence, in order. -/
theorem spec_lines_forall2 : ∀ (lines : List (List Nat)) (pre : Bool) (blk : Nat),
    List.Forall₂ (fun dl raw => ∃ pre blk, produced_lines pre blk raw = [dl])
      (spec_lines lines pre blk) (lines.filter (fun raw => !is_fence raw)) := by
  intro lines
  induction lines with
  | nil => intro pre blk; simp [spec_lines]
  | cons raw rest ih =>
    intro pre blk
    rw [spec_lines]
    by_cases hf : is_fence raw = true
    · rw [if_pos hf, List.filter_cons_of_neg (by simp [hf])]
      exact ih _ _
    · have hf2 : is_fence raw = false := by simpa using hf
      obtain ⟨dl, h1, _⟩ := document_parse_line_spec document_new pre blk raw
      rw [if_neg hf, List.filter_cons_of_pos (by simp [hf2]), h1]
      exact List.Forall₂.cons ⟨pre, blk, h1⟩ (ih pre blk)

theorem document_parse_lines (s : List Nat) :
    (document_parse s).lines = spec_lines (source_lines s) false 0 := by
  unfold document_parse
  rw [document_parse_loop_eq _ _ _ (Nat.le_refl _), foldl_body_lines]
  rfl

theorem filter_fence_length (lines : List (List Nat)) :
    (lines.filter (fun raw => !is_fence raw)).length =
      lines.length - (lines.filter is_fence).length := by
  induction lines with
  | nil => rfl
  | cons raw rest ih =>
    have hle := List.length_filter_le is_fence rest
    by_cases hf : is_fence raw = true
    · rw [List.filter_cons_of_neg (by simp [hf]), List.filter_cons_of_pos hf, ih]
      simp only [List.length_cons]
      omega
    · rw [List.filter_cons_of_pos (by simpa using hf), List.filter_cons_of_neg hf]
      simp only [List.length_cons]
      omega

/-- C19: for every source line that is not a fence and is met outside preformatted mode, the
loop body of document_parse adds one DocLine, and its type is Link if the line starts with
"=>", else Heading3 for "###", else Heading2 for "##", else Heading1 for "#", else ListItem for
"* ", else Quote for ">", else Text; the mode stays as it is. A line that starts with '*'
without a space after it gives a Text line. An input that is one such line gives one DocLine
of that type. -/
theorem C19_line_classification (doc : Document) (blk : Nat) (raw : List Nat)
    (hf : is_fence raw = false) :
    (∃ dl, (document_parse_body
        { doc := doc, in_preformatted := false, preformat_block := blk } raw).doc.lines =
          doc.lines ++ [dl] ∧
      dl.type = classify raw ∧
      dl.type =
        (if (str "=>").isPrefixOf raw then LineType.LINE_LINK
         else if (str "###").isPrefixOf raw then LineType.LINE_HEADING3
         else if (str "##").isPrefixOf raw then LineType.LINE_HEADING2
         else if (str "#").isPrefixOf raw then LineType.LINE_HEADING1
         else if (str "* ").isPrefixOf raw then LineType.LINE_LIST_ITEM
         else if (str ">").isPrefixOf raw then LineType.LINE_QUOTE
         else LineType.LINE_TEXT) ∧
      (raw.head? = some 42 → (raw.drop 1).head? ≠ some 32 → dl.type = LineType.LINE_TEXT)) ∧
    (document_parse_body
      { doc := doc, in_preformatted := false, preformat_block := blk } raw).in_preformatted = false ∧
    (raw ≠ [] → (∀ c ∈ raw, c ≠ 10 ∧ c ≠ 13) →
      (document_parse raw).lines.map (fun l => l.type) = [classify raw]) := by
  obtain ⟨h1, _, h3, _⟩ := (document_parse_body_spec
    { doc := doc, in_preformatted := false, preformat_block := blk } raw).2 hf
  obtain ⟨dl, p1, _, p3, _⟩ := document_parse_line_spec doc false blk raw
  refine ⟨⟨dl, by rw [h3, p1], by simpa using p3, by simpa [classify] using p3, ?_⟩, h1, ?_⟩
  · intro h42 h32
    rw [p3]
    simp only [Bool.false_eq_true, if_false]
    match raw, h42, h32 with
    | c :: r, h42, h32 =>
      simp only [List.head?_cons, Option.some.injEq] at h42
      subst h42
      match r, h32 with
      | [], _ => decide
      | d :: r2, h32 =>
        have hd : d ≠ 32 := by simpa using h32
        have : (32 == d) = false := by simpa using fun h => hd h.symm
        simp [classify, str, List.isPrefixOf, this]
  · intro hne hall
    have hsl : source_lines raw = [raw] := by
      rw [source_lines_cons raw hne]
      have ht : raw.takeWhile (fun c => c != 10 && c != 13) = raw :=
        List.takeWhile_eq_self_iff.2 (fun c hc => (not_eol_iff c).2 (hall c hc))
      have hd : raw.dropWhile (fun c => c != 10 && c != 13) = [] :=
        List.dropWhile_eq_nil_iff.2 (fun c hc => (not_eol_iff c).2 (hall c hc))
      rw [ht, hd]
      rfl
    obtain ⟨dl0, q1, _, q3, _⟩ := document_parse_line_spec document_new false 0 raw
    rw [document_parse_lines, hsl, spec_lines, if_neg (by simp [hf]), spec_lines, q1]
    simpa using q3

theorem C19_line_classification_witness :
    is_fence (str "*bold* text") = false ∧
    (document_parse (str "*bold* text")).lines.map (fun l => l.type) = [LineType.LINE_TEXT] ∧
    (document_parse (str "###x")).lines.map (fun l => l.type) = [LineType.LINE_HEADING3] := by
  have a := (C19_line_classification document_new 0 (str "*bold* text") (by decide)).2.2
    (by decide) (by decide)
  have b := (C19_line_classification document_new 0 (str "###x") (by decide)).2.2
    (by decide) (by decide)
  refine ⟨by decide, ?_, ?_⟩
  · rw [a]; decide
  · rw [b]; decide

/-- On an input in which a '\n' follows every '\r', the source lines are the lines of the
specification. -/
theorem source_lines_aux_eq_spec : ∀ (n : Nat) (s cur : List Nat) (o : Bool), s.length ≤ n →
    no_lone_cr s = true → source_lines_aux s cur o = spec_source_lines_aux s cur o := by
  intro n
  induction n with
  | zero =>
    intro s cur o hs _
    have : s = [] := List.length_eq_zero.1 (by omega)
    subst this
    simp [source_lines_aux, spec_source_lines_aux]
  | succ n ih =>
    intro s cur o hs hcr
    match s, hs, hcr with
    | [], _, _ => simp [source_lines_aux, spec_source_lines_aux]
    | c :: rest, hs, hcr =>
      simp only [List.length_cons] at hs
      by_cases h13 : c = 13
      · subst h13
        match rest, hs, hcr with
        | [], _, hcr => simp [no_lone_cr] at hcr
        | d :: r2, hs, hcr =>
          by_cases hd : d = 10
          · subst hd
            simp only [no_lone_cr] at hcr
            simp only [List.length_cons] at hs
            simp only [source_lines_aux, spec_source_lines_aux]
            rw [ih r2 [] false (by omega) hcr]
          · exfalso
            rw [no_lone_cr] at hcr
            · cases hcr
            all_goals (intros; simp_all)
      · have hcr2 : no_lone_cr rest = true := by
          rw [no_lone_cr] at hcr
          · exact hcr
          all_goals (intros; simp_all)
        by_cases h10 : c = 10
        · subst h10
          simp only [source_lines_aux, spec_source_lines_aux]
          rw [ih rest [] false (by omega) hcr2]
        · have e1 : source_lines_aux (c :: rest) cur o = source_lines_aux rest (c :: cur) true := by
            rw [source_lines_aux]
            all_goals (intros; simp_all)
          have e2 : spec_source_lines_aux (c :: rest) cur o =
              spec_source_lines_aux rest (c :: cur) true := by
            rw [spec_source_lines_aux]
            all_goals (intros; simp_all)
          rw [e1, e2, ih rest (c :: cur) true (by omega) hcr2]

theorem source_lines_eq_spec (s : List Nat) (h : no_lone_cr s = true) :
    source_lines s = spec_source_lines s :=
  source_lines_aux_eq_spec s.length s [] false (Nat.le_refl _) h

set_option maxRecDepth 1000000 in
/-- The document parsed from the example of the specification. -/
theorem document_parse_example :
    document_parse (str "# Title\n\nSome text\n=> gemini://x/ Link label\n") =
      { lines := [
          { type := LineType.LINE_HEADING1, text := str "Title", url := none, preformat_block := 0 },
          { type := LineType.LINE_TEXT, text := [], url := none, preformat_block := 0 },
          { type := LineType.LINE_TEXT, text := str "Some text", url := none, preformat_block := 0 },
          { type := LineType.LINE_LINK, text := str "Link label", url := some (str "gemini://x/"),
            preformat_block := 0 }],
        capacity := 64,
        title := some (str "Title") } := by
  decide

set_option maxRecDepth 1000000 in
/-- The document parsed from "a\rb": two Text lines. -/
theorem document_parse_lone_cr :
    document_parse (str "a\rb") =
      { lines := [
          { type := LineType.LINE_TEXT, text := str "a", url := none, preformat_block := 0 },
          { type := LineType.LINE_TEXT, text := str "b", url := none, preformat_block := 0 }],
        capacity := 64,
        title := none } := by
  decide

/-- C20 (counterexample): split at "\n" and "\r\n" as the specification splits it, the input
"a\rb" is one source line and no fence line, and document_parse gives two DocLines for it. -/
theorem C20_document_parse_counterexample :
    spec_source_lines (str "a\rb") = [str "a\rb"] ∧
    (spec_source_lines (str "a\rb")).filter is_fence = [] ∧
    (document_parse (str "a\rb")).lines.map (fun l => l.text) = [str "a", str "b"] ∧
    (document_parse (str "a\rb")).num_lines = 2 ∧
    (document_parse (str "a\rb")).num_lines ≠
      (spec_source_lines (str "a\rb")).length -
        ((spec_source_lines (str "a\rb")).filter is_fence).length := by
  rw [document_parse_lone_cr]
  decide

/-- C20 (amended): for every input, document_parse (allocation succeeding) returns a Document
whose DocLines are, in source order, exactly one line per source line that is not a fence line,
where a source line ends at "\n", at "\r\n", at a '\r' that no '\n' follows, or at the end of
the input: the lines are those of spec_lines, each the line produced for its source line, and
their number is the number of source lines minus the number of fence lines; more fuel than one
pass per byte changes nothing. When a '\n' follows every '\r' of the input, the source lines
are those that splitting at "\n" and "\r\n" gives. The input
"# Title\n\nSome text\n=> gemini://x/ Link label\n" gives exactly four lines, Heading1 "Title",
Text "", Text "Some text" and Link with url "gemini://x/" and text "Link label", with title
"Title" and link count 1. -/
theorem C20_document_parse (s : List Nat) :
    (document_parse s).lines = spec_lines (source_lines s) false 0 ∧
    List.Forall₂ (fun dl raw => ∃ pre blk, produced_lines pre blk raw = [dl])
      (document_parse s).lines ((source_lines s).filter (fun raw => !is_fence raw)) ∧
    (document_parse s).num_lines =
      (source_lines s).length - ((source_lines s).filter is_fence).length ∧
    (no_lone_cr s = true →
      source_lines s = spec_source_lines s ∧
      (document_parse s).num_lines =
        (spec_source_lines s).length - ((spec_source_lines s).filter is_fence).length) ∧
    (∀ fuel, s.length ≤ fuel →
      (document_parse_loop fuel s
        { doc := document_new, in_preformatted := false, preformat_block := 0 }).doc =
        document_parse s) ∧
    document_parse (str "# Title\n\nSome text\n=> gemini://x/ Link label\n") =
      { lines := [
          { type := LineType.LINE_HEADING1, text := str "Title", url := none, preformat_block := 0 },
          { type := LineType.LINE_TEXT, text := [], url := none, preformat_block := 0 },
          { type := LineType.LINE_TEXT, text := str "Some text", url := none, preformat_block := 0 },
          { type := LineType.LINE_LINK, text := str "Link label", url := some (str "gemini://x/"),
            preformat_block := 0 }],
        capacity := 64,
        title := some (str "Title") } ∧
    document_link_count
      (document_parse (str "# Title\n\nSome text\n=> gemini://x/ Link label\n")) = 1 := by
  have hnum : (document_parse s).num_lines =
      (source_lines s).length - ((source_lines s).filter is_fence).length := by
    have h := (spec_lines_forall2 (source_lines s) false 0).length_eq
    rw [← document_parse_lines] at h
    rw [Document.num_lines, h, filter_fence_length]
  refine ⟨document_parse_lines s, ?_, hnum, ?_, ?_, document_parse_example, ?_⟩
  · rw [document_parse_lines]
    exact spec_lines_forall2 _ _ _
  · intro hcr
    refine ⟨source_lines_eq_spec s hcr, ?_⟩
    rw [hnum, source_lines_eq_spec s hcr]
  · intro fuel hfuel
    unfold document_parse
    rw [document_parse_loop_eq _ _ _ hfuel, document_parse_loop_eq _ _ _ (Nat.le_refl _)]
  · rw [document_parse_example]
    decide

theorem C20_document_parse_witness :
    (str "a\r\n```\nb").length ≤ 10 ∧
    (document_parse_loop 10 (str "a\r\n```\nb")
      { doc := document_new, in_preformatted := false, preformat_block := 0 }).doc =
      document_parse (str "a\r\n```\nb") ∧
    no_lone_cr (str "a\r\n```\nb") = true ∧
    spec_source_lines (str "a\r\n```\nb") = [str "a", str "```", str "b"] ∧
    (document_parse (str "a\r\n```\nb")).num_lines = 2 := by
  have h := C20_document_parse (str "a\r\n```\nb")
  refine ⟨by decide, h.2.2.2.2.1 10 (by decide), by decide, by decide, ?_⟩
  rw [(h.2.2.2.1 (by decide)).2]
  decide

/-! ## unicode_sanitize pass by pass -/

theorem emit_out (o : SanitizeOut) (bytes : List Nat) : (emit o bytes).out = o.out ++ bytes := rfl

/-- The loop of unicode_sanitize appends to the output the bytes of sanitize_text, whatever the
capacity is. -/
theorem unicode_sanitize_loop_out : ∀ (fuel : Nat) (p : List Nat) (o : SanitizeOut),
    (unicode_sanitize_loop fuel p o).out = o.out ++ sanitize_text fuel p := by
  intro fuel
  induction fuel with
  | zero => intro p o; simp [unicode_sanitize_loop, sanitize_text]
  | succ fuel ih =>
    intro p o
    unfold unicode_sanitize_loop sanitize_text emitted
    by_cases h0 : rd p 0 = 0
    · rw [if_pos h0, if_pos h0]; simp
    · rw [if_neg h0, if_neg h0]
      simp only
      by_cases hcp : (utf8_decode p).1 = 0xFFFD
      · rw [if_pos hcp, if_pos hcp, ih]
        simp
      · rw [if_neg hcp, if_neg hcp]
        cases hf : find_fallback (utf8_decode p).1 with
        | some fallback =>
          simp only
          rw [ih, emit_out, List.append_assoc]
        | none =>
          simp only
          by_cases hn : needs_fallback (utf8_decode p).1 = true
          · rw [if_pos hn, if_pos hn, ih, emit_out, List.append_assoc]
          · rw [if_neg hn, if_neg hn, ih, emit_out, List.append_assoc]

theorem unicode_sanitize_eq_text (text : List Nat) :
    unicode_sanitize text = sanitize_text text.length text := by
  unfold unicode_sanitize unicode_sanitize_run
  rw [unicode_sanitize_loop_out]
  rfl

theorem sanitize_text_fuel (f1 f2 : Nat) (p : List Nat) (h1 : p.length ≤ f1) (h2 : p.length ≤ f2) :
    sanitize_text f1 p = sanitize_text f2 p := by
  have a := unicode_sanitize_loop_out f1 p { out := [], out_capacity := 0 }
  have b := unicode_sanitize_loop_out f2 p { out := [], out_capacity := 0 }
  rw [unicode_sanitize_loop_fuel f1 f2 p _ h1 h2] at a
  rw [a] at b
  simpa using b

theorem unicode_sanitize_nil : unicode_sanitize [] = [] := rfl

/-- One pass: the output of unicode_sanitize is what the first pass stores, followed by the
output for the text from the advanced read pointer on. -/
theorem unicode_sanitize_unfold (p : List Nat) (h0 : rd p 0 ≠ 0) :
    unicode_sanitize p = emitted p ++ unicode_sanitize (p.drop (utf8_decode p).2) := by
  have hne : p ≠ [] := by
    rintro rfl
    exact h0 rfl
  obtain ⟨k, hk⟩ : ∃ k, p.length = k + 1 := ⟨p.length - 1, by
    have := List.length_pos.2 hne
    omega⟩
  have hadv := (utf8_decode_advance p).1
  rw [unicode_sanitize_eq_text, unicode_sanitize_eq_text, hk, sanitize_text, if_neg h0]
  congr 1
  apply sanitize_text_fuel
  · rw [List.length_drop]; omega
  · exact Nat.le_refl _

set_option maxRecDepth 100000 in
theorem byte_masks : ∀ x, x < 256 →
    ((x &&& 0xE0 = 0xC0) ↔ (192 ≤ x ∧ x ≤ 223)) ∧
    ((x &&& 0xF0 = 0xE0) ↔ (224 ≤ x ∧ x ≤ 239)) ∧
    ((x &&& 0xF8 = 0xF0) ↔ (240 ≤ x ∧ x ≤ 247)) ∧
    ((x &&& 0xC0 = 0x80) ↔ (128 ≤ x ∧ x ≤ 191)) ∧
    x &&& 0x1F = x % 32 ∧ x &&& 0x0F = x % 16 ∧ x &&& 0x07 = x % 8 ∧ x &&& 0x3F = x % 64 := by
  decide

theorem and_63 (x : Nat) : x &&& 0x3F = x % 64 := Nat.and_pow_two_sub_one_eq_mod x 6

theorem shl6_or (cp y : Nat) (hy : y < 64) : (cp <<< 6) ||| y = cp * 64 + y := by
  rw [Nat.shiftLeft_eq, Nat.mul_comm]
  exact (Nat.mul_add_lt_is_or (show y < 2 ^ 6 from hy) cp).symm

set_option maxRecDepth 100000 in
theorem or_lead : ∀ x, x < 64 →
    0x80 ||| x = 128 + x ∧ (x < 32 → 0xC0 ||| x = 192 + x) ∧ (x < 16 → 0xE0 ||| x = 224 + x) ∧
    (x < 8 → 0xF0 ||| x = 240 + x) := by
  decide

/-- The continuation loop on a continuation byte. -/
theorem utf8_decode_cont_ok (todo : Nat) (s : List Nat) (i cp : Nat)
    (h : 128 ≤ rd s i ∧ rd s i ≤ 191) :
    utf8_decode_cont (todo + 1) s i cp = utf8_decode_cont todo s (i + 1) (cp * 64 + (rd s i - 128)) := by
  have hb := byte_masks (rd s i) (by omega)
  have hc : (rd s i &&& 0xC0) = 0x80 := hb.2.2.2.1.2 h
  have hm : rd s i % 64 = rd s i - 128 := by omega
  conv_lhs => rw [utf8_decode_cont]
  rw [if_neg (by rw [not_not]; exact hc), and_63, shl6_or _ _ (Nat.mod_lt _ (by decide)), hm]

/-- The continuation loop on a byte that is not a continuation byte. -/
theorem utf8_decode_cont_bad (todo : Nat) (s : List Nat) (i cp : Nat) (hlt : rd s i < 256)
    (h : ¬ (128 ≤ rd s i ∧ rd s i ≤ 191)) : utf8_decode_cont (todo + 1) s i cp = none := by
  have hb := byte_masks (rd s i) hlt
  rw [utf8_decode_cont, if_pos (fun e => h (hb.2.2.2.1.1 e))]

/-- The bytes of utf8_encode in arithmetic. -/
theorem utf8_encode_arith (c : Nat) :
    utf8_encode c =
      if c < 0x80 then [c]
      else if c < 0x800 then [192 + c / 64, 128 + c % 64]
      else if c < 0x10000 then [224 + c / 4096, 128 + c / 64 % 64, 128 + c % 64]
      else if c < 0x110000 then
        [240 + c / 262144, 128 + c / 4096 % 64, 128 + c / 64 % 64, 128 + c % 64]
      else [] := by
  unfold utf8_encode
  simp only [and_63, Nat.shiftRight_eq_div_pow]
  have e6 : (2 : Nat) ^ 6 = 64 := by norm_num
  have e12 : (2 : Nat) ^ 12 = 4096 := by norm_num
  have e18 : (2 : Nat) ^ 18 = 262144 := by norm_num
  rw [e6, e12, e18]
  have l0 := fun x (h : x < 64) => (or_lead x h).1
  have hm : ∀ x : Nat, (0x80 ||| x % 64) % 256 = 128 + x % 64 := by
    intro x
    rw [l0 _ (Nat.mod_lt _ (by decide))]
    omega
  simp only [hm]
  by_cases h1 : c < 0x80
  · rw [if_pos h1, if_pos h1]
    congr 1
    omega
  · rw [if_neg h1, if_neg h1]
    by_cases h2 : c < 0x800
    · rw [if_pos h2, if_pos h2, (or_lead (c / 64) (by omega)).2.1 (by omega)]
      congr 1
      omega
    · rw [if_neg h2, if_neg h2]
      by_cases h3 : c < 0x10000
      · rw [if_pos h3, if_pos h3, (or_lead (c / 4096) (by omega)).2.2.1 (by omega)]
        congr 1
        omega
      · rw [if_neg h3, if_neg h3]
        by_cases h4 : c < 0x110000
        · rw [if_pos h4, if_pos h4, (or_lead (c / 262144) (by omega)).2.2.2 (by omega)]
          congr 1
          omega
        · rw [if_neg h4, if_neg h4]

theorem rd_lt_of_bytes (s : List Nat) (hs : ∀ b ∈ s, b < 256) (i : Nat) : rd s i < 256 := by
  unfold rd
  rw [List.getD_eq_getElem?_getD]
  cases h : s[i]? with
  | none => simp
  | some b => exact hs b (List.getElem?_mem h)

/-- The function utf8_decode in arithmetic, on a text of bytes. -/
theorem utf8_decode_arith (s : List Nat) (hs : ∀ b ∈ s, b < 256) :
    utf8_decode s =
      if rd s 0 < 128 then (rd s 0, 1)
      else if 192 ≤ rd s 0 ∧ rd s 0 ≤ 223 then
        if 128 ≤ rd s 1 ∧ rd s 1 ≤ 191 then (rd s 0 % 32 * 64 + (rd s 1 - 128), 2)
        else (0xFFFD, 1)
      else if 224 ≤ rd s 0 ∧ rd s 0 ≤ 239 then
        if (128 ≤ rd s 1 ∧ rd s 1 ≤ 191) ∧ (128 ≤ rd s 2 ∧ rd s 2 ≤ 191) then
          ((rd s 0 % 16 * 64 + (rd s 1 - 128)) * 64 + (rd s 2 - 128), 3)
        else (0xFFFD, 1)
      else if 240 ≤ rd s 0 ∧ rd s 0 ≤ 247 then
        if (128 ≤ rd s 1 ∧ rd s 1 ≤ 191) ∧ (128 ≤ rd s 2 ∧ rd s 2 ≤ 191) ∧
            (128 ≤ rd s 3 ∧ rd s 3 ≤ 191) then
          (((rd s 0 % 8 * 64 + (rd s 1 - 128)) * 64 + (rd s 2 - 128)) * 64 + (rd s 3 - 128), 4)
        else (0xFFFD, 1)
      else (0xFFFD, 1) := by
  have b0 := byte_masks (rd s 0) (rd_lt_of_bytes s hs 0)
  have l1 := rd_lt_of_bytes s hs 1
  have l2 := rd_lt_of_bytes s hs 2
  have l3 := rd_lt_of_bytes s hs 3
  obtain ⟨m1, m2, m3, _, a1, a2, a3, _⟩ := b0
  unfold utf8_decode
  simp only [m1, m2, m3, a1, a2, a3]
  by_cases h1 : rd s 0 < 128
  · simp only [if_pos h1]
    rfl
  · simp only [if_neg h1]
    by_cases h2 : 192 ≤ rd s 0 ∧ rd s 0 ≤ 223
    · simp only [if_pos h2]
      rw [show 2 - 1 = 0 + 1 from rfl]
      by_cases c1 : 128 ≤ rd s 1 ∧ rd s 1 ≤ 191
      · rw [if_pos c1, utf8_decode_cont_ok _ _ _ _ c1]
        rfl
      · rw [if_neg c1, utf8_decode_cont_bad _ _ _ _ l1 c1]
    · simp only [if_neg h2]
      by_cases h3 : 224 ≤ rd s 0 ∧ rd s 0 ≤ 239
      · simp only [if_pos h3]
        rw [show 3 - 1 = 1 + 1 from rfl]
        by_cases c1 : 128 ≤ rd s 1 ∧ rd s 1 ≤ 191
        · rw [utf8_decode_cont_ok _ _ _ _ c1]
          by_cases c2 : 128 ≤ rd s 2 ∧ rd s 2 ≤ 191
          · rw [if_pos (And.intro c1 c2), utf8_decode_cont_ok _ _ _ _ c2]
            rfl
          · rw [if_neg (fun h : _ ∧ _ => c2 h.2), utf8_decode_cont_bad _ _ _ _ l2 c2]
        · rw [if_neg (fun h : _ ∧ _ => c1 h.1), utf8_decode_cont_bad _ _ _ _ l1 c1]
      · simp only [if_neg h3]
        by_cases h4 : 240 ≤ rd s 0 ∧ rd s 0 ≤ 247
        · simp only [if_pos h4]
          rw [show 4 - 1 = 2 + 1 from rfl]
          by_cases c1 : 128 ≤ rd s 1 ∧ rd s 1 ≤ 191
          · rw [utf8_decode_cont_ok _ _ _ _ c1]
            by_cases c2 : 128 ≤ rd s 2 ∧ rd s 2 ≤ 191
            · rw [utf8_decode_cont_ok _ _ _ _ c2]
              by_cases c3 : 128 ≤ rd s 3 ∧ rd s 3 ≤ 191
              · rw [if_pos (And.intro c1 (And.intro c2 c3)), utf8_decode_cont_ok _ _ _ _ c3]
                rfl
              · rw [if_neg (fun h : _ ∧ _ ∧ _ => c3 h.2.2), utf8_decode_cont_bad _ _ _ _ l3 c3]
            · rw [if_neg (fun h : _ ∧ _ ∧ _ => c2 h.2.1), utf8_decode_cont_bad _ _ _ _ l2 c2]
          · rw [if_neg (fun h : _ ∧ _ ∧ _ => c1 h.1), utf8_decode_cont_bad _ _ _ _ l1 c1]
        · simp only [if_neg h4]

theorem utf8_encode_bytes (c : Nat) : ∀ b ∈ utf8_encode c, b < 256 := by
  intro b hb
  rw [utf8_encode_arith] at hb
  split_ifs at hb <;> simp only [List.mem_cons, List.mem_singleton, List.not_mem_nil, or_false] at hb
  · omega
  · rcases hb with rfl | rfl <;> omega
  · rcases hb with rfl | rfl | rfl <;> omega
  · rcases hb with rfl | rfl | rfl | rfl <;> omega

theorem utf8_encode_length (c : Nat) (h : c < 0x110000) :
    1 ≤ (utf8_encode c).length ∧ (utf8_encode c).length ≤ 4 := by
  rw [utf8_encode_arith]
  split_ifs <;> simp

/-- Decoding the encoding of a codepoint gives the codepoint back and passes over exactly the
bytes of the encoding. -/
theorem utf8_decode_encode (c : Nat) (rest : List Nat) (hc : c < 0x110000)
    (hrest : ∀ b ∈ rest, b < 256) :
    utf8_decode (utf8_encode c ++ rest) = (c, (utf8_encode c).length) := by
  have hs : ∀ b ∈ utf8_encode c ++ rest, b < 256 := by
    intro b hb
    rcases List.mem_append.1 hb with h | h
    · exact utf8_encode_bytes c b h
    · exact hrest b h
  rw [utf8_decode_arith _ hs, utf8_encode_arith]
  by_cases h1 : c < 0x80
  · simp only [if_pos h1, rd, List.singleton_append, List.getD_cons_zero, List.length_singleton]
  · simp only [if_neg h1]
    by_cases h2 : c < 0x800
    · simp only [if_pos h2, rd, List.cons_append, List.getD_cons_zero, List.getD_cons_succ,
        List.length_cons, List.length_nil]
      have e0 : ¬ (192 + c / 64 < 128) := by omega
      have e1 : 192 ≤ 192 + c / 64 ∧ 192 + c / 64 ≤ 223 := by omega
      have e2 : 128 ≤ 128 + c % 64 ∧ 128 + c % 64 ≤ 191 := by omega
      rw [if_neg e0, if_pos e1, if_pos e2]
      refine Prod.ext ?_ rfl
      simp only
      omega
    · simp only [if_neg h2]
      by_cases h3 : c < 0x10000
      · simp only [if_pos h3, rd, List.cons_append, List.getD_cons_zero, List.getD_cons_succ,
          List.length_cons, List.length_nil]
        have e0 : ¬ (224 + c / 4096 < 128) := by omega
        have e1 : ¬ (192 ≤ 224 + c / 4096 ∧ 224 + c / 4096 ≤ 223) := by omega
        have e2 : 224 ≤ 224 + c / 4096 ∧ 224 + c / 4096 ≤ 239 := by omega
        have e3 : (128 ≤ 128 + c / 64 % 64 ∧ 128 + c / 64 % 64 ≤ 191) ∧
            (128 ≤ 128 + c % 64 ∧ 128 + c % 64 ≤ 191) := by omega
        rw [if_neg e0, if_neg e1, if_pos e2, if_pos e3]
        refine Prod.ext ?_ rfl
        simp only
        omega
      · simp only [if_neg h3, if_pos hc, rd, List.cons_append, List.getD_cons_zero,
          List.getD_cons_succ, List.length_cons, List.length_nil]
        have e0 : ¬ (240 + c / 262144 < 128) := by omega
        have e1 : ¬ (192 ≤ 240 + c / 262144 ∧ 240 + c / 262144 ≤ 223) := by omega
        have e2 : ¬ (224 ≤ 240 + c / 262144 ∧ 240 + c / 262144 ≤ 239) := by omega
        have e3 : 240 ≤ 240 + c / 262144 ∧ 240 + c / 262144 ≤ 247 := by omega
        have e4 : (128 ≤ 128 + c / 4096 % 64 ∧ 128 + c / 4096 % 64 ≤ 191) ∧
            (128 ≤ 128 + c / 64 % 64 ∧ 128 + c / 64 % 64 ≤ 191) ∧
            (128 ≤ 128 + c % 64 ∧ 128 + c % 64 ≤ 191) := by omega
        rw [if_neg e0, if_neg e1, if_neg e2, if_pos e3, if_pos e4]
        refine Prod.ext ?_ rfl
        simp only
        omega

theorem rd_encode_zero (c : Nat) (rest : List Nat) (h1 : 1 ≤ c) (hc : c < 0x110000) :
    rd (utf8_encode c ++ rest) 0 ≠ 0 := by
  rw [utf8_encode_arith]
  split_ifs <;> simp only [rd, List.cons_append, List.getD_cons_zero] <;> omega

set_option maxRecDepth 1000000 in
/-- The codepoints of the table lie between U+2013 and U+1F9A9 and none is U+FFFD; the
replacements are not empty and hold bytes in 1..127 only. -/
theorem fallbacks_range : ∀ e ∈ fallbacks,
    0x2013 ≤ e.1 ∧ e.1 ≤ 0x1F9A9 ∧ e.1 ≠ 0xFFFD ∧ e.2 ≠ [] ∧ ∀ b ∈ e.2, 1 ≤ b ∧ b < 128 := by
  decide

theorem find_fallback_from_none (l : List (Nat × List Nat)) (c : Nat) :
    find_fallback_from l c = none ↔ ∀ e ∈ l, e.1 ≠ c := by
  induction l with
  | nil => simp [find_fallback_from]
  | cons e l ih =>
    unfold find_fallback_from
    by_cases h : e.1 = c
    · simp [h]
    · simp [h, ih]

theorem find_fallback_none (c : Nat) : find_fallback c = none ↔ ∀ e ∈ fallbacks, e.1 ≠ c :=
  find_fallback_from_none fallbacks c

theorem find_fallback_ascii (c : Nat) (h : c < 0x2013) : find_fallback c = none := by
  rw [find_fallback_none]
  intro e he hc
  have := (fallbacks_range e he).1
  omega

theorem needs_fallback_false (c : Nat) (hf : find_fallback c = none)
    (h1 : ¬ (0x1F300 ≤ c ∧ c ≤ 0x1F9FF)) (h2 : ¬ (0x1FA00 ≤ c ∧ c ≤ 0x1FAFF))
    (h3 : ¬ (0x1F1E0 ≤ c ∧ c ≤ 0x1F1FF)) : needs_fallback c = false := by
  unfold needs_fallback
  simp only [ge_iff_le, hf, Option.isSome_none]
  rw [if_neg h1, if_neg h2, if_neg h3]
  split_ifs <;> rfl

theorem needs_fallback_true (c : Nat)
    (h : (0x1F300 ≤ c ∧ c ≤ 0x1F9FF) ∨ (0x1FA00 ≤ c ∧ c ≤ 0x1FAFF) ∨ (0x1F1E0 ≤ c ∧ c ≤ 0x1F1FF)) :
    needs_fallback c = true := by
  unfold needs_fallback
  simp only [ge_iff_le]
  split_ifs <;> first | rfl | omega

/-- One pass on the encoding of a codepoint: the output for it, then the output for the rest. -/
theorem unicode_sanitize_encode (c : Nat) (rest : List Nat) (h1 : 1 ≤ c) (hc : c < 0x110000)
    (hrest : ∀ b ∈ rest, b < 256) :
    unicode_sanitize (utf8_encode c ++ rest) = sanitize_codepoint c ++ unicode_sanitize rest := by
  have hd := utf8_decode_encode c rest hc hrest
  rw [unicode_sanitize_unfold _ (rd_encode_zero c rest h1 hc), hd]
  simp only [List.drop_left]
  congr 1
  unfold emitted sanitize_codepoint
  rw [hd]
  simp only [List.take_left]

/-- A text of bytes in 0x01..0x7F comes out of unicode_sanitize as it is. -/
theorem unicode_sanitize_ascii (s : List Nat) (hs : ∀ b ∈ s, 1 ≤ b ∧ b ≤ 0x7F) :
    unicode_sanitize s = s := by
  induction s with
  | nil => rfl
  | cons b s ih =>
    have hb := hs b (by simp)
    have h0 : rd (b :: s) 0 ≠ 0 := by simp only [rd, List.getD_cons_zero]; omega
    have hd : utf8_decode (b :: s) = (b, 1) := by
      unfold utf8_decode
      simp only [rd, List.getD_cons_zero]
      rw [if_pos (by omega)]
      rfl
    rw [unicode_sanitize_unfold _ h0, hd]
    simp only [List.drop_succ_cons, List.drop_zero]
    rw [ih (fun x hx => hs x (by simp [hx]))]
    unfold emitted
    rw [hd]
    simp only
    rw [if_neg (by omega), find_fallback_ascii b (by omega)]
    simp only
    rw [needs_fallback_false b (find_fallback_ascii b (by omega)) (by omega) (by omega) (by omega)]
    rfl

/-- C26: for every string whose bytes are all in 0x01..0x7F, unicode_sanitize returns a string
equal to its input, and so does every pass of its loop: the byte at the read pointer is
stored as it is and the read pointer moves on by one. -/
theorem C26_ascii_fixed_point (s : List Nat) (hs : ∀ b ∈ s, 1 ≤ b ∧ b ≤ 0x7F) :
    unicode_sanitize s = s ∧
    ∀ b ∈ s.head?, utf8_decode s = (b, 1) ∧ emitted s = [b] := by
  refine ⟨unicode_sanitize_ascii s hs, ?_⟩
  intro b hb
  cases s with
  | nil => simp at hb
  | cons a t =>
    simp only [List.head?_cons, Option.mem_def, Option.some.injEq] at hb
    subst hb
    have ha := hs a (by simp)
    have hd : utf8_decode (a :: t) = (a, 1) := by
      unfold utf8_decode
      simp only [rd, List.getD_cons_zero]
      rw [if_pos (by omega)]
      rfl
    refine ⟨hd, ?_⟩
    unfold emitted
    rw [hd]
    simp only
    rw [if_neg (by omega), find_fallback_ascii a (by omega)]
    simp only
    rw [needs_fallback_false a (find_fallback_ascii a (by omega)) (by omega) (by omega) (by omega)]
    rfl

theorem C26_ascii_fixed_point_witness :
    (∀ b ∈ str "Some text, with ~ and \t.", 1 ≤ b ∧ b ≤ 0x7F) ∧
    unicode_sanitize (str "Some text, with ~ and \t.") = str "Some text, with ~ and \t." :=
  ⟨by decide, (C26_ascii_fixed_point (str "Some text, with ~ and \t.") (by decide)).1⟩

theorem generic_placeholder_cases (c : Nat) :
    ((0x1F600 ≤ c ∧ c ≤ 0x1F64F) ∨ (0x1F900 ≤ c ∧ c ≤ 0x1F9FF) → generic_placeholder c = str ":)") ∧
    (¬ ((0x1F600 ≤ c ∧ c ≤ 0x1F64F) ∨ (0x1F900 ≤ c ∧ c ≤ 0x1F9FF)) →
      generic_placeholder c = str "*") := by
  unfold generic_placeholder
  simp only [ge_iff_le]
  constructor
  · rintro (h | h)
    · rw [if_pos h]
    · have hA : ¬ (0x1F600 ≤ c ∧ c ≤ 0x1F64F) := by omega
      rw [if_neg hA]
      clear hA
      repeat' split
      all_goals first | rfl | (exfalso; omega)
  · intro h
    have hA : ¬ (0x1F600 ≤ c ∧ c ≤ 0x1F64F) := fun x => h (Or.inl x)
    have hB : ¬ (0x1F900 ≤ c ∧ c ≤ 0x1F9FF) := fun x => h (Or.inr x)
    rw [if_neg hA]
    clear h hA
    split
    · rfl
    split
    · rfl
    split
    · rfl
    split
    · rfl
    split
    · rfl
    split
    · rfl
    split
    · rfl
    split <;> rfl

set_option maxRecDepth 1000000 in
theorem unmapped_examples :
    (∀ e ∈ fallbacks, e.1 ≠ 0x1F644) ∧ (∀ e ∈ fallbacks, e.1 ≠ 0x1FA00) ∧
    (∀ e ∈ fallbacks, e.1 ≠ 0x2605) ∧ (∀ e ∈ fallbacks, e.1 ≠ 0xE9) := by
  decide

/-- C28: for every codepoint c that is not in the fallback table, unicode_sanitize of the UTF-8
encoding of c returns ":)" when c is in U+1F600..U+1F64F or U+1F900..U+1F9FF, and "*" when c
is in any other part of U+1F300..U+1F9FF, in U+1FA00..U+1FAFF or in U+1F1E0..U+1F1FF. -/
theorem C28_generic_placeholder (c : Nat) (hc : ∀ e ∈ fallbacks, e.1 ≠ c) :
    ((0x1F600 ≤ c ∧ c ≤ 0x1F64F) ∨ (0x1F900 ≤ c ∧ c ≤ 0x1F9FF) →
      unicode_sanitize (utf8_encode c) = str ":)") ∧
    (((0x1F300 ≤ c ∧ c ≤ 0x1F9FF) ∨ (0x1FA00 ≤ c ∧ c ≤ 0x1FAFF) ∨ (0x1F1E0 ≤ c ∧ c ≤ 0x1F1FF)) →
      ¬ ((0x1F600 ≤ c ∧ c ≤ 0x1F64F) ∨ (0x1F900 ≤ c ∧ c ≤ 0x1F9FF)) →
      unicode_sanitize (utf8_encode c) = str "*") := by
  have hf : find_fallback c = none := (find_fallback_none c).2 hc
  have key : ((0x1F300 ≤ c ∧ c ≤ 0x1F9FF) ∨ (0x1FA00 ≤ c ∧ c ≤ 0x1FAFF) ∨
      (0x1F1E0 ≤ c ∧ c ≤ 0x1F1FF)) → unicode_sanitize (utf8_encode c) = generic_placeholder c := by
    intro hr
    have h := unicode_sanitize_encode c [] (by omega) (by omega) (by simp)
    rw [List.append_nil, unicode_sanitize_nil, List.append_nil] at h
    rw [h]
    unfold sanitize_codepoint
    rw [if_neg (by omega), hf]
    simp only
    rw [needs_fallback_true c hr, if_pos rfl]
  constructor
  · intro h
    rw [key (by omega), (generic_placeholder_cases c).1 h]
  · intro hr h
    rw [key hr, (generic_placeholder_cases c).2 h]

theorem C28_generic_placeholder_witness :
    unicode_sanitize (utf8_encode 0x1F644) = str ":)" ∧
    unicode_sanitize (utf8_encode 0x1FA00) = str "*" :=
  ⟨(C28_generic_placeholder 0x1F644 unmapped_examples.1).1 (by decide),
    (C28_generic_placeholder 0x1FA00 unmapped_examples.2.1).2 (by decide) (by decide)⟩

set_option maxRecDepth 1000000 in
theorem replacement_character_example :
    utf8_encode 0xFFFD = [0xEF, 0xBF, 0xBD] ∧ (∀ e ∈ fallbacks, e.1 ≠ 0xFFFD) ∧
    unicode_sanitize [0xEF, 0xBF, 0xBD] = [63] := by
  decide

/-- C30 (counterexample): U+FFFD is not in the fallback table and in none of the placeholder
ranges, its UTF-8 encoding is EF BF BD, and unicode_sanitize returns "?" for it, not those
bytes. -/
theorem C30_pass_through_counterexample :
    (∀ e ∈ fallbacks, e.1 ≠ 0xFFFD) ∧
    ¬ ((0x1F300 ≤ 0xFFFD ∧ 0xFFFD ≤ 0x1F9FF) ∨ (0x1FA00 ≤ 0xFFFD ∧ 0xFFFD ≤ 0x1FAFF) ∨
      (0x1F1E0 ≤ 0xFFFD ∧ 0xFFFD ≤ 0x1F1FF)) ∧
    utf8_encode 0xFFFD = [0xEF, 0xBF, 0xBD] ∧
    unicode_sanitize (utf8_encode 0xFFFD) = [63] ∧
    unicode_sanitize (utf8_encode 0xFFFD) ≠ utf8_encode 0xFFFD := by
  have h := replacement_character_example
  refine ⟨h.2.1, by decide, h.1, by rw [h.1]; exact h.2.2, ?_⟩
  rw [h.1, h.2.2]
  decide

/-- C30 (amended): for every codepoint c from U+0001 to U+10FFFF other than U+FFFD that is
neither in the fallback table nor in one of the placeholder ranges U+1F300..U+1F9FF,
U+1FA00..U+1FAFF, U+1F1E0..U+1F1FF, unicode_sanitize of the UTF-8 encoding of c returns exactly
those bytes; this holds for every such codepoint of U+2600..U+27BF and U+2B00..U+2BFF. The
encoding of U+FFFD, the value the decoder returns for an invalid sequence, gives "?". -/
theorem C30_pass_through (c : Nat) (h1 : 1 ≤ c) (hmax : c < 0x110000) (hrc : c ≠ 0xFFFD)
    (hc : ∀ e ∈ fallbacks, e.1 ≠ c)
    (hr : ¬ ((0x1F300 ≤ c ∧ c ≤ 0x1F9FF) ∨ (0x1FA00 ≤ c ∧ c ≤ 0x1FAFF) ∨
      (0x1F1E0 ≤ c ∧ c ≤ 0x1F1FF))) :
    unicode_sanitize (utf8_encode c) = utf8_encode c ∧
    (∀ rest, (∀ b ∈ rest, b < 256) →
      unicode_sanitize (utf8_encode c ++ rest) = utf8_encode c ++ unicode_sanitize rest) ∧
    unicode_sanitize (utf8_encode 0xFFFD) = [63] := by
  have hf : find_fallback c = none := (find_fallback_none c).2 hc
  have hn : needs_fallback c = false :=
    needs_fallback_false c hf (by tauto) (by tauto) (by tauto)
  have hs : sanitize_codepoint c = utf8_encode c := by
    unfold sanitize_codepoint
    rw [if_neg hrc, hf]
    simp only
    rw [hn]
    rfl
  have key : ∀ rest, (∀ b ∈ rest, b < 256) →
      unicode_sanitize (utf8_encode c ++ rest) = utf8_encode c ++ unicode_sanitize rest := by
    intro rest hrest
    rw [unicode_sanitize_encode c rest h1 hmax hrest, hs]
  refine ⟨?_, key, ?_⟩
  · have := key [] (by simp)
    rw [List.append_nil, unicode_sanitize_nil, List.append_nil] at this
    exact this
  · rw [replacement_character_example.1]
    exact replacement_character_example.2.2

theorem C30_pass_through_witness :
    unicode_sanitize (utf8_encode 0x2605) = utf8_encode 0x2605 ∧
    utf8_encode 0x2605 = [0xE2, 0x98, 0x85] ∧
    unicode_sanitize (utf8_encode 0xE9) = [0xC3, 0xA9] :=
  ⟨(C30_pass_through 0x2605 (by decide) (by decide) (by decide) unmapped_examples.2.2.1
      (by decide)).1, by decide,
    (C30_pass_through 0xE9 (by decide) (by decide) (by decide) unmapped_examples.2.2.2
      (by decide)).1.trans (by decide)⟩

/-! ## Link indexing -/

theorem document_link_count_from_eq : ∀ (l : List DocLine) (count : Nat),
    document_link_count_from l count =
      count + (l.filter (fun l => decide (l.type = LineType.LINE_LINK))).length := by
  intro l
  induction l with
  | nil => intro count; rfl
  | cons d l ih =>
    intro count
    unfold document_link_count_from
    rw [ih]
    by_cases h : d.type = LineType.LINE_LINK
    · rw [if_pos h, List.filter_cons_of_pos (by simpa using h), List.length_cons]
      omega
    · rw [if_neg h, List.filter_cons_of_neg (by simpa using h)]

theorem document_link_url_from_eq : ∀ (l : List DocLine) (link_idx index : Nat),
    link_idx ≤ index →
    document_link_url_from l link_idx index =
      ((l.filter (fun l => decide (l.type = LineType.LINE_LINK)))[index - link_idx]?).bind
        (fun d => d.url) := by
  intro l
  induction l with
  | nil => intro link_idx index _; rfl
  | cons d l ih =>
    intro link_idx index hle
    unfold document_link_url_from
    by_cases h : d.type = LineType.LINE_LINK
    · rw [if_pos h, List.filter_cons_of_pos (by simpa using h)]
      by_cases he : link_idx = index
      · rw [if_pos he, he, Nat.sub_self]
        simp
      · rw [if_neg he, ih (link_idx + 1) index (by omega)]
        obtain ⟨k, hk⟩ : ∃ k, index - link_idx = k + 1 := ⟨index - link_idx - 1, by omega⟩
        rw [hk, List.getElem?_cons_succ, show index - (link_idx + 1) = k by omega]
    · rw [if_neg h, List.filter_cons_of_neg (by simpa using h), ih link_idx index hle]

/-- C24: for every Document and every index i, document_link_count is the number of lines of
type Link, document_link_url(doc, i) returns the url of the i-th Link line in document order,
counted from 0, when i < document_link_count(doc), and returns none when
i >= document_link_count(doc). -/
theorem C24_link_indexing (doc : Document) (i : Nat) :
    document_link_count doc = (link_lines doc).length ∧
    (∀ h : i < (link_lines doc).length,
      i < document_link_count doc ∧
      document_link_url doc i = ((link_lines doc).get ⟨i, h⟩).url) ∧
    (document_link_count doc ≤ i → document_link_url doc i = none) := by
  have hc : document_link_count doc = (link_lines doc).length := by
    unfold document_link_count link_lines
    rw [document_link_count_from_eq, Nat.zero_add]
  have hu : document_link_url doc i = ((link_lines doc)[i]?).bind (fun d => d.url) := by
    unfold document_link_url link_lines
    rw [document_link_url_from_eq _ 0 i (Nat.zero_le _), Nat.sub_zero]
  refine ⟨hc, ?_, ?_⟩
  · intro h
    refine ⟨by rw [hc]; exact h, ?_⟩
    rw [hu, List.getElem?_eq_getElem h]
    rfl
  · intro h
    rw [hu, List.getElem?_eq_none (by rw [← hc]; exact h)]
    rfl

set_option maxRecDepth 1000000 in
theorem link_example :
    (link_lines (document_parse (str "=> a x\ntext\n=> b\n"))).map (fun l => l.url) =
      [some (str "a"), some (str "b")] := by
  decide

theorem C24_link_indexing_witness :
    document_link_count (document_parse (str "=> a x\ntext\n=> b\n")) = 2 ∧
    document_link_url (document_parse (str "=> a x\ntext\n=> b\n")) 1 = some (str "b") ∧
    document_link_url (document_parse (str "=> a x\ntext\n=> b\n")) 2 = none := by
  have hl : (link_lines (document_parse (str "=> a x\ntext\n=> b\n"))).length = 2 := by
    have := congrArg List.length link_example
    simpa using this
  have h1 := C24_link_indexing (document_parse (str "=> a x\ntext\n=> b\n")) 1
  have h2 := C24_link_indexing (document_parse (str "=> a x\ntext\n=> b\n")) 2
  refine ⟨by rw [h1.1, hl], ?_, h2.2.2 (by rw [h2.1, hl])⟩
  rw [(h1.2.1 (by rw [hl]; decide)).2]
  have e := link_example
  generalize link_lines (document_parse (str "=> a x\ntext\n=> b\n")) = L at e hl ⊢
  match L, e, hl with
  | [a, b], e, _ =>
    simp only [List.map_cons, List.map_nil, List.cons.injEq, and_true] at e
    exact e.2

/-! ## Line terminators -/

/-- The result of document_parse is that of the loop body run over the source lines. -/
theorem document_parse_eq_fold (s : List Nat) :
    document_parse s = ((source_lines s).foldl document_parse_body
      { doc := document_new, in_preformatted := false, preformat_block := 0 }).doc := by
  unfold document_parse
  rw [document_parse_loop_eq _ _ _ (Nat.le_refl _)]

theorem source_lines_aux_other (c : Nat) (rest cur : List Nat) (o : Bool) (h10 : c ≠ 10)
    (h13 : c ≠ 13) : source_lines_aux (c :: rest) cur o = source_lines_aux rest (c :: cur) true := by
  rw [source_lines_aux]
  all_goals (intros; simp_all)

theorem source_lines_aux_crlf : ∀ (s cur : List Nat) (o : Bool), (∀ c ∈ s, c ≠ 13) →
    source_lines_aux (crlf s) cur o = source_lines_aux s cur o := by
  intro s
  induction s with
  | nil => intro cur o _; rfl
  | cons c s ih =>
    intro cur o hs
    have h13 : c ≠ 13 := hs c (by simp)
    have hs2 : ∀ c ∈ s, c ≠ 13 := fun x hx => hs x (by simp [hx])
    unfold crlf
    by_cases h10 : c = 10
    · subst h10
      rw [if_pos rfl]
      simp only [source_lines_aux]
      rw [ih [] false hs2]
    · rw [if_neg h10, source_lines_aux_other c _ cur o h10 h13,
        source_lines_aux_other c _ cur o h10 h13, ih _ _ hs2]

theorem source_lines_aux_snoc : ∀ (n : Nat) (s cur : List Nat) (o : Bool), s.length ≤ n →
    s.getLast? ≠ some 10 → (s = [] → o = true) →
    source_lines_aux (s ++ [10]) cur o = source_lines_aux s cur o := by
  intro n
  induction n with
  | zero =>
    intro s cur o hs _ ho
    have : s = [] := List.length_eq_zero.1 (by omega)
    subst this
    rw [ho rfl]
    simp [source_lines_aux]
  | succ n ih =>
    intro s cur o hs hl ho
    match s, hs, hl, ho with
    | [], _, _, ho =>
      rw [ho rfl]
      simp [source_lines_aux]
    | [c], _, hl, _ =>
      have h10 : c ≠ 10 := by simpa using hl
      by_cases h13 : c = 13
      · subst h13
        simp [source_lines_aux]
      · rw [List.singleton_append, source_lines_aux_other c _ cur o h10 h13,
          source_lines_aux_other c _ cur o h10 h13]
        simp [source_lines_aux]
    | c :: d :: rest, hs, hl, _ =>
      simp only [List.length_cons] at hs
      have hl2 : (d :: rest).getLast? ≠ some 10 := by
        rw [List.getLast?_cons_cons] at hl
        exact hl
      by_cases h13 : c = 13
      · subst h13
        by_cases hd : d = 10
        · subst hd
          have hl3 : rest.getLast? ≠ some 10 := by
            cases rest with
            | nil => simp at hl2
            | cons e r => rw [List.getLast?_cons_cons] at hl2; exact hl2
          have hne : rest ≠ [] := by
            rintro rfl
            simp at hl2
          have hi := ih rest [] false (by omega) hl3 (fun h => absurd h hne)
          simp only [List.cons_append, source_lines_aux]
          exact congrArg (fun t => cur.reverse :: t) hi
        · have e1 : ∀ (t : List Nat), source_lines_aux (13 :: d :: t) cur o =
              cur.reverse :: source_lines_aux (d :: t) [] false := by
            intro t
            rw [source_lines_aux]
            all_goals (intros; simp_all)
          rw [List.cons_append, List.cons_append, e1, e1, ← List.cons_append,
            ih (d :: rest) [] false (by simp only [List.length_cons]; omega) hl2
              (fun h => by cases h)]
      · by_cases h10 : c = 10
        · subst h10
          have hi := ih (d :: rest) [] false (by simp only [List.length_cons]; omega) hl2
            (fun h => by cases h)
          simp only [List.cons_append, source_lines_aux]
          exact congrArg (fun t => cur.reverse :: t) hi
        · rw [List.cons_append, source_lines_aux_other c _ cur o h10 h13,
            source_lines_aux_other c _ cur o h10 h13,
            ih (d :: rest) (c :: cur) true (by simp only [List.length_cons]; omega) hl2
              (fun _ => rfl)]

/-- C25: for every input s that holds no '\r', document_parse of s with every "\n" replaced by
"\r\n" gives the same Document as document_parse of s; and for every input s that is not
empty and does not end with '\n', document_parse of s followed by "\n" gives the same
Document as document_parse of s. -/
theorem C25_line_terminators (s : List Nat) :
    ((∀ c ∈ s, c ≠ 13) → document_parse (crlf s) = document_parse s) ∧
    (s ≠ [] → s.getLast? ≠ some 10 → document_parse (s ++ [10]) = document_parse s) := by
  constructor
  · intro h
    rw [document_parse_eq_fold, document_parse_eq_fold]
    unfold source_lines
    rw [source_lines_aux_crlf s [] false h]
  · intro hne hl
    rw [document_parse_eq_fold, document_parse_eq_fold]
    unfold source_lines
    rw [source_lines_aux_snoc s.length s [] false (Nat.le_refl _) hl (fun h => absurd h hne)]

theorem C25_line_terminators_witness :
    crlf (str "# T\n\n=> u l\nlast") = str "# T\r\n\r\n=> u l\r\nlast" ∧
    document_parse (str "# T\r\n\r\n=> u l\r\nlast") = document_parse (str "# T\n\n=> u l\nlast") ∧
    document_parse (str "# T\n\n=> u l\nlast" ++ [10]) = document_parse (str "# T\n\n=> u l\nlast") := by
  have h := C25_line_terminators (str "# T\n\n=> u l\nlast")
  have e : crlf (str "# T\n\n=> u l\nlast") = str "# T\r\n\r\n=> u l\r\nlast" := by decide
  refine ⟨e, ?_, h.2 (by decide) (by decide)⟩
  rw [← e]
  exact h.1 (by decide)

/-! ## Trimming -/

theorem strip_trailing_snoc (l : List Nat) (x : Nat) :
    strip_trailing (l ++ [x]) = if isspace x then strip_trailing l else l ++ [x] := by
  unfold strip_trailing
  rw [List.reverse_append, List.reverse_singleton, List.singleton_append, List.dropWhile_cons]
  by_cases h : isspace x = true
  · rw [if_pos h, if_pos h]
  · rw [if_neg h, if_neg h]
    simp

theorem take_succ_rd (s : List Nat) (n : Nat) (h : n < s.length) :
    s.take (n + 1) = s.take n ++ [rd s n] := by
  rw [List.take_succ, List.getElem?_eq_getElem h]
  simp [rd, List.getD_eq_getElem?_getD, List.getElem?_eq_getElem h]

theorem trim_trailing_len_spec (s : List Nat) : ∀ n, n ≤ s.length →
    s.take (trim_trailing_len n s) = strip_trailing (s.take n) := by
  intro n
  induction n with
  | zero => intro _; rfl
  | succ n ih =>
    intro h
    rw [trim_trailing_len, take_succ_rd s n (by omega), strip_trailing_snoc]
    by_cases hs : isspace (rd s n) = true
    · rw [if_pos hs, if_pos hs, ih (by omega)]
    · rw [if_neg hs, if_neg hs, take_succ_rd s n (by omega)]

/-- The function trim_trailing removes the trailing whitespace. -/
theorem trim_trailing_eq (s : List Nat) : trim_trailing s = strip_trailing s := by
  unfold trim_trailing
  rw [trim_trailing_len_spec s s.length (Nat.le_refl _), List.take_length]

theorem strip_trailing_nil : strip_trailing [] = [] := rfl

theorem strip_trailing_no_space (s : List Nat) (h : ∀ c ∈ s, isspace c = false) :
    strip_trailing s = s := by
  unfold strip_trailing
  cases hr : s.reverse with
  | nil =>
    have : s = [] := by simpa using hr
    subst this
    rfl
  | cons x xs =>
    have hx : isspace x = false := h x (by
      have : x ∈ s.reverse := by rw [hr]; simp
      simpa using this)
    rw [List.dropWhile_cons_of_neg (by simp [hx]), ← hr, List.reverse_reverse]

theorem dropWhile_snoc_ne_nil (p : Nat → Bool) (l : List Nat) (x : Nat) (hx : p x = false) :
    (l ++ [x]).dropWhile p ≠ [] := by
  induction l with
  | nil => simp [List.dropWhile, hx]
  | cons a l ih =>
    rw [List.cons_append, List.dropWhile_cons]
    split
    · exact ih
    · simp

theorem strip_trailing_ne_nil (c : Nat) (t : List Nat) (hc : isspace c = false) :
    strip_trailing (c :: t) ≠ [] := by
  unfold strip_trailing
  rw [List.reverse_cons]
  intro h
  have := dropWhile_snoc_ne_nil isspace t.reverse c hc
  exact this (by simpa using h)

/-- The remainder of a line after skipping whitespace is empty exactly when its stripped form
is empty. -/
theorem strip_eq_nil_iff (s : List Nat) : strip s = [] ↔ s.dropWhile isspace = [] := by
  unfold strip
  cases h : s.dropWhile isspace with
  | nil => simp [strip_trailing_nil]
  | cons c t =>
    have hc : isspace c = false := by
      have := List.head?_dropWhile_not isspace s
      rw [h] at this
      simpa using this
    simp only [reduceCtorEq, iff_false]
    exact strip_trailing_ne_nil c t hc

/-! ## Link lines, the title and fenced blocks -/

theorem line_of_eq (raw : List Nat) : cstr (raw ++ [0]) 0 = line_of raw := cstr_raw raw

theorem line_of_nulfree (raw : List Nat) (h : ∀ c ∈ raw, c ≠ 0) : line_of raw = raw :=
  List.takeWhile_eq_self_iff.2 (by simpa using h)

theorem classify_heading1_iff (raw : List Nat) :
    classify raw = LineType.LINE_HEADING1 ↔
      ((str "=>").isPrefixOf raw = false ∧ (str "###").isPrefixOf raw = false ∧
        (str "##").isPrefixOf raw = false ∧ (str "#").isPrefixOf raw = true) := by
  unfold classify
  by_cases h1 : (str "=>").isPrefixOf raw = true
  · simp [h1]
  · by_cases h2 : (str "###").isPrefixOf raw = true
    · simp [h1, h2]
    · by_cases h3 : (str "##").isPrefixOf raw = true
      · simp [h1, h2, h3]
      · by_cases h4 : (str "#").isPrefixOf raw = true
        · simp [h1, h2, h3, h4]
        · simp only [h1, h2, h3, h4, if_false, Bool.false_eq_true]
          simp only [Bool.not_eq_true] at h4
          simp only [h4, Bool.false_eq_true, and_false, iff_false]
          split_ifs <;> simp

theorem rd_zero_ne_zero_iff (s : List Nat) (hs : ∀ c ∈ s, c ≠ 0) : rd s 0 ≠ 0 ↔ s ≠ [] := by
  cases s with
  | nil => simp [rd]
  | cons c t => simpa [rd] using hs c (by simp)

theorem line_of_no_nul (raw : List Nat) : ∀ c ∈ line_of raw, c ≠ 0 := by
  intro c hc
  have := takeWhile_all _ raw c hc
  simpa using this

theorem mem_of_mem_drop (l : List Nat) (n : Nat) (c : Nat) (h : c ∈ l.drop n) : c ∈ l :=
  List.mem_of_mem_drop h

theorem heading1_text_no_nul (raw : List Nat) : ∀ c ∈ heading1_text (line_of raw), c ≠ 0 := by
  intro c hc
  unfold heading1_text strip strip_trailing at hc
  rw [List.mem_reverse] at hc
  have h1 := mem_of_mem_dropWhile _ _ _ hc
  rw [List.mem_reverse] at h1
  have h2 := mem_of_mem_dropWhile _ _ _ h1
  exact line_of_no_nul raw c (mem_of_mem_drop _ _ _ h2)

/-- The title after the loop body has read a line in the given mode: a Heading1 line outside
preformatted mode sets a title that is not set yet to its text when that is not empty; nothing
else changes the title. -/
theorem document_parse_line_title (doc : Document) (pre : Bool) (blk : Nat) (raw : List Nat) :
    (document_parse_line doc pre blk (cstr (raw ++ [0]) 0)).title =
      if pre = false ∧ classify raw = LineType.LINE_HEADING1 ∧ doc.title = none ∧
          heading1_text (line_of raw) ≠ [] then
        some (heading1_text (line_of raw))
      else doc.title := by
  obtain ⟨_, t1, t2, t3, t4, t5, t6⟩ := line_tests raw
  have hcl := classify_heading1_iff raw
  rw [line_of_eq]
  unfold document_parse_line
  unfold line_of at *
  simp only [t1, t2, t3, t5]
  cases pre with
  | true =>
    simp only [if_true, Bool.true_eq_false, false_and, if_false]
    split <;> rfl
  | false =>
    simp only [Bool.false_eq_true, if_false, true_and]
    by_cases h1 : (str "=>").isPrefixOf raw = true
    · have hn : ¬ classify raw = LineType.LINE_HEADING1 := by
        rw [hcl]; simp [h1]
      simp only [h1, if_true, hn, false_and, if_false]
      rfl
    · simp only [h1, if_true, if_false, Bool.false_eq_true]
      by_cases h2 : (str "###").isPrefixOf raw = true
      · have hn : ¬ classify raw = LineType.LINE_HEADING1 := by
          rw [hcl]; simp [h2]
        simp only [h2, if_true, hn, false_and, if_false]
        rfl
      · simp only [h2, if_true, if_false, Bool.false_eq_true]
        by_cases h3 : (str "##").isPrefixOf raw = true
        · have hn : ¬ classify raw = LineType.LINE_HEADING1 := by
            rw [hcl]; simp [h3]
          simp only [h3, if_true, hn, false_and, if_false]
          rfl
        · simp only [h3, if_true, if_false, Bool.false_eq_true]
          by_cases h4 : (str "#").isPrefixOf raw = true
          · have hy : classify raw = LineType.LINE_HEADING1 := by
              rw [hcl]
              simp only [Bool.not_eq_true] at h1 h2 h3
              exact ⟨h1, h2, h3, h4⟩
            have htext : trim_trailing (skip_whitespace
                (List.drop 1 (List.takeWhile (fun c => c != 0) raw))) =
                heading1_text (List.takeWhile (fun c => c != 0) raw) := by
              rw [trim_trailing_eq]
              rfl
            have hnz := rd_zero_ne_zero_iff _ (heading1_text_no_nul raw)
            unfold line_of at hnz
            have hadd : ∀ (t : LineType) (x u : Option (List Nat)),
                (document_add_line doc t x u).title = doc.title := fun _ _ _ => rfl
            simp only [if_pos (t4.2 h4), hy, true_and, htext, hnz, hadd]
            split <;> rfl
          · have hn : ¬ classify raw = LineType.LINE_HEADING1 := by
              rw [hcl]; simp [h4]
            simp only [if_neg (fun h => h4 (t4.1 h)), hn, false_and, if_false]
            by_cases h5 : (str "* ").isPrefixOf raw = true
            · simp only [h5, if_true]
              rfl
            · simp only [h5, if_true, if_false, Bool.false_eq_true]
              by_cases h6 : (str ">").isPrefixOf raw = true
              · simp only [if_pos (t6.2 h6)]
                rfl
              · simp only [if_neg (fun h => h6 (t6.1 h))]
                rfl

/-- The DocLine produced for a Heading1 line outside preformatted mode. -/
theorem produced_heading1 (blk : Nat) (raw : List Nat)
    (h : classify raw = LineType.LINE_HEADING1) :
    produced_lines false blk raw =
      [{ type := LineType.LINE_HEADING1, text := unicode_sanitize (heading1_text (line_of raw)),
         url := none, preformat_block := 0 }] := by
  obtain ⟨_, t1, t2, t3, t4, _, _⟩ := line_tests raw
  obtain ⟨h1, h2, h3, h4⟩ := (classify_heading1_iff raw).1 h
  unfold produced_lines
  rw [line_of_eq]
  unfold document_parse_line line_of
  simp only [t1, t2, t3, h1, h2, h3, Bool.false_eq_true, if_false, if_pos (t4.2 h4)]
  have hl : ∀ (c : Prop) [Decidable c] (d : Document) (x : List Nat),
      (if c then { d with title := some x } else d).lines = d.lines := by
    intro c _ d x
    split <;> rfl
  rw [hl, document_add_line_lines, trim_trailing_eq]
  rfl

/-- The DocLine produced for a link line outside preformatted mode. -/
theorem produced_link (blk : Nat) (raw : List Nat) (h : (str "=>").isPrefixOf raw = true) :
    produced_lines false blk raw =
      [{ type := LineType.LINE_LINK,
         text := unicode_sanitize
           (if strip (link_remainder (line_of raw)) = [] then link_target (line_of raw)
            else strip (link_remainder (line_of raw))),
         url := some (link_target (line_of raw)), preformat_block := 0 }] := by
  obtain ⟨_, t1, _⟩ := line_tests raw
  unfold produced_lines
  rw [line_of_eq]
  unfold document_parse_line
  unfold line_of at *
  simp only [t1, h, Bool.false_eq_true, if_false, if_true]
  rw [document_add_line_lines, trim_trailing_eq]
  have hurl : ∀ c ∈ link_target (List.takeWhile (fun c => c != 0) raw), isspace c = false := by
    intro c hc
    have := takeWhile_all _ _ c hc
    simpa using this
  by_cases hz : strip (link_remainder (List.takeWhile (fun c => c != 0) raw)) = []
  · have hz2 := (strip_eq_nil_iff _).1 hz
    have hz3 : skip_whitespace (List.dropWhile (fun c => !isspace c)
        (skip_whitespace (List.drop 2 (List.takeWhile (fun c => c != 0) raw)))) = [] := hz2
    rw [if_pos hz]
    simp only [hz3, ne_eq, not_true_eq_false, if_false]
    rw [show List.takeWhile (fun c => !isspace c)
        (skip_whitespace (List.drop 2 (List.takeWhile (fun c => c != 0) raw))) =
        link_target (List.takeWhile (fun c => c != 0) raw) from rfl,
      strip_trailing_no_space _ hurl]
    rfl
  · have hz2 : ¬ (link_remainder (List.takeWhile (fun c => c != 0) raw)).dropWhile isspace = [] :=
      fun e => hz ((strip_eq_nil_iff _).2 e)
    have hz3 : skip_whitespace (List.dropWhile (fun c => !isspace c)
        (skip_whitespace (List.drop 2 (List.takeWhile (fun c => c != 0) raw)))) ≠ [] := hz2
    rw [if_neg hz, if_pos hz3]
    rfl

/-- The DocLine produced for a line in preformatted mode. -/
theorem produced_preformatted (blk : Nat) (raw : List Nat) :
    produced_lines true blk raw =
      [{ type := LineType.LINE_PREFORMATTED, text := unicode_sanitize (line_of raw), url := none,
         preformat_block := blk }] := by
  unfold produced_lines
  rw [line_of_eq]
  unfold document_parse_line
  simp only [if_true, Document.num_lines, document_add_line_lines, List.length_append,
    List.length_singleton]
  rw [if_pos (by omega)]
  exact modify_last _ _ _

/-- Outside preformatted mode the DocLine produced does not depend on the block counter, is
not Preformatted and has block id 0. -/
theorem produced_outside (blk : Nat) (raw : List Nat) :
    produced_lines false blk raw = produced_lines false 0 raw ∧
    ∀ dl ∈ produced_lines false blk raw,
      dl.preformat_block = 0 ∧ dl.type ≠ LineType.LINE_PREFORMATTED ∧ dl.type = classify raw := by
  constructor
  · rfl
  · obtain ⟨dl, h1, _, h3, h4⟩ := document_parse_line_spec document_new false blk raw
    intro d hd
    rw [h1, List.mem_singleton] at hd
    subst hd
    simp only [Bool.false_eq_true, if_false] at h3 h4
    refine ⟨h4, ?_, h3⟩
    rw [h3]
    unfold classify
    split_ifs <;> simp

theorem not_fence_of_head (raw : List Nat) (c : Nat) (hc : c ≠ 96) (h : raw.head? = some c) :
    is_fence raw = false := by
  cases raw with
  | nil => rfl
  | cons a t =>
    simp only [List.head?_cons, Option.some.injEq] at h
    subst h
    have : (96 == a) = false := by simpa using fun e => hc e.symm
    simp [is_fence, List.isPrefixOf, this]

theorem head_of_isPrefixOf (c : Nat) (pat raw : List Nat) (h : (c :: pat).isPrefixOf raw = true) :
    raw.head? = some c := by
  cases raw with
  | nil => simp [List.isPrefixOf] at h
  | cons a t =>
    simp only [List.isPrefixOf, Bool.and_eq_true, beq_iff_eq] at h
    rw [List.head?_cons, h.1]

/-- C21: for every line that starts with "=>", met outside a fenced block, the loop body of
document_parse adds one Link DocLine. Its url is the first maximal run of bytes that are not
whitespace, after "=>" and the whitespace that follows it (the run may be empty): what follows
"=>" is whitespace, then the url, which holds no whitespace, then a remainder that is empty or
starts with whitespace. Its text is unicode_sanitize of that remainder with leading and
trailing whitespace removed, or unicode_sanitize of the url when nothing is left of the
remainder. The line is read as the bytes before its first NUL, all of it when it holds none. -/
theorem C21_link_line (doc : Document) (blk : Nat) (raw : List Nat)
    (h : (str "=>").isPrefixOf raw = true) :
    is_fence raw = false ∧
    (document_parse_body { doc := doc, in_preformatted := false, preformat_block := blk } raw).doc.lines =
      doc.lines ++
        [{ type := LineType.LINE_LINK,
           text := unicode_sanitize
             (if strip (link_remainder (line_of raw)) = [] then link_target (line_of raw)
              else strip (link_remainder (line_of raw))),
           url := some (link_target (line_of raw)), preformat_block := 0 }] ∧
    (∃ ws, (line_of raw).drop 2 = ws ++ link_target (line_of raw) ++ link_remainder (line_of raw) ∧
      ∀ c ∈ ws, isspace c = true) ∧
    (∀ c ∈ link_target (line_of raw), isspace c = false) ∧
    (∀ c ∈ (link_remainder (line_of raw)).head?, isspace c = true) ∧
    ((∀ c ∈ raw, c ≠ 0) → line_of raw = raw) := by
  have hf : is_fence raw = false :=
    not_fence_of_head raw 61 (by decide) (head_of_isPrefixOf 61 [62] raw h)
  obtain ⟨_, _, h3, _⟩ := (document_parse_body_spec
    { doc := doc, in_preformatted := false, preformat_block := blk } raw).2 hf
  refine ⟨hf, by rw [h3, produced_link blk raw h], ?_, ?_, ?_, line_of_nulfree raw⟩
  · refine ⟨((line_of raw).drop 2).takeWhile isspace, ?_, takeWhile_all _ _⟩
    unfold link_target link_remainder
    rw [List.append_assoc, List.takeWhile_append_dropWhile, List.takeWhile_append_dropWhile]
  · intro c hc
    have := takeWhile_all _ _ c hc
    simpa using this
  · intro c hc
    have := List.head?_dropWhile_not (fun c => !isspace c)
      (((line_of raw).drop 2).dropWhile isspace)
    unfold link_remainder at hc
    rw [Option.mem_def] at hc
    rw [hc] at this
    simpa using this

set_option maxRecDepth 1000000 in
theorem link_line_examples :
    unicode_sanitize (str "Link label") = str "Link label" ∧
    unicode_sanitize (str "gemini://x/") = str "gemini://x/" := by
  decide

theorem C21_link_line_witness :
    (document_parse_body { doc := document_new, in_preformatted := false, preformat_block := 0 }
      (str "=>  gemini://x/ \t Link label  ")).doc.lines =
      [{ type := LineType.LINE_LINK, text := str "Link label", url := some (str "gemini://x/"),
         preformat_block := 0 }] ∧
    (document_parse_body { doc := document_new, in_preformatted := false, preformat_block := 0 }
      (str "=>gemini://x/ ")).doc.lines =
      [{ type := LineType.LINE_LINK, text := str "gemini://x/", url := some (str "gemini://x/"),
         preformat_block := 0 }] := by
  have a := (C21_link_line document_new 0 (str "=>  gemini://x/ \t Link label  ") (by decide)).2.1
  have b := (C21_link_line document_new 0 (str "=>gemini://x/ ") (by decide)).2.1
  have e1 : link_target (line_of (str "=>  gemini://x/ \t Link label  ")) = str "gemini://x/" := by
    decide
  have e2 : strip (link_remainder (line_of (str "=>  gemini://x/ \t Link label  "))) =
      str "Link label" := by decide
  have e3 : link_target (line_of (str "=>gemini://x/ ")) = str "gemini://x/" := by decide
  have e4 : strip (link_remainder (line_of (str "=>gemini://x/ "))) = [] := by decide
  rw [e1, e2] at a
  rw [e3, e4] at b
  rw [a, b, if_neg (by decide), if_pos rfl, link_line_examples.1, link_line_examples.2]
  exact ⟨rfl, rfl⟩

/-- The title after the loop body has run over source lines. -/
theorem foldl_body_title : ∀ (lines : List (List Nat)) (st : ParseState),
    (lines.foldl document_parse_body st).doc.title =
      match st.doc.title with
      | some t => some t
      | none => spec_title lines st.in_preformatted := by
  intro lines
  induction lines with
  | nil =>
    intro st
    cases h : st.doc.title <;> simp [spec_title, h]
  | cons raw rest ih =>
    intro st
    rw [List.foldl_cons, ih, spec_title]
    by_cases hf : is_fence raw = true
    · rw [(document_parse_body_spec st raw).1 hf, if_pos hf]
    · have hf2 : is_fence raw = false := by simpa using hf
      obtain ⟨h1, _, _, h4⟩ := (document_parse_body_spec st raw).2 hf2
      rw [if_neg hf, h1, h4, document_parse_line_title]
      cases ht : st.doc.title with
      | some t => simp
      | none =>
        cases hp : st.in_preformatted with
        | true => simp
        | false =>
          by_cases hc : classify raw = LineType.LINE_HEADING1 ∧ heading1_text (line_of raw) ≠ []
          · simp [hc.1, hc.2]
          · have hc2 : ¬ (false = false ∧ classify raw = LineType.LINE_HEADING1 ∧
                none = (none : Option (List Nat)) ∧ heading1_text (line_of raw) ≠ []) := by
              rintro ⟨_, a, _, b⟩
              exact hc ⟨a, b⟩
            have hc3 : ¬ (false = false ∧ classify raw = LineType.LINE_HEADING1 ∧
                heading1_text (line_of raw) ≠ []) := by
              rintro ⟨_, a, b⟩
              exact hc ⟨a, b⟩
            rw [if_neg hc2, if_neg hc3]

set_option maxRecDepth 1000000 in
theorem title_example :
    document_parse (str "# " ++ [0xE2, 0x80, 0x99] ++ str "\n# Second\n") =
      { lines := [
          { type := LineType.LINE_HEADING1, text := [39], url := none, preformat_block := 0 },
          { type := LineType.LINE_HEADING1, text := str "Second", url := none,
            preformat_block := 0 }],
        capacity := 64,
        title := some [0xE2, 0x80, 0x99] } := by
  decide

/-- C22 (counterexample): for the heading "# " followed by the bytes E2 80 99 of U+2019, the
first Heading1 DocLine has the text "'", and the title is the three bytes E2 80 99, not that
text. -/
theorem C22_title_counterexample :
    (document_parse (str "# " ++ [0xE2, 0x80, 0x99] ++ str "\n# Second\n")).lines.map
      (fun l => (l.type, l.text)) =
        [(LineType.LINE_HEADING1, [39]), (LineType.LINE_HEADING1, str "Second")] ∧
    (document_parse (str "# " ++ [0xE2, 0x80, 0x99] ++ str "\n# Second\n")).title =
      some [0xE2, 0x80, 0x99] ∧
    (document_parse (str "# " ++ [0xE2, 0x80, 0x99] ++ str "\n# Second\n")).title ≠ some [39] := by
  rw [title_example]
  decide

/-- C22 (amended): for every input, the parsed Document has a title if and only if some Heading1
line outside fenced blocks has a text that is not empty after the '#' is taken off, leading
whitespace skipped and trailing whitespace trimmed; the title is then that text of the first
such line as it stands in the source, while the text of the Heading1 DocLine is
unicode_sanitize of it (the two agree when the text is made of bytes 0x01..0x7F). A title that
is set is never changed by a later line. -/
theorem C22_document_title (s : List Nat) :
    (document_parse s).title = spec_title (source_lines s) false ∧
    (∀ (raw : List Nat) (blk : Nat), classify raw = LineType.LINE_HEADING1 →
      produced_lines false blk raw =
        [{ type := LineType.LINE_HEADING1, text := unicode_sanitize (heading1_text (line_of raw)),
           url := none, preformat_block := 0 }] ∧
      ((∀ b ∈ heading1_text (line_of raw), 1 ≤ b ∧ b ≤ 0x7F) →
        unicode_sanitize (heading1_text (line_of raw)) = heading1_text (line_of raw))) ∧
    (∀ (st : ParseState) (raw : List Nat), st.doc.title ≠ none →
      (document_parse_body st raw).doc.title = st.doc.title) := by
  refine ⟨?_, ?_, ?_⟩
  · rw [document_parse_eq_fold, foldl_body_title]
    rfl
  · intro raw blk h
    exact ⟨produced_heading1 blk raw h, unicode_sanitize_ascii _⟩
  · intro st raw ht
    have h := foldl_body_title [raw] st
    rw [List.foldl_cons, List.foldl_nil] at h
    rw [h]
    cases hs : st.doc.title with
    | none => exact absurd hs ht
    | some t => rfl

set_option maxRecDepth 1000000 in
theorem title_example_fenced :
    spec_title (source_lines (str "```\n# in\n```\n#\n# One \n# Two\n")) false = some (str "One") ∧
    classify (str "# One ") = LineType.LINE_HEADING1 ∧
    (∀ b ∈ heading1_text (line_of (str "# One ")), 1 ≤ b ∧ b ≤ 0x7F) ∧
    heading1_text (line_of (str "# One ")) = str "One" := by
  decide

theorem C22_document_title_witness :
    (document_parse (str "```\n# in\n```\n#\n# One \n# Two\n")).title = some (str "One") ∧
    unicode_sanitize (heading1_text (line_of (str "# One "))) = str "One" := by
  have h := C22_document_title (str "```\n# in\n```\n#\n# One \n# Two\n")
  have e := title_example_fenced
  refine ⟨by rw [h.1, e.1], ?_⟩
  rw [(h.2.1 (str "# One ") 0 e.2.1).2 e.2.2.1, e.2.2.2]

/-! ## Fenced blocks -/

/-- The lines by mode and block counter are the lines by the count of fences. -/
theorem spec_lines_eq_fenced : ∀ (lines : List (List Nat)) (k : Nat),
    spec_lines lines (decide (k % 2 = 1)) ((k + 1) / 2) = spec_fenced lines k := by
  intro lines
  induction lines with
  | nil => intro k; rfl
  | cons raw rest ih =>
    intro k
    rw [spec_lines, spec_fenced]
    by_cases hf : is_fence raw = true
    · rw [if_pos hf, if_pos hf, ← ih (k + 1)]
      by_cases hk : k % 2 = 1
      · have e1 : decide ((k + 1) % 2 = 1) = false := by simp; omega
        have e2 : decide (k % 2 = 1) = true := by simp [hk]
        rw [e1, e2]
        simp only [Bool.not_true, Bool.false_eq_true, if_false]
        rw [show (k + 1 + 1) / 2 = (k + 1) / 2 by omega]
      · have e1 : decide ((k + 1) % 2 = 1) = true := by simp; omega
        have e2 : decide (k % 2 = 1) = false := by simp [hk]
        rw [e1, e2]
        simp only [Bool.not_false, if_true]
        rw [show (k + 1 + 1) / 2 = (k + 1) / 2 + 1 by omega]
    · rw [if_neg hf, if_neg hf, ih k]
      congr 1
      by_cases hk : k % 2 = 1
      · have e2 : decide (k % 2 = 1) = true := by simp [hk]
        rw [e2, if_pos hk, produced_preformatted]
      · have e2 : decide (k % 2 = 1) = false := by simp [hk]
        rw [e2, if_neg hk]
        exact (produced_outside _ raw).1

set_option maxRecDepth 1000000 in
theorem fenced_example :
    document_parse (str "```\nraw  line\n```\n") =
      { lines := [{ type := LineType.LINE_PREFORMATTED, text := str "raw  line", url := none,
                    preformat_block := 1 }],
        capacity := 64,
        title := none } := by
  decide

/-- C23: for every input, a line beginning with three backticks produces no DocLine and toggles
preformatted mode; the DocLines are those of spec_fenced: a line met after an odd number k of
fence lines, that is between the opening fence number (k + 1) / 2 and its closing fence or the
end of the input, becomes a Preformatted DocLine with that block number and with text
unicode_sanitize of the line as it is read (the raw line up to a NUL, untrimmed, whatever its
prefix), and a line met after an even number of fences gives a DocLine that is not
Preformatted and has block 0. A fence, the line "raw  line" and a closing fence give exactly
one Preformatted line "raw  line" with block 1. -/
theorem C23_fenced_blocks (s : List Nat) :
    (document_parse s).lines = spec_fenced (source_lines s) 0 ∧
    (∀ (st : ParseState) (raw : List Nat), is_fence raw = true →
      (document_parse_body st raw).doc = st.doc ∧
      (document_parse_body st raw).in_preformatted = !st.in_preformatted) ∧
    (∀ (raw : List Nat) (blk : Nat), ∀ dl ∈ produced_lines false blk raw,
      dl.preformat_block = 0 ∧ dl.type ≠ LineType.LINE_PREFORMATTED) ∧
    (∀ raw : List Nat, (∀ c ∈ raw, c ≠ 0) → line_of raw = raw) ∧
    document_parse (str "```\nraw  line\n```\n") =
      { lines := [{ type := LineType.LINE_PREFORMATTED, text := str "raw  line", url := none,
                    preformat_block := 1 }],
        capacity := 64,
        title := none } := by
  refine ⟨?_, ?_, ?_, line_of_nulfree, fenced_example⟩
  · rw [document_parse_lines, ← spec_lines_eq_fenced]
    rfl
  · intro st raw hf
    rw [(document_parse_body_spec st raw).1 hf]
    exact ⟨rfl, rfl⟩
  · intro raw blk dl hdl
    have := (produced_outside blk raw).2 dl hdl
    exact ⟨this.1, this.2.1⟩

set_option maxRecDepth 1000000 in
theorem fenced_example_two :
    spec_fenced (source_lines (str "a\n```\n# b \n```\n```x\n=> c\n")) 0 =
      [{ type := LineType.LINE_TEXT, text := str "a", url := none, preformat_block := 0 },
       { type := LineType.LINE_PREFORMATTED, text := str "# b ", url := none, preformat_block := 1 },
       { type := LineType.LINE_PREFORMATTED, text := str "=> c", url := none,
         preformat_block := 2 }] := by
  decide

theorem C23_fenced_blocks_witness :
    is_fence (str "```x") = true ∧
    (document_parse (str "a\n```\n# b \n```\n```x\n=> c\n")).lines =
      [{ type := LineType.LINE_TEXT, text := str "a", url := none, preformat_block := 0 },
       { type := LineType.LINE_PREFORMATTED, text := str "# b ", url := none, preformat_block := 1 },
       { type := LineType.LINE_PREFORMATTED, text := str "=> c", url := none,
         preformat_block := 2 }] ∧
    (document_parse_body { doc := document_new, in_preformatted := true, preformat_block := 2 }
      (str "```x")).in_preformatted = false := by
  have h := C23_fenced_blocks (str "a\n```\n# b \n```\n```x\n=> c\n")
  refine ⟨by decide, by rw [h.1, fenced_example_two], ?_⟩
  exact (h.2.1 { doc := document_new, in_preformatted := true, preformat_block := 2 } (str "```x")
    (by decide)).2

/-! ## history.c: the cursor and the two arrays -/

theorem memmove_down_length {α : Type} (a : List α) (n : Nat) (h : n < a.length) :
    (memmove_down a n).length = a.length := by
  unfold memmove_down
  rw [List.length_append, List.length_take, List.length_drop, List.length_drop]
  omega

theorem memmove_down_get {α : Type} (a : List α) (n i : Nat) (hi : i < n) (hn : n < a.length) :
    (memmove_down a n)[i]? = a[i + 1]? := by
  unfold memmove_down
  rw [List.getElem?_append_left (by rw [List.length_take, List.length_drop]; omega),
    List.getElem?_take_of_lt hi, List.getElem?_drop, Nat.add_comm]

theorem history_init_sized : history_init.Sized := by
  simp [History.Sized, history_init]

theorem history_push_sized (h : History) (url : Url) (scroll_y : Int) (hs : h.Sized) :
    (history_push h url scroll_y).Sized := by
  obtain ⟨h1, h2⟩ := hs
  unfold history_push History.Sized
  simp only [HISTORY_MAX_ENTRIES] at h1 h2 ⊢
  by_cases hc : h.current + 1 ≥ ((100 : Nat) : Int)
  · simp only [if_pos hc, List.length_set]
    exact ⟨by rw [memmove_down_length _ _ (by omega)]; exact h1,
      by rw [memmove_down_length _ _ (by omega)]; exact h2⟩
  · simp only [if_neg hc, List.length_set]
    exact ⟨h1, h2⟩

/-- The cursor and the count after history_push. -/
theorem history_push_cursor (h : History) (url : Url) (scroll_y : Int) :
    (history_push h url scroll_y).current = (if h.current + 1 ≥ 100 then 99 else h.current + 1) ∧
    (history_push h url scroll_y).count = (if h.current + 1 ≥ 100 then 100 else h.current + 2) := by
  unfold history_push
  simp only [HISTORY_MAX_ENTRIES, Nat.cast_ofNat]
  by_cases hc : h.current + 1 ≥ 100
  · simp only [if_pos hc]
    constructor <;> norm_num
  · simp only [if_neg hc]
    constructor
    · trivial
    · omega

theorem history_push_inv (h : History) (url : Url) (scroll_y : Int) (hlo : -1 ≤ h.current) :
    (history_push h url scroll_y).Inv := by
  obtain ⟨e1, e2⟩ := history_push_cursor h url scroll_y
  unfold History.Inv
  rw [e1, e2]
  by_cases hc : h.current + 1 ≥ 100
  · simp only [if_pos hc]
    omega
  · simp only [if_neg hc]
    omega

theorem history_update_scroll_fields (h : History) (scroll_y : Int) :
    (history_update_scroll h scroll_y).entries = h.entries ∧
    (history_update_scroll h scroll_y).current = h.current ∧
    (history_update_scroll h scroll_y).count = h.count ∧
    (history_update_scroll h scroll_y).scroll_positions.length = h.scroll_positions.length := by
  unfold history_update_scroll
  split
  · exact ⟨rfl, rfl, rfl, rfl⟩
  · exact ⟨rfl, rfl, rfl, List.length_set _ _ _⟩

/-- What history_back does to the history, whatever the out parameters are. -/
theorem history_back_h (h : History) (url : Option Url) (scroll_y : Option Int) :
    (history_back h url scroll_y).h =
      (if h.current > 0 then { h with current := h.current - 1 } else h) ∧
    (history_back h url scroll_y).ok = decide (h.current > 0) := by
  unfold history_back history_can_back
  by_cases hc : h.current > 0
  · simp [hc]
  · simp [hc]

/-- What history_forward does to the history, whatever the out parameters are. -/
theorem history_forward_h (h : History) (url : Option Url) (scroll_y : Option Int) :
    (history_forward h url scroll_y).h =
      (if h.current < h.count - 1 then { h with current := h.current + 1 } else h) ∧
    (history_forward h url scroll_y).ok = decide (h.current < h.count - 1) := by
  unfold history_forward history_can_forward
  by_cases hc : h.current < h.count - 1
  · simp [hc]
  · simp [hc]

/-- Every call keeps the size of the arrays and the cursor invariant. -/
theorem history_op_valid (h : History) (op : HistoryOp) (hs : h.Sized) (hi : h.Inv) :
    (op.run h).Sized ∧ (op.run h).Inv := by
  cases op with
  | push url scroll_y =>
    refine ⟨history_push_sized h url scroll_y hs, history_push_inv h url scroll_y ?_⟩
    unfold History.Inv at hi
    omega
  | back =>
    show (history_back h none none).h.Sized ∧ (history_back h none none).h.Inv
    rw [(history_back_h h none none).1]
    split
    · refine ⟨hs, ?_⟩
      unfold History.Inv at hi ⊢
      simp only
      omega
    · exact ⟨hs, hi⟩
  | forward =>
    show (history_forward h none none).h.Sized ∧ (history_forward h none none).h.Inv
    rw [(history_forward_h h none none).1]
    split
    · refine ⟨hs, ?_⟩
      unfold History.Inv at hi ⊢
      simp only
      omega
    · exact ⟨hs, hi⟩
  | update_scroll scroll_y =>
    show (history_update_scroll h scroll_y).Sized ∧ (history_update_scroll h scroll_y).Inv
    obtain ⟨e1, e2, e3, e4⟩ := history_update_scroll_fields h scroll_y
    unfold History.Sized History.Inv at *
    rw [e1, e2, e3, e4]
    exact ⟨hs, hi⟩

theorem history_fold_valid : ∀ (ops : List HistoryOp) (h : History), h.Sized → h.Inv →
    (ops.foldl HistoryOp.run h).Sized ∧ (ops.foldl HistoryOp.run h).Inv := by
  intro ops
  induction ops with
  | nil => intro h hs hi; exact ⟨hs, hi⟩
  | cons op ops ih =>
    intro h hs hi
    obtain ⟨a, b⟩ := history_op_valid h op hs hi
    exact ih _ a b

/-- Every state that calls produce from history_init has arrays of full size and satisfies the
cursor invariant. -/
theorem history_run_valid (ops : List HistoryOp) :
    (history_run ops).Sized ∧ (history_run ops).Inv :=
  history_fold_valid ops history_init history_init_sized (by decide)

/-- C31: in every state reachable from history_init by a sequence of history_push,
history_back, history_forward and history_update_scroll, 0 ≤ count ≤ 100, current = -1
exactly when count = 0, and 0 ≤ current < count whenever count > 0. -/
theorem C31_cursor_invariant (ops : List HistoryOp) :
    (0 ≤ (history_run ops).count ∧ (history_run ops).count ≤ 100) ∧
    ((history_run ops).current = -1 ↔ (history_run ops).count = 0) ∧
    ((history_run ops).count > 0 →
      0 ≤ (history_run ops).current ∧ (history_run ops).current < (history_run ops).count) :=
  (history_run_valid ops).2

/-! ## history.c: history_push -/

/-- The arrays after a history_push that evicts. -/
theorem history_push_evict (h : History) (url : Url) (scroll_y : Int) (hc : h.current + 1 ≥ 100) :
    (history_push h url scroll_y).entries = (memmove_down h.entries 99).set 99 url ∧
    (history_push h url scroll_y).scroll_positions =
      (memmove_down h.scroll_positions 99).set 99 scroll_y := by
  unfold history_push
  simp only [HISTORY_MAX_ENTRIES, Nat.cast_ofNat]
  simp only [if_pos hc]
  exact ⟨rfl, rfl⟩

/-- The arrays after a history_push that does not evict. -/
theorem history_push_store (h : History) (url : Url) (scroll_y : Int) (hc : ¬ h.current + 1 ≥ 100) :
    (history_push h url scroll_y).entries = h.entries.set (h.current + 1).toNat url ∧
    (history_push h url scroll_y).scroll_positions =
      h.scroll_positions.set (h.current + 1).toNat scroll_y := by
  unfold history_push
  simp only [HISTORY_MAX_ENTRIES, Nat.cast_ofNat]
  simp only [if_neg hc]
  simp

theorem set_get_same {α : Type} (a : List α) (i : Nat) (x : α) (h : i < a.length) :
    (a.set i x)[i]? = some x := by
  rw [List.getElem?_set_self h]

theorem set_get_other {α : Type} (a : List α) (i j : Nat) (x : α) (h : i ≠ j) :
    (a.set i x)[j]? = a[j]? := by
  rw [List.getElem?_set_ne h]

/-- C32: for every history with current = 99 (the cursor of a history that holds 100 entries),
history_push(url, scroll) leaves count = 100 and current = 99, makes entry i the former
entry i+1, url and scroll offset, for every i in 0..98, and stores (url, scroll) as entry 99:
the oldest entry is dropped and current points at the entry just pushed. -/
theorem C32_eviction (h : History) (url : Url) (scroll_y : Int) (hs : h.Sized)
    (hc : h.current = 99) :
    (history_push h url scroll_y).count = 100 ∧
    (history_push h url scroll_y).current = 99 ∧
    (∀ i, i < 99 →
      (history_push h url scroll_y).entries[i]? = h.entries[i + 1]? ∧
      (history_push h url scroll_y).scroll_positions[i]? = h.scroll_positions[i + 1]?) ∧
    (history_push h url scroll_y).entries[99]? = some url ∧
    (history_push h url scroll_y).scroll_positions[99]? = some scroll_y := by
  obtain ⟨s1, s2⟩ := hs
  simp only [HISTORY_MAX_ENTRIES] at s1 s2
  obtain ⟨c1, c2⟩ := history_push_cursor h url scroll_y
  obtain ⟨e1, e2⟩ := history_push_evict h url scroll_y (by omega)
  have hge : h.current + 1 ≥ 100 := by omega
  rw [if_pos hge] at c1 c2
  refine ⟨c2, c1, ?_, ?_, ?_⟩
  · intro i hi
    rw [e1, e2, set_get_other _ _ _ _ (by omega), set_get_other _ _ _ _ (by omega),
      memmove_down_get _ _ _ hi (by omega), memmove_down_get _ _ _ hi (by omega)]
    exact ⟨rfl, rfl⟩
  · rw [e1]
    exact set_get_same _ _ _ (by rw [memmove_down_length _ _ (by omega)]; omega)
  · rw [e2]
    exact set_get_same _ _ _ (by rw [memmove_down_length _ _ (by omega)]; omega)

set_option maxRecDepth 1000000 in
theorem history_full_cursor : history_full.current = 99 ∧ history_full.count = 100 := by
  decide

theorem C32_eviction_witness :
    history_full.Sized ∧ history_full.current = 99 ∧
    (history_push history_full (page "b") 5).count = 100 ∧
    (history_push history_full (page "b") 5).current = 99 ∧
    (history_push history_full (page "b") 5).entries[99]? = some (page "b") :=
  have t := C32_eviction history_full (page "b") 5 (history_run_valid _).1 history_full_cursor.1
  ⟨(history_run_valid _).1, history_full_cursor.1, t.1, t.2.1, t.2.2.2.1⟩

/-! ## history.c: history_back and history_forward -/

theorem getD_get {α : Type} (a : List α) (i : Nat) (d : α) (h : i < a.length) :
    a[i]? = some (a.getD i d) := by
  rw [List.getD_eq_getElem?_getD, List.getElem?_eq_getElem h]
  rfl

/-- A successful history_back with non-NULL out parameters, under the bounds of the struct. -/
theorem history_back_ok (h : History) (url : Url) (scroll_y : Int) (hs : h.Sized)
    (hc : h.current > 0) (hle : h.current ≤ 100) :
    history_back h (some url) (some scroll_y) =
      { ok := true, h := { h with current := h.current - 1 },
        url := some (entry_at h (h.current - 1)),
        scroll_y := some (scroll_at h (h.current - 1)) } ∧
    h.entries[(h.current - 1).toNat]? = some (entry_at h (h.current - 1)) ∧
    h.scroll_positions[(h.current - 1).toNat]? = some (scroll_at h (h.current - 1)) := by
  obtain ⟨s1, s2⟩ := hs
  simp only [HISTORY_MAX_ENTRIES] at s1 s2
  refine ⟨?_, getD_get _ _ _ (by omega), getD_get _ _ _ (by omega)⟩
  unfold history_back history_can_back
  simp [hc, entry_at, scroll_at]

/-- A successful history_forward with non-NULL out parameters, under the bounds of the
struct. -/
theorem history_forward_ok (h : History) (url : Url) (scroll_y : Int) (hs : h.Sized)
    (hc : h.current < h.count - 1) (hle : h.count ≤ 100) :
    history_forward h (some url) (some scroll_y) =
      { ok := true, h := { h with current := h.current + 1 },
        url := some (entry_at h (h.current + 1)),
        scroll_y := some (scroll_at h (h.current + 1)) } ∧
    h.entries[(h.current + 1).toNat]? = some (entry_at h (h.current + 1)) ∧
    h.scroll_positions[(h.current + 1).toNat]? = some (scroll_at h (h.current + 1)) := by
  obtain ⟨s1, s2⟩ := hs
  simp only [HISTORY_MAX_ENTRIES] at s1 s2
  refine ⟨?_, getD_get _ _ _ (by omega), getD_get _ _ _ (by omega)⟩
  unfold history_forward history_can_forward
  simp [hc, entry_at, scroll_at]

/-- A refused history_back or history_forward changes nothing. -/
theorem history_move_refused (h : History) (url : Option Url) (scroll_y : Option Int) :
    (¬ h.current > 0 →
      history_back h url scroll_y = { ok := false, h := h, url := url, scroll_y := scroll_y }) ∧
    (¬ h.current < h.count - 1 →
      history_forward h url scroll_y = { ok := false, h := h, url := url, scroll_y := scroll_y }) := by
  constructor
  · intro hc
    unfold history_back history_can_back
    simp [hc]
  · intro hc
    unfold history_forward history_can_forward
    simp [hc]

/-- Neither history_back nor history_forward changes count or the arrays. -/
theorem history_move_keeps (h : History) (url : Option Url) (scroll_y : Option Int) :
    ((history_back h url scroll_y).h.count = h.count ∧
      (history_back h url scroll_y).h.entries = h.entries ∧
      (history_back h url scroll_y).h.scroll_positions = h.scroll_positions) ∧
    ((history_forward h url scroll_y).h.count = h.count ∧
      (history_forward h url scroll_y).h.entries = h.entries ∧
      (history_forward h url scroll_y).h.scroll_positions = h.scroll_positions) := by
  rw [(history_back_h h url scroll_y).1, (history_forward_h h url scroll_y).1]
  constructor
  · split
    · exact ⟨rfl, rfl, rfl⟩
    · exact ⟨rfl, rfl, rfl⟩
  · split
    · exact ⟨rfl, rfl, rfl⟩
    · exact ⟨rfl, rfl, rfl⟩

/-- C33: for every history (arrays of 100 slots, cursor invariant of C31), history_back
returns true if and only if current > 0; then current decreases by exactly one and the url
and the scroll offset handed out are those stored at the new current; otherwise it returns
false and the history and the out parameters are unchanged. Symmetrically history_forward
returns true if and only if current < count - 1, increases current by exactly one and hands
out that entry, and otherwise returns false and changes nothing. Neither operation changes
count, the entries or the scroll offsets. -/
theorem C33_back_forward (h : History) (url : Url) (scroll_y : Int) (hs : h.Sized) (hi : h.Inv) :
    (((history_back h (some url) (some scroll_y)).ok = true ↔ h.current > 0) ∧
      (h.current > 0 →
        (history_back h (some url) (some scroll_y)).h.current = h.current - 1 ∧
        (history_back h (some url) (some scroll_y)).url ≠ none ∧
        (history_back h (some url) (some scroll_y)).url = h.entries[(h.current - 1).toNat]? ∧
        (history_back h (some url) (some scroll_y)).scroll_y =
          h.scroll_positions[(h.current - 1).toNat]?) ∧
      (¬ h.current > 0 → history_back h (some url) (some scroll_y) =
        { ok := false, h := h, url := some url, scroll_y := some scroll_y })) ∧
    (((history_forward h (some url) (some scroll_y)).ok = true ↔ h.current < h.count - 1) ∧
      (h.current < h.count - 1 →
        (history_forward h (some url) (some scroll_y)).h.current = h.current + 1 ∧
        (history_forward h (some url) (some scroll_y)).url ≠ none ∧
        (history_forward h (some url) (some scroll_y)).url = h.entries[(h.current + 1).toNat]? ∧
        (history_forward h (some url) (some scroll_y)).scroll_y =
          h.scroll_positions[(h.current + 1).toNat]?) ∧
      (¬ h.current < h.count - 1 → history_forward h (some url) (some scroll_y) =
        { ok := false, h := h, url := some url, scroll_y := some scroll_y })) ∧
    ((history_back h (some url) (some scroll_y)).h.count = h.count ∧
      (history_back h (some url) (some scroll_y)).h.entries = h.entries ∧
      (history_back h (some url) (some scroll_y)).h.scroll_positions = h.scroll_positions) ∧
    ((history_forward h (some url) (some scroll_y)).h.count = h.count ∧
      (history_forward h (some url) (some scroll_y)).h.entries = h.entries ∧
      (history_forward h (some url) (some scroll_y)).h.scroll_positions = h.scroll_positions) := by
  have hb : h.current ≤ 100 ∧ -1 ≤ h.current ∧ h.count ≤ 100 := by
    unfold History.Inv at hi
    omega
  refine ⟨⟨?_, ?_, (history_move_refused h _ _).1⟩, ⟨?_, ?_, (history_move_refused h _ _).2⟩,
    (history_move_keeps h _ _).1, (history_move_keeps h _ _).2⟩
  · rw [(history_back_h h _ _).2, decide_eq_true_eq]
  · intro hc
    obtain ⟨e, e1, e2⟩ := history_back_ok h url scroll_y hs hc hb.1
    rw [e, e1, e2]
    exact ⟨rfl, by simp, rfl, rfl⟩
  · rw [(history_forward_h h _ _).2, decide_eq_true_eq]
  · intro hc
    obtain ⟨e, e1, e2⟩ := history_forward_ok h url scroll_y hs hc hb.2.2
    rw [e, e1, e2]
    exact ⟨rfl, by simp, rfl, rfl⟩

set_option maxRecDepth 1000000 in
theorem history_abc_state :
    history_abc.current = 1 ∧ history_abc.count = 3 ∧
    history_abc.entries.take 3 = [page "a", page "b", page "c"] ∧
    history_abc.scroll_positions.take 3 = [12, 7, 0] := by
  decide

theorem C33_back_forward_witness :
    history_abc.Sized ∧ history_abc.Inv ∧ history_abc.current = 1 ∧
    (history_back history_abc (some Url.zeroed) (some 0)).ok = true ∧
    (history_forward history_abc (some Url.zeroed) (some 0)).ok = true :=
  have t := C33_back_forward history_abc Url.zeroed 0 (history_run_valid _).1 (history_run_valid _).2
  ⟨(history_run_valid _).1, (history_run_valid _).2, history_abc_state.1,
    t.1.1.2 (by rw [history_abc_state.1]; decide),
    t.2.1.1.2 (by rw [history_abc_state.1, history_abc_state.2.1]; decide)⟩

/-- C39: for every history (arrays of 100 slots, cursor invariant of C31) on which
history_can_back holds, history_back followed by history_forward restores exactly the
original history, and the forward call hands out the entry that was current at the start;
when history_can_forward holds, history_forward followed by history_back restores the
original history and hands out the entry that was current at the start. -/
theorem C39_back_forward_inverse (h : History) (url : Url) (scroll_y : Int) (hs : h.Sized)
    (hi : h.Inv) :
    (history_can_back h = true →
      (history_back h (some url) (some scroll_y)).ok = true ∧
      (history_forward (history_back h (some url) (some scroll_y)).h (some url) (some scroll_y)).ok
        = true ∧
      (history_forward (history_back h (some url) (some scroll_y)).h (some url) (some scroll_y)).h
        = h ∧
      (history_forward (history_back h (some url) (some scroll_y)).h (some url) (some scroll_y)).url
        = h.entries[h.current.toNat]? ∧
      (history_forward (history_back h (some url) (some scroll_y)).h (some url)
        (some scroll_y)).scroll_y = h.scroll_positions[h.current.toNat]? ∧
      h.current.toNat < h.entries.length) ∧
    (history_can_forward h = true →
      (history_forward h (some url) (some scroll_y)).ok = true ∧
      (history_back (history_forward h (some url) (some scroll_y)).h (some url) (some scroll_y)).ok
        = true ∧
      (history_back (history_forward h (some url) (some scroll_y)).h (some url) (some scroll_y)).h
        = h ∧
      (history_back (history_forward h (some url) (some scroll_y)).h (some url) (some scroll_y)).url
        = h.entries[h.current.toNat]? ∧
      (history_back (history_forward h (some url) (some scroll_y)).h (some url)
        (some scroll_y)).scroll_y = h.scroll_positions[h.current.toNat]? ∧
      h.current.toNat < h.entries.length) := by
  have hb : h.current ≤ 100 ∧ -1 ≤ h.current ∧ h.count ≤ 100 ∧ (h.count > 0 → 0 ≤ h.current) ∧
      (h.current > 0 → h.current < h.count) := by
    unfold History.Inv at hi
    omega
  have hlen : h.entries.length = 100 := hs.1
  constructor
  · intro hc
    simp only [history_can_back, decide_eq_true_eq] at hc
    obtain ⟨e, -, -⟩ := history_back_ok h url scroll_y hs hc hb.1
    rw [e]
    have hs1 : ({ h with current := h.current - 1 } : History).Sized := hs
    obtain ⟨f, f1, f2⟩ := history_forward_ok { h with current := h.current - 1 } url scroll_y hs1
      (by simp only; have := hb.2.2.2.2 hc; omega) hb.2.2.1
    simp only at f f1 f2
    have hcur : h.current - 1 + 1 = h.current := by omega
    rw [hcur] at f f1 f2
    rw [f, f1, f2]
    exact ⟨rfl, rfl, rfl, rfl, rfl, by omega⟩
  · intro hc
    simp only [history_can_forward, decide_eq_true_eq] at hc
    obtain ⟨e, -, -⟩ := history_forward_ok h url scroll_y hs hc hb.2.2.1
    rw [e]
    have hs1 : ({ h with current := h.current + 1 } : History).Sized := hs
    have h0 : 0 ≤ h.current := hb.2.2.2.1 (by omega)
    obtain ⟨f, f1, f2⟩ := history_back_ok { h with current := h.current + 1 } url scroll_y hs1
      (by simp only; omega) (by simp only; omega)
    simp only at f f1 f2
    have hcur : h.current + 1 - 1 = h.current := by omega
    rw [hcur] at f f1 f2
    rw [f, f1, f2]
    exact ⟨rfl, rfl, rfl, rfl, rfl, by omega⟩

theorem C39_back_forward_inverse_witness :
    history_abc.Sized ∧ history_abc.Inv ∧ history_can_back history_abc = true ∧
    (history_forward (history_back history_abc (some Url.zeroed) (some 0)).h (some Url.zeroed)
      (some 0)).h = history_abc :=
  have t := C39_back_forward_inverse history_abc Url.zeroed 0 (history_run_valid _).1
    (history_run_valid _).2
  have hc : history_can_back history_abc = true := by
    unfold history_can_back
    rw [history_abc_state.1]
    decide
  ⟨(history_run_valid _).1, (history_run_valid _).2, hc, (t.1 hc).2.2.1⟩

/-- Calls other than history_push keep count, and keep the cursor below count. -/
theorem history_moves_bounded : ∀ (ops : List HistoryOp) (h : History),
    (∀ op ∈ ops, op = HistoryOp.back ∨ op = HistoryOp.forward ∨
      ∃ s, op = HistoryOp.update_scroll s) →
    h.current < h.count →
    (ops.foldl HistoryOp.run h).count = h.count ∧
    (ops.foldl HistoryOp.run h).current < h.count := by
  intro ops
  induction ops with
  | nil => intro h _ hc; exact ⟨rfl, hc⟩
  | cons op ops ih =>
    intro h hops hc
    have hrest := fun o ho => hops o (List.mem_cons_of_mem _ ho)
    have step : (op.run h).count = h.count ∧ (op.run h).current < h.count := by
      rcases hops op (List.mem_cons_self _ _) with rfl | rfl | ⟨s, rfl⟩
      · show (history_back h none none).h.count = h.count ∧ (history_back h none none).h.current < _
        rw [(history_back_h h none none).1]
        split
        · exact ⟨rfl, by simp only; omega⟩
        · exact ⟨rfl, hc⟩
      · show (history_forward h none none).h.count = h.count ∧
          (history_forward h none none).h.current < _
        rw [(history_forward_h h none none).1]
        split
        · exact ⟨rfl, by simp only; omega⟩
        · exact ⟨rfl, hc⟩
      · show (history_update_scroll h s).count = h.count ∧ (history_update_scroll h s).current < _
        obtain ⟨-, e2, e3, -⟩ := history_update_scroll_fields h s
        rw [e2, e3]
        exact ⟨rfl, hc⟩
    rw [List.foldl_cons]
    have := ih (op.run h) hrest (by rw [step.1]; exact step.2)
    rw [step.1] at this
    exact this

/-- C34: for every history (arrays of 100 slots) with cursor c = current, -1 ≤ c and
c + 1 < 100, history_push(url, scroll) yields count = c + 2 and current = c + 1, leaves the
entries 0..c and their scroll offsets unchanged, stores (url, scroll) at index c + 1 and makes
history_can_forward false; whatever calls of back, forward and update_scroll follow, count
stays c + 2 and the cursor stays at most c + 1, so no entry that was after the cursor is
reached again. -/
theorem C34_push_clears_forward (h : History) (url : Url) (scroll_y : Int) (hs : h.Sized)
    (hlo : -1 ≤ h.current) (hhi : h.current + 1 < 100) :
    (history_push h url scroll_y).count = h.current + 2 ∧
    (history_push h url scroll_y).current = h.current + 1 ∧
    (∀ i : Nat, (i : Int) ≤ h.current →
      (history_push h url scroll_y).entries[i]? = h.entries[i]? ∧
      (history_push h url scroll_y).scroll_positions[i]? = h.scroll_positions[i]?) ∧
    (history_push h url scroll_y).entries[(h.current + 1).toNat]? = some url ∧
    (history_push h url scroll_y).scroll_positions[(h.current + 1).toNat]? = some scroll_y ∧
    history_can_forward (history_push h url scroll_y) = false ∧
    (∀ ops : List HistoryOp,
      (∀ op ∈ ops, op = HistoryOp.back ∨ op = HistoryOp.forward ∨
        ∃ s, op = HistoryOp.update_scroll s) →
      (ops.foldl HistoryOp.run (history_push h url scroll_y)).count = h.current + 2 ∧
      (ops.foldl HistoryOp.run (history_push h url scroll_y)).current ≤ h.current + 1) := by
  obtain ⟨s1, s2⟩ := hs
  simp only [HISTORY_MAX_ENTRIES] at s1 s2
  have hge : ¬ h.current + 1 ≥ 100 := by omega
  obtain ⟨c1, c2⟩ := history_push_cursor h url scroll_y
  obtain ⟨e1, e2⟩ := history_push_store h url scroll_y hge
  rw [if_neg hge] at c1 c2
  refine ⟨c2, c1, ?_, ?_, ?_, ?_, ?_⟩
  · intro i hi
    rw [e1, e2, set_get_other _ _ _ _ (by omega), set_get_other _ _ _ _ (by omega)]
    exact ⟨rfl, rfl⟩
  · rw [e1]
    exact set_get_same _ _ _ (by omega)
  · rw [e2]
    exact set_get_same _ _ _ (by omega)
  · unfold history_can_forward
    rw [c1, c2, decide_eq_false_iff_not]
    omega
  · intro ops hops
    obtain ⟨m1, m2⟩ := history_moves_bounded ops (history_push h url scroll_y) hops
      (by rw [c1, c2]; omega)
    rw [c2] at m1 m2
    exact ⟨m1, by omega⟩

theorem C34_push_clears_forward_witness :
    history_abc.Sized ∧ -1 ≤ history_abc.current ∧ history_abc.current + 1 < 100 ∧
    (history_push history_abc (page "d") 0).count = history_abc.current + 2 ∧
    history_can_forward history_abc = true ∧
    history_can_forward (history_push history_abc (page "d") 0) = false :=
  have hlo : -1 ≤ history_abc.current := by rw [history_abc_state.1]; decide
  have hhi : history_abc.current + 1 < 100 := by rw [history_abc_state.1]; decide
  have hf : history_can_forward history_abc = true := by
    unfold history_can_forward
    rw [history_abc_state.1, history_abc_state.2.1]
    decide
  have t := C34_push_clears_forward history_abc (page "d") 0 (history_run_valid _).1 hlo hhi
  ⟨(history_run_valid _).1, hlo, hhi, t.1, hf, t.2.2.2.2.2.1⟩

/-! ## ui.c: ui_navigate -/

/-- The fuel that ui_navigate gives is enough: a call with more than 6 - redirect_count units
never runs out. -/
theorem ui_navigate_fuel_enough (gemini_fetch : Nat → Url → Option GeminiResponse) :
    ∀ (fuel n : Nat) (redirect_count : Int) (ui : UI) (url_str : List Nat),
      (6 - redirect_count).toNat < fuel →
      ui_navigate_fuel gemini_fetch fuel n redirect_count ui url_str ≠ Nav.no_fuel := by
  intro fuel
  induction fuel with
  | zero => intro n rc ui s h; omega
  | succ fuel ih =>
    intro n rc ui s h
    rw [ui_navigate_fuel]
    by_cases h1 : s = str "gemini://bookmarks/"
    · rw [if_pos h1]; simp
    rw [if_neg h1]
    by_cases h2 : strncmp_eq s (str "gemini://bookmarks/delete/") 26 = true
    · rw [if_pos h2]; simp
    rw [if_neg h2]
    generalize (if ui.current_url.host ≠ [] ∧ (strstr s (str "://")).isNone then
      url_resolve ui.current_url s else url_parse s) = parsed
    simp only
    by_cases h3 : parsed.1 = true
    swap
    · simp [h3]
    by_cases h4 : url_is_gemini parsed.2 = true
    swap
    · simp [h3, h4]
    simp only [h3, h4, Bool.not_true, Bool.false_eq_true, if_false]
    cases hf : gemini_fetch n parsed.2 with
    | none => simp
    | some resp =>
      simp only
      by_cases h5 : gemini_status_category resp.status = 3
      · rw [if_pos h5]
        by_cases h6 : rc + 1 > 5
        · rw [if_pos h6]; simp
        · rw [if_neg h6]
          have hn := ih (n + 1) (rc + 1) (UI.mk ui.document ui.current_url false ui.scroll_y
            (history_update_scroll ui.history ui.scroll_y)) resp.meta (by omega)
          revert hn
          cases ui_navigate_fuel gemini_fetch fuel (n + 1) (rc + 1) (UI.mk ui.document
            ui.current_url false ui.scroll_y (history_update_scroll ui.history ui.scroll_y))
            resp.meta with
          | returned u r => intro _; simp
          | bookmark_page => intro _; simp
          | no_fuel => intro hn; exact absurd rfl hn
      · rw [if_neg h5]
        by_cases h7 : gemini_status_category resp.status ≠ 2
        · rw [if_pos h7]; simp
        · rw [if_neg h7]; simp

/-- The UI after a navigation whose first fetch gives no page: the scroll offset is saved in
the history before the fetch, and an error response makes the document NULL. -/
theorem ui_navigate_failed (gemini_fetch : Nat → Url → Option GeminiResponse)
    (redirect_count : Int) (ui : UI) (url_str : List Nat) (url : Url)
    (hu : fetched_url ui url_str = some url)
    (hr : ∀ resp, gemini_fetch 0 url = some resp →
      gemini_status_category resp.status ≠ 2 ∧ gemini_status_category resp.status ≠ 3) :
    ui_navigate gemini_fetch redirect_count ui url_str =
      Nav.returned
        { document := if gemini_fetch 0 url = none then ui.document else none,
          current_url := ui.current_url,
          loading := false,
          scroll_y := ui.scroll_y,
          history := history_update_scroll ui.history ui.scroll_y }
        redirect_count := by
  unfold fetched_url at hu
  by_cases h12 : url_str = str "gemini://bookmarks/" ∨
      strncmp_eq url_str (str "gemini://bookmarks/delete/") 26 = true
  · rw [if_pos h12] at hu
    exact absurd hu (by simp)
  rw [if_neg h12] at hu
  have h1 : ¬ url_str = str "gemini://bookmarks/" := fun h => h12 (Or.inl h)
  have h2 : ¬ strncmp_eq url_str (str "gemini://bookmarks/delete/") 26 = true :=
    fun h => h12 (Or.inr h)
  unfold ui_navigate
  rw [ui_navigate_fuel, if_neg h1, if_neg h2]
  revert hu
  generalize (if ui.current_url.host ≠ [] ∧ (strstr url_str (str "://")).isNone then
    url_resolve ui.current_url url_str else url_parse url_str) = parsed
  intro hu
  simp only at hu ⊢
  by_cases h34 : parsed.1 = true ∧ url_is_gemini parsed.2 = true
  swap
  · rw [if_neg h34] at hu
    exact absurd hu (by simp)
  rw [if_pos h34] at hu
  have hurl : parsed.2 = url := Option.some.inj hu
  have hg : url_is_gemini url = true := hurl ▸ h34.2
  simp only [h34.1, hurl, hg, Bool.not_true, Bool.false_eq_true, if_false]
  cases hf : gemini_fetch 0 url with
  | none => simp
  | some resp =>
    obtain ⟨c2, c3⟩ := hr resp hf
    simp only [if_neg c3, if_pos c2]
    simp

/-- What history_update_scroll leaves of the scroll offsets. -/
theorem history_update_scroll_offsets (h : History) (scroll_y : Int) :
    (∀ i : Nat, (i : Int) ≠ h.current →
      (history_update_scroll h scroll_y).scroll_positions[i]? = h.scroll_positions[i]?) ∧
    (0 ≤ h.current → h.current < h.count → h.current.toNat < h.scroll_positions.length →
      (history_update_scroll h scroll_y).scroll_positions[h.current.toNat]? = some scroll_y) := by
  unfold history_update_scroll
  constructor
  · intro i hi
    split
    · rfl
    · exact set_get_other _ _ _ _ (by omega)
  · intro h0 h1 h2
    rw [if_neg (by omega)]
    exact set_get_same _ _ _ h2

set_option maxRecDepth 1000000 in
theorem ui_sample_target :
    fetched_url ui_sample (str "gemini://a/missing") =
      some (url_parse (str "gemini://a/missing")).2 ∧
    ui_sample.document ≠ none ∧
    ui_sample.history.current = 0 ∧ ui_sample.history.count = 1 ∧
    ui_sample.history.scroll_positions[0]? = some 0 ∧
    (history_update_scroll ui_sample.history 40).scroll_positions[0]? = some 40 := by
  decide

/-- C35 (as stated, refuted): the UI shows gemini://a/ at scroll offset 40, with the offset 0
stored in its one history entry, and the server answers the request for gemini://a/missing
with status 51. After ui_navigate the document is NULL and the history entry holds the
offset 40: neither the document nor the scroll offsets are as before the call. -/
theorem C35_failed_navigation_counterexample :
    gemini_status_category 51 = 5 ∧
    ui_navigate fetch_not_found 0 ui_sample (str "gemini://a/missing") =
      Nav.returned
        { ui_sample with document := none,
                         history := history_update_scroll ui_sample.history 40 } 0 ∧
    ui_sample.document ≠ none ∧
    ui_sample.history.scroll_positions[0]? = some 0 ∧
    (history_update_scroll ui_sample.history 40).scroll_positions[0]? = some 40 :=
  ⟨by decide,
    ui_navigate_failed fetch_not_found 0 ui_sample _ _ ui_sample_target.1
      (by intro resp hresp; cases hresp; decide),
    ui_sample_target.2.1, ui_sample_target.2.2.2.2.1, ui_sample_target.2.2.2.2.2⟩

/-- C35 (amended): for every UI state and every navigation that gets to its fetch, when the
fetch returns NULL or a response whose category is neither 2 nor 3, ui_navigate returns with
the entries, the cursor and the count of the history as they were, and with every scroll
offset as it was except that of the current entry, which holds the scroll offset of the UI
(history_update_scroll runs before the fetch). The document shown before is kept only when
the fetch returned NULL; for an error response it is freed and the document is NULL. The
current Url and the scroll offset of the UI are unchanged. -/
theorem C35_failed_navigation (gemini_fetch : Nat → Url → Option GeminiResponse)
    (redirect_count : Int) (ui : UI) (url_str : List Nat) (url : Url)
    (hu : fetched_url ui url_str = some url)
    (hr : ∀ resp, gemini_fetch 0 url = some resp →
      gemini_status_category resp.status ≠ 2 ∧ gemini_status_category resp.status ≠ 3) :
    ∃ after, ui_navigate gemini_fetch redirect_count ui url_str = Nav.returned after redirect_count ∧
      after.history = history_update_scroll ui.history ui.scroll_y ∧
      after.history.entries = ui.history.entries ∧
      after.history.current = ui.history.current ∧
      after.history.count = ui.history.count ∧
      (∀ i : Nat, (i : Int) ≠ ui.history.current →
        after.history.scroll_positions[i]? = ui.history.scroll_positions[i]?) ∧
      (0 ≤ ui.history.current → ui.history.current < ui.history.count →
        ui.history.current.toNat < ui.history.scroll_positions.length →
        after.history.scroll_positions[ui.history.current.toNat]? = some ui.scroll_y) ∧
      (gemini_fetch 0 url = none → after.document = ui.document) ∧
      (gemini_fetch 0 url ≠ none → after.document = none) ∧
      after.current_url = ui.current_url ∧ after.scroll_y = ui.scroll_y := by
  refine ⟨_, ui_navigate_failed gemini_fetch redirect_count ui url_str url hu hr, rfl, ?_, ?_, ?_,
    ?_, ?_, ?_, ?_, rfl, rfl⟩
  · exact (history_update_scroll_fields _ _).1
  · exact (history_update_scroll_fields _ _).2.1
  · exact (history_update_scroll_fields _ _).2.2.1
  · exact (history_update_scroll_offsets _ _).1
  · exact (history_update_scroll_offsets _ _).2
  · intro hn
    simp only [hn, if_true]
  · intro hn
    simp only [hn, if_false]

theorem C35_failed_navigation_witness :
    fetched_url ui_sample (str "gemini://a/missing") =
      some (url_parse (str "gemini://a/missing")).2 ∧
    ∃ after, ui_navigate fetch_null 0 ui_sample (str "gemini://a/missing") = Nav.returned after 0 ∧
      after.history = history_update_scroll ui_sample.history ui_sample.scroll_y :=
  have t := C35_failed_navigation fetch_null 0 ui_sample (str "gemini://a/missing") _
    ui_sample_target.1 (by intro resp hresp; cases hresp)
  ⟨ui_sample_target.1, t.elim (fun after ha => ⟨after, ha.1, ha.2.1⟩)⟩

/-! ## url_encode followed by url_decode -/

theorem hex_upper_digit : ∀ d, d < 16 → isxdigit (hex_upper d) = true ∧ hex_value (hex_upper d) = d := by
  decide

set_option maxRecDepth 100000 in
theorem unreserved_plain : ∀ b, b < 256 → unreserved b = true → b ≠ 37 ∧ b ≠ 43 := by
  decide

/-- The reference decoder undoes the reference encoder. -/
theorem spec_decode_encode (s : List Nat) (hs : ∀ b ∈ s, b < 256) :
    spec_decode (spec_encode s) = s := by
  induction s with
  | nil => rfl
  | cons b s ih =>
    have hb : b < 256 := hs b (by simp)
    have ih' := ih (fun c hc => hs c (List.mem_cons_of_mem _ hc))
    rw [spec_encode_cons]
    by_cases hu : unreserved b = true
    · obtain ⟨n1, n2⟩ := unreserved_plain b hb hu
      rw [if_pos hu, List.singleton_append, spec_decode_step, if_neg (fun h => n1 h.1), if_neg n2, ih']
    · obtain ⟨x1, v1⟩ := hex_upper_digit (b / 16) (by omega)
      obtain ⟨x2, v2⟩ := hex_upper_digit (b % 16) (by omega)
      rw [if_neg hu]
      show spec_decode (37 :: (hex_upper (b / 16) :: hex_upper (b % 16) :: spec_encode s)) = b :: s
      rw [spec_decode_step]
      simp only [List.getD_cons_zero, List.getD_cons_succ, List.drop_succ_cons, List.drop_zero]
      rw [if_pos ⟨trivial, x1, x2⟩, v1, v2, ih']
      congr 1
      omega

/-- The block url_encode returns holds the encoded string, its NUL, and what follows. -/
theorem url_encode_buffer_eq (fresh s : List Nat) (hf : fresh.length = s.length * 3 + 1)
    (hs : ∀ b ∈ s, b < 256) :
    ∃ tail, url_encode_buffer fresh s = spec_encode s ++ 0 :: tail := by
  obtain ⟨h1, h2, h3⟩ := url_encode_loop_spec s hs fresh 0 (by omega)
  have hle := spec_encode_length_le s
  refine ⟨(url_encode_loop s fresh 0).1.drop ((url_encode_loop s fresh 0).2 + 1), ?_⟩
  unfold url_encode_buffer
  simp only
  rw [List.set_eq_take_append_cons_drop, if_pos (by rw [h1, h2]; omega), h3]
  simp

/-- C36: for every string s of bytes 0x01..0xFF, url_decode applied in place to the block that
url_encode(s) returns leaves the string s in it; in terms of the reference functions,
decoding the encoding of s gives s. -/
theorem C36_round_trip (fresh s : List Nat) (hf : fresh.length = s.length * 3 + 1)
    (hs : ∀ b ∈ s, 0 < b ∧ b < 256) :
    cstr (url_decode (url_encode_buffer fresh s)).1 0 = s ∧
    (url_decode (url_encode_buffer fresh s)).2 = s.length ∧
    spec_decode (url_encode fresh s) = s := by
  have hlt : ∀ b ∈ s, b < 256 := fun b hb => (hs b hb).2
  obtain ⟨tail, ht⟩ := url_encode_buffer_eq fresh s hf hlt
  have hrt := spec_decode_encode s hlt
  obtain ⟨d1, -, d3⟩ := url_decode_eq (spec_encode s) tail (spec_encode_ne_zero s hlt)
  rw [hrt] at d1 d3
  rw [ht, (url_encode_eq fresh s hf hlt).1]
  refine ⟨?_, d1, hrt⟩
  unfold cstr
  rw [List.drop_zero]
  conv_lhs => rw [← List.take_append_drop (s.length + 1) (url_decode (spec_encode s ++ 0 :: tail)).1]
  rw [d3, List.append_assoc, List.singleton_append, takeWhile_append_stop _ _ _ _ (by simp)]
  exact List.takeWhile_eq_self_iff.2 (by
    intro c hc
    have := (hs c hc).1
    simp
    omega)

theorem C36_round_trip_witness :
    (List.replicate 19 255).length = (str "a+b %/").length * 3 + 1 ∧
    (∀ b ∈ str "a+b %/", 0 < b ∧ b < 256) ∧
    cstr (url_decode (url_encode_buffer (List.replicate 19 255) (str "a+b %/"))).1 0 = str "a+b %/" ∧
    url_encode (List.replicate 19 255) (str "a+b %/") = str "a%2Bb%20%25%2F" :=
  ⟨by decide, by decide,
    (C36_round_trip (List.replicate 19 255) (str "a+b %/") (by decide) (by decide)).1, by decide⟩

/-! ## The segment limit of url_normalize_path -/

theorem stack_step_256 : stack_step 256 = keep_step := by
  funext kept seg
  rfl

theorem reference_normalize_256 (p : List Nat) : reference_normalize 256 p = norm_spec p := by
  unfold reference_normalize norm_spec kept_segments
  rw [stack_step_256]

theorem filter_nonempty_self (K : List (List Nat)) (h : ∀ t ∈ K, t ≠ []) :
    K.filter (fun s => decide (s ≠ [])) = K :=
  List.filter_eq_self.2 (fun t ht => by simpa using h t ht)

/-- The segments of a normalized path are the kept segments. -/
theorem norm_spec_segments (p : List Nat) : path_segments (norm_spec p) = kept_segments p := by
  obtain ⟨hK, -⟩ := kept_props p
  have hne : ∀ t ∈ kept_segments p, t ≠ [] := fun t ht => (hK t ht).1.1
  have hsep : ∀ l ∈ kept_segments p, (47 : Nat) ∉ l := fun l hl h47 => ((hK l hl).2 47 h47).1 rfl
  unfold path_segments
  by_cases hk : kept_segments p = []
  · have e : norm_spec p = [47] := by simp [norm_spec, hk, List.intercalate]
    rw [e, hk]
    decide
  · by_cases htr : p.getLast? = some 47
    · have hout : norm_spec p = [47].intercalate ([] :: (kept_segments p ++ [[]])) := by
        rw [intercalate_nil_cons _ (by simp), intercalate_snoc_nil _ hk]
        simp [norm_spec, htr, hk]
      have hsplit : List.splitOn 47 (norm_spec p) = [] :: (kept_segments p ++ [[]]) := by
        rw [hout]
        refine List.splitOn_intercalate _ _ ?_ (by simp)
        intro l hl
        rcases List.mem_cons.1 hl with rfl | hl
        · simp
        · rcases List.mem_append.1 hl with hl | hl
          · exact hsep l hl
          · rw [List.mem_singleton.1 hl]
            simp
      rw [hsplit, List.filter_cons_of_neg (by simp), List.filter_append, filter_nonempty_self _ hne]
      simp
    · have hout : norm_spec p = [47].intercalate ([] :: kept_segments p) := by
        rw [intercalate_nil_cons _ hk]
        simp [norm_spec, htr]
      have hsplit : List.splitOn 47 (norm_spec p) = [] :: kept_segments p := by
        rw [hout]
        refine List.splitOn_intercalate _ _ ?_ (by simp)
        intro l hl
        rcases List.mem_cons.1 hl with rfl | hl
        · simp
        · exact hsep l hl
      rw [hsplit, List.filter_cons_of_neg (by simp), filter_nonempty_self _ hne]

set_option maxRecDepth 10000000 in
/-- The limit at work: of 257 segments the last is dropped, and a ".." after them removes the
segment kept last. -/
theorem reference_normalize_257 :
    reference_normalize 256 (path_of_a 257) = path_of_a 256 ∧
    reference_normalize 256 (path_of_a 257 ++ str "/..") = path_of_a 255 ∧
    (path_segments (path_of_a 257)).length = 257 ∧
    (∀ c ∈ path_of_a 257 ++ str "/..", c ≠ 0) := by
  decide

theorem splitOn_append_sep (l r : List Nat) :
    List.splitOn 47 (l ++ 47 :: r) = List.splitOn 47 l ++ List.splitOn 47 r := by
  induction l with
  | nil =>
    rw [List.nil_append, splitOn_cons_sep]
    rfl
  | cons a l ih =>
    by_cases ha : a = 47
    · subst ha
      rw [List.cons_append, splitOn_cons_sep, splitOn_cons_sep, ih]
      rfl
    · obtain ⟨h, t, e1, e2⟩ := splitOn_cons_ne a l ha
      obtain ⟨h', t', e1', e2'⟩ := splitOn_cons_ne a (l ++ 47 :: r) ha
      rw [List.cons_append, e2', e2]
      rw [ih, e1, List.cons_append] at e1'
      obtain ⟨rfl, rfl⟩ := List.cons.inj e1'
      rfl

/-- The kept segments of a path with one more segment appended. -/
theorem kept_segments_snoc (p seg : List Nat) (h : ∀ c ∈ seg, c ≠ 47) :
    kept_segments (p ++ 47 :: seg) = keep_step (kept_segments p) seg := by
  unfold kept_segments
  rw [splitOn_append_sep, List.foldl_append, splitOn_seg_end seg h]
  rfl

theorem head_append_some (p q : List Nat) (h : p.head? = some 47) : (p ++ q).head? = some 47 := by
  cases p with
  | nil => simp at h
  | cons a p => simpa using h

/-- C40: for every path that begins with '/', the result of url_normalize_path is the
reference normalization computed with a segment stack of capacity 256, and it never has more
than 256 segments. A normal segment that follows while 256 segments are kept is dropped, and
a ".." that follows removes the segment kept last. -/
theorem C40_segment_limit (p : List Nat) (hnul : ∀ c ∈ p, c ≠ 0) (hslash : p.head? = some 47) :
    url_normalize_path p = reference_normalize 256 p ∧
    (path_segments (url_normalize_path p)).length ≤ 256 ∧
    (∀ seg, seg ≠ [] → seg ≠ [46] → seg ≠ [46, 46] → (∀ c ∈ seg, c ≠ 47 ∧ c ≠ 0) →
      (path_segments (url_normalize_path p)).length = 256 →
      path_segments (url_normalize_path (p ++ 47 :: seg)) =
        path_segments (url_normalize_path p)) ∧
    path_segments (url_normalize_path (p ++ 47 :: [46, 46])) =
      (path_segments (url_normalize_path p)).dropLast := by
  have e := url_normalize_path_eq p hnul hslash
  have snoc : ∀ seg : List Nat, (∀ c ∈ seg, c ≠ 47 ∧ c ≠ 0) →
      path_segments (url_normalize_path (p ++ 47 :: seg)) = keep_step (kept_segments p) seg := by
    intro seg hseg
    rw [url_normalize_path_eq (p ++ 47 :: seg) ?_ (head_append_some p _ hslash), norm_spec_segments,
      kept_segments_snoc p seg (fun c hc => (hseg c hc).1)]
    intro c hc
    rcases List.mem_append.1 hc with hc | hc
    · exact hnul c hc
    · rcases List.mem_cons.1 hc with rfl | hc
      · decide
      · exact (hseg c hc).2
  rw [e, norm_spec_segments]
  refine ⟨(reference_normalize_256 p).symm, (kept_props p).2, ?_, ?_⟩
  · intro seg h1 h2 h3 hseg hfull
    rw [snoc seg hseg]
    unfold keep_step
    rw [if_neg (by simp [h1, h2]), if_neg h3, if_neg (by omega)]
  · rw [snoc [46, 46] (by decide)]
    rfl

theorem C40_segment_limit_witness :
    (∀ c ∈ path_of_a 257, c ≠ 0) ∧ (path_of_a 257).head? = some 47 ∧
    (path_segments (path_of_a 257)).length = 257 ∧
    url_normalize_path (path_of_a 257) = path_of_a 256 ∧
    (path_segments (url_normalize_path (path_of_a 257))).length ≤ 256 :=
  have hn : ∀ c ∈ path_of_a 257, c ≠ 0 := fun c hc =>
    reference_normalize_257.2.2.2 c (List.mem_append_left _ hc)
  have t := C40_segment_limit (path_of_a 257) hn rfl
  ⟨hn, rfl, reference_normalize_257.2.2.1, t.1.trans reference_normalize_257.1, t.2.1⟩

/-! ## unicode_sanitize applied twice -/

/-- The three emitting branches keep the bound: after the check of the buffer space and the
copy, the bytes written and the terminator fit the buffer. -/
theorem emit_in_buffer (o : SanitizeOut) (bytes : List Nat) (h : o.InBuffer) :
    (emit o bytes).InBuffer := by
  unfold SanitizeOut.InBuffer at h ⊢
  unfold emit
  simp only [List.length_append]
  split <;> omega

/-- The branch for an invalid byte stores '?' and leaves the capacity as it is. -/
theorem invalid_pass (fuel : Nat) (p : List Nat) (o : SanitizeOut) (h0 : rd p 0 ≠ 0)
    (hv : (utf8_decode p).1 = 0xFFFD) :
    unicode_sanitize_loop (fuel + 1) p o =
      unicode_sanitize_loop fuel (p.drop (utf8_decode p).2)
        { out := o.out ++ [63], out_capacity := o.out_capacity } := by
  rw [unicode_sanitize_loop, if_neg h0]
  simp only [hv, if_true]

set_option maxRecDepth 1000000 in
theorem sagittarius_passes :
    utf8_decode sagittarius_text = (0x2650, 3) ∧
    find_fallback 0x2650 = some (str "[Sagittarius]") ∧
    utf8_decode [0xFF, 0xFF, 0xFF, 0xFF] = (0xFFFD, 1) ∧
    unicode_sanitize_loop 1 sagittarius_text { out := [], out_capacity := 15 } =
      { out := str "[Sagittarius]", out_capacity := 15 } ∧
    unicode_sanitize_loop 2 sagittarius_text { out := [], out_capacity := 15 } =
      { out := str "[Sagittarius]?", out_capacity := 15 } ∧
    unicode_sanitize_loop 3 sagittarius_text { out := [], out_capacity := 15 } =
      { out := str "[Sagittarius]??", out_capacity := 15 } ∧
    unicode_sanitize_run sagittarius_text =
      { out := str "[Sagittarius]????", out_capacity := 15 } := by
  decide

/-- C38 (refuted by the code): the text of U+2650 followed by four invalid bytes has length 7,
so the buffer has 7 * 2 + 1 = 15 bytes. The replacement "[Sagittarius]" takes 13 of them
without a reallocation; the branch for an invalid byte checks no space, so after the second
'?' 15 bytes are written and the bound used + 1 ≤ out_capacity fails, the third and the
fourth '?' are stored at out[15] and out[16], and the terminator at out[17], all outside the
buffer of 15 bytes. -/
theorem C38_write_outside_buffer :
    sagittarius_text.length * 2 + 1 = 15 ∧
    (unicode_sanitize_loop 2 sagittarius_text { out := [], out_capacity := 15 }).InBuffer ∧
    ¬ (unicode_sanitize_loop 3 sagittarius_text { out := [], out_capacity := 15 }).InBuffer ∧
    (unicode_sanitize_run sagittarius_text).out = str "[Sagittarius]????" ∧
    (unicode_sanitize_run sagittarius_text).out.length = 17 ∧
    (unicode_sanitize_run sagittarius_text).out_capacity = 15 ∧
    ¬ (unicode_sanitize_run sagittarius_text).InBuffer := by
  obtain ⟨-, -, -, -, h2, h3, h4⟩ := sagittarius_passes
  rw [h2, h3, h4]
  decide

end Gemini
